import Mathlib

/-!
Tree-encoded bitmaps (`dtl::teb`).

A shallow embedding of `src/dtl/bitmap/teb.hpp`: the level-order encoding of a
pruned binary tree, its point lookup, its decoder, its 1-fill iterator, its
gradual decompression and its size accounting; of the word-array functions of
`src/dtl/bitmap/util/bitmap_fun.hpp`; of the constructor of
`src/dtl/bitmap/dynamic_partitioned_tree_mask.hpp`; and of the XOR and the
decoder of the level-order tree mask of `tree_mask_lo.hpp`.

Conventions of the embedding.

* A `boost::dynamic_bitset`, `sdsl::bit_vector` or `std::vector<bool>` is a
  `List Bool`, position `0` first.
* Counters, sizes and indices (`u64`, `std::size_t`, `u32`, `int`) are natural
  numbers.  Where the source masks or packs words explicitly (the stack
  entries of the iterator, its shifts and subtractions on paths) the word
  size is kept.
* A word array of `bitmap_fun<word_type>` is a `List Nat` with the word width as
  a parameter; values assigned to a `word_type` are truncated to that width,
  and an expression on a word type narrower than `int` is evaluated after
  integral promotion.
* A read `bits[i]` of a bitset is `List.getD bits i false`.
* Loops without a syntactic bound take a `fuel` argument and return `none`
  when it runs out.
-/

namespace dtl

/-! ## Helpers of `dtl/dtl.hpp` and `dtl/bits.hpp` -/

/-- Modelled from the spec: `dtl::log_2` (its header is not among the sources),
the floor of the binary logarithm; the tree height `H = log2(N)` of §3. -/
def log_2_loop : Nat → Nat → Nat
  | 0, _ => 0
  | fuel + 1, n => if 2 ≤ n then log_2_loop fuel (n / 2) + 1 else 0

/-- Modelled from the spec: `dtl::log_2`, see `log_2_loop`. -/
def log_2 (n : Nat) : Nat := log_2_loop n n

/-- Modelled from the spec: `dtl::bits::bit_test(x, i)`, the `i`-th bit of `x`
(`(p >> i) & 1` in §4.6). -/
def bit_test (x i : Nat) : Bool := (x >>> i) &&& 1 != 0

/-- Modelled from the spec: `dtl::bits::lz_count` on a 64-bit word, the number
of leading zero bits (§4.7 `leading_zeros`); `64` for the word `0`. -/
def lz_count (x : Nat) : Nat := if x = 0 then 64 else 63 - log_2 x

/-- Modelled from the spec: `dtl::rank1` (§4.2); `rank1 s i` is the number of
set bits among the positions `[0, i)` of `s`. -/
def rank1 (s : List Bool) (i : Nat) : Nat := (s.take i).count true

/-! ## The bitmap tree -/

/-- Modelled from the spec: `dtl::bitmap_tree` (`bitmap_tree.hpp` is not among
the sources).  A node of the pruned tree of §3: a leaf annotated with its
label, or an inner node with exactly two children. -/
inductive bitmap_tree where
  | leaf (label : Bool) : bitmap_tree
  | inner (left right : bitmap_tree) : bitmap_tree
deriving DecidableEq, Repr

namespace bitmap_tree

/-- Modelled from the spec: §4.4 step 1, the complete binary tree of height `h`
whose leaves carry the bitmap bits in order. -/
def complete : Nat → List Bool → bitmap_tree
  | 0, bits => leaf (bits.getD 0 false)
  | h + 1, bits => inner (complete h (bits.take (2 ^ h))) (complete h (bits.drop (2 ^ h)))

/-- Modelled from the spec: §4.4 step 2, the label of a node is the OR of its
children's labels. -/
def label_of_node : bitmap_tree → Bool
  | leaf b => b
  | inner l r => label_of_node l || label_of_node r

/-- Modelled from the spec: the inner/leaf flag of a node. -/
def is_inner_node : bitmap_tree → Bool
  | leaf _ => false
  | inner _ _ => true

/-- Modelled from the spec: §4.4 step 3, the bottom-up lossless prune.  An
inner node whose two children are leaves with equal labels becomes a leaf
carrying that label. -/
def prune : bitmap_tree → bitmap_tree
  | leaf b => leaf b
  | inner l r =>
    match prune l, prune r with
    | leaf a, leaf b => if a = b then leaf a else inner (leaf a) (leaf b)
    | l', r' => inner l' r'

/-- The number of nodes of a tree. -/
def node_cnt : bitmap_tree → Nat
  | leaf _ => 1
  | inner l r => 1 + node_cnt l + node_cnt r

/-- The children enqueued when a node is dequeued. -/
def children : bitmap_tree → List bitmap_tree
  | leaf _ => []
  | inner l r => [l, r]

/-- Modelled from the spec: §4.5 level-order emission.  Dequeue a node, visit
it, enqueue its two children if it is an inner node. -/
def bfs : Nat → List bitmap_tree → List bitmap_tree
  | 0, _ => []
  | _ + 1, [] => []
  | fuel + 1, k :: queue => k :: bfs fuel (queue ++ children k)

/-- Modelled from the spec: the nodes between `breadth_first_begin()` and
`breadth_first_end()`, root first. -/
def breadth_first (t : bitmap_tree) : List bitmap_tree := bfs (node_cnt t) [t]

/-- Modelled from the spec: the number of zero positions below a node of
height `h`, the false positives that turning the node into a 1-leaf would
introduce (§4.4 step 4). -/
def zero_cnt : Nat → bitmap_tree → Nat
  | h, leaf b => if b then 0 else 2 ^ h
  | h, inner l r => zero_cnt (h - 1) l + zero_cnt (h - 1) r

/-- A candidate of the lossy prune: the path from the root to an inner node
(`false` = left, `true` = right), the false positives its merge introduces and
the number of nodes the merge saves. -/
structure candidate where
  path : List Bool
  fp_cnt : Nat
  saved : Nat
deriving DecidableEq, Repr

/-- Modelled from the spec: the inner nodes of a tree of height `h`, deeper
subtrees first (§4.4 step 4). -/
def candidates : Nat → List Bool → bitmap_tree → List candidate
  | _, _, leaf _ => []
  | h, path, inner l r =>
    candidates (h - 1) (path ++ [false]) l ++ candidates (h - 1) (path ++ [true]) r
      ++ [⟨path, zero_cnt h (inner l r), node_cnt (inner l r) - 1⟩]

/-- The order of the greedy lossy prune: fewer false positives first, ties
broken by greater space saved. -/
def candidate.before (a b : candidate) : Bool :=
  a.fp_cnt < b.fp_cnt || (a.fp_cnt == b.fp_cnt && b.saved ≤ a.saved)

/-- Insertion of a candidate into a list ordered by `candidate.before`. -/
def insert_candidate (c : candidate) : List candidate → List candidate
  | [] => [c]
  | d :: ds => if c.before d then c :: d :: ds else d :: insert_candidate c ds

/-- Candidates in the order in which the greedy prune considers them. -/
def sort_candidates : List candidate → List candidate
  | [] => []
  | c :: cs => insert_candidate c (sort_candidates cs)

/-- Merge the subtree at `path` into a single 1-leaf; a path that leaves the
tree (its node was deleted by an earlier merge) changes nothing. -/
def merge_at : List Bool → bitmap_tree → bitmap_tree
  | [], _ => leaf true
  | _ :: _, leaf b => leaf b
  | false :: path, inner l r => inner (merge_at path l) r
  | true :: path, inner l r => inner l (merge_at path r)

/-- Modelled from the spec: §4.4 step 4, the greedy lossy prune.  Candidates
are merged in order while the running total of introduced false positives
stays within the budget; the first candidate that would exceed it stops the
loop. -/
def lossy_prune (budget : Nat) : List candidate → Nat → bitmap_tree → bitmap_tree
  | [], _, t => t
  | c :: cs, total, t =>
    if budget < total + c.fp_cnt then t
    else lossy_prune budget cs (total + c.fp_cnt) (merge_at c.path t)

/-- Modelled from the spec: the tree that the constructor
`bitmap_tree(bitmap, fpr)` of §4.4 builds for a bitmap that it accepts, one
whose length is a positive power of two: complete tree, lossless prune, and for
`fpr > 0` the lossy prune with budget `⌊N · fpr⌋`.  The check of the length that
precedes these steps, with its error path, is `bitmap_tree.ctor_checked`. -/
def ctor (bitmap : List Bool) (fpr : ℚ) : bitmap_tree :=
  let h := log_2 bitmap.length
  let t := prune (complete h bitmap)
  if 0 < fpr then
    lossy_prune ⌊(bitmap.length : ℚ) * fpr⌋₊ (sort_candidates (candidates h [] t)) 0 t
  else t

end bitmap_tree

/-- Modelled from the spec: the error kinds of §7. -/
inductive error_kind where
  | InvalidLength
  | InvalidFpr
  | InvalidOptLevel
deriving DecidableEq, Repr

/-- Modelled from the spec: the constructor `bitmap_tree(bitmap, fpr)` with
the check of its input (§4.4 input, §7).  A bitmap whose length is not a
positive power of two is rejected with `InvalidLength` before any tree is
built; for every other bitmap the result is the tree `bitmap_tree.ctor`. -/
def bitmap_tree.ctor_checked (bitmap : List Bool) (fpr : ℚ) : Except error_kind bitmap_tree :=
  if bitmap.length ≠ 0 ∧ 2 ^ log_2 bitmap.length = bitmap.length then
    Except.ok (bitmap_tree.ctor bitmap fpr)
  else Except.error error_kind.InvalidLength

/-! ## The tree-encoded bitmap -/

/-- The class `dtl::teb`.  The rank support `rank_` is a function of
`structure_` (see `rank1`) and is not stored. -/
structure teb where
  n_ : Nat
  structure_ : List Bool
  labels_ : List Bool
  implicit_inner_node_cnt_ : Nat
  optimization_level_ : Nat
  implicit_leaf_node_cnt_ : Nat
deriving DecidableEq, Repr

namespace teb

/-- The loop of lines 61-72: the level-order encoding of the tree, one
structure bit per node and one label per leaf. -/
def encode (nodes : List bitmap_tree) : List Bool × List Bool :=
  nodes.foldl
    (fun acc idx =>
      let is_inner := idx.is_inner_node
      (acc.1 ++ [is_inner], if !is_inner then acc.2 ++ [idx.label_of_node] else acc.2))
    ([], [])

/-- The loop of lines 79-85: the number of consecutive 1-bits at the front of
the structure. -/
def count_trailing_1bits : List Bool → Nat
  | true :: s => count_trailing_1bits s + 1
  | _ => 0

/-- The loop of lines 93-96: pop the 0-bits at the back of the structure and
count them.  The counter is the `$u32` member `implicit_leaf_node_cnt_`; its
increment wraps at `2 ^ 32`. -/
def pop_back_0bits : Nat → List Bool → Nat → List Bool × Nat
  | 0, s, cnt => (s, cnt)
  | fuel + 1, s, cnt =>
    if 0 < s.length ∧ !(s.getD (s.length - 1) false) then
      pop_back_0bits fuel s.dropLast ((cnt + 1) % 2 ^ 32)
    else (s, cnt)

/-- The constructor `teb(bitmap, opt_level, fpr)`. -/
def ctor (bitmap : List Bool) (opt_level : Nat) (fpr : ℚ) : teb :=
  let bitmap_tree := bitmap_tree.ctor bitmap fpr
  let enc := encode bitmap_tree.breadth_first
  if 0 < opt_level then
    let trailing_1bits := count_trailing_1bits enc.1
    let s := enc.1.drop trailing_1bits
    let popped := pop_back_0bits s.length s 0
    { n_ := bitmap.length
      structure_ := popped.1
      labels_ := enc.2
      implicit_inner_node_cnt_ := trailing_1bits
      optimization_level_ := opt_level
      implicit_leaf_node_cnt_ := popped.2 }
  else
    { n_ := bitmap.length
      structure_ := enc.1
      labels_ := enc.2
      implicit_inner_node_cnt_ := 0
      optimization_level_ := opt_level
      implicit_leaf_node_cnt_ := 0 }

/-- The constructor `teb(bitmap, opt_level, fpr)` with the error path of line
58: the constructor holds no check of its own, the first statement of its body
constructs the `dtl::bitmap_tree`, and an error raised there leaves the
constructor before any member of the TEB beyond `n_` and `optimization_level_`
is set; no TEB value exists then.  For an accepted bitmap the result is the
value `ctor`. -/
def ctor_checked (bitmap : List Bool) (opt_level : Nat) (fpr : ℚ) : Except error_kind teb :=
  match bitmap_tree.ctor_checked bitmap fpr with
  | Except.error e => Except.error e
  | Except.ok _ => Except.ok (ctor bitmap opt_level fpr)

/-- The method `is_inner_node`. -/
def is_inner_node (t : teb) (node_idx : Nat) : Bool :=
  let implicit_1bit_cnt := t.implicit_inner_node_cnt_
  if node_idx < implicit_1bit_cnt then true
  else if t.structure_.length ≤ node_idx - implicit_1bit_cnt then false
  else t.structure_.getD (node_idx - implicit_1bit_cnt) false

/-- The method `is_leaf_node`. -/
def is_leaf_node (t : teb) (node_idx : Nat) : Bool := !t.is_inner_node node_idx

/-- The method `rank`. -/
def rank (t : teb) (node_idx : Nat) : Nat :=
  let implicit_1bit_cnt := t.implicit_inner_node_cnt_
  if node_idx < implicit_1bit_cnt then node_idx
  else
    let i := min (node_idx - implicit_1bit_cnt) t.structure_.length
    implicit_1bit_cnt + rank1 t.structure_ i

/-- The method `left_child`. -/
def left_child (t : teb) (node_idx : Nat) : Nat :=
  if node_idx < t.implicit_inner_node_cnt_ then 2 * node_idx + 1
  else 2 * t.rank (node_idx + 1) - 1

/-- The method `right_child`. -/
def right_child (t : teb) (node_idx : Nat) : Nat :=
  if node_idx < t.implicit_inner_node_cnt_ then 2 * node_idx + 2
  else 2 * t.rank (node_idx + 1)

/-- The method `get_label_idx`. -/
def get_label_idx (t : teb) (node_idx : Nat) : Nat := node_idx - t.rank node_idx

/-- The method `get_label`. -/
def get_label (t : teb) (node_idx : Nat) : Bool :=
  t.labels_.getD (t.get_label_idx node_idx) false

/-- The loop of `test` (lines 385-394); the first argument is `i + 1`, the
number of iterations left.  `none` is the fall-through to `std::exit(42)`. -/
def test_loop (t : teb) (pos : Nat) : Nat → Nat → Option Bool
  | 0, _ => none
  | i + 1, node_idx =>
    let bit := bit_test pos i
    let r := t.rank (node_idx + 1)
    let node_idx := 2 * r - 1 + bit.toNat
    if t.is_leaf_node node_idx then
      let label_idx := node_idx - t.rank node_idx
      some (t.labels_.getD label_idx false)
    else test_loop t pos i node_idx

/-- The method `test(pos)`. -/
def test (t : teb) (pos : Nat) : Option Bool :=
  let n_log2 := log_2 t.n_
  let node_idx := 0
  if t.is_leaf_node node_idx then some (t.get_label node_idx)
  else test_loop t pos n_log2 node_idx

/-- The inner loop of `to_bitset` (lines 273-275): write `label` to the
positions `[write_pointer, write_pointer + to_write)`. -/
def write_label (label : Bool) (write_pointer to_write : Nat) (ret : List Bool) : List Bool :=
  (List.range to_write).foldl (fun ret i => ret.set (i + write_pointer) label) ret

/-- The loop of `to_bitset` (lines 282-293) with the body `decode_tree`.  The
run length `1 << (tree_height - level)` of line 271 is computed on the `int`
literal `1`, and the counter `i` of the write loop (line 273) is an `int`.  A
shift by 31 bits leaves the range of the 32-bit `int`: `to_write` receives
`0xFFFFFFFF80000000`, and the loop writes beyond the `n_` bits of `ret` until
its counter overflows.  A shift by 32 or more bits is undefined, and so is the
shift when `level` exceeds `tree_height`, where the `u64` difference wraps.  In
all these cases the source defines no bitmap as the result of the call, which
is modelled as `none`. -/
def to_bitset_loop (t : teb) (tree_height : Nat) :
    Nat → List (Nat × Nat) → Nat → List Bool → Option (List Bool)
  | _, [], _, ret => some ret
  | 0, _ :: _, _, _ => none
  | fuel + 1, (idx, level) :: nodes, write_pointer, ret =>
    if t.is_inner_node idx then
      let l_child := t.left_child idx
      let r_child := t.right_child idx
      let child_level := level + 1
      to_bitset_loop t tree_height fuel
        ((l_child, child_level) :: (r_child, child_level) :: nodes) write_pointer ret
    else
      let label := t.get_label idx
      if level ≤ tree_height ∧ tree_height - level < 31 then
        let to_write := 1 <<< (tree_height - level)
        to_bitset_loop t tree_height fuel nodes (write_pointer + to_write)
          (write_label label write_pointer to_write ret)
      else none

/-- The method `to_bitset()`. -/
def to_bitset (fuel : Nat) (t : teb) : Option (List Bool) :=
  let ret := List.replicate t.n_ false
  if t.implicit_inner_node_cnt_ = 0 ∧ t.structure_.length ≤ 1 then
    if t.labels_.getD 0 false then some (ret.map not) else some ret
  else
    to_bitset_loop t (log_2 t.n_) fuel [(0, 0)] 0 ret

/-- The operator `==`. -/
def eq (t other : teb) : Bool :=
  t.implicit_inner_node_cnt_ == other.implicit_inner_node_cnt_
    && t.structure_ == other.structure_
    && t.labels_ == other.labels_

/-- The operator `!=`. -/
def ne (t other : teb) : Bool := !(t.eq other)

/-- The loop of lines 167-170 of `decompress()`: copy the structure bits in
front of the new child nodes; `none` when the assertion `i < s.size()` fails. -/
def decompress_copy_front (structure_ : List Bool) (left_child_idx : Nat) (s : List Bool) :
    Option (List Bool) :=
  (List.range' 1 (min left_child_idx s.length - 1)).foldlM
    (fun s i =>
      if i < s.length then
        some (s.set i (if i < structure_.length then structure_.getD i false else false))
      else Option.none)
    s

/-- The loop of lines 177-180 of `decompress()`: copy the structure bits behind
the new child nodes, moved by two positions. -/
def decompress_copy_back (structure_ : List Bool) (right_child_idx : Nat) (s : List Bool) :
    Option (List Bool) :=
  (List.range' (right_child_idx + 1) (s.length - (right_child_idx + 1))).foldlM
    (fun s i =>
      if i < s.length then
        some (s.set i (if i - 2 < structure_.length then structure_.getD (i - 2) false else false))
      else Option.none)
    s

/-- The loop of lines 215-219 of `decompress()`: the labels in front of the
labels of the new child nodes; `none` when an assertion fails. -/
def decompress_labels_front (labels_ : List Bool) (left_child_label_idx : Nat) (l : List Bool) :
    Option (List Bool) :=
  (List.range' 0 left_child_label_idx).foldlM
    (fun l i =>
      if i < l.length ∧ i + 1 < labels_.length then some (l.set i (labels_.getD (i + 1) false))
      else Option.none)
    l

/-- The loop of lines 222-226 of `decompress()`: the labels behind the labels
of the new child nodes. -/
def decompress_labels_back (labels_ : List Bool) (right_child_label_idx : Nat) (l : List Bool) :
    Option (List Bool) :=
  (List.range' (right_child_label_idx + 1) (l.length - (right_child_label_idx + 1))).foldlM
    (fun l i =>
      if i < l.length ∧ i - 1 < labels_.length then some (l.set i (labels_.getD (i - 1) false))
      else Option.none)
    l

/-- The method `decompress()`: the returned flag and the state after the call;
`none` when an assertion fails. -/
def decompress (t : teb) : Option (Bool × teb) :=
  if t.structure_.length = 0 then some (false, t)
  else if t.structure_.getD 0 false != false then Option.none
  else if t.structure_.getD (t.structure_.length - 1) false != true then Option.none
  else
    let node_idx := t.implicit_inner_node_cnt_
    if !t.is_leaf_node node_idx then Option.none
    else
      let node_label := t.get_label node_idx
      let abs_left_child_idx := 2 * node_idx + 1
      let abs_right_child_idx := abs_left_child_idx + 1
      let left_child_idx := (2 * node_idx + 1) - t.implicit_inner_node_cnt_
      let right_child_idx := left_child_idx + 1
      let s := List.replicate (t.structure_.length + 2) false
      let s := s.set 0 true
      match decompress_copy_front t.structure_ left_child_idx s with
      | Option.none => Option.none
      | some s =>
        let s := if left_child_idx < s.length then s.set left_child_idx false else s
        let s := if right_child_idx < s.length then s.set right_child_idx false else s
        match decompress_copy_back t.structure_ right_child_idx s with
        | Option.none => Option.none
        | some s =>
          let trailing_1bits := count_trailing_1bits s
          let s := s.drop trailing_1bits
          let popped := pop_back_0bits s.length s t.implicit_leaf_node_cnt_
          let t1 : teb :=
            { t with
              structure_ := popped.1
              implicit_inner_node_cnt_ := t.implicit_inner_node_cnt_ + trailing_1bits
              implicit_leaf_node_cnt_ := popped.2 }
          let l := List.replicate (t.labels_.length + 1) false
          let left_child_label_idx := t1.get_label_idx abs_left_child_idx
          let right_child_label_idx := t1.get_label_idx abs_right_child_idx
          match decompress_labels_front t.labels_ left_child_label_idx l with
          | Option.none => Option.none
          | some l =>
            let l := l.set left_child_label_idx node_label
            let l := l.set right_child_label_idx node_label
            match decompress_labels_back t.labels_ right_child_label_idx l with
            | Option.none => Option.none
            | some l => some (true, { t1 with labels_ := l })

/-- The constructor called with its default arguments `opt_level = 3` and
`fpr = 0.0` (line 54). -/
def ctor_default (bitmap : List Bool) : teb := ctor bitmap 3 0

/-- The method `all()`. -/
def all (t : teb) : Bool := t.is_leaf_node 0 && t.get_label 0 == true

/-- The method `none()`. -/
def none (t : teb) : Bool := t.is_leaf_node 0 && t.get_label 0 == false

end teb

/-! ## The 1-fill iterator `teb::iter` -/

/-- Subtraction of `u64` values, which wraps around. -/
def u64_sub (a b : Nat) : Nat := (a + 2 ^ 64 - b % 2 ^ 64) % 2 ^ 64

/-- Left shift of a `u64` value; the bits shifted out are lost. -/
def u64_shl (a s : Nat) : Nat := (a <<< s) % 2 ^ 64

/-- The state of a `teb::iter`.  The referenced `tm_` is passed to every
method.  The `static_stack<u64, 32>` (its header is not among the sources) is
a list with its top element first; its capacity is not part of the state. -/
structure iter where
  stack_ : List Nat
  path_ : Nat
  level_ : Nat
  pos_ : Nat
  length_ : Nat
deriving DecidableEq, Repr

namespace iter

/-- The constant `path_msb`. -/
def path_msb : Nat := 1 <<< 63

/-- The member `tree_height`. -/
def tree_height (tm : teb) : Nat := log_2 tm.n_

/-- The method `next()`: the `while` loop of lines 451-485 and the two
assignments after it. -/
def next (tm : teb) : Nat → iter → Option iter
  | _, ⟨[], path_, level_, _, _⟩ => some ⟨[], path_, level_, tm.n_, 0⟩
  | 0, ⟨_ :: _, _, _, _, _⟩ => none
  | fuel + 1, ⟨pair :: stack_, path_, level_, pos_, length_⟩ =>
    let node_idx := pair >>> 32
    let path := pair &&& ((1 <<< 32) - 1)
    if tm.structure_.length ≤ node_idx then
      some ⟨stack_, path_, level_, tm.n_, 0⟩
    else if !tm.is_leaf_node node_idx then
      let r := tm.rank (node_idx + 1)
      let right_child := 2 * r
      let left_child := right_child - 1
      let left_child_path := u64_shl path 1
      let right_child_path := left_child_path ||| 1
      next tm fuel
        ⟨(u64_shl left_child 32 ||| left_child_path)
            :: (u64_shl right_child 32 ||| right_child_path) :: stack_,
          path_, level_, pos_, length_⟩
    else
      let label := tm.get_label node_idx
      if label then
        let lz_cnt_path := lz_count path
        let level_ := u64_sub (64 - 1) lz_cnt_path
        some ⟨stack_, path, level_,
          u64_shl (path ^^^ (path_msb >>> lz_cnt_path)) (u64_sub (tree_height tm) level_),
          tm.n_ >>> level_⟩
      else next tm fuel ⟨stack_, path_, level_, pos_, length_⟩

/-- The constructor `iter(tm)`. -/
def ctor (fuel : Nat) (tm : teb) : Option iter :=
  let root_node_idx := 0
  if tm.is_leaf_node root_node_idx then
    let label := tm.get_label root_node_idx
    if label then some ⟨[], 1, 0, 0, tm.n_⟩
    else some ⟨[], 1, 0, tm.n_, 0⟩
  else
    next tm fuel ⟨[u64_shl root_node_idx 32 ||| 1], 1, 0, 0, 0⟩

/-- The `while (true)` loop of `nav_to` (lines 534-574). -/
def nav_to_loop (tm : teb) (to_pos next_fuel : Nat) : Nat → Nat → Nat → iter → Option iter
  | 0, _, _, _ => none
  | fuel + 1, node_idx, i, ⟨stack_, path_, level_, pos_, length_⟩ =>
    if tm.is_leaf_node node_idx then
      if tm.get_label node_idx then
        let lz_cnt_path := lz_count path_
        let pos_ := u64_shl (path_ ^^^ (path_msb >>> lz_cnt_path)) (u64_sub (tree_height tm) level_)
        let length_ := tm.n_ >>> level_
        let length_ := u64_sub length_ (u64_sub to_pos pos_)
        some ⟨stack_, path_, level_, to_pos, length_⟩
      else next tm next_fuel ⟨stack_, path_, level_, pos_, length_⟩
    else
      let bit := bit_test to_pos i
      let i := u64_sub i 1
      let r := tm.rank (node_idx + 1)
      let right_child := 2 * r
      let left_child := right_child - 1
      let level_ := level_ + 1
      if !bit then
        nav_to_loop tm to_pos next_fuel fuel left_child i
          ⟨(u64_shl right_child 32 ||| (u64_shl path_ 1 ||| 1)) :: stack_,
            u64_shl path_ 1, level_, pos_, length_⟩
      else
        nav_to_loop tm to_pos next_fuel fuel right_child i
          ⟨stack_, u64_shl path_ 1 ||| 1, level_, pos_, length_⟩

/-- The method `nav_to(to_pos)`. -/
def nav_to (tm : teb) (fuel to_pos : Nat) (it : iter) : Option iter :=
  if tm.n_ ≤ to_pos then some { it with pos_ := tm.n_, length_ := 0 }
  else
    nav_to_loop tm to_pos fuel fuel 0 (u64_sub (tree_height tm) 1)
      { it with level_ := 0, stack_ := [], path_ := 1 }

/-- The method `skip_to(to_pos)`. -/
def skip_to (tm : teb) (fuel to_pos : Nat) (it : iter) : Option iter :=
  nav_to tm fuel to_pos it

/-- The method `end()`. -/
def «end» (tm : teb) (it : iter) : Bool := it.pos_ == tm.n_

/-- The method `pos()`. -/
def pos (it : iter) : Nat := it.pos_

/-- The method `length()`. -/
def length (tm : teb) (it : iter) : Nat := if tm.n_ < it.length_ then 0 else it.length_

end iter

/-- The method `it()`. -/
def teb.it (fuel : Nat) (tm : teb) : Option iter := iter.ctor fuel tm

/-! ## `decode_using_iterator` of `test/dtl/bitmap/iterate_test.cpp` -/

/-- The inner loop of `decode_using_iterator`: set the positions
`[pos, pos + length)`. -/
def set_range (pos length : Nat) (ret_val : List Bool) : List Bool :=
  (List.range length).foldl (fun ret_val i => ret_val.set (pos + i) true) ret_val

/-- The `while (!it.end())` loop of `decode_using_iterator`. -/
def decode_loop (tm : teb) (next_fuel : Nat) : Nat → iter → List Bool → Option (List Bool)
  | 0, _, _ => none
  | fuel + 1, it, ret_val =>
    if it.end tm then some ret_val
    else
      match iter.next tm next_fuel it with
      | none => none
      | some it' => decode_loop tm next_fuel fuel it' (set_range it.pos (it.length tm) ret_val)

/-- The function `decode_using_iterator(bitmap)`. -/
def decode_using_iterator (fuel : Nat) (tm : teb) : Option (List Bool) :=
  match tm.it fuel with
  | none => none
  | some it => decode_loop tm fuel fuel it (List.replicate tm.n_ false)

/-! ## `bitwise_and_using_skip_iterator` of `test/dtl/bitmap/iterate_test.cpp` -/

/-- The `for` loop of lines 107-111: set the positions `[begin_max, end_min)`
of the result; `none` when the assertion `ret_val[i] == false` fails. -/
def set_fresh_range (begin_max end_min : Nat) (ret_val : List Bool) : Option (List Bool) :=
  (List.range' begin_max (end_min - begin_max)).foldlM
    (fun ret_val i => if ret_val.getD i false == false then some (ret_val.set i true) else none)
    ret_val

/-- The `while (!(it_a.end() || it_b.end()))` loop of
`bitwise_and_using_skip_iterator`; `it_fuel` is the fuel of each iterator
call.  `none` when an assertion fails or the fuel runs out. -/
def bitwise_and_skip_loop (bitmap_a bitmap_b : teb) (it_fuel : Nat) :
    Nat → iter → iter → List Bool → Option (List Bool)
  | 0, _, _, _ => none
  | fuel + 1, it_a, it_b, ret_val =>
    if it_a.end bitmap_a || it_b.end bitmap_b then some ret_val
    else
      let a_begin := it_a.pos
      let a_end := it_a.pos + it_a.length bitmap_a
      let b_begin := it_b.pos
      let b_end := it_b.pos + it_b.length bitmap_b
      let begin_max := max a_begin b_begin
      let end_min := min a_end b_end
      match set_fresh_range begin_max end_min ret_val with
      | none => none
      | some ret_val =>
        let overlap := decide (begin_max < end_min)
        if overlap then
          if a_end = b_end then
            match iter.next bitmap_a it_fuel it_a, iter.next bitmap_b it_fuel it_b with
            | some it_a, some it_b =>
              bitwise_and_skip_loop bitmap_a bitmap_b it_fuel fuel it_a it_b ret_val
            | _, _ => none
          else if a_end ≤ b_end then
            match iter.next bitmap_a it_fuel it_a with
            | some it_a => bitwise_and_skip_loop bitmap_a bitmap_b it_fuel fuel it_a it_b ret_val
            | none => none
          else
            match iter.next bitmap_b it_fuel it_b with
            | some it_b => bitwise_and_skip_loop bitmap_a bitmap_b it_fuel fuel it_a it_b ret_val
            | none => none
        else
          if a_end = b_end then
            match iter.next bitmap_a it_fuel it_a, iter.next bitmap_b it_fuel it_b with
            | some it_a, some it_b =>
              bitwise_and_skip_loop bitmap_a bitmap_b it_fuel fuel it_a it_b ret_val
            | _, _ => none
          else if a_end < b_end then
            match iter.nav_to bitmap_a it_fuel b_begin it_a with
            | some it_a => bitwise_and_skip_loop bitmap_a bitmap_b it_fuel fuel it_a it_b ret_val
            | none => none
          else
            match iter.nav_to bitmap_b it_fuel a_begin it_b with
            | some it_b => bitwise_and_skip_loop bitmap_a bitmap_b it_fuel fuel it_a it_b ret_val
            | none => none

/-- The function `bitwise_and_using_skip_iterator(bitmap_a, bitmap_b)`. -/
def bitwise_and_using_skip_iterator (fuel : Nat) (bitmap_a bitmap_b : teb) :
    Option (List Bool) :=
  match bitmap_a.it fuel, bitmap_b.it fuel with
  | some it_a, some it_b =>
    bitwise_and_skip_loop bitmap_a bitmap_b fuel fuel it_a it_b
      (List.replicate bitmap_a.n_ false)
  | _, _ => none

/-! ## Notions used to state the properties -/

/-- The height of a tree. -/
def bitmap_tree.height : bitmap_tree → Nat
  | .leaf _ => 0
  | .inner l r => max (bitmap_tree.height l) (bitmap_tree.height r) + 1

/-- The bitmap that a node of height `h` asserts (§3): a leaf stands for
`2 ^ h` copies of its label. -/
def bitmap_tree.to_bits : Nat → bitmap_tree → List Bool
  | h, .leaf b => List.replicate (2 ^ h) b
  | h, .inner l r => bitmap_tree.to_bits (h - 1) l ++ bitmap_tree.to_bits (h - 1) r


/-- The level-order structure sequence of a tree before trimming: one bit per
node, `true` for an inner node. -/
def bitmap_tree.lo_structure (T : bitmap_tree) : List Bool :=
  T.breadth_first.map bitmap_tree.is_inner_node

/-- The labels of the leaves of a tree in level order. -/
def bitmap_tree.lo_labels (T : bitmap_tree) : List Bool :=
  (T.breadth_first.filter (fun k => !k.is_inner_node)).map bitmap_tree.label_of_node

/-- The value `t` is an encoding of the tree `T`: its structure is the
level-order sequence of `T` without a run of leading 1-bits and a run of `il`
trailing 0-bits, and its labels are the leaf labels.  The leading 1-bits are
counted in `implicit_inner_node_cnt_`; the `$u32` member
`implicit_leaf_node_cnt_` holds the number `il` of trailing 0-bits modulo
`2 ^ 32`. -/
structure teb.Encodes (t : teb) (T : bitmap_tree) : Prop where
  structure_eq : ∃ il, T.lo_structure =
    List.replicate t.implicit_inner_node_cnt_ true ++ t.structure_
      ++ List.replicate il false ∧ t.implicit_leaf_node_cnt_ = il % 2 ^ 32
  labels_eq : t.labels_ = T.lo_labels

namespace teb

/-- The bits asserted by a work list of `(node_idx, level, subtree)` entries. -/
def flat_bits (H : Nat) (ts : List (Nat × Nat × bitmap_tree)) : List Bool :=
  ts.flatMap (fun x => bitmap_tree.to_bits (H - x.2.1) x.2.2)


end teb

namespace iter

/-- A stack entry in unpacked form: the level-order index of a node, its level,
its offset among the nodes of that level of the logical tree, and the subtree
rooted there. -/
structure entry where
  node_idx : Nat
  level : Nat
  offset : Nat
  node : bitmap_tree

/-- The path of an entry: the sentinel bit followed by the `level` choice bits. -/
def entry.path (x : entry) : Nat := 2 ^ x.level + x.offset

/-- The 64-bit word that `next()` and `nav_to()` push for an entry. -/
def entry.pack (x : entry) : Nat := u64_shl x.node_idx 32 ||| x.path

/-- The first position covered by an entry in a tree of height `H`. -/
def entry.first (H : Nat) (x : entry) : Nat := x.offset * 2 ^ (H - x.level)

/-- The position after the last one covered by an entry. -/
def entry.last (H : Nat) (x : entry) : Nat := (x.offset + 1) * 2 ^ (H - x.level)

/-- The entry describes a node of the tree `T`: the node with that level-order
index is `x.node`, and it asserts the bits of `T` on the range the entry
covers. -/
def entry.valid (T : bitmap_tree) (H : Nat) (x : entry) : Prop :=
  T.breadth_first[x.node_idx]? = some x.node ∧
  x.node.height + x.level ≤ H ∧
  x.offset < 2 ^ x.level ∧
  bitmap_tree.to_bits (H - x.level) x.node
    = ((bitmap_tree.to_bits H T).drop (x.first H)).take (2 ^ (H - x.level))

/-- The entries of a stack, top first, are valid, lie at or after position `e`
and cover disjoint ranges in ascending order. -/
def chain (T : bitmap_tree) (H : Nat) : Nat → List entry → Prop
  | _, [] => True
  | e, x :: xs => x.valid T H ∧ e ≤ x.first H ∧ chain T H (x.last H) xs

/-- The invariant of the iterator states over an encoding of `T`: the stack
holds a chain of valid entries, and the iterator is either exhausted or
reports a non-empty range of set bits that ends before the entries of its
stack. -/
def inv (T : bitmap_tree) (H : Nat) (it : iter) : Prop :=
  ∃ xs : List entry, it.stack_ = xs.map entry.pack ∧
    ((it.pos_ = 2 ^ H ∧ it.length_ = 0 ∧ chain T H 0 xs) ∨
     (0 < it.length_ ∧ it.pos_ + it.length_ ≤ 2 ^ H ∧
      chain T H (it.pos_ + it.length_) xs ∧
      ∀ p, it.pos_ ≤ p → p < it.pos_ + it.length_ →
        (bitmap_tree.to_bits H T)[p]? = some true))

/-- The iterator states that the constructor and `next()` produce. -/
inductive reachable (tm : teb) : iter → Prop
  | ctor (fuel : Nat) (it : iter) : ctor fuel tm = some it → reachable tm it
  | next (fuel : Nat) (it it' : iter) :
      reachable tm it → next tm fuel it = some it' → reachable tm it'

end iter

/-- The number of zero bits of `seg`, the bitmap below a node of height `h`,
in the range of the node that `path` leads to; `0` for a path that leaves the
logical tree. -/
def bitmap_tree.zeros_at : Nat → List Bool → List Bool → Nat
  | _, [], seg => seg.count false
  | 0, _ :: _, _ => 0
  | h + 1, false :: path, seg => bitmap_tree.zeros_at h path (seg.take (2 ^ h))
  | h + 1, true :: path, seg => bitmap_tree.zeros_at h path (seg.drop (2 ^ h))

/-- No inner node of the tree has two leaf children with equal labels: the
tree is a fixpoint of the lossless prune. -/
def bitmap_tree.is_pruned : bitmap_tree → Bool
  | .leaf _ => true
  | .inner (.leaf a) (.leaf b) => a != b
  | .inner l r => bitmap_tree.is_pruned l && bitmap_tree.is_pruned r

/-- The tree of height `d + height t` whose leftmost node at depth `d` is `t`
and in which every right child on the way is a 0-leaf. -/
def bitmap_tree.left_spine (t : bitmap_tree) : Nat → bitmap_tree
  | 0 => t
  | d + 1 => .inner (bitmap_tree.left_spine t d) (.leaf false)

/-- The bitmap of length `2 ^ 32` whose only set bit is position `2 ^ 31`. -/
def bitmap_2_31 : List Bool :=
  List.replicate (2 ^ 31) false ++ true :: List.replicate (2 ^ 31 - 1) false

/-- The bitmap of length `2 ^ 32` whose set bits are the positions 0, 1, 2, 3
and `2 ^ 31`. -/
def bitmap_0_3_and_2_31 : List Bool :=
  List.replicate 4 true ++ List.replicate (2 ^ 31 - 4) false
    ++ true :: List.replicate (2 ^ 31 - 1) false

/-- The node index that the descent loop of `test(pos)` holds after `j` more
iterations, started at `node_idx` with loop counter `i` (the next bit of `pos`
that is read is bit `i - 1`). -/
def teb.descend (t : teb) (pos : Nat) : Nat → Nat → Nat → Nat
  | _, node_idx, 0 => node_idx
  | i, node_idx, j + 1 =>
    teb.descend t pos (i - 1) (2 * t.rank (node_idx + 1) - 1 + (bit_test pos (i - 1)).toNat) j

/-- The level-order traversal that starts with the queue `q`. -/
def bitmap_tree.level_order (q : List bitmap_tree) : List bitmap_tree :=
  bitmap_tree.bfs ((q.map bitmap_tree.node_cnt).sum) q

/-- The tree `T'` is `T` with one leaf turned into an inner node whose two
children are leaves carrying the label of that leaf. -/
inductive bitmap_tree.expands : bitmap_tree → bitmap_tree → Prop
  | leaf (b : Bool) : expands (.leaf b) (.inner (.leaf b) (.leaf b))
  | left (l l' r : bitmap_tree) : expands l l' → expands (.inner l r) (.inner l' r)
  | right (l r r' : bitmap_tree) : expands r r' → expands (.inner l r) (.inner l r')

/-- The list `q'` is `q` with one leaf of one of its trees expanded. -/
inductive bitmap_tree.expands_one : List bitmap_tree → List bitmap_tree → Prop
  | head (x x' : bitmap_tree) (xs : List bitmap_tree) :
      bitmap_tree.expands x x' → expands_one (x :: xs) (x' :: xs)
  | tail (x : bitmap_tree) (xs xs' : List bitmap_tree) :
      expands_one xs xs' → expands_one (x :: xs) (x :: xs')

/-- The states of the TEB built from `bitmap` that are reached by `decompress()`
calls that return `true`. -/
inductive teb.decompressed (bitmap : List Bool) (opt_level : Nat) (fpr : ℚ) : teb → Prop
  | ctor : teb.decompressed bitmap opt_level fpr (teb.ctor bitmap opt_level fpr)
  | step (t t' : teb) : teb.decompressed bitmap opt_level fpr t →
      t.decompress = some (true, t') → teb.decompressed bitmap opt_level fpr t'

/-! ## Further methods of `dtl::teb`: `rank_scan`, `size_in_byte`, `run_optimize` -/

namespace teb

/-- The method `rank_scan` (lines 751-763): the rank computed by scanning the
structure bits one by one. -/
def rank_scan (t : teb) (node_idx : Nat) : Nat :=
  let implicit_1bit_cnt := t.implicit_inner_node_cnt_
  if node_idx < implicit_1bit_cnt then node_idx
  else
    let i := min (node_idx - implicit_1bit_cnt) t.structure_.length
    (List.range i).foldl (fun ret_val j => ret_val + (t.structure_.getD j false).toNat)
      implicit_1bit_cnt

/-- The method `size_in_byte` (lines 298-317), with `_block_type = u32`,
`sizeof(n_) = 8` and `sizeof(implicit_inner_node_cnt_) = 4`.  The term
`rank_.size_in_bytes()` belongs to `dtl::rank1`, whose header is not among the
sources; `rank_` is initialised from `structure_` by the constructor and by
`decompress()`, so its size is the parameter `rank_size_in_bytes`, a function of
the structure. -/
def size_in_byte (rank_size_in_bytes : List Bool → Nat) (t : teb) : Nat :=
  let block_bitlength := 4 * 8
  let block_size := 4
  let bytes := 0
  let bytes := bytes + ((t.structure_.length + block_bitlength - 1) / block_bitlength) * block_size
  let bytes := bytes + ((t.labels_.length + block_bitlength - 1) / block_bitlength) * block_size
  let bytes := bytes + rank_size_in_bytes t.structure_
  let bytes := bytes + 8
  if 0 < t.optimization_level_ then bytes + 4 else bytes

/-- The `while (decompress())` loop of `run_optimize` (lines 118-130) on the
variables `*this`, `optimized`, `min`, `min_size` and `local_cntr`; it returns
`*this`, `optimized` and `min` as they are when the loop is left, and `none`
when an assertion of `decompress()` fails or the fuel runs out. -/
def run_optimize_loop (rank_size_in_bytes : List Bool → Nat) :
    Nat → teb → Bool → teb → Nat → Nat → Option (teb × Bool × teb)
  | 0, _, _, _, _, _ => Option.none
  | fuel + 1, this, optimized, min, min_size, local_cntr =>
    match this.decompress with
    | Option.none => Option.none
    | some (false, this) => some (this, optimized, min)
    | some (true, this) =>
      let local_cntr := local_cntr + 1
      if local_cntr = 1000 then some (this, optimized, min)
      else
        let compressed_size := this.size_in_byte rank_size_in_bytes
        if compressed_size < min_size then
          run_optimize_loop rank_size_in_bytes fuel this true this compressed_size 0
        else
          run_optimize_loop rank_size_in_bytes fuel this optimized min min_size local_cntr

/-- The method `run_optimize` (lines 109-136). -/
def run_optimize (rank_size_in_bytes : List Bool → Nat) (fuel : Nat) (t : teb) : Option teb :=
  if 1 < t.optimization_level_ then
    match run_optimize_loop rank_size_in_bytes fuel t false t (t.size_in_byte rank_size_in_bytes)
        0 with
    | Option.none => Option.none
    | some (this, optimized, min) => some (if optimized then min else this)
  else some t

end teb

/-! ## The constructor of `dtl::dynamic_partitioned_tree_mask` -/

/-- The ways a call of the constructor can end: it executes an operation whose
behaviour the language leaves undefined (a division by zero, a shift of a
64-bit word by 64 or more), it throws `std::invalid_argument`, or it returns
the constructed object. -/
inductive ctor_result (α : Type) where
  | undefined_behaviour : ctor_result α
  | invalid_argument (what : String) : ctor_result α
  | constructed (value : α) : ctor_result α
deriving DecidableEq, Repr

/-- The class `dtl::dynamic_partitioned_tree_mask`, over the type `tree_mask_t`
of the per-partition tree masks (`dynamic_tree_mask_lo`, whose header is not
among the sources). -/
structure dynamic_partitioned_tree_mask (tree_mask_t : Type) where
  N : Nat
  partition_cnt : Nat
  part_n : Nat
  part_n_log2 : Nat
  part_n_mask : Nat
  tree_masks_ : List tree_mask_t
deriving DecidableEq, Repr

namespace dynamic_partitioned_tree_mask

/-- The constructor `dynamic_partitioned_tree_mask(bitmask, partition_cnt)`
(lines 36-67).  The member initialisers run in declaration order before the
body: `part_n(N / partition_cnt)`, then `part_n_log2(dtl::log_2(part_n))`, then
`part_n_mask` with its shift `u64(-1) >> (64 - dtl::log_2(part_n))`; the three
checks of the body follow.  `dtl::is_power_of_two` and the constructor
`tree_mask_t(part_bitmask)` are not among the sources and are parameters. -/
def ctor {tree_mask_t : Type} (is_power_of_two : Nat → Bool)
    (tree_mask : List Bool → tree_mask_t) (bitmask : List Bool) (partition_cnt : Nat) :
    ctor_result (dynamic_partitioned_tree_mask tree_mask_t) :=
  let N := bitmask.length
  if partition_cnt = 0 then ctor_result.undefined_behaviour
  else
    let part_n := N / partition_cnt
    let part_n_log2 := log_2 part_n
    if part_n ≠ 1 ∧ 64 ≤ 64 - log_2 part_n then ctor_result.undefined_behaviour
    else
      let part_n_mask := if part_n = 1 then 0 else (2 ^ 64 - 1) >>> (64 - log_2 part_n)
      if !is_power_of_two N then
        ctor_result.invalid_argument "The length of the bitmask must be a power of two."
      else if !is_power_of_two partition_cnt then
        ctor_result.invalid_argument "The numbers of partitions must be a power of two."
      else if N < partition_cnt then
        ctor_result.invalid_argument "The number of partitions must be less than or equal to N."
      else
        ctor_result.constructed
          { N := N
            partition_cnt := partition_cnt
            part_n := part_n
            part_n_log2 := part_n_log2
            part_n_mask := part_n_mask
            tree_masks_ := (List.range partition_cnt).map fun pid =>
              let offset := part_n * pid
              tree_mask ((List.range part_n).map fun i => bitmask.getD (i + offset) false) }

end dynamic_partitioned_tree_mask

/-! ## Plain bitmaps: `dtl::bitmap_fun` -/

/-- Modelled from the spec: `dtl::bits::tz_count` (its header is not among the
sources), the number of trailing zero bits of a word; the callers pass non-zero
words only. -/
def tz_count_loop : Nat → Nat → Nat
  | 0, _ => 0
  | fuel + 1, w => if w % 2 = 1 then 0 else tz_count_loop fuel (w / 2) + 1

/-- Modelled from the spec: `dtl::bits::tz_count`, see `tz_count_loop`. -/
def tz_count (w : Nat) : Nat := tz_count_loop 64 w

namespace bitmap_fun

/-- The value, converted back to `word_type`, of the expression
`~word_type(0) >> s` for a shift `s < word_bitlength`.  The operand of `~` and of
`>>` undergoes integral promotion: for an unsigned word type narrower than `int`
(`word_bitlength < 32`) `~word_type(0)` is the `int` value `-1`, its right shift
is arithmetic and gives `-1`, that is all `word_bitlength` bits set; for the
other word types the shift is the logical shift of the all-ones word. -/
def not_zero_shr (word_bitlength s : Nat) : Nat :=
  if word_bitlength < 32 then 2 ^ word_bitlength - 1
  else (2 ^ word_bitlength - 1) >>> s

/-- The function `test(bitmap, i)` (lines 17-24) of `bitmap_fun<word_type>`, for
a word type of `word_bitlength` bits.  A word array is a list of naturals, a
read `bitmap[k]` is `List.getD bitmap k 0`. -/
def test (word_bitlength : Nat) (bitmap : List Nat) (i : Nat) : Bool :=
  let block_idx := i / word_bitlength
  let word := bitmap.getD block_idx 0
  let bit_idx := i % word_bitlength
  word &&& (1 <<< bit_idx) != 0

/-- The function `set(bitmap, b, e)` (lines 45-68).  The masks `Z`, `X` and `Y`
are variables of type `word_type`: their values are truncated to
`word_bitlength` bits. -/
def set (word_bitlength : Nat) (bitmap : List Nat) (b e : Nat) : List Nat :=
  if b ≥ e then bitmap
  else
    let x := b / word_bitlength
    let y := (e - 1) / word_bitlength
    let Z := 2 ^ word_bitlength - 1
    let X := (Z <<< (b % word_bitlength)) % 2 ^ word_bitlength
    let Y := Z >>> ((word_bitlength - e % word_bitlength) % word_bitlength)
    if x = y then bitmap.set x (bitmap.getD x 0 ||| (X &&& Y))
    else
      let bitmap := bitmap.set x (bitmap.getD x 0 ||| X)
      let bitmap := (List.range' (x + 1) (y - (x + 1))).foldl
        (fun bitmap k => bitmap.set k (bitmap.getD k 0 ||| Z)) bitmap
      bitmap.set y (bitmap.getD y 0 ||| Y)

/-- The function `fetch_bits(bitmap, bit_idx_begin, bit_idx_end)` (lines
103-128).  The result is `none` when one of the two assertions fails or a shift
by `word_bitlength` or more is asked for. -/
def fetch_bits (word_bitlength : Nat) (bitmap : List Nat) (bit_idx_begin bit_idx_end : Nat) :
    Option Nat :=
  if ¬ bit_idx_end > bit_idx_begin then Option.none
  else
    let word_idx_begin := bit_idx_begin / word_bitlength
    let word_idx_end := (bit_idx_end - 1) / word_bitlength
    if ¬ word_idx_end - word_idx_begin ≤ 1 then Option.none
    else
      let cnt := bit_idx_end - bit_idx_begin
      if word_idx_begin = word_idx_end then
        let word_idx := word_idx_begin
        let bitmap_word := bitmap.getD word_idx 0
        let bitmap_word := bitmap_word >>> (bit_idx_begin % word_bitlength)
        if word_bitlength < cnt ∨ word_bitlength ≤ word_bitlength - cnt then Option.none
        else
          let bitmap_word := bitmap_word &&& not_zero_shr word_bitlength (word_bitlength - cnt)
          some bitmap_word
      else
        let bitmap_word_0 := bitmap.getD word_idx_begin 0
        let bitmap_word_1 := bitmap.getD word_idx_end 0
        let bitmap_word_0 := bitmap_word_0 >>> (bit_idx_begin % word_bitlength)
        if word_bitlength ≤ word_bitlength - bit_idx_end % word_bitlength then Option.none
        else
          let bitmap_word_1 := bitmap_word_1
            &&& not_zero_shr word_bitlength (word_bitlength - bit_idx_end % word_bitlength)
          if word_bitlength ≤ word_bitlength - bit_idx_begin % word_bitlength then Option.none
          else
            some ((bitmap_word_0
              ||| (bitmap_word_1 <<< (word_bitlength - bit_idx_begin % word_bitlength)))
              % 2 ^ word_bitlength)

/-- The function `find_first(bitmap, b, e)` (lines 162-203). -/
def find_first (word_bitlength : Nat) (bitmap : List Nat) (b e : Nat) : Nat :=
  if e ≤ b then e
  else
    let x := b / word_bitlength
    let y := (e - 1) / word_bitlength
    let X_off := b % word_bitlength
    let X := ((2 ^ word_bitlength - 1) <<< X_off) % 2 ^ word_bitlength
    let Y := not_zero_shr word_bitlength
      ((word_bitlength - e % word_bitlength) % word_bitlength)
    if x = y then
      let w := bitmap.getD x 0 &&& (X &&& Y)
      if w = 0 then e
      else b + tz_count (w >>> X_off)
    else
      let w_b := bitmap.getD x 0 >>> X_off
      if w_b ≠ 0 then b + tz_count w_b
      else
        match (List.range' (x + 1) (y - (x + 1))).find? fun k => bitmap.getD k 0 != 0 with
        | some k =>
          let w := bitmap.getD k 0
          b + (word_bitlength - X_off) + (k - (x + 1)) * word_bitlength + tz_count w
        | Option.none =>
          let w_e := bitmap.getD y 0 &&& Y
          if w_e ≠ 0 then b + (y - x) * word_bitlength - X_off + tz_count w_e
          else e

/-- The function `find_first_dense(bitmap, b, e)` (lines 205-218). -/
def find_first_dense (word_bitlength : Nat) (bitmap : List Nat) (b e : Nat) : Nat :=
  match (List.range' b (e - b)).find? fun i => test word_bitlength bitmap i with
  | some i => i
  | Option.none => e

end bitmap_fun

/-! ## The level-order tree mask `dtl::tree_mask_lo<N>` -/

/-- The class `dtl::tree_mask_lo<N>` of `tree_mask_lo.hpp`: the two bit vectors
`lo_struc` and `lo_label`.  The rank support `rank_support` is a function of
`lo_struc` and is not stored: `rank_support.rank(i)` of
`sdsl::rank_support_v5`, the number of set bits among the positions `[0, i)`, is
`rank1 lo_struc i`. -/
structure tree_mask_lo where
  lo_struc : List Bool
  lo_label : List Bool
deriving DecidableEq, Repr

namespace tree_mask_lo

/-- The constructor `tree_mask_lo(structure, labels)` (lines 131-149). -/
def ctor (structure_ labels : List Bool) : tree_mask_lo :=
  { lo_struc := structure_, lo_label := labels }

/-- The method `is_inner_node`. -/
def is_inner_node (t : tree_mask_lo) (node_idx : Nat) : Bool := t.lo_struc.getD node_idx false

/-- The method `left_child`. -/
def left_child (t : tree_mask_lo) (node_idx : Nat) : Nat :=
  2 * rank1 t.lo_struc (node_idx + 1) - 1

/-- The method `right_child`. -/
def right_child (t : tree_mask_lo) (node_idx : Nat) : Nat :=
  2 * rank1 t.lo_struc (node_idx + 1)

/-- The method `get_label`. -/
def get_label (t : tree_mask_lo) (node_idx : Nat) : Bool :=
  let label_idx := node_idx - rank1 t.lo_struc node_idx
  t.lo_label.getD label_idx false

/-- The loop of `to_bitset` (lines 257-268) with the body `decode_tree`; the
list `nodes` is used as a stack. -/
def to_bitset_loop (t : tree_mask_lo) (tree_height : Nat) :
    Nat → List (Nat × Nat) → Nat → List Bool → Option (List Bool)
  | _, [], _, ret => some ret
  | 0, _ :: _, _, _ => Option.none
  | fuel + 1, (idx, level) :: nodes, write_pointer, ret =>
    if t.is_inner_node idx then
      let l_child := t.left_child idx
      let r_child := t.right_child idx
      let child_level := level + 1
      to_bitset_loop t tree_height fuel
        ((l_child, child_level) :: (r_child, child_level) :: nodes) write_pointer ret
    else
      let label := t.lo_label.getD (idx - rank1 t.lo_struc (idx + 1)) false
      let to_write := 1 <<< (tree_height - level)
      to_bitset_loop t tree_height fuel nodes (write_pointer + to_write)
        (teb.write_label label write_pointer to_write ret)

/-- The method `to_bitset()` (lines 196-271) of `tree_mask_lo<N>`, with
`tree_height = log_2 N`. -/
def to_bitset (N fuel : Nat) (t : tree_mask_lo) : Option (List Bool) :=
  let ret := List.replicate N false
  if t.lo_struc.length = 1 then
    if t.lo_label.getD 0 false then some (ret.map fun _ => true)
    else some (ret.map fun _ => false)
  else
    to_bitset_loop t (log_2 N) fuel [(0, 0)] 0 ret

/-- The local struct `node` of `operator^`. -/
structure node where
  node_idx : Nat
  node_pos : Nat
  xor_bit : Bool
deriving DecidableEq, Repr

/-- The call `fifo.pop()` of a `std::queue`; it is undefined on an empty
queue. -/
def pop : List node → Option (List node)
  | [] => Option.none
  | _ :: fifo => some fifo

/-- The `while` loop of `operator^` (lines 341-511) on the variables `fifo_a`,
`fifo_b`, `node_pos`, `structure` (here `structure_`) and `labels`, with `a = *this` and
`b = other`. -/
def xor_loop (a other : tree_mask_lo) :
    Nat → List node → List node → Nat → List Bool → List Bool → Option (List Bool × List Bool)
  | 0, fifo_a, fifo_b, _, structure_, labels =>
    if fifo_a.length > 0 ∨ fifo_b.length > 0 then Option.none else some (structure_, labels)
  | fuel + 1, fifo_a, fifo_b, node_pos, structure_, labels =>
    if fifo_a.length > 0 ∨ fifo_b.length > 0 then
      let curr_a : node := fifo_a.head?.getD ⟨0, 0, false⟩
      let curr_b : node := fifo_b.head?.getD ⟨0, 0, false⟩
      if curr_a.node_pos = curr_b.node_pos ∧ curr_a.node_pos ≠ 0 then
        (pop fifo_a).bind fun fifo_a =>
        (pop fifo_b).bind fun fifo_b =>
        match a.is_inner_node curr_a.node_idx, other.is_inner_node curr_b.node_idx with
        | false, false =>
          let bit := Bool.xor (a.get_label curr_a.node_idx) (other.get_label curr_b.node_idx)
          xor_loop a other fuel fifo_a fifo_b node_pos (structure_ ++ [false]) (labels ++ [bit])
        | true, false =>
          let bit_b := other.get_label curr_b.node_idx
          let left_child : node := ⟨a.left_child curr_a.node_idx, node_pos, bit_b⟩
          let right_child : node := ⟨a.right_child curr_a.node_idx, node_pos + 1, bit_b⟩
          xor_loop a other fuel (fifo_a ++ [left_child, right_child]) fifo_b (node_pos + 2)
            (structure_ ++ [true]) labels
        | false, true =>
          let bit_a := a.get_label curr_a.node_idx
          let left_child : node := ⟨other.left_child curr_b.node_idx, node_pos, bit_a⟩
          let right_child : node := ⟨other.right_child curr_b.node_idx, node_pos + 1, bit_a⟩
          xor_loop a other fuel fifo_a (fifo_b ++ [left_child, right_child]) (node_pos + 2)
            (structure_ ++ [true]) labels
        | true, true =>
          let left_child_a : node := ⟨a.left_child curr_a.node_idx, node_pos, false⟩
          let left_child_b : node := ⟨other.left_child curr_b.node_idx, node_pos, false⟩
          let right_child_a : node := ⟨a.right_child curr_a.node_idx, node_pos + 1, false⟩
          let right_child_b : node := ⟨other.right_child curr_b.node_idx, node_pos + 1, false⟩
          xor_loop a other fuel (fifo_a ++ [left_child_a, right_child_a])
            (fifo_b ++ [left_child_b, right_child_b]) (node_pos + 2) (structure_ ++ [true]) labels
      else
        let continue_with := fun (fifo_a fifo_b : List node) (node_pos : Nat)
            (structure_ labels : List Bool) =>
          ((if curr_a.node_pos = 0 ∧ fifo_a.length = 1 then pop fifo_a else some fifo_a).bind
            fun fifo_a =>
          (if curr_b.node_pos = 0 ∧ fifo_b.length = 1 then pop fifo_b else some fifo_b).bind
            fun fifo_b =>
          xor_loop a other fuel fifo_a fifo_b node_pos structure_ labels)
        if (curr_a.node_pos < curr_b.node_pos ∧ curr_a.node_pos ≠ 0) ∨ curr_b.node_pos = 0 then
          (pop fifo_a).bind fun fifo_a =>
          if a.is_inner_node curr_a.node_idx then
            let left_child : node := ⟨a.left_child curr_a.node_idx, node_pos, curr_a.xor_bit⟩
            let right_child : node :=
              ⟨a.right_child curr_a.node_idx, node_pos + 1, curr_a.xor_bit⟩
            continue_with (fifo_a ++ [left_child, right_child]) fifo_b (node_pos + 2)
              (structure_ ++ [true]) labels
          else
            continue_with fifo_a fifo_b node_pos (structure_ ++ [false])
              (labels ++ [Bool.xor (a.get_label curr_a.node_idx) curr_a.xor_bit])
        else
          (pop fifo_b).bind fun fifo_b =>
          if other.is_inner_node curr_b.node_idx then
            let left_child : node := ⟨other.left_child curr_b.node_idx, node_pos, curr_b.xor_bit⟩
            let right_child : node :=
              ⟨other.right_child curr_b.node_idx, node_pos + 1, curr_b.xor_bit⟩
            continue_with fifo_a (fifo_b ++ [left_child, right_child]) (node_pos + 2)
              (structure_ ++ [true]) labels
          else
            continue_with fifo_a fifo_b node_pos (structure_ ++ [false])
              (labels ++ [Bool.xor (other.get_label curr_b.node_idx) curr_b.xor_bit])
    else some (structure_, labels)

/-- The operator `^` (lines 302-516): bitwise XOR without compression of the
resulting tree. -/
def xor (fuel : Nat) (a other : tree_mask_lo) : Option tree_mask_lo :=
  let node_pos := 1
  let fifo_a : List node :=
    [⟨0, node_pos, if a.is_inner_node 0 then false else a.get_label 0⟩]
  let fifo_b : List node :=
    [⟨0, node_pos, if other.is_inner_node 0 then false else other.get_label 0⟩]
  let node_pos := node_pos + 1
  (xor_loop a other fuel fifo_a fifo_b node_pos [] []).map fun r => ctor r.1 r.2

end tree_mask_lo

/-! ## Further notions used to state the properties -/

/-- The bitmap `0101...01` of length 64: its tree is the perfect tree with 63
inner nodes and 64 leaves. -/
def bitmap_64_alternating : List Bool := (List.replicate 32 [false, true]).flatten

/-- The bitmap `0100 (0011)^15` of length 64: its tree has the level-order
sequence `1^32 0^33`. -/
def bitmap_64_inner_32 : List Bool :=
  [false, true, false, false] ++ (List.replicate 15 [false, false, true, true]).flatten

/-- The bitmap `0001 (0011)^15` of length 64: its tree has the level-order
sequence `1^31 0 1 0^32`. -/
def bitmap_64_inner_31_1 : List Bool :=
  [false, false, false, true] ++ (List.replicate 15 [false, false, true, true]).flatten

/-- The bitmap `0100 (0011)^14 0000` of length 64: its tree has the level-order
sequence `1^30 0 1 0^31`. -/
def bitmap_64_inner_30_1 : List Bool :=
  [false, true, false, false] ++ (List.replicate 14 [false, false, true, true]).flatten
    ++ [false, false, false, false]

/-- The TEB that one `decompress()` call reaches from the TEB of
`bitmap_64_inner_30_1` built at optimization level 3: `II = 32`, an empty
structure and 33 labels. -/
def teb_64_inner_32_decompressed : teb :=
  ⟨64, [],
    [false, false, true, false, true, false, true, false, true, false, true, false, true, false,
      true, false, true, false, true, false, true, false, true, false, true, false, true, false,
      true, false, false, false, true], 32, 3, 33⟩

/-- The tree `T` with every leaf label XOR-ed with the bit `c`. -/
def bitmap_tree.map_xor (c : Bool) : bitmap_tree → bitmap_tree
  | .leaf b => .leaf (Bool.xor b c)
  | .inner l r => .inner (bitmap_tree.map_xor c l) (bitmap_tree.map_xor c r)

/-- The uncompressed XOR of two trees: the tree whose inner nodes are the nodes
that are inner in one of the two trees, with the XOR of the two labels at each
leaf. -/
def bitmap_tree.xor_tree : bitmap_tree → bitmap_tree → bitmap_tree
  | .leaf x, .leaf y => .leaf (Bool.xor x y)
  | .inner l r, .leaf y => .inner (bitmap_tree.map_xor y l) (bitmap_tree.map_xor y r)
  | .leaf x, .inner l r => .inner (bitmap_tree.map_xor x l) (bitmap_tree.map_xor x r)
  | .inner l1 r1, .inner l2 r2 =>
    .inner (bitmap_tree.xor_tree l1 l2) (bitmap_tree.xor_tree r1 r2)

/-- The tree mask `t` is a valid level-order encoding, of the full binary tree
`T`: `lo_struc` is the level-order structure sequence of `T` and `lo_label`
holds the labels of its leaves in level order. -/
def tree_mask_lo.Encodes (t : tree_mask_lo) (T : bitmap_tree) : Prop :=
  t.lo_struc = T.lo_structure ∧ t.lo_label = T.lo_labels

/-- The TEB without implicit nodes that has the bit vectors of a tree mask. -/
def tree_mask_lo.to_teb (t : tree_mask_lo) : teb := ⟨0, t.lo_struc, t.lo_label, 0, 0, 0⟩

namespace tree_mask_lo

/-- A node of the result tree of `operator^` that waits in the queues: a pair of
nodes that stand at the same place of the two trees, with their indices in the
two level-order encodings and their subtrees, or a node of a subtree that only
one of the two trees has, below a leaf with label `c` of the other tree. -/
inductive xitem where
  | both (ia : Nat) (ta : bitmap_tree) (xa : Bool) (ib : Nat) (tb : bitmap_tree) (xb : Bool)
  | only_a (ia : Nat) (ta : bitmap_tree) (c : Bool)
  | only_b (ib : Nat) (tb : bitmap_tree) (c : Bool)

namespace xitem

/-- The subtree of the result that a waiting node stands for. -/
def tree : xitem → bitmap_tree
  | both _ ta _ _ tb _ => bitmap_tree.xor_tree ta tb
  | only_a _ ta c => bitmap_tree.map_xor c ta
  | only_b _ tb c => bitmap_tree.map_xor c tb

/-- The entry of `fifo_a` for a waiting node at position `q.1`, if it has one. -/
def proj_a (q : Nat × xitem) : Option node :=
  match q.2 with
  | both ia _ xa _ _ _ => some ⟨ia, q.1, xa⟩
  | only_a ia _ c => some ⟨ia, q.1, c⟩
  | only_b _ _ _ => Option.none

/-- The entry of `fifo_b` for a waiting node at position `q.1`, if it has one. -/
def proj_b (q : Nat × xitem) : Option node :=
  match q.2 with
  | both _ _ _ ib _ xb => some ⟨ib, q.1, xb⟩
  | only_a _ _ _ => Option.none
  | only_b ib _ c => some ⟨ib, q.1, c⟩

/-- The indices of a waiting node point at its subtrees in the level-order
traversals of the two trees. -/
def valid (Ta Tb : bitmap_tree) : xitem → Prop
  | both ia ta _ ib tb _ => Ta.breadth_first[ia]? = some ta ∧ Tb.breadth_first[ib]? = some tb
  | only_a ia ta _ => Ta.breadth_first[ia]? = some ta
  | only_b ib tb _ => Tb.breadth_first[ib]? = some tb

/-- The children that one iteration of the loop appends for a waiting node,
with their positions `np` and `np + 1`. -/
def kids (a b : tree_mask_lo) (np : Nat) : xitem → List (Nat × xitem)
  | both ia (.inner l1 r1) _ ib (.inner l2 r2) _ =>
    [(np, both (a.left_child ia) l1 false (b.left_child ib) l2 false),
      (np + 1, both (a.right_child ia) r1 false (b.right_child ib) r2 false)]
  | both ia (.inner l r) _ _ (.leaf y) _ =>
    [(np, only_a (a.left_child ia) l y), (np + 1, only_a (a.right_child ia) r y)]
  | both _ (.leaf x) _ ib (.inner l r) _ =>
    [(np, only_b (b.left_child ib) l x), (np + 1, only_b (b.right_child ib) r x)]
  | both _ (.leaf _) _ _ (.leaf _) _ => []
  | only_a ia (.inner l r) c =>
    [(np, only_a (a.left_child ia) l c), (np + 1, only_a (a.right_child ia) r c)]
  | only_a _ (.leaf _) _ => []
  | only_b ib (.inner l r) c =>
    [(np, only_b (b.left_child ib) l c), (np + 1, only_b (b.right_child ib) r c)]
  | only_b _ (.leaf _) _ => []

end xitem
end tree_mask_lo

/-- The path that `next()` and `nav_to()` build for the node reached from a
node with path `path` by the choice bits `choices`: a step to the left child
appends a 0-bit, a step to the right child a 1-bit.  The path of the root is
`1`, the sentinel bit. -/
def iter.path_from (path : Nat) : List Bool → Nat
  | [] => path
  | b :: choices => iter.path_from (2 * path + b.toNat) choices

/-- The node of a tree reached from the root by the choice bits (`false` =
left child, `true` = right child); `none` when the walk leaves the tree. -/
def bitmap_tree.node_at : List Bool → bitmap_tree → Option bitmap_tree
  | [], t => some t
  | _ :: _, .leaf _ => none
  | false :: choices, .inner l _ => bitmap_tree.node_at choices l
  | true :: choices, .inner _ r => bitmap_tree.node_at choices r

/-- The choice bits of the `d`-th node of level `l`, the `l` low bits of `d`
with the most significant one first. -/
def iter.choices_of : Nat → Nat → List Bool
  | 0, _ => []
  | l + 1, d => iter.choices_of l (d / 2) ++ [d % 2 == 1]

/-- The ranges `(pos, length)` of the 1-labelled leaves below a node that
covers the `2 ^ h` positions from `first`, from left to right. -/
def bitmap_tree.fills : Nat → Nat → bitmap_tree → List (Nat × Nat)
  | h, first, .leaf b => if b then [(first, 2 ^ h)] else []
  | h, first, .inner l r =>
    bitmap_tree.fills (h - 1) first l ++ bitmap_tree.fills (h - 1) (first + 2 ^ (h - 1)) r

namespace iter

/-- The ranges of the 1-labelled leaves below the entries of a stack, top
first. -/
def chain_fills (H : Nat) (xs : List entry) : List (Nat × Nat) :=
  xs.flatMap (fun x => bitmap_tree.fills (H - x.level) (x.first H) x.node)

/-- The fills `(pos(), length())` that the loop
`while (!it.end()) { ...; it.next(); }` sees, as in `decode_using_iterator`. -/
def fills_loop (tm : teb) (next_fuel : Nat) : Nat → iter → Option (List (Nat × Nat))
  | 0, _ => none
  | fuel + 1, it =>
    if it.end tm then some []
    else
      match next tm next_fuel it with
      | none => none
      | some it' => (fills_loop tm next_fuel fuel it').map ((it.pos, it.length tm) :: ·)

/-- The stacks that a call of `next()` holds, in order: at the head of an
iteration of its loop, after `pop()`, and after each `push`. -/
def next_stacks (tm : teb) : Nat → List Nat → List (List Nat)
  | _, [] => [[]]
  | 0, pair :: stack_ => [pair :: stack_]
  | fuel + 1, pair :: stack_ =>
    let node_idx := pair >>> 32
    let path := pair &&& ((1 <<< 32) - 1)
    (pair :: stack_) :: stack_ ::
      (if tm.structure_.length ≤ node_idx then []
      else if !tm.is_leaf_node node_idx then
        let r := tm.rank (node_idx + 1)
        let right_child := 2 * r
        let left_child := right_child - 1
        let left_child_path := u64_shl path 1
        let right_child_path := left_child_path ||| 1
        ((u64_shl right_child 32 ||| right_child_path) :: stack_) ::
          next_stacks tm fuel
            ((u64_shl left_child 32 ||| left_child_path)
              :: (u64_shl right_child 32 ||| right_child_path) :: stack_)
      else if tm.get_label node_idx then []
      else next_stacks tm fuel stack_)

/-- The stacks that the constructor `iter(tm)` holds. -/
def ctor_stacks (fuel : Nat) (tm : teb) : List (List Nat) :=
  if tm.is_leaf_node 0 then [[]]
  else [] :: next_stacks tm fuel [u64_shl 0 32 ||| 1]

/-- The stacks that the loop of `nav_to` holds, and those of the `next()` call
that ends it at a 0-labelled leaf. -/
def nav_to_loop_stacks (tm : teb) (to_pos next_fuel : Nat) :
    Nat → Nat → Nat → Nat → List Nat → List (List Nat)
  | 0, _, _, _, stack_ => [stack_]
  | fuel + 1, node_idx, i, path_, stack_ =>
    stack_ ::
      (if tm.is_leaf_node node_idx then
        if tm.get_label node_idx then [] else next_stacks tm next_fuel stack_
      else
        let bit := bit_test to_pos i
        let i := u64_sub i 1
        let r := tm.rank (node_idx + 1)
        let right_child := 2 * r
        let left_child := right_child - 1
        if !bit then
          nav_to_loop_stacks tm to_pos next_fuel fuel left_child i (u64_shl path_ 1)
            ((u64_shl right_child 32 ||| (u64_shl path_ 1 ||| 1)) :: stack_)
        else
          nav_to_loop_stacks tm to_pos next_fuel fuel right_child i (u64_shl path_ 1 ||| 1)
            stack_)

/-- The stacks that a call of `nav_to(to_pos)` holds. -/
def nav_to_stacks (tm : teb) (fuel to_pos : Nat) (it : iter) : List (List Nat) :=
  if tm.n_ ≤ to_pos then [it.stack_]
  else it.stack_ :: nav_to_loop_stacks tm to_pos fuel fuel 0 (u64_sub (tree_height tm) 1) 1 []

/-- The iterator states that the constructor, `next()` and `nav_to()` produce. -/
inductive reachable_nav (tm : teb) : iter → Prop
  | ctor (fuel : Nat) (it : iter) : ctor fuel tm = some it → reachable_nav tm it
  | next (fuel : Nat) (it it' : iter) :
      reachable_nav tm it → next tm fuel it = some it' → reachable_nav tm it'
  | nav_to (fuel to_pos : Nat) (it it' : iter) :
      reachable_nav tm it → nav_to tm fuel to_pos it = some it' → reachable_nav tm it'

/-- The iterator states that the constructor, `next()` and `nav_to(to_pos)`
with `to_pos < n_` produce. -/
inductive reachable_below (tm : teb) : iter → Prop
  | ctor (fuel : Nat) (it : iter) : ctor fuel tm = some it → reachable_below tm it
  | next (fuel : Nat) (it it' : iter) :
      reachable_below tm it → next tm fuel it = some it' → reachable_below tm it'
  | nav_to (fuel to_pos : Nat) (it it' : iter) :
      reachable_below tm it → to_pos < tm.n_ → nav_to tm fuel to_pos it = some it' →
      reachable_below tm it'

/-- The levels of the entries, top first, are strictly decreasing, at most
`b` and at least 1. -/
def desc : Nat → List entry → Prop
  | _, [] => True
  | b, y :: ys => 1 ≤ y.level ∧ y.level ≤ b ∧ desc (y.level - 1) ys

/-- The entries below the top of a stack have strictly decreasing levels
between the level of the top entry and 1. -/
def top_desc : List entry → Prop
  | [] => True
  | x :: xs => desc x.level xs

end iter

/-- The ranges of the 1-labelled leaves from position `t` on: the ranges that
end behind `t`, the first of them cut off at `t`. -/
def bitmap_tree.fills_from (H t : Nat) (T : bitmap_tree) : List (Nat × Nat) :=
  match (bitmap_tree.fills H 0 T).filter (fun f => decide (t < f.1 + f.2)) with
  | [] => []
  | (p, n) :: rest => (max p t, p + n - max p t) :: rest

/-- The iterator is at the first of the fills `F`, a non-empty range inside
the bitmap, and its stack holds the entries whose 1-labelled leaves are the
other fills; for `F = []` it is exhausted with an empty stack. -/
def iter.at_fills (T : bitmap_tree) (H : Nat) (it : iter) (F : List (Nat × Nat)) : Prop :=
  (F = [] ∧ it.stack_ = [] ∧ it.pos_ = 2 ^ H ∧ it.length_ = 0) ∨
  ∃ (p n : Nat) (xs : List iter.entry), F = (p, n) :: iter.chain_fills H xs ∧
    it.stack_ = xs.map iter.entry.pack ∧ it.pos_ = p ∧ it.length_ = n ∧ 0 < n ∧
    p + n ≤ 2 ^ H ∧ iter.chain T H (p + n) xs ∧
    (xs.map (fun x => x.node.node_cnt)).sum ≤ T.node_cnt

/-- The complete tree of height `h + 1` whose leaves carry the labels
0, 1, 0, 1, ... -/
def bitmap_tree.alternating : Nat → bitmap_tree
  | 0 => .inner (.leaf false) (.leaf true)
  | h + 1 => .inner (bitmap_tree.alternating h) (bitmap_tree.alternating h)

/-- The bitmap `0101...01` of length `2 ^ 32`. -/
def bitmap_01_2_32 : List Bool := (List.replicate (2 ^ 31) [false, true]).flatten

/-! ## The constructor `tree_mask_lo(bitmask)` of `tree_mask_lo.hpp` -/

/-- Modelled from the spec: the binary-tree primitive
`dtl::binary_tree_structure<N>` (§4.3; its header is not among the sources), an
implicit complete binary tree of `2 N - 1` nodes in level-order numbering.  Its
only storage is the is-inner bitset. -/
structure binary_tree_structure where
  inner_node : List Bool
deriving DecidableEq, Repr

namespace binary_tree_structure

/-- Modelled from the spec: the constant `max_node_cnt`, `2 N - 1`. -/
def max_node_cnt (N : Nat) : Nat := 2 * N - 1

/-- Modelled from the spec: the tree that the default constructor builds
(§4.4 step 1): the nodes `[N - 1, 2 N - 1)` are the leaves, all other nodes are
inner nodes. -/
def init (N : Nat) : binary_tree_structure :=
  ⟨List.replicate (N - 1) true ++ List.replicate N false⟩

/-- Modelled from the spec: `parent(i) = (i - 1) / 2`. -/
def parent_of (node_idx : Nat) : Nat := (node_idx - 1) / 2

/-- Modelled from the spec: `left(i) = 2 i + 1`. -/
def left_child_of (node_idx : Nat) : Nat := 2 * node_idx + 1

/-- Modelled from the spec: `right(i) = 2 i + 2`. -/
def right_child_of (node_idx : Nat) : Nat := 2 * node_idx + 2

/-- Modelled from the spec: the inner/leaf flag of a node. -/
def is_inner_node (t : binary_tree_structure) (node_idx : Nat) : Bool :=
  t.inner_node.getD node_idx false

/-- Modelled from the spec: the mark-as-leaf operation. -/
def set_leaf (t : binary_tree_structure) (node_idx : Nat) : binary_tree_structure :=
  ⟨t.inner_node.set node_idx false⟩

end binary_tree_structure

namespace tree_mask_lo

/-- The loop of lines 43-45 on the zero-initialised bitset `labels`: the leaf
nodes are labelled with the given bitmask. -/
def init_labels (length : Nat) (bitmask : List Bool) : List Bool :=
  (List.range' (length / 2) (length - length / 2)).foldl
    (fun labels i => labels.set i (bitmask.getD (i - length / 2) false))
    (List.replicate length false)

/-- The loop of lines 47-50: the mask bits are propagated along the tree,
bottom-up. -/
def propagate_labels (length : Nat) (labels : List Bool) : List Bool :=
  (List.range (length - 1)).foldl
    (fun labels i =>
      let node_idx := length - i - 1
      labels.set (binary_tree_structure.parent_of node_idx)
        (labels.getD (binary_tree_structure.parent_of node_idx) false
          || labels.getD node_idx false))
    labels

/-- The loop of lines 53-68, the bottom-up lossless pruning; the `k`-th pass
through the body has `i = 2 k`, and there are `length / 2` of them. -/
def prune_loop (length : Nat) (labels : List Bool) (tree_structure : binary_tree_structure) :
    binary_tree_structure :=
  (List.range (length / 2)).foldl
    (fun tree_structure k =>
      let i := 2 * k
      let left_node_idx := length - i - 2
      let right_node_idx := left_node_idx + 1
      let left_bit := labels.getD left_node_idx false
      let right_bit := labels.getD right_node_idx false
      let parent_node_idx := binary_tree_structure.parent_of left_node_idx
      let prune_causes_false_positives := Bool.xor left_bit right_bit
      let both_nodes_are_leaves :=
        !tree_structure.is_inner_node left_node_idx
          && !tree_structure.is_inner_node right_node_idx
      let prune := both_nodes_are_leaves && !prune_causes_false_positives
      if prune then tree_structure.set_leaf parent_node_idx else tree_structure)
    tree_structure

/-- The `while` loop of lines 121-125 with the body `add_node` (lines 80-104),
on the queue `fifo`, the first `struct_cnt` bits of `lo_struc` and the first
`label_cnt` bits of `lo_label`.  The two vectors were resized to `cap` bits
(lines 75-76); a write behind them aborts. -/
def add_node_loop (tree_structure : binary_tree_structure) (labels : List Bool) (cap : Nat) :
    Nat → List Nat → List Bool → List Bool → Option (List Bool × List Bool)
  | _, [], lo_struc, lo_label => some (lo_struc, lo_label)
  | 0, _ :: _, _, _ => Option.none
  | fuel + 1, idx :: fifo, lo_struc, lo_label =>
    if tree_structure.is_inner_node idx then
      let l_child := binary_tree_structure.left_child_of idx
      let r_child := binary_tree_structure.right_child_of idx
      let l_child_is_inner := tree_structure.is_inner_node l_child
      let r_child_is_inner := tree_structure.is_inner_node r_child
      if lo_struc.length + 2 ≤ cap then
        add_node_loop tree_structure labels cap fuel (fifo ++ [l_child, r_child])
          (lo_struc ++ [l_child_is_inner, r_child_is_inner]) lo_label
      else Option.none
    else
      if lo_label.length + 1 ≤ cap then
        add_node_loop tree_structure labels cap fuel fifo lo_struc
          (lo_label ++ [labels.getD idx false])
      else Option.none

/-- The bitset `labels` of the constructor `tree_mask_lo(bitmask)` behind the
loop of lines 47-50. -/
def ctor_labels (N : Nat) (bitmask : List Bool) : List Bool :=
  let length := binary_tree_structure.max_node_cnt N
  propagate_labels length (init_labels length bitmask)

/-- The variable `tree_structure` of the constructor `tree_mask_lo(bitmask)`
behind the pruning loop of lines 53-68. -/
def ctor_tree_structure (N : Nat) (bitmask : List Bool) : binary_tree_structure :=
  let length := binary_tree_structure.max_node_cnt N
  prune_loop length (ctor_labels N bitmask) (binary_tree_structure.init N)

/-- The constructor `tree_mask_lo(bitmask)` (lines 29-129) of
`tree_mask_lo<N>`. -/
def ctor_bitmask (N fuel : Nat) (bitmask : List Bool) : Option tree_mask_lo :=
  let length := binary_tree_structure.max_node_cnt N
  let labels := ctor_labels N bitmask
  let tree_structure := ctor_tree_structure N bitmask
  let root_is_inner := tree_structure.is_inner_node 0
  let lo_struc := [root_is_inner]
  (if root_is_inner then add_node_loop tree_structure labels length fuel [0] lo_struc []
    else some (lo_struc, [labels.getD 0 false])).map fun r => ⟨r.1, r.2⟩

end tree_mask_lo

/-- The node of the implicit complete binary tree that is reached from the node
`node_idx` by the choice bits (`false` = left child, `true` = right child). -/
def binary_tree_structure.node_from (node_idx : Nat) : List Bool → Nat
  | [] => node_idx
  | false :: choices =>
    binary_tree_structure.node_from (binary_tree_structure.left_child_of node_idx) choices
  | true :: choices =>
    binary_tree_structure.node_from (binary_tree_structure.right_child_of node_idx) choices

/-- The node reached from the root by the choice bits is a leaf of the pruned
tree: it is marked as a leaf and all nodes on the way to it are inner nodes. -/
def binary_tree_structure.is_leaf_at (t : binary_tree_structure) (choices : List Bool) : Prop :=
  t.is_inner_node (binary_tree_structure.node_from 0 choices) = false ∧
  ∀ k, k < choices.length →
    t.is_inner_node (binary_tree_structure.node_from 0 (choices.take k)) = true

/-- The bits of the bitmap `B` of length `2 ^ H` in the range of the node that
is reached from the root by the choice bits: the node is the `d`-th node of its
level `l` and covers the positions `[d * 2 ^ (H - l), (d + 1) * 2 ^ (H - l))`. -/
def bitmap_tree.covered (B : List Bool) (H : Nat) (choices : List Bool) : List Bool :=
  (B.drop (iter.path_from 0 choices * 2 ^ (H - choices.length))).take
    (2 ^ (H - choices.length))

/-- All bits of the list are equal. -/
def bitmap_tree.uniform (s : List Bool) : Prop := ∀ x ∈ s, ∀ y ∈ s, x = y

/-- The complete tree below the node `i` of the implicit tree of `2 N - 1`
nodes whose leaves `[N - 1, 2 N - 1)` carry the bits of `B`. -/
def bitmap_tree.heap_complete (N : Nat) (B : List Bool) (i : Nat) : bitmap_tree :=
  if N - 1 ≤ i then .leaf (B.getD (i - (N - 1)) false)
  else .inner (bitmap_tree.heap_complete N B (2 * i + 1))
    (bitmap_tree.heap_complete N B (2 * i + 2))
termination_by N - 1 - i
decreasing_by all_goals omega

/-- The label of the node `p` while the loop of lines 47-50 runs, when the
nodes behind `m` have been added to their parents: a leaf of the complete tree
has its bit, and an inner node has the OR of the labels of its children behind
`m`. -/
def tree_mask_lo.labels_during (N : Nat) (B : List Bool) (m p : Nat) : Bool :=
  if N - 1 ≤ p then B.getD (p - (N - 1)) false
  else (decide (m < 2 * p + 1) && (bitmap_tree.heap_complete N B (2 * p + 1)).label_of_node)
    || (decide (m < 2 * p + 2) && (bitmap_tree.heap_complete N B (2 * p + 2)).label_of_node)

/-! ## Lemmas: logarithm and level-order traversal -/

theorem log_2_loop_two_pow (h : Nat) : ∀ fuel, h < fuel → log_2_loop fuel (2 ^ h) = h := by
  induction h with
  | zero => intro fuel hf; cases fuel with
    | zero => omega
    | succ f => simp [log_2_loop]
  | succ h ih =>
    intro fuel hf
    cases fuel with
    | zero => omega
    | succ f =>
      have h2 : 2 ≤ 2 ^ (h + 1) := by
        have := Nat.one_le_two_pow (n := h); rw [pow_succ]; omega
      have h3 : 2 ^ (h + 1) / 2 = 2 ^ h := by rw [pow_succ]; simp
      simp [log_2_loop, h2, h3, ih f (by omega)]

theorem log_2_two_pow (h : Nat) : log_2 (2 ^ h) = h :=
  log_2_loop_two_pow h _ (Nat.lt_two_pow h)

namespace bitmap_tree

theorem node_cnt_pos (t : bitmap_tree) : 0 < node_cnt t := by
  cases t <;> simp [node_cnt]

theorem sum_node_cnt_children (k : bitmap_tree) :
    ((children k).map node_cnt).sum + 1 = node_cnt k := by
  cases k
  · simp [children, node_cnt]
  · simp [children, node_cnt]; omega

theorem bfs_fixpoint : ∀ (fuel : Nat) (q : List bitmap_tree), (q.map node_cnt).sum ≤ fuel →
    bfs fuel q = q ++ (bfs fuel q).flatMap children := by
  intro fuel
  induction fuel with
  | zero =>
    intro q hq
    cases q with
    | nil => simp [bfs]
    | cons k q => have := node_cnt_pos k; simp at hq; omega
  | succ f ih =>
    intro q hq
    cases q with
    | nil => simp [bfs]
    | cons k q =>
      have hk := sum_node_cnt_children k
      have h1 : ((q ++ children k).map node_cnt).sum ≤ f := by
        simp only [List.map_append, List.sum_append, List.map_cons, List.sum_cons] at hq ⊢
        omega
      have := ih (q ++ children k) h1
      simp only [bfs, List.flatMap_cons, List.cons_append, List.cons.injEq, true_and]
      conv_lhs => rw [this]
      simp [List.append_assoc]

theorem breadth_first_fixpoint (t : bitmap_tree) :
    breadth_first t = t :: (breadth_first t).flatMap children := by
  have := bfs_fixpoint (node_cnt t) [t] (by simp)
  simpa [breadth_first] using this

end bitmap_tree

namespace teb

theorem encode_foldl (nodes : List bitmap_tree) : ∀ (s l : List Bool),
    nodes.foldl
      (fun acc idx =>
        let is_inner := idx.is_inner_node
        (acc.1 ++ [is_inner], if !is_inner then acc.2 ++ [idx.label_of_node] else acc.2))
      (s, l)
    = (s ++ nodes.map bitmap_tree.is_inner_node,
       l ++ (nodes.filter (fun k => !k.is_inner_node)).map bitmap_tree.label_of_node) := by
  induction nodes with
  | nil => intro s l; simp
  | cons k ks ih =>
    intro s l
    simp only [List.foldl_cons, ih]
    cases hk : k.is_inner_node <;> simp [hk, List.filter_cons]

theorem encode_eq (nodes : List bitmap_tree) :
    encode nodes = (nodes.map bitmap_tree.is_inner_node,
       (nodes.filter (fun k => !k.is_inner_node)).map bitmap_tree.label_of_node) := by
  simpa [encode] using encode_foldl nodes [] []

theorem count_trailing_1bits_spec (s : List Bool) :
    s = List.replicate (count_trailing_1bits s) true ++ s.drop (count_trailing_1bits s) := by
  induction s with
  | nil => simp [count_trailing_1bits]
  | cons b s ih =>
    cases b
    · simp [count_trailing_1bits]
    · simp only [count_trailing_1bits, List.replicate_succ, List.drop_succ_cons, List.cons_append,
        List.cons.injEq, true_and]
      exact ih

theorem pop_back_0bits_spec : ∀ (fuel : Nat) (s : List Bool) (cnt : Nat),
    ∃ k, (pop_back_0bits fuel s cnt).1 ++ List.replicate k false = s ∧
      (cnt < 2 ^ 32 → (pop_back_0bits fuel s cnt).2 = (cnt + k) % 2 ^ 32) := by
  intro fuel
  induction fuel with
  | zero =>
    intro s cnt
    exact ⟨0, by simp [pop_back_0bits], fun h => by
      simp only [pop_back_0bits, Nat.add_zero]; exact (Nat.mod_eq_of_lt h).symm⟩
  | succ f ih =>
    intro s cnt
    simp only [pop_back_0bits]
    split
    · rename_i hc
      obtain ⟨k, h1, h2⟩ := ih s.dropLast ((cnt + 1) % 2 ^ 32)
      have hs : s = s.dropLast ++ [false] := by
        have hne : s ≠ [] := by intro h; simp [h] at hc
        have hl := List.dropLast_append_getLast hne
        have : s.getLast hne = false := by
          have h3 := hc.2
          rw [List.getLast_eq_getElem]
          rw [List.getD_eq_getElem?_getD, List.getElem?_eq_getElem (by omega)] at h3
          simpa using h3
        rw [this] at hl
        exact hl.symm
      refine ⟨k + 1, ?_, fun _ => ?_⟩
      · rw [List.replicate_succ', ← List.append_assoc, h1]
        exact hs.symm
      · rw [h2 (Nat.mod_lt _ (by positivity)), Nat.mod_add_mod]
        congr 1
        omega
    · exact ⟨0, by simp, fun h => by
        simp only [Nat.add_zero]; exact (Nat.mod_eq_of_lt h).symm⟩

end teb

namespace teb

theorem ctor_encodes (B : List Bool) (o : Nat) (f : ℚ) :
    Encodes (ctor B o f) (bitmap_tree.ctor B f) := by
  unfold ctor
  simp only [encode_eq]
  split
  · constructor
    · simp only [bitmap_tree.lo_structure]
      generalize (bitmap_tree.ctor B f).breadth_first.map bitmap_tree.is_inner_node = S
      have h1 := count_trailing_1bits_spec S
      obtain ⟨k, h2, h3⟩ := pop_back_0bits_spec (S.drop (count_trailing_1bits S)).length
        (S.drop (count_trailing_1bits S)) 0
      refine ⟨k, ?_, ?_⟩
      · rw [List.append_assoc, h2]
        exact h1
      · rw [h3 (by positivity), Nat.zero_add]
    · rfl
  · constructor
    · exact ⟨0, by simp [bitmap_tree.lo_structure], rfl⟩
    · rfl

theorem Encodes.is_inner_node_eq {t : teb} {T : bitmap_tree} (h : Encodes t T) (k : Nat) :
    t.is_inner_node k = T.lo_structure.getD k false := by
  obtain ⟨il, hs, _⟩ := h.structure_eq
  rw [hs]
  unfold is_inner_node
  simp only [List.getD_eq_getElem?_getD, List.append_assoc]
  split
  · rename_i hk
    rw [List.getElem?_append_left (by simpa using hk)]
    simp [hk]
  · rename_i hk
    rw [List.getElem?_append_right (by simp; omega)]
    simp only [List.length_replicate]
    split
    · rename_i hk2
      rw [List.getElem?_append_right (by omega)]
      simp only [List.getElem?_replicate]
      split <;> rfl
    · rename_i hk2
      rw [List.getElem?_append_left (by omega)]

theorem Encodes.rank_eq {t : teb} {T : bitmap_tree} (h : Encodes t T) (k : Nat) :
    t.rank k = (T.lo_structure.take k).count true := by
  obtain ⟨il, hs, _⟩ := h.structure_eq
  rw [hs]
  unfold rank rank1
  simp only
  split
  · rename_i hk
    rw [List.append_assoc, List.take_append_of_le_length (by simp; omega)]
    simp [List.take_replicate, Nat.min_eq_left (Nat.le_of_lt hk)]
  · rename_i hk
    rw [List.append_assoc, List.take_append_eq_append_take, List.take_append_eq_append_take]
    simp only [List.length_replicate, List.count_append]
    have e1 : List.take k (List.replicate t.implicit_inner_node_cnt_ true)
        = List.replicate t.implicit_inner_node_cnt_ true := by
      rw [List.take_replicate, Nat.min_eq_right (by omega)]
    rw [e1]
    simp only [List.count_replicate_self, List.take_replicate]
    have e3 : List.count true (List.replicate (min (k - t.implicit_inner_node_cnt_ - t.structure_.length)
        il) false) = 0 := by
      simp [List.count_replicate]
    rw [e3]
    have e4 : List.take (min (k - t.implicit_inner_node_cnt_) t.structure_.length) t.structure_
        = List.take (k - t.implicit_inner_node_cnt_) t.structure_ := by
      rw [List.take_eq_take]; simp
    rw [e4, Nat.add_zero]

end teb

namespace bitmap_tree

theorem length_flatMap_children (l : List bitmap_tree) :
    (l.flatMap children).length = 2 * ((l.map is_inner_node).count true) := by
  induction l with
  | nil => simp
  | cons k ks ih =>
    cases k with
    | leaf b => simp [children, is_inner_node, ih]
    | inner a b => simp [children, is_inner_node, ih]; omega

theorem fixpoint_children (T : bitmap_tree) (R : List bitmap_tree)
    (hfix : R = T :: R.flatMap children) (k : Nat) (l r : bitmap_tree)
    (hk : R[k]? = some (inner l r)) :
    R[2 * (((R.map is_inner_node).take k).count true) + 1]? = some l ∧
    R[2 * (((R.map is_inner_node).take k).count true) + 2]? = some r := by
  have hklt : k < R.length := by
    by_contra hc
    rw [List.getElem?_eq_none (by omega)] at hk
    cases hk
  have hsplit : R = R.take k ++ inner l r :: R.drop (k + 1) := by
    have h1 : R[k] = inner l r := by
      rw [List.getElem?_eq_getElem hklt] at hk
      exact Option.some.inj hk
    rw [← h1]
    exact (List.take_append_drop k R).symm.trans (by rw [List.drop_eq_getElem_cons hklt])
  have hX : R.flatMap children
      = (R.take k).flatMap children ++ (l :: r :: (R.drop (k + 1)).flatMap children) := by
    conv_lhs => rw [hsplit]
    simp [List.flatMap_append, children]
  have hlen : ((R.take k).flatMap children).length
      = 2 * (((R.map is_inner_node).take k).count true) := by
    rw [length_flatMap_children, List.map_take]
  have e : ∀ i, R[i + 1]? = (R.flatMap children)[i]? := fun i => by
    have : R[i + 1]? = (T :: R.flatMap children)[i + 1]? := by rw [← hfix]
    rw [this, List.getElem?_cons_succ]
  generalize ((R.map is_inner_node).take k).count true = c at hlen ⊢
  constructor
  · rw [e, hX, List.getElem?_append_right (by omega)]
    simp [hlen]
  · rw [show 2 * c + 2 = (2 * c + 1) + 1 from rfl, e, hX,
      List.getElem?_append_right (by omega)]
    simp [hlen]

theorem breadth_first_children (T : bitmap_tree) (k : Nat) (l r : bitmap_tree)
    (hk : T.breadth_first[k]? = some (inner l r)) :
    T.breadth_first[2 * ((T.lo_structure.take k).count true) + 1]? = some l ∧
    T.breadth_first[2 * ((T.lo_structure.take k).count true) + 2]? = some r :=
  fixpoint_children T T.breadth_first (breadth_first_fixpoint T) k l r hk

theorem count_take_succ_of_inner (T : bitmap_tree) (k : Nat) (l r : bitmap_tree)
    (hk : T.breadth_first[k]? = some (inner l r)) :
    (T.lo_structure.take (k + 1)).count true = (T.lo_structure.take k).count true + 1 := by
  have hS : T.lo_structure[k]? = some true := by
    simp [lo_structure, hk, is_inner_node]
  have hklt : k < T.lo_structure.length := by
    by_contra hc
    rw [List.getElem?_eq_none (by omega)] at hS
    cases hS
  rw [List.take_succ, hS]
  simp

theorem lo_labels_getElem (T : bitmap_tree) (k : Nat) (b : Bool)
    (hk : T.breadth_first[k]? = some (leaf b)) :
    T.lo_labels[k - (T.lo_structure.take k).count true]? = some b := by
  unfold lo_labels lo_structure
  generalize T.breadth_first = R at hk
  have hklt : k < R.length := by
    by_contra hc
    rw [List.getElem?_eq_none (by omega)] at hk
    cases hk
  have hsplit : R = R.take k ++ leaf b :: R.drop (k + 1) := by
    have h1 : R[k] = leaf b := by
      rw [List.getElem?_eq_getElem hklt] at hk
      exact Option.some.inj hk
    rw [← h1]
    exact (List.take_append_drop k R).symm.trans (by rw [List.drop_eq_getElem_cons hklt])
  have hcnt : ∀ (l : List bitmap_tree),
      (l.filter (fun k => !k.is_inner_node)).length
        = l.length - ((l.map is_inner_node).count true) := by
    intro l
    induction l with
    | nil => simp
    | cons a as ih =>
      have hle : ((as.map is_inner_node).count true) ≤ as.length := by
        have := List.count_le_length true (as.map is_inner_node)
        simpa using this
      cases ha : a.is_inner_node
      · simp [List.filter_cons, ha, ih]; omega
      · simp [List.filter_cons, ha, ih]
  have hidx : k - List.count true (List.take k (List.map is_inner_node R))
      = ((R.take k).filter (fun k => !k.is_inner_node)).length := by
    rw [hcnt, List.map_take, List.length_take, Nat.min_eq_left (Nat.le_of_lt hklt)]
  rw [hidx]
  have e : (R.filter (fun k => !k.is_inner_node)).map label_of_node
      = ((R.take k).filter (fun k => !k.is_inner_node)).map label_of_node
        ++ b :: ((R.drop (k + 1)).filter (fun k => !k.is_inner_node)).map label_of_node := by
    conv_lhs => rw [hsplit]
    rw [List.filter_append, List.map_append]
    simp [List.filter_cons, is_inner_node, label_of_node]
  rw [e, List.getElem?_append_right (by simp)]
  simp

end bitmap_tree

/-! ## Lemmas: the bits of a tree -/

namespace bitmap_tree

theorem length_to_bits : ∀ (t : bitmap_tree) (h : Nat), t.height ≤ h → (to_bits h t).length = 2 ^ h := by
  intro t
  induction t with
  | leaf b => intro h _; simp [to_bits]
  | inner l r ihl ihr =>
    intro h hh
    simp only [height] at hh
    obtain ⟨h', rfl⟩ : ∃ h', h = h' + 1 := ⟨h - 1, by omega⟩
    simp only [to_bits, Nat.add_sub_cancel, List.length_append]
    rw [ihl h' (by omega), ihr h' (by omega), pow_succ]
    omega

theorem height_complete : ∀ (h : Nat) (B : List Bool), (complete h B).height = h := by
  intro h
  induction h with
  | zero => intro B; simp [complete, height]
  | succ h ih => intro B; simp [complete, height, ih]

theorem to_bits_complete : ∀ (h : Nat) (B : List Bool), B.length = 2 ^ h →
    to_bits h (complete h B) = B := by
  intro h
  induction h with
  | zero =>
    intro B hB
    match B, hB with
    | [b], _ => simp [complete, to_bits]
  | succ h ih =>
    intro B hB
    have h2 : 2 ^ (h + 1) = 2 ^ h + 2 ^ h := by rw [pow_succ]; omega
    simp only [complete, to_bits, Nat.add_sub_cancel]
    rw [ih _ (by simp [hB, h2]), ih _ (by simp [hB, h2])]
    exact List.take_append_drop _ _

theorem height_prune (t : bitmap_tree) : (prune t).height ≤ t.height := by
  induction t with
  | leaf b => simp [prune]
  | inner l r ihl ihr =>
    simp only [prune]
    split
    · rename_i a b hl hr
      split <;> simp [height]
    · rename_i l' r' hne
      simp only [height]
      omega

theorem to_bits_prune : ∀ (t : bitmap_tree) (h : Nat), t.height ≤ h →
    to_bits h (prune t) = to_bits h t := by
  intro t
  induction t with
  | leaf b => intro h _; simp [prune]
  | inner l r ihl ihr =>
    intro h hh
    simp only [height] at hh
    obtain ⟨h', rfl⟩ : ∃ h', h = h' + 1 := ⟨h - 1, by omega⟩
    have hl := ihl h' (by omega)
    have hr := ihr h' (by omega)
    simp only [prune]
    split
    · rename_i a b hpl hpr
      rw [hpl] at hl
      rw [hpr] at hr
      split
      · rename_i hab
        subst hab
        simp only [to_bits, Nat.add_sub_cancel] at hl hr ⊢
        rw [← hl, ← hr, ← List.replicate_add, pow_succ]
        congr 1
        omega
      · simp only [to_bits, Nat.add_sub_cancel] at hl hr ⊢
        rw [← hl, ← hr]
    · simp only [to_bits, Nat.add_sub_cancel]
      rw [hl, hr]

end bitmap_tree

/-! ## Lemmas: point lookup -/

theorem bit_test_eq (x i : Nat) : bit_test x i = decide (x / 2 ^ i % 2 = 1) := by
  unfold bit_test
  rw [Nat.shiftRight_eq_div_pow, Nat.and_one_is_mod]
  rcases Nat.mod_two_eq_zero_or_one (x / 2 ^ i) with h | h <;> simp [h]

theorem mod_two_pow_succ_of_bit (x i : Nat) :
    x % 2 ^ (i + 1) = (if bit_test x i then 2 ^ i else 0) + x % 2 ^ i := by
  rw [bit_test_eq, Nat.mod_pow_succ]
  rcases Nat.mod_two_eq_zero_or_one (x / 2 ^ i) with h | h <;> simp [h]
  omega

namespace teb

theorem breadth_first_zero (T : bitmap_tree) : T.breadth_first[0]? = some T := by
  rw [bitmap_tree.breadth_first_fixpoint]; simp

/-- Navigation facts at an inner node. -/
theorem Encodes.inner_nav {t : teb} {T : bitmap_tree} (h : Encodes t T) (k : Nat)
    (l r : bitmap_tree) (hk : T.breadth_first[k]? = some (bitmap_tree.inner l r)) :
    1 ≤ t.rank (k + 1) ∧
    T.breadth_first[2 * t.rank (k + 1) - 1]? = some l ∧
    T.breadth_first[2 * t.rank (k + 1)]? = some r := by
  have h1 := bitmap_tree.breadth_first_children T k l r hk
  have h2 := bitmap_tree.count_take_succ_of_inner T k l r hk
  rw [h.rank_eq, h2]
  refine ⟨by omega, ?_, ?_⟩
  · rw [show 2 * (List.count true (List.take k T.lo_structure) + 1) - 1
      = 2 * List.count true (List.take k T.lo_structure) + 1 by omega]
    exact h1.1
  · exact h1.2

theorem Encodes.is_inner_node_of {t : teb} {T : bitmap_tree} (h : Encodes t T) (k : Nat)
    (c : bitmap_tree) (hk : T.breadth_first[k]? = some c) :
    t.is_inner_node k = c.is_inner_node := by
  rw [h.is_inner_node_eq]
  simp [bitmap_tree.lo_structure, List.getD_eq_getElem?_getD, hk]

theorem Encodes.label_of_leaf {t : teb} {T : bitmap_tree} (h : Encodes t T) (k : Nat)
    (b : Bool) (hk : T.breadth_first[k]? = some (bitmap_tree.leaf b)) :
    t.labels_[k - t.rank k]?.getD false = b := by
  rw [h.rank_eq, h.labels_eq, bitmap_tree.lo_labels_getElem T k b hk]
  rfl

theorem Encodes.test_loop_spec {t : teb} {T : bitmap_tree} (h : Encodes t T) (pos : Nat) :
    ∀ (i k : Nat) (l r : bitmap_tree),
      T.breadth_first[k]? = some (bitmap_tree.inner l r) →
      (bitmap_tree.inner l r).height ≤ i →
      t.test_loop pos i k
        = some ((bitmap_tree.to_bits i (bitmap_tree.inner l r)).getD (pos % 2 ^ i) false) := by
  intro i
  induction i with
  | zero => intro k l r _ hh; simp [bitmap_tree.height] at hh
  | succ i ih =>
    intro k l r hk hh
    simp only [bitmap_tree.height] at hh
    obtain ⟨hr1, hl, hr⟩ := h.inner_nav k l r hk
    have hll := bitmap_tree.length_to_bits l i (by omega)
    have hlr := bitmap_tree.length_to_bits r i (by omega)
    have hmod : pos % 2 ^ i < 2 ^ i := Nat.mod_lt _ (by positivity)
    simp only [test_loop, bitmap_tree.to_bits, Nat.add_sub_cancel]
    rw [mod_two_pow_succ_of_bit]
    simp only [List.getD_eq_getElem?_getD]
    cases hb : bit_test pos i
    · -- left child
      simp only [Bool.toNat_false, Nat.add_zero, Bool.false_eq_true, if_false, Nat.zero_add]
      rw [List.getElem?_append_left (by omega)]
      cases l with
      | leaf b =>
        have := h.is_inner_node_of _ _ hl
        simp only [is_leaf_node, this, bitmap_tree.is_inner_node, Bool.not_false, if_true]
        rw [h.label_of_leaf _ _ hl]
        simp [bitmap_tree.to_bits, List.getElem?_replicate, hmod]
      | inner a b =>
        have := h.is_inner_node_of _ _ hl
        simp only [is_leaf_node, this, bitmap_tree.is_inner_node, Bool.not_true,
          Bool.false_eq_true, if_false]
        rw [ih _ a b hl (by simp only [bitmap_tree.height] at hh ⊢; omega), List.getD_eq_getElem?_getD]
    · -- right child
      simp only [Bool.toNat_true, if_true]
      rw [show 2 * t.rank (k + 1) - 1 + 1 = 2 * t.rank (k + 1) by omega]
      rw [List.getElem?_append_right (by omega)]
      rw [show 2 ^ i + pos % 2 ^ i - (bitmap_tree.to_bits i l).length = pos % 2 ^ i by omega]
      cases r with
      | leaf b =>
        have := h.is_inner_node_of _ _ hr
        simp only [is_leaf_node, this, bitmap_tree.is_inner_node, Bool.not_false, if_true]
        rw [h.label_of_leaf _ _ hr]
        simp [bitmap_tree.to_bits, List.getElem?_replicate, hmod]
      | inner a b =>
        have := h.is_inner_node_of _ _ hr
        simp only [is_leaf_node, this, bitmap_tree.is_inner_node, Bool.not_true,
          Bool.false_eq_true, if_false]
        rw [ih _ a b hr (by simp only [bitmap_tree.height] at hh ⊢; omega), List.getD_eq_getElem?_getD]

/-- `test` reads the bit the tree asserts. -/
theorem Encodes.test_spec {t : teb} {T : bitmap_tree} (h : Encodes t T) (H pos : Nat)
    (hn : t.n_ = 2 ^ H) (hT : T.height ≤ H) (hp : pos < 2 ^ H) :
    t.test pos = some ((bitmap_tree.to_bits H T).getD pos false) := by
  unfold test
  simp only [hn, log_2_two_pow]
  have h0 := breadth_first_zero T
  cases T with
  | leaf b =>
    have := h.is_inner_node_of _ _ h0
    simp only [is_leaf_node, this, bitmap_tree.is_inner_node, Bool.not_false, if_true]
    have hl := h.label_of_leaf _ _ h0
    simp only [get_label, get_label_idx, List.getD_eq_getElem?_getD, hl]
    simp [bitmap_tree.to_bits, List.getElem?_replicate, hp]
  | inner l r =>
    have := h.is_inner_node_of _ _ h0
    simp only [is_leaf_node, this, bitmap_tree.is_inner_node, Bool.not_true,
      Bool.false_eq_true, if_false]
    rw [h.test_loop_spec pos H 0 l r h0 hT, Nat.mod_eq_of_lt hp]

end teb

namespace teb

theorem write_label_eq (label : Bool) (wp : Nat) : ∀ (w : Nat) (ret : List Bool),
    wp + w ≤ ret.length →
    write_label label wp w ret = ret.take wp ++ List.replicate w label ++ ret.drop (wp + w) := by
  intro w
  induction w with
  | zero => intro ret _; simp [write_label]
  | succ w ih =>
    intro ret hlen
    have h1 : write_label label wp (w + 1) ret = (write_label label wp w ret).set (w + wp) label := by
      simp [write_label, List.range_succ, List.foldl_append]
    rw [h1, ih ret (by omega)]
    have hlt : wp + w < ret.length := by omega
    rw [List.set_append_right _ _ (by simp; omega)]
    simp only [List.length_append, List.length_take, List.length_replicate,
      Nat.min_eq_left (by omega : wp ≤ ret.length)]
    rw [show w + wp - (wp + w) = 0 by omega, List.drop_eq_getElem_cons hlt, List.set_cons_zero,
      List.replicate_succ', List.append_assoc, List.append_assoc]
    simp [Nat.add_assoc]

theorem left_child_eq (t : teb) (k : Nat) : t.left_child k = 2 * t.rank (k + 1) - 1 := by
  unfold left_child
  split
  · rename_i hk
    unfold rank
    simp only
    split
    · omega
    · have : k + 1 = t.implicit_inner_node_cnt_ := by omega
      simp only [this, Nat.sub_self, Nat.zero_min, rank1, List.take_zero, List.count_nil]
      omega
  · rfl

theorem right_child_eq (t : teb) (k : Nat) : t.right_child k = 2 * t.rank (k + 1) := by
  unfold right_child
  split
  · rename_i hk
    unfold rank
    simp only
    split
    · omega
    · have : k + 1 = t.implicit_inner_node_cnt_ := by omega
      simp only [this, Nat.sub_self, Nat.zero_min, rank1, List.take_zero, List.count_nil]
      omega
  · rfl

/-- A loop that decodes like the loops of `to_bitset`: it returns at the empty
work list, steps from an inner node to its two children, and writes the run of
a leaf whose level is `good`.  From a work list of nodes of the tree, it writes
the bits that these nodes assert. -/
theorem Encodes.decode_loop_spec {t : teb} {T : bitmap_tree} (h : Encodes t T) (H : Nat)
    (loop : Nat → List (Nat × Nat) → Nat → List Bool → Option (List Bool))
    (good : Nat → Prop) (hgood : ∀ l, good (l + 1))
    (hnil : ∀ fuel wp ret, loop fuel [] wp ret = some ret)
    (hstep : ∀ fuel idx level nodes wp ret, (t.is_inner_node idx = true ∨ good level) →
      level ≤ H →
      loop (fuel + 1) ((idx, level) :: nodes) wp ret
        = if t.is_inner_node idx then
            loop fuel ((t.left_child idx, level + 1) :: (t.right_child idx, level + 1) :: nodes)
              wp ret
          else
            loop fuel nodes (wp + 1 <<< (H - level))
              (write_label (t.get_label idx) wp (1 <<< (H - level)) ret)) :
    ∀ (fuel : Nat) (ts : List (Nat × Nat × bitmap_tree)) (wp : Nat) (ret : List Bool),
      (∀ x ∈ ts, T.breadth_first[x.1]? = some x.2.2 ∧ x.2.2.height + x.2.1 ≤ H ∧
        (x.2.2.is_inner_node = true ∨ good x.2.1)) →
      ((ts.map (fun x => x.2.2.node_cnt)).sum ≤ fuel) →
      wp + (flat_bits H ts).length ≤ ret.length →
      loop fuel (ts.map (fun x => (x.1, x.2.1))) wp ret
        = some (ret.take wp ++ flat_bits H ts ++ ret.drop (wp + (flat_bits H ts).length)) := by
  intro fuel
  induction fuel with
  | zero =>
    intro ts wp ret hts hfuel hlen
    cases ts with
    | nil => simp [hnil, flat_bits]
    | cons x xs =>
      have := bitmap_tree.node_cnt_pos x.2.2
      simp at hfuel
      omega
  | succ fuel ih =>
    intro ts wp ret hts hfuel hlen
    cases ts with
    | nil => simp [hnil, flat_bits]
    | cons x xs =>
      obtain ⟨idx, level, c⟩ := x
      have hx := hts (idx, level, c) (List.mem_cons_self _ _)
      have hxs : ∀ x ∈ xs, T.breadth_first[x.1]? = some x.2.2 ∧ x.2.2.height + x.2.1 ≤ H ∧
          (x.2.2.is_inner_node = true ∨ good x.2.1) :=
        fun x hx => hts x (List.mem_cons_of_mem _ hx)
      simp only at hx
      have hin := h.is_inner_node_of idx c hx.1
      simp only [List.map_cons]
      rw [hstep fuel idx level _ wp ret (by rw [hin]; exact hx.2.2)
        (by have := hx.2.1; omega)]
      simp only [hin]
      cases c with
      | leaf b =>
        simp only [bitmap_tree.is_inner_node, Bool.false_eq_true, if_false]
        have hlab : t.get_label idx = b := by
          simp only [get_label, get_label_idx, List.getD_eq_getElem?_getD]
          exact h.label_of_leaf idx b hx.1
        have hflat : flat_bits H ((idx, level, bitmap_tree.leaf b) :: xs)
            = List.replicate (2 ^ (H - level)) b ++ flat_bits H xs := by
          simp [flat_bits, bitmap_tree.to_bits]
        rw [hflat] at hlen ⊢
        simp only [List.length_append, List.length_replicate] at hlen
        rw [hlab, Nat.shiftLeft_eq, Nat.one_mul]
        generalize 2 ^ (H - level) = w at hlen ⊢
        generalize hF : flat_bits H xs = F at hlen ⊢
        have hfuel' : (xs.map (fun x => x.2.2.node_cnt)).sum ≤ fuel := by
          simp [bitmap_tree.node_cnt] at hfuel; omega
        have hwl := write_label_eq b wp w ret (by omega)
        have hlen' : (write_label b wp w ret).length = ret.length := by
          rw [hwl]; simp; omega
        rw [ih xs (wp + w) (write_label b wp w ret) hxs hfuel' (by rw [hF, hlen']; omega), hF]
        congr 1
        have e1 : (write_label b wp w ret).take (wp + w) = List.take wp ret ++ List.replicate w b := by
          rw [hwl, List.take_append_of_le_length (by simp; omega)]
          rw [List.take_of_length_le (by simp)]
        have e2 : (write_label b wp w ret).drop (wp + w + F.length)
            = List.drop (wp + (w + F.length)) ret := by
          rw [hwl, List.drop_append_eq_append_drop]
          rw [List.drop_of_length_le (by simp; omega)]
          simp only [List.length_append, List.length_take, List.length_replicate,
            Nat.min_eq_left (by omega : wp ≤ ret.length), List.nil_append, List.drop_drop]
          congr 1
          omega
        rw [e1, e2]
        simp [List.append_assoc]
      | inner l r =>
        simp only [bitmap_tree.is_inner_node, if_true]
        obtain ⟨hr1, hl, hr⟩ := h.inner_nav idx l r hx.1
        have hh := hx.2.1
        simp only [bitmap_tree.height] at hh
        have hts' : ∀ x ∈ (2 * t.rank (idx + 1) - 1, level + 1, l)
            :: (2 * t.rank (idx + 1), level + 1, r) :: xs,
            T.breadth_first[x.1]? = some x.2.2 ∧ x.2.2.height + x.2.1 ≤ H ∧
              (x.2.2.is_inner_node = true ∨ good x.2.1) := by
          intro x hx'
          simp only [List.mem_cons] at hx'
          rcases hx' with rfl | rfl | hx'
          · exact ⟨hl, by simp only; omega, Or.inr (hgood _)⟩
          · exact ⟨hr, by simp only; omega, Or.inr (hgood _)⟩
          · exact hxs x hx'
        have hflat : flat_bits H ((idx, level, bitmap_tree.inner l r) :: xs)
            = flat_bits H ((2 * t.rank (idx + 1) - 1, level + 1, l)
                :: (2 * t.rank (idx + 1), level + 1, r) :: xs) := by
          simp [flat_bits, bitmap_tree.to_bits, Nat.sub_add_eq]
        have := ih ((2 * t.rank (idx + 1) - 1, level + 1, l)
            :: (2 * t.rank (idx + 1), level + 1, r) :: xs) wp ret hts'
            (by simp [bitmap_tree.node_cnt] at hfuel ⊢; omega)
            (by rw [← hflat]; exact hlen)
        rw [hflat, ← this, left_child_eq, right_child_eq]
        rfl

end teb

namespace bitmap_tree

theorem node_cnt_le : ∀ (t : bitmap_tree) (h : Nat), t.height ≤ h → t.node_cnt + 1 ≤ 2 * 2 ^ h := by
  intro t
  induction t with
  | leaf b => intro h _; have := Nat.one_le_two_pow (n := h); simp [node_cnt]; omega
  | inner l r ihl ihr =>
    intro h hh
    simp only [height] at hh
    obtain ⟨h', rfl⟩ : ∃ h', h = h' + 1 := ⟨h - 1, by omega⟩
    have := ihl h' (by omega)
    have := ihr h' (by omega)
    simp only [node_cnt, pow_succ]
    omega

theorem ctor_zero (B : List Bool) : ctor B 0 = prune (complete (log_2 B.length) B) := by
  simp [ctor]

theorem height_ctor_zero (B : List Bool) (H : Nat) (hB : B.length = 2 ^ H) :
    (ctor B 0).height ≤ H := by
  rw [ctor_zero, hB, log_2_two_pow]
  exact (height_prune _).trans (le_of_eq (height_complete H B))

theorem to_bits_ctor_zero (B : List Bool) (H : Nat) (hB : B.length = 2 ^ H) :
    to_bits H (ctor B 0) = B := by
  rw [ctor_zero, hB, log_2_two_pow, to_bits_prune _ _ (le_of_eq (height_complete H B)),
    to_bits_complete H B hB]

end bitmap_tree

namespace teb

theorem ctor_n (B : List Bool) (o : Nat) (f : ℚ) : (ctor B o f).n_ = B.length := by
  unfold ctor; simp only; split <;> rfl

theorem ctor_root_case (B : List Bool) (o : Nat) (f : ℚ) :
    ((ctor B o f).implicit_inner_node_cnt_ = 0 ∧ (ctor B o f).structure_.length ≤ 1)
      ↔ (bitmap_tree.ctor B f).is_inner_node = false := by
  have h0 := breadth_first_zero (bitmap_tree.ctor B f)
  unfold ctor
  simp only [encode_eq]
  generalize bitmap_tree.ctor B f = T at h0 ⊢
  cases T with
  | leaf b =>
    have hR : (bitmap_tree.leaf b).breadth_first = [bitmap_tree.leaf b] := by
      simp [bitmap_tree.breadth_first, bitmap_tree.bfs, bitmap_tree.node_cnt, bitmap_tree.children]
    simp only [hR, List.map_cons, List.map_nil, bitmap_tree.is_inner_node, iff_true]
    split <;> simp [count_trailing_1bits, pop_back_0bits]
  | inner l r =>
    have h1 := (bitmap_tree.breadth_first_children _ 0 l r h0).1
    have hlen : 1 < (bitmap_tree.inner l r).breadth_first.length := by
      by_contra hc
      rw [List.getElem?_eq_none (by simp at hc ⊢; omega)] at h1
      cases h1
    obtain ⟨R', hR'⟩ : ∃ R', (bitmap_tree.inner l r).breadth_first = bitmap_tree.inner l r :: R' := by
      cases hR : (bitmap_tree.inner l r).breadth_first with
      | nil => simp [hR] at h0
      | cons a R' => simp [hR] at h0; exact ⟨R', by rw [h0]⟩
    split
    · simp [hR', bitmap_tree.is_inner_node, count_trailing_1bits]
    · have hlen' : 1 < R'.length + 1 := by simpa [hR'] using hlen
      simp only [hR', List.map_cons, List.length_cons, List.length_map, bitmap_tree.is_inner_node]
      constructor
      · intro hc; omega
      · intro hc; cases hc

/-- For a tree of height at most 31 the loop of `to_bitset` shifts by at most
30 bits at every leaf below the root. -/
theorem Encodes.to_bitset_loop_spec {t : teb} {T : bitmap_tree} (h : Encodes t T) (H : Nat)
    (hH : H ≤ 31) :
    ∀ (fuel : Nat) (ts : List (Nat × Nat × bitmap_tree)) (wp : Nat) (ret : List Bool),
      (∀ x ∈ ts, T.breadth_first[x.1]? = some x.2.2 ∧ x.2.2.height + x.2.1 ≤ H ∧
        (x.2.2.is_inner_node = true ∨ 1 ≤ x.2.1)) →
      ((ts.map (fun x => x.2.2.node_cnt)).sum ≤ fuel) →
      wp + (flat_bits H ts).length ≤ ret.length →
      t.to_bitset_loop H fuel (ts.map (fun x => (x.1, x.2.1))) wp ret
        = some (ret.take wp ++ flat_bits H ts ++ ret.drop (wp + (flat_bits H ts).length)) := by
  refine h.decode_loop_spec H (t.to_bitset_loop H) (fun l => 1 ≤ l) (fun l => by omega) ?_ ?_
  · intro fuel wp ret
    cases fuel <;> rfl
  · intro fuel idx level nodes wp ret hg hle
    simp only [to_bitset_loop]
    by_cases hin : t.is_inner_node idx = true
    · rw [if_pos hin, if_pos hin]
    · rw [if_neg hin, if_neg hin]
      have hl : 1 ≤ level := by
        rcases hg with hg | hg
        · exact absurd hg hin
        · exact hg
      rw [if_pos ⟨hle, by omega⟩]

theorem ctor_to_bitset (B : List Bool) (o : Nat) (f : ℚ) (H fuel : Nat)
    (hB : B.length = 2 ^ H) (hH : H ≤ 31) (hT : (bitmap_tree.ctor B f).height ≤ H)
    (hfuel : 2 * B.length ≤ fuel) :
    (ctor B o f).to_bitset fuel = some (bitmap_tree.to_bits H (bitmap_tree.ctor B f)) := by
  have henc := ctor_encodes B o f
  have hroot := ctor_root_case B o f
  have hn := ctor_n B o f
  have h0 := breadth_first_zero (bitmap_tree.ctor B f)
  have hcnt := bitmap_tree.node_cnt_le _ _ hT
  generalize bitmap_tree.ctor B f = T at *
  generalize ctor B o f = t at *
  unfold to_bitset
  cases T with
  | leaf b =>
    have hl := henc.label_of_leaf 0 b h0
    simp only [rank, Nat.sub_zero] at hl
    rw [if_pos (hroot.2 rfl)]
    have hl' : t.labels_[0]?.getD false = b := by
      by_cases hII : 0 < t.implicit_inner_node_cnt_
      · simpa [hII] using hl
      · have : t.implicit_inner_node_cnt_ = 0 := by omega
        simpa [this, rank1] using hl
    simp only [List.getD_eq_getElem?_getD, hl', hn, hB, bitmap_tree.to_bits]
    cases b <;> simp
  | inner l r =>
    have hne : ¬ (t.implicit_inner_node_cnt_ = 0 ∧ t.structure_.length ≤ 1) := by
      intro hc
      have := hroot.1 hc
      simp [bitmap_tree.is_inner_node] at this
    rw [if_neg hne]
    have hlenT := bitmap_tree.length_to_bits _ _ hT
    have := henc.to_bitset_loop_spec H hH fuel [(0, 0, bitmap_tree.inner l r)] 0
      (List.replicate t.n_ false)
      (by intro x hx; simp only [List.mem_singleton] at hx; subst hx
          exact ⟨h0, by simpa using hT, Or.inl rfl⟩)
      (by simp; omega)
      (by simp [flat_bits, hlenT, hn, hB])
    simp only [List.map_cons, List.map_nil] at this
    rw [hn, hB, log_2_two_pow]
    rw [hn, hB] at this
    rw [this]
    simp [flat_bits, hlenT]

end teb

theorem log_2_loop_eq (l : Nat) : ∀ (fuel n : Nat), l < fuel → 2 ^ l ≤ n → n < 2 ^ (l + 1) →
    log_2_loop fuel n = l := by
  induction l with
  | zero =>
    intro fuel n hf h1 h2
    cases fuel with
    | zero => omega
    | succ f =>
      have : ¬ 2 ≤ n := by simp at h2; omega
      simp [log_2_loop, this]
  | succ l ih =>
    intro fuel n hf h1 h2
    cases fuel with
    | zero => omega
    | succ f =>
      have hp : 2 ^ (l + 1) = 2 * 2 ^ l := by rw [pow_succ]; omega
      have hp2 : 2 ^ (l + 1 + 1) = 2 * 2 ^ (l + 1) := by rw [pow_succ]; omega
      have hpos := Nat.one_le_two_pow (n := l)
      have h2n : 2 ≤ n := by omega
      simp only [log_2_loop, h2n, if_true]
      rw [ih f (n / 2) (by omega) (by omega) (by omega)]

theorem log_2_path (l j : Nat) (hj : j < 2 ^ l) : log_2 (2 ^ l + j) = l := by
  have := Nat.lt_two_pow l
  exact log_2_loop_eq l _ _ (by omega) (by omega) (by rw [pow_succ]; omega)

theorem xor_sentinel (l j : Nat) (hj : j < 2 ^ l) : (2 ^ l + j) ^^^ 2 ^ l = j := by
  have h1 : 2 ^ l + j = 2 ^ l ||| j := by
    have := Nat.mul_add_lt_is_or hj 1
    simpa using this
  rw [h1]
  apply Nat.eq_of_testBit_eq
  intro i
  rw [Nat.testBit_xor, Nat.testBit_or, Nat.testBit_two_pow]
  by_cases hi : l = i
  · subst hi
    simp [Nat.testBit_lt_two_pow hj]
  · simp [hi]

theorem path_msb_shift (l : Nat) (hl : l ≤ 63) : iter.path_msb >>> (63 - l) = 2 ^ l := by
  unfold iter.path_msb
  rw [Nat.shiftLeft_eq, Nat.one_mul, Nat.shiftRight_eq_div_pow]
  have : 63 = (63 - l) + l := by omega
  conv_lhs => rw [this, pow_add]
  have hpos : 0 < 2 ^ (63 - l) := by positivity
  rw [show 63 - l + l - l = 63 - l by omega]
  exact Nat.mul_div_cancel_left _ hpos

theorem u64_sub_eq (a b : Nat) (hb : b ≤ a) (ha : a < 2 ^ 64) : u64_sub a b = a - b := by
  unfold u64_sub
  rw [Nat.mod_eq_of_lt (by omega : b < 2 ^ 64)]
  rw [show a + 2 ^ 64 - b = (a - b) + 2 ^ 64 by omega, Nat.add_mod_right,
    Nat.mod_eq_of_lt (by omega)]

theorem u64_shl_eq (a s : Nat) (h : a * 2 ^ s < 2 ^ 64) : u64_shl a s = a * 2 ^ s := by
  unfold u64_shl
  rw [Nat.shiftLeft_eq, Nat.mod_eq_of_lt h]

theorem pack_node_idx (k path : Nat) (hk : k < 2 ^ 32) (hp : path < 2 ^ 32) :
    (u64_shl k 32 ||| path) >>> 32 = k := by
  rw [u64_shl_eq k 32 (by omega), Nat.mul_comm, ← Nat.mul_add_lt_is_or hp k,
    Nat.shiftRight_eq_div_pow]
  rw [Nat.mul_add_div (by positivity), Nat.div_eq_of_lt hp]
  rfl

theorem pack_path (k path : Nat) (hk : k < 2 ^ 32) (hp : path < 2 ^ 32) :
    (u64_shl k 32 ||| path) &&& ((1 <<< 32) - 1) = path := by
  rw [u64_shl_eq k 32 (by omega), Nat.mul_comm, ← Nat.mul_add_lt_is_or hp k]
  rw [show (1 <<< 32) - 1 = 2 ^ 32 - 1 by decide, Nat.and_pow_two_sub_one_eq_mod,
    Nat.mul_add_mod, Nat.mod_eq_of_lt hp]

theorem or_one_of_even (p : Nat) : (2 * p) ||| 1 = 2 * p + 1 := by
  have := Nat.mul_add_lt_is_or (i := 1) (b := 1) (by decide) p
  simpa using this.symm

namespace bitmap_tree

theorem length_bfs_le : ∀ (fuel : Nat) (q : List bitmap_tree), (bfs fuel q).length ≤ fuel := by
  intro fuel
  induction fuel with
  | zero => intro q; simp [bfs]
  | succ f ih =>
    intro q
    cases q with
    | nil => simp [bfs]
    | cons k q => simp only [bfs, List.length_cons]; have := ih (q ++ children k); omega

theorem lt_of_breadth_first_getElem (T : bitmap_tree) (H k : Nat) (c : bitmap_tree)
    (hT : T.height ≤ H) (hk : T.breadth_first[k]? = some c) : k + 2 ≤ 2 * 2 ^ H := by
  have hklt : k < T.breadth_first.length := by
    by_contra hc
    rw [List.getElem?_eq_none (by omega)] at hk
    cases hk
  have h1 := length_bfs_le (node_cnt T) [T]
  have h2 := node_cnt_le T H hT
  unfold breadth_first at hklt
  omega

end bitmap_tree

namespace iter

theorem chain_mono (T : bitmap_tree) (H : Nat) {e e' : Nat} (he : e' ≤ e) :
    ∀ xs, chain T H e xs → chain T H e' xs := by
  intro xs h
  cases xs with
  | nil => trivial
  | cons x xs => exact ⟨h.1, le_trans he h.2.1, h.2.2⟩

theorem entry.first_le_last (H : Nat) (x : entry) : x.first H ≤ x.last H := by
  unfold entry.first entry.last
  exact Nat.mul_le_mul_right _ (Nat.le_succ _)

theorem seg_split (L X P Q : List Bool) (a w : Nat)
    (hX : X = (L.drop a).take (2 * w)) (hPQ : X = P ++ Q) (hP : P.length = w) :
    P = (L.drop a).take w ∧ Q = (L.drop (a + w)).take w := by
  constructor
  · have : P = X.take w := by rw [hPQ, List.take_left' hP]
    rw [this, hX, List.take_take, Nat.min_eq_left (by omega)]
  · have : Q = X.drop w := by rw [hPQ, List.drop_left' hP]
    rw [this, hX, List.drop_take, List.drop_drop]
    congr 1
    omega

end iter

namespace iter

theorem two_pow_le_of_le {a b : Nat} (h : a ≤ b) : 2 ^ a ≤ 2 ^ b :=
  Nat.pow_le_pow_right (by decide) h

theorem entry.bounds (T : bitmap_tree) (H : Nat) (x : entry) (hH : H ≤ 31) (hT : T.height ≤ H)
    (hx : x.valid T H) : x.node_idx < 2 ^ 32 ∧ x.path < 2 ^ 32 ∧ x.level ≤ H := by
  obtain ⟨h1, h2, h3, _⟩ := hx
  have hk := bitmap_tree.lt_of_breadth_first_getElem T H _ _ hT h1
  have hl : x.level ≤ H := by omega
  have hp1 : 2 * 2 ^ H ≤ 2 ^ 32 := by
    have := two_pow_le_of_le (show H + 1 ≤ 32 by omega)
    rw [pow_succ] at this; omega
  have hp2 : 2 ^ x.level ≤ 2 ^ H := two_pow_le_of_le hl
  refine ⟨by omega, ?_, hl⟩
  unfold entry.path
  omega

theorem entry.unpack (T : bitmap_tree) (H : Nat) (x : entry) (hH : H ≤ 31) (hT : T.height ≤ H)
    (hx : x.valid T H) :
    x.pack >>> 32 = x.node_idx ∧ x.pack &&& ((1 <<< 32) - 1) = x.path := by
  obtain ⟨h1, h2, _⟩ := entry.bounds T H x hH hT hx
  exact ⟨pack_node_idx _ _ h1 h2, pack_path _ _ h1 h2⟩

theorem entry.children_valid {tm : teb} {T : bitmap_tree} (henc : tm.Encodes T) (H : Nat)
    (k lv j : Nat) (l r : bitmap_tree)
    (hx : entry.valid T H ⟨k, lv, j, bitmap_tree.inner l r⟩) :
    entry.valid T H ⟨2 * tm.rank (k + 1) - 1, lv + 1, 2 * j, l⟩ ∧
    entry.valid T H ⟨2 * tm.rank (k + 1), lv + 1, 2 * j + 1, r⟩ ∧
    entry.first H ⟨2 * tm.rank (k + 1) - 1, lv + 1, 2 * j, l⟩
      = entry.first H ⟨k, lv, j, bitmap_tree.inner l r⟩ ∧
    entry.last H ⟨2 * tm.rank (k + 1) - 1, lv + 1, 2 * j, l⟩
      = entry.first H ⟨2 * tm.rank (k + 1), lv + 1, 2 * j + 1, r⟩ ∧
    entry.last H ⟨2 * tm.rank (k + 1), lv + 1, 2 * j + 1, r⟩
      = entry.last H ⟨k, lv, j, bitmap_tree.inner l r⟩ := by
  obtain ⟨h1, h2, h3, h4⟩ := hx
  simp only [bitmap_tree.height] at h2
  simp only at h1 h3 h4
  obtain ⟨_, hl, hr⟩ := henc.inner_nav k l r h1
  obtain ⟨d, hd⟩ : ∃ d, H - lv = d + 1 := ⟨H - lv - 1, by omega⟩
  have hd' : H - (lv + 1) = d := by omega
  have hpw : 2 ^ (d + 1) = 2 * 2 ^ d := by rw [pow_succ]; omega
  have hll := bitmap_tree.length_to_bits l d (by omega)
  simp only [entry.first, hd, hpw, bitmap_tree.to_bits, Nat.add_sub_cancel] at h4
  obtain ⟨e1, e2⟩ := seg_split _ _ _ _ _ _ h4 rfl hll
  have hlv : 2 ^ (lv + 1) = 2 * 2 ^ lv := by rw [pow_succ]; omega
  simp only [entry.valid, entry.first, entry.last, hd, hd', hpw]
  refine ⟨⟨hl, by omega, by omega, ?_⟩, ⟨hr, by omega, by omega, ?_⟩, by ring, trivial, by ring⟩
  · rw [e1]; congr 2; ring
  · rw [e2]; congr 2; ring

/-- The decoding of a path into a level, a position and a length. -/
theorem entry.decode_path (H : Nat) (x : entry) (hH : H ≤ 31) (hl : x.level ≤ H)
    (hj : x.offset < 2 ^ x.level) (n : Nat) (hn : n = 2 ^ H) :
    u64_sub (64 - 1) (lz_count x.path) = x.level ∧
    u64_shl (x.path ^^^ (path_msb >>> lz_count x.path)) (u64_sub (log_2 n) x.level)
      = x.first H ∧
    n >>> x.level = 2 ^ (H - x.level) ∧
    x.last H = x.first H + 2 ^ (H - x.level) ∧
    x.last H ≤ 2 ^ H := by
  have hlz : lz_count x.path = 63 - x.level := by
    unfold lz_count entry.path
    have := Nat.one_le_two_pow (n := x.level)
    rw [if_neg (by omega), log_2_path _ _ hj]
  have hH64 : (H : Nat) < 2 ^ 64 := by
    have : (31 : Nat) < 2 ^ 64 := by decide
    omega
  have hsplit : 2 ^ H = 2 ^ x.level * 2 ^ (H - x.level) := by
    rw [← pow_add]; congr 1; omega
  have hlast : x.last H = x.first H + 2 ^ (H - x.level) := by
    unfold entry.last entry.first; ring
  have hle : x.last H ≤ 2 ^ H := by
    unfold entry.last
    rw [hsplit]
    exact Nat.mul_le_mul_right _ hj
  have h232 : 2 ^ H < 2 ^ 64 := Nat.pow_lt_pow_right (by decide) (by omega)
  refine ⟨?_, ?_, ?_, hlast, hle⟩
  · rw [hlz, u64_sub_eq _ _ (by omega) (by decide)]; omega
  · rw [hlz, path_msb_shift _ (by omega), hn, log_2_two_pow,
      u64_sub_eq _ _ hl hH64]
    unfold entry.path
    rw [xor_sentinel _ _ hj, u64_shl_eq]
    · rfl
    · have : x.offset * 2 ^ (H - x.level) ≤ x.last H := entry.first_le_last H x
      unfold entry.first at hlast
      omega
  · rw [hn, Nat.shiftRight_eq_div_pow]
    conv_lhs => rw [hsplit]
    exact Nat.mul_div_cancel_left _ (by positivity)

end iter

namespace iter

/-- What one call of `next()` does to a stack that holds a chain of entries
at or after position `e`. -/
theorem next_spec {tm : teb} {T : bitmap_tree} (henc : tm.Encodes T) (H : Nat)
    (hn : tm.n_ = 2 ^ H) (hH : H ≤ 31) (hT : T.height ≤ H) :
    ∀ (fuel : Nat) (xs : List entry) (e path0 level0 pos0 len0 : Nat) (it' : iter),
      chain T H e xs →
      next tm fuel ⟨xs.map entry.pack, path0, level0, pos0, len0⟩ = some it' →
      ∃ xs' : List entry, it'.stack_ = xs'.map entry.pack ∧
        ((it'.pos_ = 2 ^ H ∧ it'.length_ = 0 ∧ chain T H e xs') ∨
         (e ≤ it'.pos_ ∧ 0 < it'.length_ ∧ it'.pos_ + it'.length_ ≤ 2 ^ H ∧
          chain T H (it'.pos_ + it'.length_) xs' ∧
          ∀ p, it'.pos_ ≤ p → p < it'.pos_ + it'.length_ →
            (bitmap_tree.to_bits H T)[p]? = some true)) := by
  intro fuel
  induction fuel with
  | zero =>
    intro xs e path0 level0 pos0 len0 it' hch hnext
    cases xs with
    | nil =>
      simp only [List.map_nil, next, Option.some.injEq] at hnext
      subst hnext
      exact ⟨[], rfl, Or.inl ⟨hn, rfl, trivial⟩⟩
    | cons x xs => simp [next] at hnext
  | succ fuel ih =>
    intro xs e path0 level0 pos0 len0 it' hch hnext
    cases xs with
    | nil =>
      simp only [List.map_nil, next, Option.some.injEq] at hnext
      subst hnext
      exact ⟨[], rfl, Or.inl ⟨hn, rfl, trivial⟩⟩
    | cons x xs =>
      obtain ⟨hx, hex, hrest⟩ := hch
      obtain ⟨hu1, hu2⟩ := entry.unpack T H x hH hT hx
      obtain ⟨hb1, hb2, hb3⟩ := entry.bounds T H x hH hT hx
      have hrest' : chain T H e xs :=
        chain_mono T H (le_trans hex (entry.first_le_last H x)) xs hrest
      simp only [List.map_cons, next, hu1, hu2] at hnext
      split at hnext
      · -- the early exit
        simp only [Option.some.injEq] at hnext
        subst hnext
        exact ⟨xs, rfl, Or.inl ⟨hn, rfl, hrest'⟩⟩
      · obtain ⟨k, lv, j, c⟩ := x
        have hin := henc.is_inner_node_of k c hx.1
        simp only [teb.is_leaf_node, hin] at hnext
        cases c with
        | inner l r =>
          simp only [bitmap_tree.is_inner_node, Bool.not_true, Bool.not_false, if_true] at hnext
          obtain ⟨hvl, hvr, hf1, hf2, hf3⟩ := entry.children_valid henc H k lv j l r hx
          obtain ⟨hr1, _, _⟩ := henc.inner_nav k l r hx.1
          have hpath : u64_shl (entry.path ⟨k, lv, j, bitmap_tree.inner l r⟩) 1
              = entry.path ⟨2 * tm.rank (k + 1) - 1, lv + 1, 2 * j, l⟩ := by
            rw [u64_shl_eq _ _ (by
              have : (2 : Nat) ^ 32 * 2 ^ 1 < 2 ^ 64 := by decide
              have := Nat.mul_lt_mul_of_pos_right hb2 (show 0 < 2 ^ 1 by decide)
              omega)]
            simp only [entry.path, pow_succ]
            ring
          have hpath2 : u64_shl (entry.path ⟨k, lv, j, bitmap_tree.inner l r⟩) 1 ||| 1
              = entry.path ⟨2 * tm.rank (k + 1), lv + 1, 2 * j + 1, r⟩ := by
            rw [hpath]
            simp only [entry.path, pow_succ]
            rw [show 2 ^ lv * 2 + 2 * j = 2 * (2 ^ lv + j) by ring, or_one_of_even]
            ring
          have hstack : (u64_shl (2 * tm.rank (k + 1) - 1) 32
                ||| u64_shl (entry.path ⟨k, lv, j, bitmap_tree.inner l r⟩) 1)
              :: (u64_shl (2 * tm.rank (k + 1)) 32
                ||| (u64_shl (entry.path ⟨k, lv, j, bitmap_tree.inner l r⟩) 1 ||| 1))
              :: xs.map entry.pack
              = List.map entry.pack (⟨2 * tm.rank (k + 1) - 1, lv + 1, 2 * j, l⟩
                  :: ⟨2 * tm.rank (k + 1), lv + 1, 2 * j + 1, r⟩ :: xs) := by
            simp only [List.map_cons, entry.pack]
            rw [hpath2, hpath]
          rw [hstack] at hnext
          refine ih _ e path0 level0 pos0 len0 it' ?_ hnext
          exact ⟨hvl, by rw [hf1]; exact hex, hvr, by rw [hf2], by rw [hf3]; exact hrest⟩
        | leaf b =>
          simp only [bitmap_tree.is_inner_node, Bool.not_false, Bool.not_true,
            Bool.false_eq_true, if_false] at hnext
          have hlab : tm.get_label k = b := by
            simp only [teb.get_label, teb.get_label_idx, List.getD_eq_getElem?_getD]
            exact henc.label_of_leaf k b hx.1
          rw [hlab] at hnext
          cases b with
          | false =>
            simp only [Bool.false_eq_true, if_false] at hnext
            exact ih xs e path0 level0 pos0 len0 it' hrest' hnext
          | true =>
            obtain ⟨hd1, hd2, hd3, hd4, hd5⟩ :=
              entry.decode_path H ⟨k, lv, j, bitmap_tree.leaf true⟩ hH hb3 hx.2.2.1 tm.n_ hn
            simp only [if_true, tree_height, hd1, hd2, hd3, Option.some.injEq] at hnext
            subst hnext
            have hd4' : entry.last H ⟨k, lv, j, bitmap_tree.leaf true⟩
                = entry.first H ⟨k, lv, j, bitmap_tree.leaf true⟩ + 2 ^ (H - lv) := hd4
            refine ⟨xs, rfl, Or.inr ⟨hex, by positivity, ?_, ?_, ?_⟩⟩
            · show entry.first H ⟨k, lv, j, bitmap_tree.leaf true⟩ + 2 ^ (H - lv) ≤ 2 ^ H
              rw [← hd4']; exact hd5
            · show chain T H (entry.first H ⟨k, lv, j, bitmap_tree.leaf true⟩ + 2 ^ (H - lv)) xs
              rw [← hd4']; exact hrest
            · intro p hp1 hp2
              simp only at hp1 hp2
              have hseg := hx.2.2.2
              simp only [bitmap_tree.to_bits] at hseg
              have hlt : p - entry.first H ⟨k, lv, j, bitmap_tree.leaf true⟩ < 2 ^ (H - lv) := by
                omega
              have h1 : (List.replicate (2 ^ (H - lv)) true)[p
                  - entry.first H ⟨k, lv, j, bitmap_tree.leaf true⟩]? = some true := by
                rw [List.getElem?_replicate]; simp [hlt]
              rw [hseg, List.getElem?_take_of_lt hlt, List.getElem?_drop] at h1
              rw [← h1]
              congr 1
              omega

end iter

namespace iter

theorem inv_next {tm : teb} {T : bitmap_tree} (henc : tm.Encodes T) (H : Nat)
    (hn : tm.n_ = 2 ^ H) (hH : H ≤ 31) (hT : T.height ≤ H)
    (fuel : Nat) (it it' : iter) (hinv : inv T H it) (hnext : next tm fuel it = some it') :
    inv T H it' ∧
      (it.pos_ ≠ 2 ^ H → it'.pos_ ≠ 2 ^ H → it.pos_ + it.length_ ≤ it'.pos_) := by
  obtain ⟨xs, hst, hcase⟩ := hinv
  obtain ⟨stack_, path_, level_, pos_, length_⟩ := it
  simp only at hst hcase
  subst hst
  rcases hcase with ⟨hp, hl, hch⟩ | ⟨hl, hle, hch, hbits⟩
  · obtain ⟨xs', hst', hc'⟩ := next_spec henc H hn hH hT fuel xs 0 _ _ _ _ it' hch hnext
    refine ⟨⟨xs', hst', ?_⟩, fun h => absurd hp h⟩
    rcases hc' with ⟨h1, h2, h3⟩ | ⟨_, h2, h3, h4, h5⟩
    · exact Or.inl ⟨h1, h2, h3⟩
    · exact Or.inr ⟨h2, h3, h4, h5⟩
  · obtain ⟨xs', hst', hc'⟩ :=
      next_spec henc H hn hH hT fuel xs (pos_ + length_) _ _ _ _ it' hch hnext
    rcases hc' with ⟨h1, h2, h3⟩ | ⟨h1, h2, h3, h4, h5⟩
    · exact ⟨⟨xs', hst', Or.inl ⟨h1, h2, chain_mono T H (Nat.zero_le _) xs' h3⟩⟩,
        fun _ h => absurd h1 h⟩
    · exact ⟨⟨xs', hst', Or.inr ⟨h2, h3, h4, h5⟩⟩, fun _ _ => h1⟩

theorem inv_ctor {tm : teb} {T : bitmap_tree} (henc : tm.Encodes T) (H : Nat)
    (hn : tm.n_ = 2 ^ H) (hH : H ≤ 31) (hT : T.height ≤ H)
    (fuel : Nat) (it : iter) (hctor : ctor fuel tm = some it) : inv T H it := by
  have h0 := teb.breadth_first_zero T
  have hin := henc.is_inner_node_of 0 T h0
  unfold ctor at hctor
  simp only [teb.is_leaf_node, hin] at hctor
  cases T with
  | leaf b =>
    have hlab : tm.get_label 0 = b := by
      simp only [teb.get_label, teb.get_label_idx, List.getD_eq_getElem?_getD]
      exact henc.label_of_leaf 0 b h0
    simp only [bitmap_tree.is_inner_node, Bool.not_false, if_true, hlab] at hctor
    cases b with
    | false =>
      simp only [Bool.false_eq_true, if_false, Option.some.injEq] at hctor
      subst hctor
      exact ⟨[], rfl, Or.inl ⟨hn, rfl, trivial⟩⟩
    | true =>
      simp only [if_true, Option.some.injEq] at hctor
      subst hctor
      refine ⟨[], rfl, Or.inr ⟨?_, ?_, trivial, ?_⟩⟩
      · simp only [hn]; positivity
      · simp only [hn]; omega
      · intro p _ hp
        simp only [hn, Nat.zero_add] at hp
        simp [bitmap_tree.to_bits, List.getElem?_replicate, hp]
  | inner l r =>
    simp only [bitmap_tree.is_inner_node, Bool.not_true, Bool.false_eq_true, if_false] at hctor
    have hroot : entry.valid (bitmap_tree.inner l r) H ⟨0, 0, 0, bitmap_tree.inner l r⟩ := by
      refine ⟨h0, by simpa using hT, by simp, ?_⟩
      have hlen := bitmap_tree.length_to_bits _ _ hT
      simp only [entry.first, Nat.zero_mul, List.drop_zero, Nat.sub_zero]
      rw [List.take_of_length_le (by omega)]
    have hst : [u64_shl 0 32 ||| 1] = List.map entry.pack [⟨0, 0, 0, bitmap_tree.inner l r⟩] := by
      simp [entry.pack, entry.path]
    rw [hst] at hctor
    obtain ⟨xs', hst', hc'⟩ := next_spec henc H hn hH hT fuel _ 0 _ _ _ _ it
      (show chain _ H 0 [_] from ⟨hroot, Nat.zero_le _, trivial⟩) hctor
    refine ⟨xs', hst', ?_⟩
    rcases hc' with ⟨h1, h2, h3⟩ | ⟨_, h2, h3, h4, h5⟩
    · exact Or.inl ⟨h1, h2, h3⟩
    · exact Or.inr ⟨h2, h3, h4, h5⟩

theorem inv_reachable {tm : teb} {T : bitmap_tree} (henc : tm.Encodes T) (H : Nat)
    (hn : tm.n_ = 2 ^ H) (hH : H ≤ 31) (hT : T.height ≤ H)
    (it : iter) (hr : reachable tm it) : inv T H it := by
  induction hr with
  | ctor fuel it h => exact inv_ctor henc H hn hH hT fuel it h
  | next fuel it it' _ h ih => exact (inv_next henc H hn hH hT fuel it it' ih h).1

/-- What the invariant says about the accessors of a state that is not at its
end. -/
theorem inv_accessors {tm : teb} {T : bitmap_tree} (H : Nat) (hn : tm.n_ = 2 ^ H)
    (it : iter) (hinv : inv T H it) (hend : it.end tm = false) :
    it.pos_ ≠ 2 ^ H ∧ it.length tm = it.length_ ∧ 0 < it.length_ ∧
      it.pos_ + it.length_ ≤ 2 ^ H ∧
      ∀ p, it.pos_ ≤ p → p < it.pos_ + it.length_ →
        (bitmap_tree.to_bits H T)[p]? = some true := by
  have hne : it.pos_ ≠ 2 ^ H := by
    intro hc
    simp [iter.end, hn, hc] at hend
  obtain ⟨xs, _, hcase⟩ := hinv
  rcases hcase with ⟨hp, _, _⟩ | ⟨h1, h2, _, h4⟩
  · exact absurd hp hne
  · refine ⟨hne, ?_, h1, h2, h4⟩
    unfold iter.length
    rw [if_neg (by rw [hn]; omega)]

end iter

namespace bitmap_tree

theorem prune_complete_replicate (b : Bool) : ∀ (h : Nat),
    prune (complete h (List.replicate (2 ^ h) b)) = leaf b := by
  intro h
  induction h with
  | zero => simp [complete, prune]
  | succ h ih =>
    have h2 : 2 ^ (h + 1) = 2 ^ h + 2 ^ h := by rw [pow_succ]; omega
    have e1 : (List.replicate (2 ^ (h + 1)) b).take (2 ^ h) = List.replicate (2 ^ h) b := by
      rw [List.take_replicate, h2, Nat.min_eq_left (Nat.le_add_right _ _)]
    have e2 : (List.replicate (2 ^ (h + 1)) b).drop (2 ^ h) = List.replicate (2 ^ h) b := by
      rw [List.drop_replicate, h2, Nat.add_sub_cancel]
    simp only [complete, prune, e1, e2, ih, if_true]

theorem ctor_replicate (b : Bool) (H : Nat) : ctor (List.replicate (2 ^ H) b) 0 = leaf b := by
  rw [ctor_zero, List.length_replicate, log_2_two_pow, prune_complete_replicate]

end bitmap_tree

namespace teb

theorem ctor_replicate_root (b : Bool) (H o : Nat) :
    (ctor (List.replicate (2 ^ H) b) o 0).is_leaf_node 0 = true ∧
    (ctor (List.replicate (2 ^ H) b) o 0).get_label 0 = b := by
  have henc := ctor_encodes (List.replicate (2 ^ H) b) o 0
  rw [bitmap_tree.ctor_replicate] at henc
  have h0 := breadth_first_zero (bitmap_tree.leaf b)
  constructor
  · simp [is_leaf_node, henc.is_inner_node_of 0 _ h0, bitmap_tree.is_inner_node]
  · simp only [get_label, get_label_idx, List.getD_eq_getElem?_getD]
    exact henc.label_of_leaf 0 b h0

end teb

namespace bitmap_tree

theorem zipWith_and_replicate_true (seg : List Bool) :
    List.zipWith (· && ·) seg (List.replicate seg.length true) = seg := by
  induction seg with
  | nil => simp
  | cons b bs ih => simp [List.replicate_succ, ih]

theorem count_xor_replicate_true (seg : List Bool) :
    (List.zipWith xor seg (List.replicate seg.length true)).count true = seg.count false := by
  induction seg with
  | nil => simp
  | cons b bs ih =>
    simp only [List.length_cons, List.replicate_succ, List.zipWith_cons_cons, List.count_cons, ih]
    cases b <;> simp

theorem count_xor_self (seg : List Bool) : (List.zipWith xor seg seg).count true = 0 := by
  induction seg with
  | nil => simp
  | cons b bs ih => simp [List.count_cons, List.count_replicate]

theorem zipWith_and_self (seg : List Bool) : List.zipWith (· && ·) seg seg = seg := by
  induction seg with
  | nil => simp
  | cons b bs ih => simp [ih]

/-- Merging the node at `path` into a 1-leaf keeps the height, keeps every set
bit of `seg`, and adds at most the zero bits of `seg` below that node to the
bits in which the tree differs from `seg`. -/
theorem merge_at_spec : ∀ (path : List Bool) (h : Nat) (t : bitmap_tree) (seg : List Bool),
    t.height ≤ h → seg.length = 2 ^ h →
    List.zipWith (· && ·) seg (to_bits h t) = seg →
    (merge_at path t).height ≤ h ∧
    List.zipWith (· && ·) seg (to_bits h (merge_at path t)) = seg ∧
    (List.zipWith xor seg (to_bits h (merge_at path t))).count true
      ≤ (List.zipWith xor seg (to_bits h t)).count true + zeros_at h path seg := by
  intro path
  induction path with
  | nil =>
    intro h t seg _ hlen _
    simp only [merge_at, height, to_bits, zeros_at]
    rw [← hlen, zipWith_and_replicate_true, count_xor_replicate_true]
    exact ⟨Nat.zero_le _, rfl, Nat.le_add_left _ _⟩
  | cons d path ih =>
    intro h t seg hh hlen hcov
    cases t with
    | leaf b =>
      simp only [merge_at]
      exact ⟨hh, hcov, Nat.le_add_right _ _⟩
    | inner l r =>
      simp only [height] at hh
      obtain ⟨h', rfl⟩ : ∃ h', h = h' + 1 := ⟨h - 1, by omega⟩
      have h2 : 2 ^ (h' + 1) = 2 ^ h' + 2 ^ h' := by rw [pow_succ]; omega
      have hll := length_to_bits l h' (by omega)
      have hlr := length_to_bits r h' (by omega)
      have htk : (seg.take (2 ^ h')).length = 2 ^ h' := by
        rw [List.length_take, hlen, h2]; omega
      have hdr : (seg.drop (2 ^ h')).length = 2 ^ h' := by
        rw [List.length_drop, hlen, h2]; omega
      have hseg : seg = seg.take (2 ^ h') ++ seg.drop (2 ^ h') := (List.take_append_drop _ _).symm
      simp only [to_bits, Nat.add_sub_cancel] at hcov
      rw [hseg, List.zipWith_append _ _ _ _ _ (by rw [htk, hll])] at hcov
      have hcov' := List.append_inj hcov (by simp [htk, hll])
      cases d with
      | false =>
        obtain ⟨i1, i2, i3⟩ := ih h' l (seg.take (2 ^ h')) (by omega) htk hcov'.1
        have hlm := length_to_bits (merge_at path l) h' i1
        simp only [merge_at, height, to_bits, Nat.add_sub_cancel, zeros_at]
        refine ⟨by omega, ?_, ?_⟩
        · conv_lhs => rw [hseg, List.zipWith_append _ _ _ _ _ (by rw [htk, hlm])]
          rw [i2, hcov'.2]
          exact hseg.symm
        · conv_lhs => rw [hseg, List.zipWith_append _ _ _ _ _ (by rw [htk, hlm])]
          conv_rhs => rw [hseg, List.zipWith_append _ _ _ _ _ (by rw [htk, hll])]
          simp only [List.count_append, List.take_left' htk]
          omega
      | true =>
        obtain ⟨i1, i2, i3⟩ := ih h' r (seg.drop (2 ^ h')) (by omega) hdr hcov'.2
        simp only [merge_at, height, to_bits, Nat.add_sub_cancel, zeros_at]
        refine ⟨by omega, ?_, ?_⟩
        · conv_lhs => rw [hseg, List.zipWith_append _ _ _ _ _ (by rw [htk, hll])]
          rw [i2, hcov'.1]
          exact hseg.symm
        · conv_lhs => rw [hseg, List.zipWith_append _ _ _ _ _ (by rw [htk, hll])]
          conv_rhs => rw [hseg, List.zipWith_append _ _ _ _ _ (by rw [htk, hll])]
          simp only [List.count_append, List.drop_left' htk]
          omega

end bitmap_tree

namespace bitmap_tree

theorem zero_cnt_eq : ∀ (t : bitmap_tree) (h : Nat), t.height ≤ h →
    zero_cnt h t = (to_bits h t).count false := by
  intro t
  induction t with
  | leaf b => intro h _; cases b <;> simp [zero_cnt, to_bits, List.count_replicate]
  | inner l r ihl ihr =>
    intro h hh
    simp only [height] at hh
    simp only [zero_cnt, to_bits, List.count_append]
    rw [ihl (h - 1) (by omega), ihr (h - 1) (by omega)]

theorem candidates_spec : ∀ (t : bitmap_tree) (h : Nat) (pre : List Bool), t.height ≤ h →
    ∀ c ∈ candidates h pre t,
      ∃ q, c.path = pre ++ q ∧ zeros_at h q (to_bits h t) = c.fp_cnt := by
  intro t
  induction t with
  | leaf b => intro h pre _ c hc; simp [candidates] at hc
  | inner l r ihl ihr =>
    intro h pre hh c hc
    have hz := zero_cnt_eq (inner l r) h hh
    simp only [height] at hh
    obtain ⟨h', rfl⟩ : ∃ h', h = h' + 1 := ⟨h - 1, by omega⟩
    have hll := length_to_bits l h' (by omega)
    simp only [candidates, Nat.add_sub_cancel, List.mem_append, List.mem_singleton] at hc
    rcases hc with (hc | hc) | hc
    · obtain ⟨q, hq1, hq2⟩ := ihl h' (pre ++ [false]) (by omega) c hc
      refine ⟨false :: q, by simpa using hq1, ?_⟩
      simp only [zeros_at, to_bits, Nat.add_sub_cancel, List.take_left' hll]
      exact hq2
    · obtain ⟨q, hq1, hq2⟩ := ihr h' (pre ++ [true]) (by omega) c hc
      refine ⟨true :: q, by simpa using hq1, ?_⟩
      simp only [zeros_at, to_bits, Nat.add_sub_cancel, List.drop_left' hll]
      exact hq2
    · subst hc
      exact ⟨[], by simp, by simp only [zeros_at]; exact hz.symm⟩

theorem mem_insert_candidate (c d : candidate) : ∀ (ds : List candidate),
    c ∈ insert_candidate d ds → c = d ∨ c ∈ ds := by
  intro ds
  induction ds with
  | nil => intro h; simpa [insert_candidate] using h
  | cons e es ih =>
    intro h
    simp only [insert_candidate] at h
    split at h
    · simpa using h
    · simp only [List.mem_cons] at h ⊢
      rcases h with h | h
      · exact Or.inr (Or.inl h)
      · rcases ih h with h | h
        · exact Or.inl h
        · exact Or.inr (Or.inr h)

theorem mem_sort_candidates (c : candidate) : ∀ (cs : List candidate),
    c ∈ sort_candidates cs → c ∈ cs := by
  intro cs
  induction cs with
  | nil => intro h; simp [sort_candidates] at h
  | cons d ds ih =>
    intro h
    simp only [sort_candidates] at h
    rcases mem_insert_candidate c d _ h with h | h
    · exact h ▸ List.mem_cons_self _ _
    · exact List.mem_cons_of_mem _ (ih h)

theorem lossy_prune_spec (B : List Bool) (H budget : Nat) (hB : B.length = 2 ^ H) :
    ∀ (cs : List candidate) (total : Nat) (t : bitmap_tree),
      (∀ c ∈ cs, zeros_at H c.path B ≤ c.fp_cnt) →
      total ≤ budget → t.height ≤ H →
      List.zipWith (· && ·) B (to_bits H t) = B →
      (List.zipWith xor B (to_bits H t)).count true ≤ total →
      (lossy_prune budget cs total t).height ≤ H ∧
      List.zipWith (· && ·) B (to_bits H (lossy_prune budget cs total t)) = B ∧
      (List.zipWith xor B (to_bits H (lossy_prune budget cs total t))).count true ≤ budget := by
  intro cs
  induction cs with
  | nil => intro total t _ ht hh hcov hx; exact ⟨hh, hcov, le_trans hx ht⟩
  | cons c cs ih =>
    intro total t hcs ht hh hcov hx
    simp only [lossy_prune]
    split
    · exact ⟨hh, hcov, le_trans hx ht⟩
    · rename_i hlt
      obtain ⟨m1, m2, m3⟩ := merge_at_spec c.path H t B hh hB hcov
      have hz := hcs c (List.mem_cons_self _ _)
      exact ih (total + c.fp_cnt) (merge_at c.path t)
        (fun c' hc' => hcs c' (List.mem_cons_of_mem _ hc')) (by omega) m1 m2 (by omega)

/-- The tree that the constructor builds is no higher than the logical tree,
asserts every set bit of the bitmap, and differs from the bitmap in at most
`⌊N · fpr⌋` positions. -/
theorem ctor_spec (B : List Bool) (H : Nat) (f : ℚ) (hB : B.length = 2 ^ H) :
    (ctor B f).height ≤ H ∧
    List.zipWith (· && ·) B (to_bits H (ctor B f)) = B ∧
    (List.zipWith xor B (to_bits H (ctor B f))).count true ≤ ⌊(B.length : ℚ) * f⌋₊ := by
  have hT0 : (prune (complete H B)).height ≤ H :=
    (height_prune _).trans (le_of_eq (height_complete H B))
  have hb0 : to_bits H (prune (complete H B)) = B := by
    rw [to_bits_prune _ _ (le_of_eq (height_complete H B)), to_bits_complete H B hB]
  unfold ctor
  simp only [hB, log_2_two_pow]
  split
  · refine lossy_prune_spec B H _ hB _ 0 _ ?_ (Nat.zero_le _) hT0 ?_ ?_
    · intro c hc
      obtain ⟨q, hq1, hq2⟩ := candidates_spec _ H [] hT0 c (mem_sort_candidates c _ hc)
      rw [hb0] at hq2
      simp only [List.nil_append] at hq1
      rw [hq1, hq2]
    · rw [hb0, zipWith_and_self]
    · rw [hb0, count_xor_self]
  · rw [hb0, zipWith_and_self, count_xor_self]
    exact ⟨hT0, rfl, Nat.zero_le _⟩

end bitmap_tree

namespace bitmap_tree

theorem is_pruned_inner (l r : bitmap_tree) (h : (inner l r).is_pruned = true) :
    l.is_pruned = true ∧ r.is_pruned = true := by
  cases l <;> cases r <;> simp_all [is_pruned]

/-- The constructor's tree of the bits of a pruned tree is that tree. -/
theorem prune_complete_to_bits : ∀ (t : bitmap_tree) (h : Nat), t.height ≤ h →
    t.is_pruned = true → prune (complete h (to_bits h t)) = t := by
  intro t
  induction t with
  | leaf b => intro h _ _; exact prune_complete_replicate b h
  | inner l r ihl ihr =>
    intro h hh hp
    simp only [height] at hh
    obtain ⟨h', rfl⟩ : ∃ h', h = h' + 1 := ⟨h - 1, by omega⟩
    have hll := length_to_bits l h' (by omega)
    obtain ⟨hpl, hpr⟩ := is_pruned_inner l r hp
    simp only [to_bits, Nat.add_sub_cancel, complete, prune, List.take_left' hll,
      List.drop_left' hll, ihl h' (by omega) hpl, ihr h' (by omega) hpr]
    cases l with
    | leaf a =>
      cases r with
      | leaf b =>
        have : a ≠ b := by simpa [is_pruned] using hp
        simp [this]
      | inner _ _ => rfl
    | inner _ _ => rfl

theorem to_bits_head (h : Nat) (b : Bool) (r : bitmap_tree) :
    (to_bits (h + 1) (inner (leaf b) r))[0]? = some b := by
  have hpos : 0 < 2 ^ h := Nat.two_pow_pos h
  simp only [to_bits, Nat.add_sub_cancel]
  rw [List.getElem?_append_left (by rw [List.length_replicate]; exact hpos),
    List.getElem?_replicate, if_pos hpos]

theorem to_bits_left_spine (k : Nat) : ∀ (h : Nat),
    to_bits (h + k) (left_spine (leaf true) h)
      = List.replicate (2 ^ k) true ++ List.replicate (2 ^ (h + k) - 2 ^ k) false := by
  intro h
  induction h with
  | zero => simp only [left_spine, to_bits, Nat.zero_add, Nat.sub_self, List.replicate_zero,
      List.append_nil]
  | succ h ih =>
    have hle : 2 ^ k ≤ 2 ^ (h + k) := Nat.pow_le_pow_right (by decide) (Nat.le_add_left _ _)
    have e : h + 1 + k - 1 = h + k := by omega
    have hp : 2 ^ (h + 1 + k) = 2 ^ (h + k) + 2 ^ (h + k) := by
      rw [show h + 1 + k = (h + k) + 1 by omega, pow_succ]; omega
    simp only [left_spine, to_bits, e, ih, List.append_assoc, ← List.replicate_add]
    congr 2
    rw [hp]
    generalize 2 ^ (h + k) = A at hle ⊢
    generalize 2 ^ k = K at hle ⊢
    omega

theorem to_bits_inner (h : Nat) (l r : bitmap_tree) :
    to_bits (h + 1) (inner l r) = to_bits h l ++ to_bits h r := by
  simp only [to_bits, Nat.add_sub_cancel]

theorem bitmap_2_31_eq :
    bitmap_2_31 = to_bits 32 (inner (leaf false) (left_spine (leaf true) 31)) := by
  have h := to_bits_left_spine 0 31
  simp only [Nat.add_zero, pow_zero, List.replicate_one, List.singleton_append] at h
  unfold bitmap_2_31
  show _ = to_bits (31 + 1) _
  rw [to_bits_inner, h]
  rfl

theorem bitmap_0_3_and_2_31_eq :
    bitmap_0_3_and_2_31 = to_bits 32 (inner (left_spine (leaf true) 29) (left_spine (leaf true) 31)) := by
  have h1 := to_bits_left_spine 0 31
  have h2 := to_bits_left_spine 2 29
  simp only [Nat.add_zero, pow_zero, List.replicate_one, List.singleton_append] at h1
  simp only [Nat.reduceAdd, show (2 : Nat) ^ 2 = 4 from rfl] at h2
  unfold bitmap_0_3_and_2_31
  show _ = to_bits (31 + 1) _
  rw [to_bits_inner, h1, h2]

theorem ctor_of_pruned (t : bitmap_tree) (h : Nat) (hh : t.height ≤ h)
    (hp : t.is_pruned = true) : ctor (to_bits h t) 0 = t := by
  rw [ctor_zero, length_to_bits t h hh, log_2_two_pow, prune_complete_to_bits t h hh hp]

end bitmap_tree

namespace teb

/-- At optimization level 0 the TEB of the bits of a pruned tree consists of
the level-order encoding of that tree. -/
theorem ctor_level_0_of_pruned (t : bitmap_tree) (h : Nat) (hh : t.height ≤ h)
    (hp : t.is_pruned = true) :
    ctor (bitmap_tree.to_bits h t) 0 0
      = ⟨2 ^ h, (encode t.breadth_first).1, (encode t.breadth_first).2, 0, 0, 0⟩ := by
  unfold ctor
  simp only [bitmap_tree.ctor_of_pruned t h hh hp, bitmap_tree.length_to_bits t h hh,
    Nat.lt_irrefl, if_false]

end teb

namespace iter

/-- The constructor of the iterator on a TEB whose root is a leaf. -/
theorem ctor_leaf_root (tm : teb) (fuel : Nat) (hroot : tm.is_leaf_node 0 = true) :
    (tm.get_label 0 = true →
      ∃ it, tm.it fuel = some it ∧ it.pos = 0 ∧ it.length tm = tm.n_ ∧
        ∃ it', iter.next tm fuel it = some it' ∧
          it'.end tm = true ∧ it'.pos = tm.n_ ∧ it'.length tm = 0) ∧
    (tm.get_label 0 = false →
      ∃ it, tm.it fuel = some it ∧ it.end tm = true ∧ it.pos = tm.n_ ∧ it.length tm = 0) := by
  constructor
  · intro hlab
    refine ⟨⟨[], 1, 0, 0, tm.n_⟩, ?_, rfl, ?_, ⟨[], 1, 0, tm.n_, 0⟩, ?_, ?_, rfl, ?_⟩
    · simp [teb.it, iter.ctor, hroot, hlab]
    · simp [iter.length]
    · cases fuel <;> simp [iter.next]
    · simp [iter.end]
    · simp [iter.length]
  · intro hlab
    refine ⟨⟨[], 1, 0, tm.n_, 0⟩, ?_, ?_, rfl, ?_⟩
    · simp [teb.it, iter.ctor, hroot, hlab]
    · simp [iter.end]
    · simp [iter.length]

end iter

namespace teb

/-- The decoder reads `n_`, the implicit inner node count, the structure and
the labels only. -/
theorem test_congr (t u : teb) (pos : Nat) (hn : t.n_ = u.n_) (he : t.eq u = true) :
    t.test pos = u.test pos := by
  obtain ⟨n, s, l, ii, o, il⟩ := t
  obtain ⟨n', s', l', ii', o', il'⟩ := u
  simp only [eq, Bool.and_eq_true, beq_iff_eq] at he
  obtain ⟨⟨h1, h2⟩, h3⟩ := he
  simp only at hn h1 h2 h3
  subst hn h1 h2 h3
  have hloop : ∀ (i node_idx : Nat),
      test_loop ⟨n, s, l, ii, o, il⟩ pos i node_idx
        = test_loop ⟨n, s, l, ii, o', il'⟩ pos i node_idx := by
    intro i
    induction i with
    | zero => intro node_idx; rfl
    | succ i ih =>
      intro node_idx
      simp only [test_loop]
      rw [ih]
      rfl
  unfold test
  simp only [hloop]
  rfl

theorem to_bitset_congr (t u : teb) (fuel : Nat) (hn : t.n_ = u.n_) (he : t.eq u = true) :
    t.to_bitset fuel = u.to_bitset fuel := by
  obtain ⟨n, s, l, ii, o, il⟩ := t
  obtain ⟨n', s', l', ii', o', il'⟩ := u
  simp only [eq, Bool.and_eq_true, beq_iff_eq] at he
  obtain ⟨⟨h1, h2⟩, h3⟩ := he
  simp only at hn h1 h2 h3
  subst hn h1 h2 h3
  have hloop : ∀ (H fuel : Nat) (nodes : List (Nat × Nat)) (wp : Nat) (ret : List Bool),
      to_bitset_loop ⟨n, s, l, ii, o, il⟩ H fuel nodes wp ret
        = to_bitset_loop ⟨n, s, l, ii, o', il'⟩ H fuel nodes wp ret := by
    intro H fuel
    induction fuel with
    | zero => intro nodes wp ret; cases nodes <;> rfl
    | succ f ih =>
      intro nodes wp ret
      cases nodes with
      | nil => rfl
      | cons x xs =>
        obtain ⟨idx, level⟩ := x
        simp only [to_bitset_loop]
        rw [ih, ih]
        rfl
  unfold to_bitset
  simp only [hloop]

end teb

namespace teb

theorem Encodes.label_idx_lt {t : teb} {T : bitmap_tree} (h : Encodes t T) (k : Nat)
    (b : Bool) (hk : T.breadth_first[k]? = some (bitmap_tree.leaf b)) :
    t.get_label_idx k < t.labels_.length := by
  have h1 := bitmap_tree.lo_labels_getElem T k b hk
  rw [← h.rank_eq, ← h.labels_eq] at h1
  unfold get_label_idx
  by_contra hc
  rw [List.getElem?_eq_none (by omega)] at h1
  cases h1

/-- The descent loop of `test` stops at a leaf within `i` iterations and reads
a label inside `labels_`. -/
theorem Encodes.test_loop_trace {t : teb} {T : bitmap_tree} (h : Encodes t T) (pos : Nat) :
    ∀ (i k : Nat) (l r : bitmap_tree),
      T.breadth_first[k]? = some (bitmap_tree.inner l r) →
      (bitmap_tree.inner l r).height ≤ i →
      ∃ j, 1 ≤ j ∧ j ≤ i ∧
        (∀ j', j' < j → t.is_leaf_node (t.descend pos i k j') = false) ∧
        t.is_leaf_node (t.descend pos i k j) = true ∧
        t.get_label_idx (t.descend pos i k j) < t.labels_.length ∧
        t.test_loop pos i k
          = some (t.labels_.getD (t.get_label_idx (t.descend pos i k j)) false) := by
  intro i
  induction i with
  | zero => intro k l r _ hh; simp [bitmap_tree.height] at hh
  | succ i ih =>
    intro k l r hk hh
    simp only [bitmap_tree.height] at hh
    obtain ⟨hr1, hl, hr⟩ := h.inner_nav k l r hk
    have hkin : t.is_leaf_node k = false := by
      simp [is_leaf_node, h.is_inner_node_of _ _ hk, bitmap_tree.is_inner_node]
    -- the child that the loop moves to
    obtain ⟨c, hc, hch⟩ : ∃ c, T.breadth_first[2 * t.rank (k + 1) - 1
        + (bit_test pos i).toNat]? = some c ∧ c.height ≤ i := by
      cases hb : bit_test pos i
      · exact ⟨l, by simpa using hl, by omega⟩
      · refine ⟨r, ?_, by omega⟩
        rw [show 2 * t.rank (k + 1) - 1 + true.toNat = 2 * t.rank (k + 1) by
          simp only [Bool.toNat_true]; omega]
        exact hr
    have hcin := h.is_inner_node_of _ _ hc
    cases c with
    | leaf b =>
      refine ⟨1, le_refl _, by omega, ?_, ?_, ?_, ?_⟩
      · intro j' hj'
        have : j' = 0 := by omega
        subst this
        simpa [descend] using hkin
      · simp [descend, is_leaf_node, hcin, bitmap_tree.is_inner_node]
      · simpa [descend] using h.label_idx_lt _ b hc
      · simp [test_loop, descend, is_leaf_node, hcin, bitmap_tree.is_inner_node, get_label_idx]
    | inner a b =>
      obtain ⟨j, hj1, hj2, hj3, hj4, hj5, hj6⟩ := ih _ a b hc hch
      refine ⟨j + 1, by omega, by omega, ?_, ?_, ?_, ?_⟩
      · intro j' hj'
        cases j' with
        | zero => simpa [descend] using hkin
        | succ j'' =>
          simp only [descend, Nat.add_sub_cancel]
          exact hj3 j'' (by omega)
      · simpa only [descend, Nat.add_sub_cancel] using hj4
      · simpa only [descend, Nat.add_sub_cancel] using hj5
      · simp only [descend, Nat.add_sub_cancel]
        rw [← hj6]
        simp [test_loop, is_leaf_node, hcin, bitmap_tree.is_inner_node]

/-- The method `test` stops at a leaf after at most `H` descent steps. -/
theorem Encodes.test_trace {t : teb} {T : bitmap_tree} (h : Encodes t T) (H pos : Nat)
    (hn : t.n_ = 2 ^ H) (hT : T.height ≤ H) :
    ∃ j, j ≤ H ∧
      (∀ j', j' < j → t.is_leaf_node (t.descend pos H 0 j') = false) ∧
      t.is_leaf_node (t.descend pos H 0 j) = true ∧
      t.get_label_idx (t.descend pos H 0 j) < t.labels_.length ∧
      t.test pos = some (t.labels_.getD (t.get_label_idx (t.descend pos H 0 j)) false) := by
  have h0 := breadth_first_zero T
  cases T with
  | leaf b =>
    have hin := h.is_inner_node_of _ _ h0
    refine ⟨0, Nat.zero_le _, by intro j' hj'; omega, ?_, ?_, ?_⟩
    · simp [descend, is_leaf_node, hin, bitmap_tree.is_inner_node]
    · simpa [descend] using h.label_idx_lt _ b h0
    · simp [test, descend, is_leaf_node, hin, bitmap_tree.is_inner_node, get_label]
  | inner l r =>
    have hin := h.is_inner_node_of _ _ h0
    obtain ⟨j, hj1, hj2, hj3, hj4, hj5, hj6⟩ := h.test_loop_trace pos H 0 l r h0 hT
    refine ⟨j, hj2, hj3, hj4, hj5, ?_⟩
    rw [← hj6]
    simp [test, hn, log_2_two_pow, is_leaf_node, hin, bitmap_tree.is_inner_node]

end teb

namespace teb

/-- The root of an encoding: `is_leaf_node(0)` and `get_label(0)` read the
root of the encoded tree. -/
theorem Encodes.root {t : teb} {T : bitmap_tree} (h : Encodes t T) :
    t.is_leaf_node 0 = !T.is_inner_node ∧
    ∀ b, T = bitmap_tree.leaf b → t.get_label 0 = b := by
  have h0 := breadth_first_zero T
  refine ⟨by simp [is_leaf_node, h.is_inner_node_of 0 _ h0], ?_⟩
  intro b hb
  subst hb
  simp only [get_label, get_label_idx, List.getD_eq_getElem?_getD]
  exact h.label_of_leaf 0 b h0

end teb

namespace bitmap_tree

/-- The lossless prune of the tree of a bitmap of length `2 ^ H` is a single
leaf labelled `b` exactly if all bits are `b`. -/
theorem ctor_zero_eq_leaf_iff (B : List Bool) (H : Nat) (hB : B.length = 2 ^ H) (b : Bool) :
    ctor B 0 = leaf b ↔ ∀ x ∈ B, x = b := by
  constructor
  · intro h x hx
    have h1 := to_bits_ctor_zero B H hB
    rw [h, to_bits] at h1
    rw [← h1] at hx
    exact (List.mem_replicate.1 hx).2
  · intro h
    have h1 : B = List.replicate (2 ^ H) b := by
      rw [← hB]
      exact List.eq_replicate_of_mem h
    rw [h1]
    exact ctor_replicate b H

end bitmap_tree

namespace teb

theorem count_trailing_1bits_eq (s : List Bool) :
    count_trailing_1bits s = (s.takeWhile (· == true)).length ∧
    s.drop (count_trailing_1bits s) = s.dropWhile (· == true) := by
  induction s with
  | nil => simp [count_trailing_1bits]
  | cons b s ih =>
    cases b
    · simp [count_trailing_1bits]
    · exact ⟨by simpa [count_trailing_1bits] using ih.1,
        by simpa [count_trailing_1bits] using ih.2⟩

theorem pop_back_0bits_eq : ∀ (fuel : Nat) (s : List Bool) (cnt : Nat), s.length ≤ fuel →
    cnt < 2 ^ 32 →
    pop_back_0bits fuel s cnt
      = (s.rdropWhile (· == false), (cnt + (s.rtakeWhile (· == false)).length) % 2 ^ 32) := by
  intro fuel
  induction fuel with
  | zero =>
    intro s cnt hs hc
    have : s = [] := List.eq_nil_of_length_eq_zero (by omega)
    subst this
    simp only [pop_back_0bits, List.rdropWhile_nil, List.rtakeWhile_nil, List.length_nil,
      Nat.add_zero, Nat.mod_eq_of_lt hc]
  | succ f ih =>
    intro s cnt hs hc
    rcases List.eq_nil_or_concat s with h | ⟨s', x, h⟩
    · subst h
      simp [pop_back_0bits]
      omega
    · subst h
      rw [List.concat_eq_append] at hs ⊢
      have hget : (s' ++ [x]).getD ((s' ++ [x]).length - 1) false = x := by
        simp [List.getD_eq_getElem?_getD]
      simp only [pop_back_0bits, hget, List.dropLast_concat]
      cases x
      · have hlen : 0 < (s' ++ [false]).length := by simp
        rw [if_pos ⟨hlen, by simp⟩, ih s' ((cnt + 1) % 2 ^ 32) (by simp at hs; omega)
          (Nat.mod_lt _ (by positivity))]
        rw [List.rdropWhile_concat_pos _ _ _ (by simp),
          List.rtakeWhile_concat_pos _ _ _ (by simp)]
        simp only [List.length_append, List.length_cons, List.length_nil, Prod.mk.injEq,
          true_and]
        rw [Nat.mod_add_mod]
        congr 1
        omega
      · rw [if_neg (by simp)]
        rw [List.rdropWhile_concat_neg _ _ _ (by simp),
          List.rtakeWhile_concat_neg _ _ _ (by simp)]
        simp only [List.length_nil, Nat.add_zero, Nat.mod_eq_of_lt hc]

end teb

/-! ## Lemmas: expanding a leaf of the encoded tree -/

namespace bitmap_tree

theorem sum_node_cnt_pos (k : bitmap_tree) (q : List bitmap_tree) :
    0 < ((k :: q).map node_cnt).sum := by
  have := node_cnt_pos k
  simp only [List.map_cons, List.sum_cons]
  omega

theorem bfs_fuel_irrel : ∀ (f1 f2 : Nat) (q : List bitmap_tree),
    (q.map node_cnt).sum ≤ f1 → (q.map node_cnt).sum ≤ f2 → bfs f1 q = bfs f2 q := by
  intro f1
  induction f1 with
  | zero =>
    intro f2 q h1 _
    cases q with
    | nil => cases f2 <;> simp [bfs]
    | cons k q => have := sum_node_cnt_pos k q; omega
  | succ f ih =>
    intro f2 q h1 h2
    cases q with
    | nil => cases f2 <;> simp [bfs]
    | cons k q =>
      cases f2 with
      | zero => have := sum_node_cnt_pos k q; omega
      | succ g =>
        have hk := sum_node_cnt_children k
        simp only [List.map_cons, List.sum_cons] at h1 h2
        simp only [bfs, List.cons.injEq, true_and]
        apply ih
        · simp only [List.map_append, List.sum_append]; omega
        · simp only [List.map_append, List.sum_append]; omega

theorem sum_node_cnt_flatMap_children (q : List bitmap_tree) :
    ((q.flatMap children).map node_cnt).sum + q.length = (q.map node_cnt).sum := by
  induction q with
  | nil => simp
  | cons k q ih =>
    have hk := sum_node_cnt_children k
    simp only [List.flatMap_cons, List.map_append, List.sum_append, List.length_cons,
      List.map_cons, List.sum_cons]
    omega

theorem bfs_append : ∀ (q1 q2 : List bitmap_tree) (fuel : Nat),
    ((q1 ++ q2).map node_cnt).sum ≤ fuel →
    bfs fuel (q1 ++ q2) = q1 ++ bfs fuel (q2 ++ q1.flatMap children) := by
  intro q1
  induction q1 with
  | nil => intro q2 fuel _; simp
  | cons k q1 ih =>
    intro q2 fuel h
    have hk := sum_node_cnt_children k
    have hs := sum_node_cnt_flatMap_children q1
    simp only [List.cons_append, List.map_cons, List.sum_cons, List.map_append,
      List.sum_append] at h
    cases fuel with
    | zero => have := node_cnt_pos k; omega
    | succ f =>
      show bfs (f + 1) (k :: (q1 ++ q2))
        = k :: (q1 ++ bfs (f + 1) (q2 ++ (k :: q1).flatMap children))
      rw [show bfs (f + 1) (k :: (q1 ++ q2)) = k :: bfs f ((q1 ++ q2) ++ children k) from rfl,
        List.append_assoc, ih (q2 ++ children k) f (by
          simp only [List.map_append, List.sum_append]; omega),
        List.flatMap_cons, List.append_assoc]
      congr 2
      apply bfs_fuel_irrel
      · simp only [List.map_append, List.sum_append]; omega
      · simp only [List.map_append, List.sum_append]; omega

theorem level_order_nil : level_order [] = [] := by
  simp [level_order, bfs]

theorem breadth_first_eq_level_order (T : bitmap_tree) : T.breadth_first = level_order [T] := by
  simp [breadth_first, level_order]

theorem level_order_append (q1 q2 : List bitmap_tree) :
    level_order (q1 ++ q2) = q1 ++ level_order (q2 ++ q1.flatMap children) := by
  unfold level_order
  rw [bfs_append q1 q2 _ (le_refl _)]
  congr 1
  have hs := sum_node_cnt_flatMap_children q1
  apply bfs_fuel_irrel
  · simp only [List.map_append, List.sum_append] at hs ⊢; omega
  · exact le_refl _

theorem level_order_step (q : List bitmap_tree) :
    level_order q = q ++ level_order (q.flatMap children) := by
  have := level_order_append q []
  simpa using this

theorem length_level_order (q : List bitmap_tree) :
    (level_order q).length = (q.map node_cnt).sum := by
  unfold level_order
  generalize hf : (q.map node_cnt).sum = fuel
  induction fuel generalizing q with
  | zero =>
    cases q with
    | nil => simp [bfs]
    | cons k q => have := sum_node_cnt_pos k q; omega
  | succ f ih =>
    cases q with
    | nil => simp at hf
    | cons k q =>
      have hk := sum_node_cnt_children k
      simp only [List.map_cons, List.sum_cons] at hf
      simp only [bfs, List.length_cons, Nat.add_right_cancel_iff]
      apply ih
      simp only [List.map_append, List.sum_append]
      omega

theorem length_breadth_first (T : bitmap_tree) : T.breadth_first.length = T.node_cnt := by
  rw [breadth_first_eq_level_order, length_level_order]
  simp

theorem expands_node_cnt {T T' : bitmap_tree} (h : expands T T') :
    T'.node_cnt = T.node_cnt + 2 := by
  induction h with
  | leaf b => simp [node_cnt]
  | left l l' r _ ih => simp only [node_cnt, ih]; omega
  | right l r r' _ ih => simp only [node_cnt, ih]; omega

theorem expands_is_inner {T T' : bitmap_tree} (h : expands T T') : T'.is_inner_node = true := by
  cases h <;> rfl

/-- An expansion in the next level of a queue comes from an expansion in the
queue that changes neither the flags nor the leaves of the queue. -/
theorem expands_one_lift : ∀ (q qc' : List bitmap_tree),
    expands_one (q.flatMap children) qc' →
    ∃ q', expands_one q q' ∧ q'.flatMap children = qc' ∧
      q'.map is_inner_node = q.map is_inner_node ∧
      q'.filter (fun k => !k.is_inner_node) = q.filter (fun k => !k.is_inner_node) := by
  intro q
  induction q with
  | nil => intro qc' h; simp at h; cases h
  | cons x q ih =>
    intro qc' h
    cases x with
    | leaf b =>
      simp only [List.flatMap_cons, children, List.nil_append] at h
      obtain ⟨q', h1, h2, h3, h4⟩ := ih qc' h
      exact ⟨leaf b :: q', expands_one.tail _ _ _ h1, by simpa [children] using h2,
        by simp [h3], by simp [List.filter_cons, h4]⟩
    | inner l r =>
      have hin : ∀ a b : bitmap_tree, (inner a b).is_inner_node = true := fun _ _ => rfl
      simp only [List.flatMap_cons, children, List.cons_append, List.nil_append] at h
      cases h with
      | head _ l' _ hl =>
        exact ⟨inner l' r :: q, expands_one.head _ _ _ (expands.left _ _ _ hl),
          by simp [children], by simp [hin], by simp [List.filter_cons, hin]⟩
      | tail _ _ rest h' =>
        cases h' with
        | head _ r' _ hr =>
          exact ⟨inner l r' :: q, expands_one.head _ _ _ (expands.right _ _ _ hr),
            by simp [children], by simp [hin], by simp [List.filter_cons, hin]⟩
        | tail _ _ rest' h'' =>
          obtain ⟨q', h1, h2, h3, h4⟩ := ih rest' h''
          exact ⟨inner l r :: q', expands_one.tail _ _ _ h1, by simp [children, h2],
            by simp [h3], by simp [List.filter_cons, hin, h4]⟩

end bitmap_tree

namespace bitmap_tree

theorem expands_one_append_left (u : List bitmap_tree) {xs xs' : List bitmap_tree}
    (h : expands_one xs xs') : expands_one (u ++ xs) (u ++ xs') := by
  induction u with
  | nil => simpa using h
  | cons a u ih => exact expands_one.tail _ _ _ ih


theorem height_children_le (x c : bitmap_tree) (h : Nat) (hx : x.height ≤ h)
    (hc : c ∈ children x) : c.height + 1 ≤ h := by
  cases x with
  | leaf b => simp [children] at hc
  | inner l r =>
    simp only [children, List.mem_cons, List.mem_singleton, List.not_mem_nil, or_false] at hc
    simp only [height] at hx
    rcases hc with rfl | rfl <;> omega

/-- Every node of a level-order traversal is at most as high as the highest
tree of the queue. -/
theorem level_order_height : ∀ (h : Nat) (q : List bitmap_tree),
    (∀ x ∈ q, x.height ≤ h) → ∀ x ∈ level_order q, x.height ≤ h := by
  intro h
  induction h with
  | zero =>
    intro q hq x hx
    have hc : q.flatMap children = [] := by
      rw [List.flatMap_eq_nil_iff]
      intro y hy
      have := hq y hy
      cases y with
      | leaf b => rfl
      | inner l r => simp [height] at this
    rw [level_order_step, hc, level_order_nil, List.append_nil] at hx
    exact hq x hx
  | succ h ih =>
    intro q hq x hx
    rw [level_order_step, List.mem_append] at hx
    rcases hx with hx | hx
    · exact hq x hx
    · have := ih (q.flatMap children) (by
        intro c hc
        rw [List.mem_flatMap] at hc
        obtain ⟨y, hy, hcy⟩ := hc
        have := height_children_le y c (h + 1) (hq y hy) hcy
        omega) x hx
      omega

/-- Expanding the leaf at position `k` of a level-order traversal: the
traversal of the expanded queue has an inner node at position `k` and the two
new leaves right behind the nodes that were in the queue when the leaf was
visited.  When an inner node follows the leaf in the traversal, the leaf is not
on the deepest level and the expansion keeps the bound on the heights. -/
theorem level_order_expand : ∀ (k : Nat) (q : List bitmap_tree) (b : Bool),
    (level_order q)[k]? = some (leaf b) →
    ∃ q' pre pre' c post,
      expands_one q q' ∧
      level_order q = pre ++ leaf b :: (c ++ post) ∧
      level_order q' = pre' ++ inner (leaf b) (leaf b) :: (c ++ leaf b :: leaf b :: post) ∧
      pre.length = k ∧
      pre'.map is_inner_node = pre.map is_inner_node ∧
      pre'.filter (fun k => !k.is_inner_node) = pre.filter (fun k => !k.is_inner_node) ∧
      c.length + k + 1 = q.length + 2 * (pre.map is_inner_node).count true ∧
      ∀ h, (∀ x ∈ q, x.height ≤ h) →
        (∃ j l r, k < j ∧ (level_order q)[j]? = some (inner l r)) →
        ∀ x ∈ q', x.height ≤ h := by
  intro k
  induction k using Nat.strong_induction_on with
  | _ k ih =>
    intro q b hk
    by_cases hlt : k < q.length
    · -- the leaf is in the queue
      have hq : q[k]? = some (leaf b) := by
        rw [level_order_step, List.getElem?_append_left hlt] at hk
        exact hk
      have hsplit : q = q.take k ++ leaf b :: q.drop (k + 1) := by
        have h1 : q[k] = leaf b := by
          rw [List.getElem?_eq_getElem hlt] at hq
          exact Option.some.inj hq
        rw [← h1]
        exact (List.take_append_drop k q).symm.trans (by rw [List.drop_eq_getElem_cons hlt])
      have hu : (q.take k).length = k := by
        rw [List.length_take]; omega
      generalize q.take k = u at hsplit hu
      generalize q.drop (k + 1) = v at hsplit
      subst hsplit
      refine ⟨u ++ inner (leaf b) (leaf b) :: v, u, u, v ++ u.flatMap children,
        level_order (v.flatMap children ++ (u.flatMap children).flatMap children),
        expands_one_append_left u (expands_one.head _ _ _ (expands.leaf b)), ?_, ?_, hu, rfl,
        rfl, ?_, ?_⟩
      · rw [level_order_step]
        simp only [List.flatMap_append, List.flatMap_cons, children, List.nil_append]
        rw [level_order_append]
        simp [List.append_assoc]
      · rw [level_order_step]
        simp only [List.flatMap_append, List.flatMap_cons, children, List.nil_append]
        rw [level_order_append,
          show [leaf b, leaf b] ++ v.flatMap children ++ (u.flatMap children).flatMap children
            = [leaf b, leaf b] ++ (v.flatMap children ++ (u.flatMap children).flatMap children)
            by simp,
          level_order_append]
        simp [List.append_assoc, children]
      · have := length_flatMap_children u
        simp only [List.length_append, List.length_cons]
        omega
      · intro h hq ⟨j, l, r, _, hj⟩ x hx
        have h1 : 1 ≤ h := by
          have := level_order_height h _ hq (inner l r) (by
            obtain ⟨hlt', he⟩ := List.getElem?_eq_some.mp hj
            exact he ▸ List.getElem_mem _)
          simp only [height] at this
          omega
        simp only [List.mem_append, List.mem_cons] at hx
        rcases hx with hx | rfl | hx
        · exact hq x (by simp [hx])
        · simp only [height]; omega
        · exact hq x (by simp [hx])
    · -- the leaf is in a later level
      have hqne : 0 < q.length := by
        by_contra hc
        have : q = [] := List.eq_nil_of_length_eq_zero (by omega)
        subst this
        simp [level_order_nil] at hk
      have hk' : (level_order (q.flatMap children))[k - q.length]? = some (leaf b) := by
        rw [level_order_step, List.getElem?_append_right (by omega)] at hk
        exact hk
      obtain ⟨qc', pre, pre', c, post, h1, h2, h3, h4, h5, h6, h7, h8⟩ :=
        ih (k - q.length) (by omega) (q.flatMap children) b hk'
      obtain ⟨q', g1, g2, g3, g4⟩ := expands_one_lift q qc' h1
      refine ⟨q', q ++ pre, q' ++ pre', c, post, g1, ?_, ?_, ?_, ?_, ?_, ?_, ?_⟩
      · rw [level_order_step, h2, List.append_assoc]
      · rw [level_order_step, g2, h3, List.append_assoc]
      · simp only [List.length_append]; omega
      · simp only [List.map_append, g3, h5]
      · simp only [List.filter_append, g4, h6]
      · have := length_flatMap_children q
        simp only [List.map_append, List.count_append]
        omega
      · intro h hq ⟨j, l, r, hkj, hj⟩ x hx
        have hc : ∀ y ∈ qc', y.height ≤ h - 1 := by
          apply h8 (h - 1)
          · intro c hc
            rw [List.mem_flatMap] at hc
            obtain ⟨y, hy, hcy⟩ := hc
            have := height_children_le y c h (hq y hy) hcy
            omega
          · refine ⟨j - q.length, l, r, by omega, ?_⟩
            rw [level_order_step, List.getElem?_append_right (by omega)] at hj
            exact hj
        cases x with
        | leaf b' => simp [height]
        | inner l' r' =>
          have hl := hc l' (by rw [← g2, List.mem_flatMap]; exact ⟨_, hx, by simp [children]⟩)
          have hr := hc r' (by rw [← g2, List.mem_flatMap]; exact ⟨_, hx, by simp [children]⟩)
          have h1 : 1 ≤ h := by
            have hm : true ∈ q'.map is_inner_node :=
              List.mem_map.mpr ⟨_, hx, rfl⟩
            rw [g3, List.mem_map] at hm
            obtain ⟨y, hy, hyi⟩ := hm
            have := hq y hy
            cases y with
            | leaf _ => simp [is_inner_node] at hyi
            | inner _ _ => simp only [height] at this; omega
          simp only [height]
          omega

/-- Expanding a leaf below the height bound keeps the asserted bitmap. -/
theorem to_bits_expands {T T' : bitmap_tree} (h : expands T T') :
    ∀ H, T'.height ≤ H → to_bits H T' = to_bits H T := by
  induction h with
  | leaf b =>
    intro H hH
    simp only [height] at hH
    obtain ⟨k, rfl⟩ : ∃ k, H = k + 1 := ⟨H - 1, by omega⟩
    simp only [to_bits, Nat.add_sub_cancel, ← List.replicate_add]
    congr 1
    rw [pow_succ]; omega
  | left l l' r _ ih =>
    intro H hH
    simp only [height] at hH
    simp only [to_bits]
    rw [ih (H - 1) (by omega)]
  | right l r r' _ ih =>
    intro H hH
    simp only [height] at hH
    simp only [to_bits]
    rw [ih (H - 1) (by omega)]

end bitmap_tree

/-! ## Lemmas: the loops of `decompress()` -/

theorem getD_set_false (s : List Bool) (b j : Nat) (v : Bool) (hb : b < s.length) :
    (s.set b v).getD j false = if j = b then v else s.getD j false := by
  simp only [List.getD_eq_getElem?_getD, List.getElem?_set]
  by_cases h : b = j
  · subst h; simp [hb]
  · have h' : ¬ j = b := fun e => h e.symm
    simp [h, h']

/-- A loop `for (i = b; i < b + cnt; ++i) s[i] = val(i)` whose assertions hold
sets the positions `[b, b + cnt)`. -/
theorem foldlM_set_getD (f : List Bool → Nat → Option (List Bool)) (val : Nat → Bool)
    (n : Nat) : ∀ (cnt b : Nat) (s : List Bool), s.length = n → (cnt ≠ 0 → b + cnt ≤ n) →
    (∀ (s' : List Bool) (i : Nat), s'.length = n → b ≤ i → i < b + cnt →
      f s' i = some (s'.set i (val i))) →
    ∃ r, (List.range' b cnt).foldlM f s = some r ∧ r.length = n ∧
      ∀ j, r.getD j false = if b ≤ j ∧ j < b + cnt then val j else s.getD j false := by
  intro cnt
  induction cnt with
  | zero =>
    intro b s hs _ _
    refine ⟨s, by simp, hs, ?_⟩
    intro j
    rw [if_neg (by omega)]
  | succ cnt ih =>
    intro b s hs hb hf
    have hb := hb (by omega)
    obtain ⟨r, h1, h2, h3⟩ := ih (b + 1) (s.set b (val b)) (by simpa using hs)
      (fun _ => by omega)
      (fun s' i hs' hi1 hi2 => hf s' i hs' (by omega) (by omega))
    refine ⟨r, ?_, h2, ?_⟩
    · rw [List.range'_succ, List.foldlM_cons, hf s b hs (le_refl _) (by omega)]
      simpa using h1
    · intro j
      rw [h3 j, getD_set_false s b j (val b) (by omega)]
      by_cases hj : j = b
      · subst hj
        rw [if_neg (by omega), if_pos rfl, if_pos ⟨le_refl _, by omega⟩]
      · by_cases hj2 : b + 1 ≤ j ∧ j < b + 1 + cnt
        · rw [if_pos hj2, if_pos ⟨by omega, by omega⟩]
        · rw [if_neg hj2, if_neg hj, if_neg (by omega)]

/-- Two lists of the same length that agree at every position are equal. -/
theorem ext_getD_false (l1 l2 : List Bool) (hlen : l1.length = l2.length)
    (h : ∀ j, l1.getD j false = l2.getD j false) : l1 = l2 := by
  apply List.ext_getElem hlen
  intro j h1 h2
  have := h j
  simpa [List.getD_eq_getElem?_getD, List.getElem?_eq_getElem h1,
    List.getElem?_eq_getElem h2] using this

namespace teb

/-- The structure that `decompress()` builds before trimming: the first bit
is set, the two 0-bits of the new leaves are inserted behind the next
`implicit_inner_node_cnt_` bits. -/
theorem decompress_structure (structure_ : List Bool) (ii : Nat) :
    ∃ s1 s2, decompress_copy_front structure_ (2 * ii + 1 - ii)
        ((List.replicate (structure_.length + 2) false).set 0 true) = some s1 ∧
      decompress_copy_back structure_ (2 * ii + 1 - ii + 1)
        (if 2 * ii + 1 - ii + 1 <
            (if 2 * ii + 1 - ii < s1.length then s1.set (2 * ii + 1 - ii) false else s1).length
          then (if 2 * ii + 1 - ii < s1.length then s1.set (2 * ii + 1 - ii) false else s1).set
            (2 * ii + 1 - ii + 1) false
          else (if 2 * ii + 1 - ii < s1.length then s1.set (2 * ii + 1 - ii) false else s1))
        = some s2 ∧
      s2.length = structure_.length + 2 ∧
      ∀ j, s2.getD j false =
        if j = 0 then true
        else if j ≤ ii then structure_.getD j false
        else if j ≤ ii + 2 then false
        else structure_.getD (j - 2) false := by
  have e1 : 2 * ii + 1 - ii = ii + 1 := by omega
  rw [e1]
  set n := structure_.length with hn
  -- the front loop
  obtain ⟨s1, h1, h2, h3⟩ := foldlM_set_getD
    (fun s i =>
      if i < s.length then
        some (s.set i (if i < structure_.length then structure_.getD i false else false))
      else Option.none)
    (fun i => structure_.getD i false) (n + 2) (min (ii + 1) (n + 2) - 1) 1
    ((List.replicate (n + 2) false).set 0 true) (by simp) (fun _ => by omega)
    (by
      intro s' i hs' hi1 hi2
      simp only
      rw [if_pos (by omega)]
      by_cases hi : i < structure_.length
      · rw [if_pos hi]
      · rw [if_neg hi, List.getD_eq_default _ _ (by omega)])
  have hfront : decompress_copy_front structure_ (ii + 1)
      ((List.replicate (n + 2) false).set 0 true) = some s1 := by
    unfold decompress_copy_front
    simpa using h1
  -- the two new leaves
  set s1a := (if ii + 1 < s1.length then s1.set (ii + 1) false else s1) with hs1a
  have h1a_len : s1a.length = n + 2 := by
    rw [hs1a]; split <;> simp [h2]
  have h1a : ∀ j, s1a.getD j false = if j = ii + 1 then false else s1.getD j false := by
    intro j
    rw [hs1a]
    split
    · rename_i hc
      exact getD_set_false s1 (ii + 1) j false hc
    · rename_i hc
      by_cases hj : j = ii + 1
      · subst hj
        rw [if_pos rfl, List.getD_eq_default _ _ (by omega)]
      · rw [if_neg hj]
  set s1b := (if ii + 1 + 1 < s1a.length then s1a.set (ii + 1 + 1) false else s1a) with hs1b
  have h1b_len : s1b.length = n + 2 := by
    rw [hs1b]; split <;> simp [h1a_len]
  have h1b : ∀ j, s1b.getD j false = if j = ii + 2 then false else s1a.getD j false := by
    intro j
    rw [hs1b]
    split
    · rename_i hc
      exact getD_set_false s1a (ii + 1 + 1) j false hc
    · rename_i hc
      by_cases hj : j = ii + 2
      · subst hj
        rw [if_pos rfl, List.getD_eq_default _ _ (by omega)]
      · rw [if_neg hj]
  -- the back loop
  obtain ⟨s2, g1, g2, g3⟩ := foldlM_set_getD
    (fun s i =>
      if i < s.length then
        some (s.set i (if i - 2 < structure_.length then structure_.getD (i - 2) false else false))
      else Option.none)
    (fun i => structure_.getD (i - 2) false) (n + 2) (n + 2 - (ii + 1 + 1 + 1)) (ii + 1 + 1 + 1)
    s1b h1b_len (fun _ => by omega)
    (by
      intro s' i hs' hi1 hi2
      simp only
      rw [if_pos (by omega)]
      by_cases hi : i - 2 < structure_.length
      · rw [if_pos hi]
      · rw [if_neg hi, List.getD_eq_default _ _ (by omega)])
  have hback : decompress_copy_back structure_ (ii + 1 + 1) s1b = some s2 := by
    unfold decompress_copy_back
    rw [h1b_len]
    exact g1
  have hbase : ∀ j, ((List.replicate (n + 2) false).set 0 true).getD j false
      = if j = 0 then true else false := by
    intro j
    rw [getD_set_false _ 0 j true (by simp)]
    split
    · rfl
    · simp only [List.getD_eq_getElem?_getD, List.getElem?_replicate]
      split <;> rfl
  refine ⟨s1, s2, hfront, hback, g2, ?_⟩
  intro j
  rw [g3 j, h1b j, h1a j, h3 j, hbase j]
  split_ifs <;>
    first
    | rfl
    | (exfalso; omega)
    | (symm; apply List.getD_eq_default; omega)


/-- The labels that `decompress()` builds: the first label is removed and two
copies of it are inserted at the positions of the new leaves. -/
theorem decompress_labels (labels_ : List Bool) (left : Nat) (b : Bool)
    (hleft : left < labels_.length) :
    ∃ l1 l2, decompress_labels_front labels_ left
        (List.replicate (labels_.length + 1) false) = some l1 ∧
      decompress_labels_back labels_ (left + 1) ((l1.set left b).set (left + 1) b) = some l2 ∧
      l2.length = labels_.length + 1 ∧
      ∀ j, l2.getD j false =
        if j < left then labels_.getD (j + 1) false
        else if j ≤ left + 1 then b
        else labels_.getD (j - 1) false := by
  set n := labels_.length with hn
  obtain ⟨l1, h1, h2, h3⟩ := foldlM_set_getD
    (fun l i =>
      if i < l.length ∧ i + 1 < labels_.length then some (l.set i (labels_.getD (i + 1) false))
      else Option.none)
    (fun i => labels_.getD (i + 1) false) (n + 1) left 0
    (List.replicate (n + 1) false) (by simp) (fun _ => by omega)
    (by
      intro s' i hs' hi1 hi2
      simp only
      rw [if_pos ⟨by omega, by omega⟩])
  have hfront : decompress_labels_front labels_ left (List.replicate (n + 1) false) = some l1 := by
    unfold decompress_labels_front
    exact h1
  have hbase : ∀ j, (List.replicate (n + 1) false).getD j false = false := by
    intro j
    simp only [List.getD_eq_getElem?_getD, List.getElem?_replicate]
    split <;> rfl
  have h4_len : ((l1.set left b).set (left + 1) b).length = n + 1 := by simp [h2]
  have h4 : ∀ j, ((l1.set left b).set (left + 1) b).getD j false
      = if j = left + 1 then b else if j = left then b else l1.getD j false := by
    intro j
    rw [getD_set_false _ _ _ _ (by simp [h2]; omega), getD_set_false _ _ _ _ (by omega)]
  obtain ⟨l2, g1, g2, g3⟩ := foldlM_set_getD
    (fun l i =>
      if i < l.length ∧ i - 1 < labels_.length then some (l.set i (labels_.getD (i - 1) false))
      else Option.none)
    (fun i => labels_.getD (i - 1) false) (n + 1) (n + 1 - (left + 1 + 1)) (left + 1 + 1)
    ((l1.set left b).set (left + 1) b) h4_len (fun _ => by omega)
    (by
      intro s' i hs' hi1 hi2
      simp only
      rw [if_pos ⟨by omega, by omega⟩])
  have hback : decompress_labels_back labels_ (left + 1) ((l1.set left b).set (left + 1) b)
      = some l2 := by
    unfold decompress_labels_back
    rw [h4_len]
    exact g1
  refine ⟨l1, l2, hfront, hback, g2, ?_⟩
  intro j
  rw [g3 j, h4 j, h3 j, hbase j]
  split_ifs <;>
    first
    | rfl
    | (exfalso; omega)
    | (symm; apply List.getD_eq_default; omega)

end teb

theorem getD_trimmed (a m : Nat) (X : List Bool) (j : Nat) :
    (List.replicate a true ++ X ++ List.replicate m false).getD j false
      = if j < a then true else X.getD (j - a) false := by
  simp only [List.getD_eq_getElem?_getD, List.append_assoc]
  by_cases h1 : j < a
  · rw [if_pos h1, List.getElem?_append_left (by simpa using h1)]
    simp [h1]
  · rw [if_neg h1, List.getElem?_append_right (by simp; omega)]
    simp only [List.length_replicate]
    by_cases h2 : j - a < X.length
    · rw [List.getElem?_append_left h2]
    · rw [List.getElem?_append_right (by omega), List.getElem?_eq_none (l := X) (by omega),
        List.getElem?_replicate]
      split <;> rfl

theorem getD_insert (P C Q : List Bool) (x w y z : Bool) (j : Nat) :
    (P ++ x :: (C ++ y :: z :: Q)).getD j false
      = if j = P.length then x
        else if j ≤ P.length + C.length then (P ++ w :: (C ++ Q)).getD j false
        else if j = P.length + C.length + 1 then y
        else if j = P.length + C.length + 2 then z
        else (P ++ w :: (C ++ Q)).getD (j - 2) false := by
  simp only [List.getD_eq_getElem?_getD]
  by_cases h1 : j < P.length
  · rw [if_neg (by omega), if_pos (by omega), List.getElem?_append_left h1,
      List.getElem?_append_left h1]
  · rw [List.getElem?_append_right (by omega)]
    by_cases h2 : j = P.length
    · subst h2; simp
    · rw [if_neg h2]
      obtain ⟨i, hi⟩ : ∃ i, j = P.length + 1 + i := ⟨j - P.length - 1, by omega⟩
      subst hi
      rw [show P.length + 1 + i - P.length = i + 1 by omega, List.getElem?_cons_succ]
      by_cases h3 : i < C.length
      · rw [if_pos (by omega), List.getElem?_append_left h3,
          List.getElem?_append_right (by omega),
          show P.length + 1 + i - P.length = i + 1 by omega, List.getElem?_cons_succ,
          List.getElem?_append_left h3]
      · rw [if_neg (by omega), List.getElem?_append_right (by omega)]
        obtain ⟨i', hi'⟩ : ∃ i', i = C.length + i' := ⟨i - C.length, by omega⟩
        subst hi'
        rw [show C.length + i' - C.length = i' by omega]
        match i' with
        | 0 => rw [if_pos (by omega)]; rfl
        | 1 => rw [if_neg (by omega), if_pos (by omega)]; simp
        | i'' + 2 =>
          rw [if_neg (by omega), if_neg (by omega),
            show P.length + 1 + (C.length + (i'' + 2)) - 2 = P.length + (C.length + i'' + 1) by
              omega,
            List.getElem?_append_right (by omega), Nat.add_sub_cancel_left]
          simp only [List.getElem?_cons_succ]
          rw [List.getElem?_append_right (by omega), Nat.add_sub_cancel_left]

theorem getD_insert_labels (C Q : List Bool) (w y z : Bool) (j : Nat) :
    (C ++ y :: z :: Q).getD j false
      = if j < C.length then (w :: (C ++ Q)).getD (j + 1) false
        else if j = C.length then y
        else if j = C.length + 1 then z
        else (w :: (C ++ Q)).getD (j - 1) false := by
  simp only [List.getD_eq_getElem?_getD]
  by_cases h1 : j < C.length
  · rw [if_pos h1, List.getElem?_append_left h1, List.getElem?_cons_succ,
      List.getElem?_append_left h1]
  · rw [if_neg h1, List.getElem?_append_right (by omega)]
    obtain ⟨i', hi'⟩ : ∃ i', j = C.length + i' := ⟨j - C.length, by omega⟩
    subst hi'
    rw [show C.length + i' - C.length = i' by omega]
    match i' with
    | 0 => rw [if_pos (by omega)]; rfl
    | 1 => rw [if_neg (by omega), if_pos (by omega)]; simp
    | i'' + 2 =>
      rw [if_neg (by omega), if_neg (by omega),
        show C.length + (i'' + 2) - 1 = (C.length + i'') + 1 by omega]
      simp only [List.getElem?_cons_succ]
      rw [List.getElem?_append_right (by omega), Nat.add_sub_cancel_left]

namespace bitmap_tree

theorem length_filter_leaf (l : List bitmap_tree) :
    (l.filter (fun k => !k.is_inner_node)).length + (l.map is_inner_node).count true
      = l.length := by
  induction l with
  | nil => simp
  | cons a as ih =>
    cases ha : a.is_inner_node
    · simp [List.filter_cons, ha]; omega
    · simp [List.filter_cons, ha]; omega

theorem filter_leaf_of_all_inner (l : List bitmap_tree) (n : Nat)
    (h : l.map is_inner_node = List.replicate n true) :
    l.filter (fun k => !k.is_inner_node) = [] := by
  have h1 := length_filter_leaf l
  have h2 : l.length = n := by simpa using congrArg List.length h
  rw [h] at h1
  simp only [List.count_replicate_self] at h1
  exact List.eq_nil_of_length_eq_zero (by omega)

end bitmap_tree

namespace teb

/-- The method `rank` counts the inner nodes among the first `k` nodes of the
untrimmed structure. -/
theorem rank_eq_of_structure (t : teb) (S : List Bool) (il : Nat)
    (hS : S = List.replicate t.implicit_inner_node_cnt_ true ++ t.structure_
      ++ List.replicate il false) (k : Nat) :
    t.rank k = (S.take k).count true := by
  rw [hS]
  unfold rank rank1
  simp only
  split
  · rename_i hk
    rw [List.append_assoc, List.take_append_of_le_length (by simp; omega)]
    simp [List.take_replicate, Nat.min_eq_left (Nat.le_of_lt hk)]
  · rename_i hk
    rw [List.append_assoc, List.take_append_eq_append_take, List.take_append_eq_append_take]
    simp only [List.length_replicate, List.count_append]
    have e1 : List.take k (List.replicate t.implicit_inner_node_cnt_ true)
        = List.replicate t.implicit_inner_node_cnt_ true := by
      rw [List.take_replicate, Nat.min_eq_right (by omega)]
    rw [e1]
    simp only [List.count_replicate_self, List.take_replicate]
    have e3 : List.count true (List.replicate (min (k - t.implicit_inner_node_cnt_ - t.structure_.length)
        il) false) = 0 := by
      simp [List.count_replicate]
    rw [e3]
    have e4 : List.take (min (k - t.implicit_inner_node_cnt_) t.structure_.length) t.structure_
        = List.take (k - t.implicit_inner_node_cnt_) t.structure_ := by
      rw [List.take_eq_take]; simp
    rw [e4, Nat.add_zero]

end teb

namespace teb

/-- A successful `decompress()` call: the encoded tree has its first leaf in
level order expanded, and the new state encodes the expanded tree. -/
theorem Encodes.decompress_spec {t : teb} {T : bitmap_tree} (h : Encodes t T)
    (hne : t.structure_.length ≠ 0) (hfirst : t.structure_.getD 0 false = false)
    (hlast : t.structure_.getD (t.structure_.length - 1) false = true) :
    ∃ t' T', t.decompress = some (true, t') ∧ Encodes t' T' ∧ bitmap_tree.expands T T' ∧
      t'.n_ = t.n_ ∧ t'.optimization_level_ = t.optimization_level_ ∧
      t.implicit_inner_node_cnt_ < t'.implicit_inner_node_cnt_ ∧
      t'.labels_.length = t.labels_.length + 1 ∧
      (∀ H, T.height ≤ H → T'.height ≤ H) ∧
      ∃ b, T.breadth_first[t.implicit_inner_node_cnt_]? = some (bitmap_tree.leaf b) ∧
        T'.breadth_first[t.implicit_inner_node_cnt_]?
          = some (bitmap_tree.inner (bitmap_tree.leaf b) (bitmap_tree.leaf b)) := by
  obtain ⟨n_, structure_, labels_, ii, o, il32⟩ := t
  simp only at hne hfirst hlast
  obtain ⟨il, hS, hil⟩ := h.structure_eq
  have hL := h.labels_eq
  simp only at hS hL hil
  -- node `ii` is a leaf of the tree
  have hSlen : ii < T.lo_structure.length := by
    rw [hS]; simp; omega
  have hSii : T.lo_structure.getD ii false = false := by
    rw [hS, getD_trimmed, if_neg (by omega), Nat.sub_self, hfirst]
  obtain ⟨b, hb⟩ : ∃ b, T.breadth_first[ii]? = some (bitmap_tree.leaf b) := by
    have hlt : ii < T.breadth_first.length := by
      simpa [bitmap_tree.lo_structure] using hSlen
    have h1 : T.lo_structure.getD ii false = (T.breadth_first[ii]).is_inner_node := by
      simp [bitmap_tree.lo_structure, List.getD_eq_getElem?_getD, List.getElem?_eq_getElem hlt]
    rw [List.getElem?_eq_getElem hlt]
    cases hx : T.breadth_first[ii] with
    | leaf b => exact ⟨b, rfl⟩
    | inner l r =>
      rw [h1, hx] at hSii
      simp [bitmap_tree.is_inner_node] at hSii
  -- expand it
  rw [bitmap_tree.breadth_first_eq_level_order] at hb
  obtain ⟨q', pre, pre', c, post, e1, e2, e3, e4, e5, e6, e7, e8⟩ :=
    bitmap_tree.level_order_expand ii [T] b hb
  -- the last bit of the structure is an inner node behind node `ii`
  have hinner : ∃ j l r, ii < j ∧ (bitmap_tree.level_order [T])[j]? = some (bitmap_tree.inner l r) := by
    have h2 : 2 ≤ structure_.length := by
      by_contra hc
      have h1 : structure_.length - 1 = 0 := by omega
      rw [h1, hfirst] at hlast
      exact Bool.noConfusion hlast
    have hj : T.lo_structure.getD (ii + (structure_.length - 1)) false = true := by
      rw [hS, getD_trimmed, if_neg (by omega),
        show ii + (structure_.length - 1) - ii = structure_.length - 1 by omega, hlast]
    have hlt : ii + (structure_.length - 1) < T.breadth_first.length := by
      have := congrArg List.length hS
      simp only [bitmap_tree.lo_structure, List.length_map, List.length_append,
        List.length_replicate] at this
      omega
    have h1 : T.lo_structure.getD (ii + (structure_.length - 1)) false
        = (T.breadth_first[ii + (structure_.length - 1)]).is_inner_node := by
      simp [bitmap_tree.lo_structure, List.getD_eq_getElem?_getD, List.getElem?_eq_getElem hlt]
    rw [← bitmap_tree.breadth_first_eq_level_order]
    cases hx : T.breadth_first[ii + (structure_.length - 1)] with
    | leaf b' =>
      rw [h1, hx] at hj
      simp [bitmap_tree.is_inner_node] at hj
    | inner l r =>
      exact ⟨ii + (structure_.length - 1), l, r, by omega,
        by rw [List.getElem?_eq_getElem hlt, hx]⟩
  obtain ⟨T', hT', hq'⟩ : ∃ T', bitmap_tree.expands T T' ∧ q' = [T'] := by
    cases e1 with
    | head _ x' _ hx => exact ⟨x', hx, rfl⟩
    | tail _ _ xs' hx => cases hx
  subst hq'
  have hheight : ∀ H, T.height ≤ H → T'.height ≤ H := fun H hH =>
    e8 H (by intro x hx; rw [List.mem_singleton.mp hx]; exact hH) hinner T'
      (List.mem_singleton.mpr rfl)
  rw [← bitmap_tree.breadth_first_eq_level_order] at e2 e3
  have hshape : T.breadth_first[ii]? = some (bitmap_tree.leaf b) ∧
      T'.breadth_first[ii]?
        = some (bitmap_tree.inner (bitmap_tree.leaf b) (bitmap_tree.leaf b)) := by
    have hp' : pre'.length = ii := by
      have := congrArg List.length e5
      simp only [List.length_map] at this
      omega
    constructor
    · rw [e2, List.getElem?_append_right (by omega), e4, Nat.sub_self,
        List.getElem?_cons_zero]
    · rw [e3, List.getElem?_append_right (by omega), hp', Nat.sub_self,
        List.getElem?_cons_zero]
  -- the nodes in front of node `ii` are inner nodes
  have hST : T.lo_structure = pre.map bitmap_tree.is_inner_node
      ++ false :: (c.map bitmap_tree.is_inner_node ++ post.map bitmap_tree.is_inner_node) := by
    simp [bitmap_tree.lo_structure, e2, bitmap_tree.is_inner_node]
  have hpre : pre.map bitmap_tree.is_inner_node = List.replicate ii true := by
    have h1 : T.lo_structure.take ii = pre.map bitmap_tree.is_inner_node := by
      rw [hST]; exact List.take_left' (by simpa using e4)
    have h2 : T.lo_structure.take ii = List.replicate ii true := by
      rw [hS, List.append_assoc]; exact List.take_left' (by simp)
    rw [← h1, h2]
  have hc : c.length = ii := by
    rw [hpre, List.count_replicate_self] at e7
    simp only [List.length_singleton] at e7
    omega
  have hST' : T'.lo_structure = List.replicate ii true
      ++ true :: (c.map bitmap_tree.is_inner_node
        ++ false :: false :: post.map bitmap_tree.is_inner_node) := by
    simp [bitmap_tree.lo_structure, e3, bitmap_tree.is_inner_node, e5, hpre]
  rw [hpre] at hST
  -- the structure built by the loops
  obtain ⟨s1, s2, hfront, hback, hs2len, hs2⟩ := decompress_structure structure_ ii
  have hS' : T'.lo_structure = List.replicate ii true ++ s2 ++ List.replicate il false := by
    apply ext_getD_false
    · have h1 := congrArg List.length hST
      have h2 := congrArg List.length hS
      rw [hST']
      simp only [List.length_append, List.length_replicate, List.length_cons, List.length_map]
        at h1 h2 ⊢
      omega
    · intro j
      rw [hST', getD_insert _ _ _ true false false false j, ← hST, hS, getD_trimmed,
        getD_trimmed, getD_trimmed, hs2]
      simp only [List.length_replicate, List.length_map, hc]
      split_ifs <;>
        first
        | rfl
        | (exfalso; omega)
        | (congr 1; omega)
  -- trimming
  have hc1 := count_trailing_1bits_spec s2
  have hc1pos : 0 < count_trailing_1bits s2 := by
    have h0 := hs2 0
    rw [if_pos rfl] at h0
    cases s2 with
    | nil => simp at hs2len
    | cons x xs =>
      simp only [List.getD_eq_getElem?_getD, List.getElem?_cons_zero, Option.getD_some] at h0
      subst h0
      simp [count_trailing_1bits]
  obtain ⟨k, hp2, hp3⟩ := pop_back_0bits_spec (s2.drop (count_trailing_1bits s2)).length
    (s2.drop (count_trailing_1bits s2)) il32
  generalize hc1def : count_trailing_1bits s2 = c1 at hc1 hc1pos hp2 hp3
  generalize hpop : pop_back_0bits (s2.drop c1).length (s2.drop c1) il32 = popped at hp2 hp3
  have hS'1 : T'.lo_structure
      = List.replicate (ii + c1) true ++ popped.1 ++ List.replicate (k + il) false := by
    rw [hS']
    conv_lhs => rw [hc1, ← hp2]
    simp only [List.replicate_add, List.append_assoc]
  have hpil : popped.2 = (k + il) % 2 ^ 32 := by
    rw [hp3 (by rw [hil]; exact Nat.mod_lt _ (by positivity)), hil, Nat.mod_add_mod,
      Nat.add_comm]
  -- the labels
  have hprel : pre.filter (fun k => !k.is_inner_node) = [] :=
    bitmap_tree.filter_leaf_of_all_inner pre ii hpre
  have hLc := bitmap_tree.length_filter_leaf c
  have hLT : T.lo_labels = b :: ((c.filter (fun k => !k.is_inner_node)).map
      bitmap_tree.label_of_node ++ (post.filter (fun k => !k.is_inner_node)).map
      bitmap_tree.label_of_node) := by
    unfold bitmap_tree.lo_labels
    rw [e2, List.filter_append, hprel, List.nil_append,
      List.filter_cons_of_pos (by simp [bitmap_tree.is_inner_node]), List.map_cons,
      List.filter_append, List.map_append]
    rfl
  have hLT' : T'.lo_labels = (c.filter (fun k => !k.is_inner_node)).map
      bitmap_tree.label_of_node ++ b :: b :: (post.filter (fun k => !k.is_inner_node)).map
      bitmap_tree.label_of_node := by
    unfold bitmap_tree.lo_labels
    rw [e3, List.filter_append, e6, hprel, List.nil_append,
      List.filter_cons_of_neg (by simp [bitmap_tree.is_inner_node]), List.filter_append,
      List.filter_cons_of_pos (by simp [bitmap_tree.is_inner_node]),
      List.filter_cons_of_pos (by simp [bitmap_tree.is_inner_node]), List.map_append,
      List.map_cons, List.map_cons]
    rfl
  generalize hLcdef : (c.filter (fun k => !k.is_inner_node)).map bitmap_tree.label_of_node = Lc
    at hLT hLT'
  generalize (post.filter (fun k => !k.is_inner_node)).map bitmap_tree.label_of_node = Lpost
    at hLT hLT'
  have hLclen : Lc.length + (c.map bitmap_tree.is_inner_node).count true = ii := by
    rw [← hLcdef, List.length_map, hLc, hc]
  rw [hLT] at hL
  have hrank := rank_eq_of_structure ⟨n_, popped.1, labels_, ii + c1, o, popped.2⟩ _ _ hS'1
  have hleft : get_label_idx ⟨n_, popped.1, labels_, ii + c1, o, popped.2⟩ (2 * ii + 1)
      = Lc.length := by
    unfold get_label_idx
    rw [hrank, hST',
      show List.replicate ii true ++ true :: (c.map bitmap_tree.is_inner_node
          ++ false :: false :: post.map bitmap_tree.is_inner_node)
        = (List.replicate ii true ++ true :: c.map bitmap_tree.is_inner_node)
          ++ (false :: false :: post.map bitmap_tree.is_inner_node) by simp,
      List.take_left' (by simp [hc]; omega)]
    simp only [List.count_append, List.count_replicate_self, List.count_cons_self]
    omega
  have hright : get_label_idx ⟨n_, popped.1, labels_, ii + c1, o, popped.2⟩ (2 * ii + 1 + 1)
      = Lc.length + 1 := by
    unfold get_label_idx
    rw [hrank, hST',
      show List.replicate ii true ++ true :: (c.map bitmap_tree.is_inner_node
          ++ false :: false :: post.map bitmap_tree.is_inner_node)
        = (List.replicate ii true ++ true :: (c.map bitmap_tree.is_inner_node ++ [false]))
          ++ (false :: post.map bitmap_tree.is_inner_node) by simp,
      List.take_left' (by simp [hc]; omega)]
    have hcf : List.count true [false] = 0 := by decide
    simp only [List.count_append, List.count_replicate_self, List.count_cons_self, hcf]
    omega
  obtain ⟨l1, l2, hlf, hlb, hl2len, hl2⟩ := decompress_labels labels_ Lc.length b
    (by rw [hL]; simp; omega)
  have hl2eq : l2 = T'.lo_labels := by
    apply ext_getD_false
    · rw [hl2len, hLT', hL]; simp; omega
    · intro j
      rw [hl2, hLT', getD_insert_labels Lc Lpost b b b j, hL]
      split_ifs <;>
        first
        | rfl
        | (exfalso; omega)
  have hlabel : get_label ⟨n_, structure_, labels_, ii, o, il32⟩ ii = b := by
    have := h.label_of_leaf ii b (by rw [bitmap_tree.breadth_first_eq_level_order]; exact hb)
    simpa [get_label, get_label_idx, List.getD_eq_getElem?_getD] using this
  have hleaf : is_leaf_node ⟨n_, structure_, labels_, ii, o, il32⟩ ii = true := by
    unfold is_leaf_node is_inner_node
    simp only [lt_irrefl, if_false, Nat.sub_self, hfirst]
    split <;> rfl
  refine ⟨⟨n_, popped.1, l2, ii + c1, o, popped.2⟩, T', ?_, ⟨⟨k + il, hS'1, hpil⟩, hl2eq⟩, hT',
    rfl, rfl,
    (show ii < ii + c1 by omega), hl2len, hheight, b, hshape⟩
  unfold decompress
  simp only [hne, hfirst, hlast, hleaf, if_false, bne_self_eq_false, Bool.false_eq_true,
    Bool.not_true, hfront, hback, hc1def, hpop, hleft, hright, hlabel, hlf, hlb]




end teb

namespace teb

/-- A `decompress()` call that returns `true` has passed the assertions on the
structure. -/
theorem decompress_true_pre (t t' : teb) (h : t.decompress = some (true, t')) :
    t.structure_.length ≠ 0 ∧ t.structure_.getD 0 false = false ∧
    t.structure_.getD (t.structure_.length - 1) false = true := by
  unfold decompress at h
  by_cases h1 : t.structure_.length = 0
  · rw [if_pos h1] at h
    simp at h
  · rw [if_neg h1] at h
    cases h2 : t.structure_.getD 0 false
    · cases h3 : t.structure_.getD (t.structure_.length - 1) false
      · rw [h2, h3] at h
        simp at h
      · exact ⟨h1, rfl, rfl⟩
    · rw [h2] at h
      simp at h

theorem decompressed_encodes (B : List Bool) (o : Nat) (f : ℚ) (t : teb)
    (ht : decompressed B o f t) : ∃ T, Encodes t T := by
  induction ht with
  | ctor => exact ⟨_, ctor_encodes B o f⟩
  | step t t' _ hd ih =>
    obtain ⟨T, hT⟩ := ih
    obtain ⟨h1, h2, h3⟩ := decompress_true_pre t t' hd
    obtain ⟨t'', T', g1, g2, _⟩ := hT.decompress_spec h1 h2 h3
    rw [hd] at g1
    have : t' = t'' := by
      have := Option.some.inj g1
      exact (Prod.mk.inj this).2
    subst this
    exact ⟨T', g2⟩

/-- The number of trimmed trailing leaves of an encoding, of which the member
`implicit_leaf_node_cnt_` keeps the low 32 bits. -/
theorem Encodes.counts {t : teb} {T : bitmap_tree} (h : Encodes t T) :
    ∃ il, t.implicit_leaf_node_cnt_ = il % 2 ^ 32 ∧
      t.structure_.length + t.implicit_inner_node_cnt_ + il = T.node_cnt ∧
      t.labels_.length = t.structure_.count false + il := by
  obtain ⟨il, hs, hil⟩ := h.structure_eq
  refine ⟨il, hil, ?_, ?_⟩
  · have h1 := congrArg List.length hs
    rw [← bitmap_tree.length_breadth_first]
    simp only [bitmap_tree.lo_structure, List.length_map, List.length_append,
      List.length_replicate] at h1
    omega
  · have h1 := bitmap_tree.length_filter_leaf T.breadth_first
    have h2 := congrArg List.length hs
    have h3 := congrArg (List.count true) hs
    have h4 := List.count_true_add_count_false t.structure_
    rw [h.labels_eq]
    simp only [bitmap_tree.lo_structure, bitmap_tree.lo_labels, List.length_map,
      List.length_append, List.length_replicate, List.count_append,
      List.count_replicate_self] at h1 h2 h3 ⊢
    have h5 : List.count true (List.replicate il false) = 0 := by
      simp [List.count_replicate]
    rw [h5] at h3
    omega

theorem Encodes.node_count {t : teb} {T : bitmap_tree} (h : Encodes t T)
    (hT : T.node_cnt < 2 ^ 32) :
    t.structure_.length + t.implicit_inner_node_cnt_ + t.implicit_leaf_node_cnt_
      = T.node_cnt := by
  obtain ⟨il, h1, h2, _⟩ := h.counts
  rw [h1, Nat.mod_eq_of_lt (by omega)]
  exact h2

theorem Encodes.label_count {t : teb} {T : bitmap_tree} (h : Encodes t T)
    (hT : T.node_cnt < 2 ^ 32) :
    t.labels_.length = t.structure_.count false + t.implicit_leaf_node_cnt_ := by
  obtain ⟨il, h1, h2, h3⟩ := h.counts
  rw [h1, Nat.mod_eq_of_lt (by omega)]
  exact h3

/-- At optimization level 0 an assertion of `decompress()` fails: the
untrimmed structure starts with the 1-bit of an inner root or is the single
0-bit of a leaf root. -/
theorem decompress_level_0 (B : List Bool) (f : ℚ) :
    (ctor B 0 f).decompress = Option.none := by
  have h0 := breadth_first_zero (bitmap_tree.ctor B f)
  have hlen := bitmap_tree.length_breadth_first (bitmap_tree.ctor B f)
  have hs : (ctor B 0 f).structure_ = (bitmap_tree.ctor B f).lo_structure := by
    simp [ctor, encode_eq, bitmap_tree.lo_structure]
  unfold decompress
  rw [hs]
  generalize bitmap_tree.ctor B f = T at h0 hlen
  obtain ⟨R, hR⟩ : ∃ R, T.breadth_first = T :: R := by
    cases hR : T.breadth_first with
    | nil => simp [hR] at h0
    | cons a R => simp [hR] at h0; exact ⟨R, by rw [h0]⟩
  cases T with
  | leaf b =>
    have hR' : R = [] := by
      rw [hR] at hlen
      simp [bitmap_tree.node_cnt] at hlen
      exact hlen
    subst hR'
    simp [bitmap_tree.lo_structure, hR, bitmap_tree.is_inner_node]
  | inner l r =>
    simp [bitmap_tree.lo_structure, hR, bitmap_tree.is_inner_node]

end teb

/-! ## Lemmas: rank by scanning -/

theorem count_take_succ_getD (s : List Bool) (i : Nat) :
    (s.take (i + 1)).count true = (s.take i).count true + (s.getD i false).toNat := by
  induction s generalizing i with
  | nil => simp
  | cons a s ih =>
    cases i with
    | zero => cases a <;> simp
    | succ i =>
      simp only [List.take_succ_cons, List.count_cons, List.getD_cons_succ, ih]
      omega

theorem foldl_range_scan (s : List Bool) (i init : Nat) :
    (List.range i).foldl (fun ret_val j => ret_val + (s.getD j false).toNat) init
      = init + (s.take i).count true := by
  induction i with
  | zero => simp
  | succ i ih =>
    rw [List.range_succ, List.foldl_append, ih, count_take_succ_getD]
    simp only [List.foldl_cons, List.foldl_nil]
    omega

namespace teb

theorem rank_scan_eq_rank (t : teb) (k : Nat) : t.rank_scan k = t.rank k := by
  unfold rank_scan rank rank1
  simp only [foldl_range_scan]

end teb

/-! ## Lemmas: `run_optimize` -/

namespace teb

theorem count_trailing_1bits_pos (s : List Bool) (h : s.getD 0 false = true)  :
    1 ≤ count_trailing_1bits s := by
  cases s with
  | nil => simp at h
  | cons a s =>
    simp at h
    subst h
    simp [count_trailing_1bits]

/-- A successful `decompress()` raises the number of implicit inner nodes and
keeps the optimization level. -/
theorem decompress_true_II (t t' : teb) (h : t.decompress = some (true, t')) :
    t.implicit_inner_node_cnt_ < t'.implicit_inner_node_cnt_ ∧
    t'.optimization_level_ = t.optimization_level_ := by
  obtain ⟨h1, h2, h3⟩ := decompress_true_pre t t' h
  obtain ⟨s1, s2, e1, e2, hlen, hget⟩ := decompress_structure t.structure_ t.implicit_inner_node_cnt_
  have hpos := count_trailing_1bits_pos s2 (by rw [hget 0]; simp)
  unfold decompress at h
  rw [if_neg h1] at h
  simp only [h2, h3, bne_self_eq_false, Bool.false_eq_true, if_false] at h
  split at h
  · cases h
  · simp only [e1, e2] at h
    split at h
    · cases h
    · split at h
      · cases h
      · have := (Prod.mk.inj (Option.some.inj h)).2
        subst this
        refine ⟨?_, rfl⟩
        show t.implicit_inner_node_cnt_ < t.implicit_inner_node_cnt_ + count_trailing_1bits s2
        omega

/-- The method `decompress()` returns `false` only on an empty structure, and
then leaves the TEB as it is. -/
theorem decompress_false (t t' : teb) (h : t.decompress = some (false, t')) : t' = t := by
  unfold decompress at h
  split at h
  · exact ((Prod.mk.inj (Option.some.inj h)).2).symm
  · split at h
    · cases h
    · split at h
      · cases h
      · simp only at h
        split at h
        · cases h
        · split at h
          · cases h
          · split at h
            · cases h
            · split at h
              · cases h
              · split at h
                · cases h
                · cases h

theorem run_optimize_loop_true (rs : List Bool → Nat) :
    ∀ (fuel : Nat) (this min : teb) (min_size local_cntr : Nat) (r : teb × Bool × teb),
      run_optimize_loop rs fuel this true min min_size local_cntr = some r → r.2.1 = true := by
  intro fuel
  induction fuel with
  | zero => intro _ _ _ _ r h; simp [run_optimize_loop] at h
  | succ fuel ih =>
    intro this min min_size local_cntr r h
    unfold run_optimize_loop at h
    split at h
    · cases h
    · cases h; rfl
    · simp only at h
      split at h
      · cases h; rfl
      · split at h
        · exact ih _ _ _ _ _ h
        · exact ih _ _ _ _ _ h

/-- While `optimized` stays `false` the loop only moves `*this` forward: `min`
is untouched and the implicit inner node count of `*this` does not go down; it
goes up when the first `decompress()` succeeds. -/
theorem run_optimize_loop_false (rs : List Bool → Nat) :
    ∀ (fuel : Nat) (this min : teb) (min_size local_cntr : Nat) (cur min' : teb),
      run_optimize_loop rs fuel this false min min_size local_cntr = some (cur, false, min') →
      min' = min ∧ cur.optimization_level_ = this.optimization_level_ ∧
      this.implicit_inner_node_cnt_ ≤ cur.implicit_inner_node_cnt_ ∧
      ((∃ t', this.decompress = some (true, t')) →
        this.implicit_inner_node_cnt_ < cur.implicit_inner_node_cnt_) := by
  intro fuel
  induction fuel with
  | zero => intro _ _ _ _ _ _ h; simp [run_optimize_loop] at h
  | succ fuel ih =>
    intro this min min_size local_cntr cur min' h
    unfold run_optimize_loop at h
    split at h
    · cases h
    · rename_i t1 hd
      have h' := Prod.mk.inj (Option.some.inj h)
      have h'' := Prod.mk.inj h'.2
      have ht1 := decompress_false _ _ hd
      rw [← h'.1, ht1]
      refine ⟨h''.2.symm, rfl, Nat.le_refl _, ?_⟩
      · rintro ⟨t', ht'⟩
        rw [hd] at ht'
        cases ht'
    · rename_i t1 hd
      obtain ⟨g1, g2⟩ := decompress_true_II _ _ hd
      simp only at h
      split at h
      · have h' := Prod.mk.inj (Option.some.inj h)
        have h'' := Prod.mk.inj h'.2
        rw [← h'.1]
        exact ⟨h''.2.symm, g2, by omega, fun _ => g1⟩
      · split at h
        · have := run_optimize_loop_true rs _ _ _ _ _ _ h
          cases this
        · obtain ⟨k1, k2, k3, _⟩ := ih _ _ _ _ _ _ h
          exact ⟨k1, by rw [k2, g2], by omega, fun _ => by omega⟩

end teb
end dtl
namespace dtl
namespace teb

/-- The candidate `min` kept by the loop is never larger than `min_size`, and it
is strictly smaller once `optimized` has been set. -/
theorem run_optimize_loop_min (rs : List Bool → Nat) :
    ∀ (fuel : Nat) (this : teb) (optimized : Bool) (min : teb) (min_size local_cntr : Nat)
      (r : teb × Bool × teb),
      run_optimize_loop rs fuel this optimized min min_size local_cntr = some r →
      min.size_in_byte rs = min_size →
      r.2.2.size_in_byte rs ≤ min_size ∧
      (optimized = false → r.2.1 = true → r.2.2.size_in_byte rs < min_size) := by
  intro fuel
  induction fuel with
  | zero => intro _ _ _ _ _ r h; simp [run_optimize_loop] at h
  | succ fuel ih =>
    intro this optimized min min_size local_cntr r h hmin
    unfold run_optimize_loop at h
    split at h
    · cases h
    · cases h
      exact ⟨by simp only [hmin, Nat.le_refl], fun h1 h2 => by simp [h1] at h2⟩
    · simp only at h
      split at h
      · cases h
        exact ⟨by simp only [hmin, Nat.le_refl], fun h1 h2 => by simp [h1] at h2⟩
      · split at h
        · rename_i hlt
          obtain ⟨k1, _⟩ := ih _ _ _ _ _ _ h rfl
          exact ⟨by omega, fun _ _ => by omega⟩
        · exact ih _ _ _ _ _ _ h hmin

/-- At an optimization level `<= 1`, `run_optimize` changes nothing. -/
theorem run_optimize_low_level (rs : List Bool → Nat) (fuel : Nat) (t : teb)
    (h : t.optimization_level_ ≤ 1) : t.run_optimize rs fuel = some t := by
  unfold run_optimize
  rw [if_neg (by omega)]

/-- When some `decompress()` step produced a strictly smaller size,
`run_optimize` leaves the smallest candidate, which is strictly smaller than the
TEB before the call. -/
theorem run_optimize_optimized (rs : List Bool → Nat) (fuel : Nat) (t cur min : teb)
    (hlvl : 1 < t.optimization_level_)
    (hloop : run_optimize_loop rs fuel t false t (t.size_in_byte rs) 0 = some (cur, true, min)) :
    t.run_optimize rs fuel = some min ∧ min.size_in_byte rs < t.size_in_byte rs := by
  refine ⟨?_, (run_optimize_loop_min rs _ _ _ _ _ _ _ hloop rfl).2 rfl rfl⟩
  unfold run_optimize
  rw [if_pos hlvl, hloop]
  rfl

end teb

/-! ## Lemmas: word arrays -/

theorem and_one_shiftLeft_ne_zero (w k : Nat) : (w &&& (1 <<< k) != 0) = w.testBit k := by
  rw [Nat.one_shiftLeft, Nat.and_two_pow]
  cases h : w.testBit k
  · simp
  · simp [Nat.pos_iff_ne_zero.mp (Nat.two_pow_pos k)]

theorem mul_add_le_of_lt (W j x : Nat) (h : j < x) : W * j + W ≤ W * x := by
  calc W * j + W = W * (j + 1) := (Nat.mul_succ W j).symm
    _ ≤ W * x := Nat.mul_le_mul_left W h

/-- The shift of the mask `Y`: `(W - e % W) % W = W - 1 - (e - 1) % W`. -/
theorem end_shift_eq (W e : Nat) (hW : 0 < W) (he : 0 < e) :
    (W - e % W) % W = W - 1 - (e - 1) % W := by
  have h1 := Nat.div_add_mod (e - 1) W
  have hu := Nat.mod_lt (e - 1) hW
  have he' : e = W * ((e - 1) / W) + ((e - 1) % W + 1) := by omega
  by_cases hc : (e - 1) % W + 1 < W
  · have : e % W = (e - 1) % W + 1 := by
      have hmod := congrArg (· % W) he'
      simp only [Nat.mul_add_mod, Nat.mod_eq_of_lt hc] at hmod
      exact hmod
    rw [this, Nat.mod_eq_of_lt (by omega)]
    omega
  · have hW' : (e - 1) % W + 1 = W := by omega
    have : e % W = 0 := by
      have hmod := congrArg (· % W) he'
      simp only [hW', Nat.mul_add_mod, Nat.mod_self] at hmod
      exact hmod
    rw [this, Nat.sub_zero, Nat.mod_self]
    omega

theorem getD_set_nat (l : List Nat) (k v j : Nat) :
    (l.set k v).getD j 0 = if j = k ∧ k < l.length then v else l.getD j 0 := by
  rw [List.getD_eq_getElem?_getD, List.getD_eq_getElem?_getD, List.getElem?_set]
  by_cases h : k = j
  · subst h
    by_cases h2 : k < l.length
    · simp [h2]
    · simp [h2, List.getElem?_eq_none (Nat.le_of_not_lt h2)]
  · have : ¬ (j = k ∧ k < l.length) := fun hh => h hh.1.symm
    simp [h, this]

theorem foldl_or_getD (Z : Nat) :
    ∀ (n start : Nat) (bm : List Nat) (j : Nat), j < bm.length →
      ((List.range' start n).foldl (fun bitmap k => bitmap.set k (bitmap.getD k 0 ||| Z))
          bm).getD j 0
        = if start ≤ j ∧ j < start + n then bm.getD j 0 ||| Z else bm.getD j 0 := by
  intro n
  induction n with
  | zero =>
    intro start bm j _
    rw [if_neg (by omega)]
    rfl
  | succ n ih =>
    intro start bm j hj
    rw [List.range'_succ, List.foldl_cons, ih _ _ _ (by simpa using hj)]
    simp only [getD_set_nat]
    by_cases h1 : j = start
    · subst h1
      have h0 : ¬ (j + 1 ≤ j ∧ j < j + 1 + n) := by omega
      have h3 : j ≤ j ∧ j < j + (n + 1) := by omega
      simp only [if_neg h0, if_pos h3, true_and, if_pos hj]
    · have hne : ¬ (j = start ∧ start < bm.length) := fun hh => h1 hh.1
      simp only [if_neg hne]
      by_cases h2 : start + 1 ≤ j ∧ j < start + 1 + n
      · have h3 : start ≤ j ∧ j < start + (n + 1) := by omega
        simp only [if_pos h2, if_pos h3]
      · have h3 : ¬ (start ≤ j ∧ j < start + (n + 1)) := by omega
        simp only [if_neg h2, if_neg h3]

theorem foldl_or_length (Z : Nat) :
    ∀ (n start : Nat) (bm : List Nat),
      ((List.range' start n).foldl (fun bitmap k => bitmap.set k (bitmap.getD k 0 ||| Z))
          bm).length = bm.length := by
  intro n
  induction n with
  | zero => intro start bm; simp
  | succ n ih =>
    intro start bm
    rw [List.range'_succ, List.foldl_cons, ih]
    simp

namespace bitmap_fun

theorem test_eq_testBit (W : Nat) (bitmap : List Nat) (i : Nat) :
    test W bitmap i = (bitmap.getD (i / W) 0).testBit (i % W) := by
  unfold test
  simp only [and_one_shiftLeft_ne_zero]

theorem set_length (W : Nat) (bitmap : List Nat) (b e : Nat) :
    (set W bitmap b e).length = bitmap.length := by
  unfold set
  simp only
  split
  · rfl
  · split
    · simp
    · rw [List.length_set, foldl_or_length, List.length_set]

/-- The bits of the words after `set(bitmap, b, e)`. -/
theorem set_testBit (W : Nat) (hW : 0 < W) (bitmap : List Nat) (b e : Nat) (hlt : b < e)
    (j r : Nat) (hj : j < bitmap.length) (hr : r < W) :
    ((set W bitmap b e).getD j 0).testBit r
      = ((bitmap.getD j 0).testBit r || decide (b ≤ W * j + r ∧ W * j + r < e)) := by
  have hb := Nat.div_add_mod b W
  have hs := Nat.mod_lt b hW
  have he := Nat.div_add_mod (e - 1) W
  have hu := Nat.mod_lt (e - 1) hW
  have ht := end_shift_eq W e hW (by omega)
  have hX : ((2 ^ W - 1) <<< (b % W) % 2 ^ W).testBit r = decide (b % W ≤ r) := by
    rw [Nat.testBit_mod_two_pow, Nat.testBit_shiftLeft, Nat.testBit_two_pow_sub_one]
    simp only [hr, decide_True, Bool.true_and, ge_iff_le]
    have : r - b % W < W := by omega
    simp [this]
  have hY : ((2 ^ W - 1) >>> ((W - e % W) % W)).testBit r = decide (r ≤ (e - 1) % W) := by
    rw [Nat.testBit_shiftRight, Nat.testBit_two_pow_sub_one, ht]
    congr 1
    apply propext
    omega
  have hZ : (2 ^ W - 1).testBit r = true := by
    rw [Nat.testBit_two_pow_sub_one]; simp [hr]
  unfold set
  simp only
  rw [if_neg (by omega)]
  by_cases hxy : b / W = (e - 1) / W
  · rw [if_pos hxy, getD_set_nat]
    by_cases hjx : j = b / W
    · have hlen : b / W < bitmap.length := hjx ▸ hj
      rw [if_pos ⟨hjx, hlen⟩, Nat.testBit_or, Nat.testBit_and, hX, hY, ← hjx]
      congr 1
      rw [← Bool.decide_and]
      congr 1
      apply propext
      rw [hjx]
      rw [← hxy] at he
      omega
    · rw [if_neg (fun hh => hjx hh.1)]
      have : ¬ (b ≤ W * j + r ∧ W * j + r < e) := by
        rw [← hxy] at he
        rcases Nat.lt_or_gt_of_ne hjx with h | h
        · have := mul_add_le_of_lt W _ _ h
          omega
        · have := mul_add_le_of_lt W _ _ h
          omega
      simp [this]
  · rw [if_neg hxy]
    have hxlty : b / W < (e - 1) / W := by
      have : b / W ≤ (e - 1) / W := Nat.div_le_div_right (by omega)
      omega
    have hmul := mul_add_le_of_lt W _ _ hxlty
    have hlen1 : (bitmap.set (b / W) (bitmap.getD (b / W) 0 ||| (2 ^ W - 1) <<< (b % W) % 2 ^ W)).length
        = bitmap.length := by simp
    rw [getD_set_nat, foldl_or_length, hlen1]
    by_cases hjy : j = (e - 1) / W
    · have hlen : (e - 1) / W < bitmap.length := hjy ▸ hj
      rw [if_pos ⟨hjy, hlen⟩, foldl_or_getD _ _ _ _ _ (by rw [hlen1]; exact hlen),
        if_neg (by omega), getD_set_nat, if_neg (fun hh => hxy hh.1.symm), Nat.testBit_or, hY,
        ← hjy]
      congr 1
      congr 1
      apply propext
      rw [hjy]
      omega
    · rw [if_neg (fun hh => hjy hh.1), foldl_or_getD _ _ _ _ _ (by rw [hlen1]; exact hj)]
      by_cases hmid : b / W + 1 ≤ j ∧ j < b / W + 1 + ((e - 1) / W - (b / W + 1))
      · rw [if_pos hmid, getD_set_nat, if_neg (fun hh => by omega), Nat.testBit_or, hZ]
        have h1 := mul_add_le_of_lt W (b / W) j (by omega)
        have h2 := mul_add_le_of_lt W j ((e - 1) / W) (by omega)
        have : b ≤ W * j + r ∧ W * j + r < e := by omega
        simp [this]
      · rw [if_neg hmid, getD_set_nat]
        by_cases hjx : j = b / W
        · have hlen : b / W < bitmap.length := hjx ▸ hj
          rw [if_pos ⟨hjx, hlen⟩, Nat.testBit_or, hX, ← hjx]
          congr 1
          congr 1
          apply propext
          rw [hjx]
          omega
        · rw [if_neg (fun hh => hjx hh.1)]
          have : ¬ (b ≤ W * j + r ∧ W * j + r < e) := by
            rcases Nat.lt_or_gt_of_ne hjx with h | h
            · have := mul_add_le_of_lt W _ _ h
              omega
            · have h3 : (e - 1) / W < j := by omega
              have := mul_add_le_of_lt W _ _ h3
              omega
          simp [this]

end bitmap_fun

/-! ## Lemmas: the XOR of two trees -/

theorem zipWith_xor_replicate_right (y : Bool) : ∀ (L : List Bool) (n : Nat), L.length ≤ n →
    List.zipWith Bool.xor L (List.replicate n y) = L.map (fun x => Bool.xor x y) := by
  intro L
  induction L with
  | nil => intro n _; simp
  | cons a L ih =>
    intro n hn
    cases n with
    | zero => simp at hn
    | succ n =>
      simp only [List.replicate_succ, List.zipWith_cons_cons, List.map_cons]
      rw [ih n (by simpa using hn)]

theorem zipWith_xor_replicate_left (x : Bool) : ∀ (L : List Bool) (n : Nat), L.length ≤ n →
    List.zipWith Bool.xor (List.replicate n x) L = L.map (fun y => Bool.xor y x) := by
  intro L
  induction L with
  | nil => intro n _; simp
  | cons a L ih =>
    intro n hn
    cases n with
    | zero => simp at hn
    | succ n =>
      simp only [List.replicate_succ, List.zipWith_cons_cons, List.map_cons]
      rw [ih n (by simpa using hn), Bool.xor_comm]

namespace bitmap_tree

theorem height_map_xor (c : Bool) : ∀ T : bitmap_tree, (map_xor c T).height = T.height := by
  intro T
  induction T with
  | leaf b => rfl
  | inner l r ihl ihr => simp only [map_xor, height, ihl, ihr]

theorem to_bits_map_xor (c : Bool) : ∀ (T : bitmap_tree) (h : Nat),
    to_bits h (map_xor c T) = (to_bits h T).map (fun x => Bool.xor x c) := by
  intro T
  induction T with
  | leaf b => intro h; simp [map_xor, to_bits]
  | inner l r ihl ihr =>
    intro h
    simp only [map_xor, to_bits, ihl, ihr, List.map_append]

theorem height_xor_tree : ∀ Ta Tb : bitmap_tree,
    (xor_tree Ta Tb).height ≤ max Ta.height Tb.height := by
  intro Ta
  induction Ta with
  | leaf x =>
    intro Tb
    cases Tb with
    | leaf y => simp [xor_tree, height]
    | inner l r => simp [xor_tree, height, height_map_xor]
  | inner l1 r1 ihl ihr =>
    intro Tb
    cases Tb with
    | leaf y => simp [xor_tree, height, height_map_xor]
    | inner l2 r2 =>
      have h1 := ihl l2
      have h2 := ihr r2
      simp only [xor_tree, height]
      omega

theorem to_bits_xor_tree : ∀ (Ta Tb : bitmap_tree) (h : Nat), Ta.height ≤ h → Tb.height ≤ h →
    to_bits h (xor_tree Ta Tb) = List.zipWith Bool.xor (to_bits h Ta) (to_bits h Tb) := by
  intro Ta
  induction Ta with
  | leaf x =>
    intro Tb h _ hb
    cases Tb with
    | leaf y => simp [xor_tree, to_bits]
    | inner l r =>
      have hlen := length_to_bits _ _ hb
      rw [show to_bits h (leaf x) = List.replicate (2 ^ h) x from rfl,
        zipWith_xor_replicate_left x _ _ (le_of_eq hlen)]
      simp only [xor_tree, to_bits, to_bits_map_xor, List.map_append]
  | inner l1 r1 ihl ihr =>
    intro Tb h ha hb
    cases Tb with
    | leaf y =>
      have hlen := length_to_bits _ _ ha
      rw [show to_bits h (leaf y) = List.replicate (2 ^ h) y from rfl,
        zipWith_xor_replicate_right y _ _ (le_of_eq hlen)]
      simp only [xor_tree, to_bits, to_bits_map_xor, List.map_append]
    | inner l2 r2 =>
      simp only [height] at ha hb
      have e1 := ihl l2 (h - 1) (by omega) (by omega)
      have e2 := ihr r2 (h - 1) (by omega) (by omega)
      have n1 := length_to_bits l1 (h - 1) (by omega)
      have n2 := length_to_bits l2 (h - 1) (by omega)
      simp only [xor_tree, to_bits, e1, e2]
      rw [List.zipWith_append _ _ _ _ _ (by rw [n1, n2])]

end bitmap_tree

/-! ## Lemmas: the decoder of the level-order tree mask -/

namespace tree_mask_lo

theorem Encodes.to_teb {t : tree_mask_lo} {T : bitmap_tree} (h : t.Encodes T) :
    teb.Encodes t.to_teb T :=
  ⟨by simp [tree_mask_lo.to_teb, h.1], h.2⟩

theorem is_inner_node_to_teb (t : tree_mask_lo) (idx : Nat) :
    t.to_teb.is_inner_node idx = t.is_inner_node idx := by
  unfold teb.is_inner_node is_inner_node tree_mask_lo.to_teb
  simp only [Nat.not_lt_zero, if_false, Nat.sub_zero]
  split
  · rename_i h
    rw [List.getD_eq_getElem?_getD, List.getElem?_eq_none h]
    rfl
  · rfl

theorem rank1_min (s : List Bool) (i : Nat) : rank1 s (min i s.length) = rank1 s i := by
  unfold rank1
  rcases Nat.le_total i s.length with h | h
  · rw [Nat.min_eq_left h]
  · rw [Nat.min_eq_right h, List.take_of_length_le h, List.take_of_length_le (Nat.le_refl _)]

theorem rank_to_teb (t : tree_mask_lo) (idx : Nat) : t.to_teb.rank idx = rank1 t.lo_struc idx := by
  unfold teb.rank tree_mask_lo.to_teb
  simp only [Nat.not_lt_zero, if_false, Nat.sub_zero, Nat.zero_add, rank1_min]

theorem rank1_succ_of_leaf (s : List Bool) (idx : Nat) (h : s.getD idx false = false) :
    rank1 s (idx + 1) = rank1 s idx := by
  unfold rank1
  rw [count_take_succ_getD, h]
  rfl

theorem to_bitset_loop_step (t : tree_mask_lo) (H : Nat) (fuel idx level : Nat)
    (nodes : List (Nat × Nat)) (wp : Nat) (ret : List Bool) :
    t.to_bitset_loop H (fuel + 1) ((idx, level) :: nodes) wp ret
      = if t.to_teb.is_inner_node idx then
          t.to_bitset_loop H fuel
            ((t.to_teb.left_child idx, level + 1) :: (t.to_teb.right_child idx, level + 1) :: nodes)
            wp ret
        else
          t.to_bitset_loop H fuel nodes (wp + 1 <<< (H - level))
            (teb.write_label (t.to_teb.get_label idx) wp (1 <<< (H - level)) ret) := by
  simp only [to_bitset_loop, is_inner_node_to_teb]
  by_cases hin : t.is_inner_node idx = true
  · simp only [hin, if_true, teb.left_child_eq, teb.right_child_eq, rank_to_teb]
    rfl
  · simp only [hin, if_false, Bool.false_eq_true]
    have hleaf : t.lo_struc.getD idx false = false := by
      simpa [is_inner_node] using hin
    rw [rank1_succ_of_leaf _ _ hleaf]
    simp only [teb.get_label, teb.get_label_idx, rank_to_teb]
    rfl

/-- The decoder returns the bits of the encoded tree. -/
theorem Encodes.to_bitset_spec {t : tree_mask_lo} {T : bitmap_tree} (h : t.Encodes T)
    (H fuel : Nat) (hT : T.height ≤ H) (hfuel : 2 * 2 ^ H ≤ fuel) :
    t.to_bitset (2 ^ H) fuel = some (T.to_bits H) := by
  have h0 := teb.breadth_first_zero T
  have hcnt := bitmap_tree.node_cnt_le _ _ hT
  have hlen : t.lo_struc.length = T.node_cnt := by
    rw [h.1, bitmap_tree.lo_structure, List.length_map, bitmap_tree.length_breadth_first]
  unfold to_bitset
  cases T with
  | leaf b =>
    have hs : t.lo_struc.length = 1 := by rw [hlen]; rfl
    have hl : t.lo_label = [b] := by
      rw [h.2]
      simp [bitmap_tree.lo_labels, bitmap_tree.breadth_first, bitmap_tree.bfs,
        bitmap_tree.node_cnt, bitmap_tree.children, bitmap_tree.is_inner_node,
        bitmap_tree.label_of_node]
    simp only [hs, if_true, hl, bitmap_tree.to_bits]
    cases b <;> simp
  | inner l r =>
    have hne : t.lo_struc.length ≠ 1 := by
      rw [hlen]
      have := bitmap_tree.node_cnt_pos l
      have := bitmap_tree.node_cnt_pos r
      simp only [bitmap_tree.node_cnt]
      omega
    simp only [if_neg hne, log_2_two_pow]
    have hlenT := bitmap_tree.length_to_bits _ _ hT
    have := h.to_teb.decode_loop_spec H (t.to_bitset_loop H) (fun _ => True) (fun _ => trivial)
      (by intro fuel wp ret; cases fuel <;> rfl)
      (fun fuel idx level nodes wp ret _ _ =>
        to_bitset_loop_step t H fuel idx level nodes wp ret)
      fuel [(0, 0, bitmap_tree.inner l r)] 0
      (List.replicate (2 ^ H) false)
      (by intro x hx; simp only [List.mem_singleton] at hx; subst hx
          exact ⟨h0, by simpa using hT, Or.inl rfl⟩)
      (by simp; omega)
      (by simp [teb.flat_bits, hlenT])
    simp only [List.map_cons, List.map_nil] at this
    rw [this]
    simp [teb.flat_bits, hlenT]

end tree_mask_lo

/-! ## Lemmas: the loop of `operator^` -/

namespace tree_mask_lo

theorem Encodes.is_inner_node_at {t : tree_mask_lo} {T : bitmap_tree} (h : t.Encodes T)
    (k : Nat) (c : bitmap_tree) (hk : T.breadth_first[k]? = some c) :
    t.is_inner_node k = c.is_inner_node := by
  rw [← is_inner_node_to_teb]
  exact h.to_teb.is_inner_node_of k c hk

theorem Encodes.children {t : tree_mask_lo} {T : bitmap_tree} (h : t.Encodes T)
    (k : Nat) (l r : bitmap_tree) (hk : T.breadth_first[k]? = some (bitmap_tree.inner l r)) :
    T.breadth_first[t.left_child k]? = some l ∧ T.breadth_first[t.right_child k]? = some r := by
  have := h.to_teb.inner_nav k l r hk
  rw [rank_to_teb] at this
  exact ⟨this.2.1, this.2.2⟩

theorem Encodes.label_of {t : tree_mask_lo} {T : bitmap_tree} (h : t.Encodes T)
    (k : Nat) (b : Bool) (hk : T.breadth_first[k]? = some (bitmap_tree.leaf b)) :
    t.get_label k = b := by
  have := h.to_teb.label_of_leaf k b hk
  rw [rank_to_teb] at this
  unfold get_label
  rw [List.getD_eq_getElem?_getD]
  exact this

theorem xor_loop_both (a b : tree_mask_lo) (fuel ia ib p : Nat) (xa xb : Bool)
    (fa fb : List node) (np : Nat) (s l : List Bool) (hp : p ≠ 0) :
    xor_loop a b (fuel + 1) (⟨ia, p, xa⟩ :: fa) (⟨ib, p, xb⟩ :: fb) np s l
      = match a.is_inner_node ia, b.is_inner_node ib with
        | false, false =>
          xor_loop a b fuel fa fb np (s ++ [false])
            (l ++ [Bool.xor (a.get_label ia) (b.get_label ib)])
        | true, false =>
          xor_loop a b fuel
            (fa ++ [⟨a.left_child ia, np, b.get_label ib⟩,
              ⟨a.right_child ia, np + 1, b.get_label ib⟩]) fb (np + 2) (s ++ [true]) l
        | false, true =>
          xor_loop a b fuel fa
            (fb ++ [⟨b.left_child ib, np, a.get_label ia⟩,
              ⟨b.right_child ib, np + 1, a.get_label ia⟩]) (np + 2) (s ++ [true]) l
        | true, true =>
          xor_loop a b fuel
            (fa ++ [⟨a.left_child ia, np, false⟩, ⟨a.right_child ia, np + 1, false⟩])
            (fb ++ [⟨b.left_child ib, np, false⟩, ⟨b.right_child ib, np + 1, false⟩])
            (np + 2) (s ++ [true]) l := by
  rw [xor_loop]
  simp only [List.length_cons, gt_iff_lt, Nat.zero_lt_succ, or_self, if_true, List.head?_cons,
    Option.getD_some, ne_eq, hp, not_false_eq_true, and_self, pop, Option.bind_some,
    Option.some_bind]

theorem xor_loop_only_a (a b : tree_mask_lo) (fuel ia p : Nat) (c : Bool)
    (fa fb : List node) (np : Nat) (s l : List Bool) (hp : p ≠ 0)
    (hfb : fb = [] ∨ p < (fb.head?.getD ⟨0, 0, false⟩).node_pos) :
    xor_loop a b (fuel + 1) (⟨ia, p, c⟩ :: fa) fb np s l
      = if a.is_inner_node ia then
          xor_loop a b fuel
            (fa ++ [⟨a.left_child ia, np, c⟩, ⟨a.right_child ia, np + 1, c⟩]) fb (np + 2)
            (s ++ [true]) l
        else
          xor_loop a b fuel fa fb np (s ++ [false]) (l ++ [Bool.xor (a.get_label ia) c]) := by
  rw [xor_loop]
  have h1 : ¬ (p = (fb.head?.getD ⟨0, 0, false⟩).node_pos ∧ p ≠ 0) := by
    rcases hfb with h | h
    · subst h; simp
    · omega
  have h2 : (p < (fb.head?.getD ⟨0, 0, false⟩).node_pos ∧ p ≠ 0)
      ∨ (fb.head?.getD ⟨0, 0, false⟩).node_pos = 0 := by
    rcases hfb with h | h
    · subst h; right; rfl
    · left; exact ⟨h, hp⟩
  have h3 : ¬ ((fb.head?.getD ⟨0, 0, false⟩).node_pos = 0 ∧ fb.length = 1) := by
    rcases hfb with h | h
    · subst h; simp
    · omega
  simp only [List.length_cons, gt_iff_lt, Nat.zero_lt_succ, true_or, if_true, List.head?_cons,
    Option.getD_some, if_neg h1, if_pos h2, pop, Option.bind_some, Option.some_bind, hp,
    false_and, if_false, if_neg h3]

theorem xor_loop_only_b (a b : tree_mask_lo) (fuel ib p : Nat) (c : Bool)
    (fa fb : List node) (np : Nat) (s l : List Bool) (hp : p ≠ 0)
    (hfa : fa = [] ∨ p < (fa.head?.getD ⟨0, 0, false⟩).node_pos) :
    xor_loop a b (fuel + 1) fa (⟨ib, p, c⟩ :: fb) np s l
      = if b.is_inner_node ib then
          xor_loop a b fuel fa
            (fb ++ [⟨b.left_child ib, np, c⟩, ⟨b.right_child ib, np + 1, c⟩]) (np + 2)
            (s ++ [true]) l
        else
          xor_loop a b fuel fa fb np (s ++ [false]) (l ++ [Bool.xor (b.get_label ib) c]) := by
  rw [xor_loop]
  have h1 : ¬ ((fa.head?.getD ⟨0, 0, false⟩).node_pos = p
      ∧ (fa.head?.getD ⟨0, 0, false⟩).node_pos ≠ 0) := by
    rcases hfa with h | h
    · subst h; simp
    · omega
  have h2 : ¬ (((fa.head?.getD ⟨0, 0, false⟩).node_pos < p
      ∧ (fa.head?.getD ⟨0, 0, false⟩).node_pos ≠ 0) ∨ p = 0) := by
    rcases hfa with h | h
    · subst h; simp; exact hp
    · omega
  have h3 : ¬ ((fa.head?.getD ⟨0, 0, false⟩).node_pos = 0 ∧ fa.length = 1) := by
    rcases hfa with h | h
    · subst h; simp
    · omega
  simp only [List.length_cons, gt_iff_lt, Nat.zero_lt_succ, or_true, if_true, List.head?_cons,
    Option.getD_some, if_neg h1, if_neg h2, pop, Option.bind_some, Option.some_bind, if_neg h3]
  simp only [hp, false_and, if_false, Option.some_bind, Option.bind_some]

namespace xitem

theorem kids_tree (a b : tree_mask_lo) (np : Nat) (it : xitem) :
    (kids a b np it).map (fun q => q.2.tree) = bitmap_tree.children it.tree := by
  cases it with
  | both ia ta xa ib tb xb => cases ta <;> cases tb <;> rfl
  | only_a ia ta c => cases ta <;> rfl
  | only_b ib tb c => cases tb <;> rfl

theorem kids_pos (a b : tree_mask_lo) (np : Nat) (it : xitem) :
    (kids a b np it).map (fun q => q.1) = [] ∨ (kids a b np it).map (fun q => q.1) = [np, np + 1] := by
  cases it with
  | both ia ta xa ib tb xb => cases ta <;> cases tb <;> simp [kids]
  | only_a ia ta c => cases ta <;> simp [kids]
  | only_b ib tb c => cases tb <;> simp [kids]

theorem kids_valid {a b : tree_mask_lo} {Ta Tb : bitmap_tree} (ha : a.Encodes Ta)
    (hb : b.Encodes Tb) (np : Nat) (it : xitem) (hv : it.valid Ta Tb) :
    ∀ q ∈ kids a b np it, q.2.valid Ta Tb := by
  cases it with
  | both ia ta xa ib tb xb =>
    obtain ⟨h1, h2⟩ := hv
    cases ta with
    | leaf x =>
      cases tb with
      | leaf y => intro q hq; simp [kids] at hq
      | inner l r =>
        have := hb.children ib l r h2
        intro q hq
        simp only [kids, List.mem_cons, List.mem_singleton, List.not_mem_nil, or_false] at hq
        rcases hq with rfl | rfl
        · exact this.1
        · exact this.2
    | inner l1 r1 =>
      have ha' := ha.children ia l1 r1 h1
      cases tb with
      | leaf y =>
        intro q hq
        simp only [kids, List.mem_cons, List.mem_singleton, List.not_mem_nil, or_false] at hq
        rcases hq with rfl | rfl
        · exact ha'.1
        · exact ha'.2
      | inner l2 r2 =>
        have hb' := hb.children ib l2 r2 h2
        intro q hq
        simp only [kids, List.mem_cons, List.mem_singleton, List.not_mem_nil, or_false] at hq
        rcases hq with rfl | rfl
        · exact ⟨ha'.1, hb'.1⟩
        · exact ⟨ha'.2, hb'.2⟩
  | only_a ia ta c =>
    cases ta with
    | leaf x => intro q hq; simp [kids] at hq
    | inner l r =>
      have ha' := ha.children ia l r hv
      intro q hq
      simp only [kids, List.mem_cons, List.mem_singleton, List.not_mem_nil, or_false] at hq
      rcases hq with rfl | rfl
      · exact ha'.1
      · exact ha'.2
  | only_b ib tb c =>
    cases tb with
    | leaf x => intro q hq; simp [kids] at hq
    | inner l r =>
      have hb' := hb.children ib l r hv
      intro q hq
      simp only [kids, List.mem_cons, List.mem_singleton, List.not_mem_nil, or_false] at hq
      rcases hq with rfl | rfl
      · exact hb'.1
      · exact hb'.2

end xitem

theorem head_filterMap_pos (f : Nat × xitem → Option node)
    (hf : ∀ q n, f q = some n → n.node_pos = q.1) (p : Nat) (Q : List (Nat × xitem))
    (hQ : ∀ q ∈ Q, p < q.1) :
    Q.filterMap f = [] ∨ p < ((Q.filterMap f).head?.getD ⟨0, 0, false⟩).node_pos := by
  cases hfm : Q.filterMap f with
  | nil => left; rfl
  | cons n rest =>
    right
    have hmem : n ∈ Q.filterMap f := by rw [hfm]; exact List.mem_cons_self _ _
    obtain ⟨q, hq, hn⟩ := List.mem_filterMap.mp hmem
    simp only [List.head?_cons, Option.getD_some]
    rw [hf q n hn]
    exact hQ q hq

theorem proj_a_pos (q : Nat × xitem) (n : node) (h : xitem.proj_a q = some n) :
    n.node_pos = q.1 := by
  obtain ⟨p, it⟩ := q
  cases it <;> simp [xitem.proj_a] at h <;> subst h <;> rfl

theorem proj_b_pos (q : Nat × xitem) (n : node) (h : xitem.proj_b q = some n) :
    n.node_pos = q.1 := by
  obtain ⟨p, it⟩ := q
  cases it <;> simp [xitem.proj_b] at h <;> subst h <;> rfl

/-- One iteration of the loop handles the first waiting node: it emits its
structure bit, and its label if it is a leaf, and appends its children. -/
theorem xor_loop_step {a b : tree_mask_lo} {Ta Tb : bitmap_tree} (ha : a.Encodes Ta)
    (hb : b.Encodes Tb) (fuel p : Nat) (it : xitem) (Q : List (Nat × xitem)) (np : Nat)
    (s l : List Bool) (hv : it.valid Ta Tb) (hp : p ≠ 0) (hQ : ∀ q ∈ Q, p < q.1) :
    xor_loop a b (fuel + 1) (((p, it) :: Q).filterMap xitem.proj_a)
        (((p, it) :: Q).filterMap xitem.proj_b) np s l
      = xor_loop a b fuel ((Q ++ xitem.kids a b np it).filterMap xitem.proj_a)
          ((Q ++ xitem.kids a b np it).filterMap xitem.proj_b)
          (np + (xitem.kids a b np it).length)
          (s ++ [it.tree.is_inner_node])
          (l ++ ([it.tree].filter (fun k => !k.is_inner_node)).map bitmap_tree.label_of_node) := by
  have hA := head_filterMap_pos xitem.proj_a proj_a_pos p Q hQ
  have hB := head_filterMap_pos xitem.proj_b proj_b_pos p Q hQ
  cases it with
  | both ia ta xa ib tb xb =>
    obtain ⟨h1, h2⟩ := hv
    have e1 := ha.is_inner_node_at ia ta h1
    have e2 := hb.is_inner_node_at ib tb h2
    simp only [List.filterMap_cons, xitem.proj_a, xitem.proj_b, List.filterMap_append]
    rw [xor_loop_both a b fuel ia ib p xa xb _ _ np s l hp, e1, e2]
    cases ta with
    | leaf x =>
      cases tb with
      | leaf y =>
        rw [ha.label_of ia x h1, hb.label_of ib y h2]
        simp [xitem.kids, xitem.tree, bitmap_tree.xor_tree, bitmap_tree.is_inner_node,
          bitmap_tree.label_of_node]
      | inner l2 r2 =>
        rw [ha.label_of ia x h1]
        simp [xitem.kids, xitem.tree, bitmap_tree.xor_tree, bitmap_tree.is_inner_node,
          xitem.proj_a, xitem.proj_b]
    | inner l1 r1 =>
      cases tb with
      | leaf y =>
        rw [hb.label_of ib y h2]
        simp [xitem.kids, xitem.tree, bitmap_tree.xor_tree, bitmap_tree.is_inner_node,
          xitem.proj_a, xitem.proj_b]
      | inner l2 r2 =>
        simp [xitem.kids, xitem.tree, bitmap_tree.xor_tree, bitmap_tree.is_inner_node,
          xitem.proj_a, xitem.proj_b]
  | only_a ia ta c =>
    have e1 := ha.is_inner_node_at ia ta hv
    simp only [List.filterMap_cons, xitem.proj_a, xitem.proj_b, List.filterMap_append]
    rw [xor_loop_only_a a b fuel ia p c _ _ np s l hp hB, e1]
    cases ta with
    | leaf x =>
      rw [ha.label_of ia x hv]
      simp [xitem.kids, xitem.tree, bitmap_tree.map_xor, bitmap_tree.is_inner_node,
        bitmap_tree.label_of_node]
    | inner l1 r1 =>
      simp [xitem.kids, xitem.tree, bitmap_tree.map_xor, bitmap_tree.is_inner_node,
        xitem.proj_a, xitem.proj_b]
  | only_b ib tb c =>
    have e1 := hb.is_inner_node_at ib tb hv
    simp only [List.filterMap_cons, xitem.proj_a, xitem.proj_b, List.filterMap_append]
    rw [xor_loop_only_b a b fuel ib p c _ _ np s l hp hA, e1]
    cases tb with
    | leaf x =>
      rw [hb.label_of ib x hv]
      simp [xitem.kids, xitem.tree, bitmap_tree.map_xor, bitmap_tree.is_inner_node,
        bitmap_tree.label_of_node]
    | inner l1 r1 =>
      simp [xitem.kids, xitem.tree, bitmap_tree.map_xor, bitmap_tree.is_inner_node,
        xitem.proj_a, xitem.proj_b]

end tree_mask_lo
namespace tree_mask_lo

theorem level_order_cons (x : bitmap_tree) (q : List bitmap_tree) :
    bitmap_tree.level_order (x :: q)
      = x :: bitmap_tree.level_order (q ++ bitmap_tree.children x) := by
  have := bitmap_tree.level_order_append [x] q
  simpa using this

/-- The loop emits the level-order encoding of the trees that wait in the
queues. -/
theorem xor_loop_spec {a b : tree_mask_lo} {Ta Tb : bitmap_tree} (ha : a.Encodes Ta)
    (hb : b.Encodes Tb) :
    ∀ (fuel : Nat) (Q : List (Nat × xitem)) (np : Nat) (s l : List Bool),
      (∀ q ∈ Q, q.2.valid Ta Tb ∧ 0 < q.1 ∧ q.1 < np) →
      Q.Pairwise (fun x y => x.1 < y.1) →
      (Q.map (fun q => q.2.tree.node_cnt)).sum ≤ fuel →
      xor_loop a b fuel (Q.filterMap xitem.proj_a) (Q.filterMap xitem.proj_b) np s l
        = some
          (s ++ (bitmap_tree.level_order (Q.map (fun q => q.2.tree))).map
              bitmap_tree.is_inner_node,
            l ++ ((bitmap_tree.level_order (Q.map (fun q => q.2.tree))).filter
              (fun k => !k.is_inner_node)).map bitmap_tree.label_of_node) := by
  intro fuel
  induction fuel with
  | zero =>
    intro Q np s l _ _ hfuel
    cases Q with
    | nil => simp [xor_loop, bitmap_tree.level_order_nil]
    | cons q Q =>
      have := bitmap_tree.node_cnt_pos q.2.tree
      simp only [List.map_cons, List.sum_cons] at hfuel
      omega
  | succ fuel ih =>
    intro Q np s l hQ hpw hfuel
    cases Q with
    | nil => simp [xor_loop, bitmap_tree.level_order_nil]
    | cons q Q =>
      obtain ⟨p, it⟩ := q
      have hq := hQ (p, it) (List.mem_cons_self _ _)
      simp only at hq
      have hlt : ∀ q ∈ Q, p < q.1 := fun q hq' => (List.pairwise_cons.mp hpw).1 q hq'
      rw [xor_loop_step ha hb fuel p it Q np s l hq.1 (by omega) hlt]
      have hkt := xitem.kids_tree a b np it
      have hkp := xitem.kids_pos a b np it
      have hkv := xitem.kids_valid ha hb np it hq.1
      have hklen : (xitem.kids a b np it).length
          = ((xitem.kids a b np it).map (fun q => q.1)).length := by simp
      have hkpos : ∀ q ∈ xitem.kids a b np it,
          np ≤ q.1 ∧ q.1 < np + (xitem.kids a b np it).length := by
        intro q hq'
        have hm : q.1 ∈ (xitem.kids a b np it).map (fun q => q.1) := List.mem_map_of_mem _ hq'
        rw [hklen]
        rcases hkp with h | h
        · rw [h] at hm; cases hm
        · rw [h] at hm ⊢
          simp only [List.mem_cons, List.mem_singleton, List.not_mem_nil, or_false] at hm
          simp only [List.length_cons, List.length_nil]
          omega
      have hQ' : ∀ q ∈ Q ++ xitem.kids a b np it,
          q.2.valid Ta Tb ∧ 0 < q.1 ∧ q.1 < np + (xitem.kids a b np it).length := by
        intro q hq'
        rcases List.mem_append.mp hq' with h | h
        · have := hQ q (List.mem_cons_of_mem _ h)
          exact ⟨this.1, this.2.1, by omega⟩
        · have := hkpos q h
          exact ⟨hkv q h, by omega, this.2⟩
      have hpw' : (Q ++ xitem.kids a b np it).Pairwise (fun x y => x.1 < y.1) := by
        rw [List.pairwise_append]
        refine ⟨(List.pairwise_cons.mp hpw).2, ?_, ?_⟩
        · have : ((xitem.kids a b np it).map (fun q => q.1)).Pairwise (fun x y => x < y) := by
            rcases hkp with h | h
            · rw [h]; exact List.Pairwise.nil
            · rw [h]; simp
          exact (List.pairwise_map.mp this)
        · intro x hx y hy
          have h1 := hQ x (List.mem_cons_of_mem _ hx)
          have h2 := hkpos y hy
          omega
      have hfuel' : ((Q ++ xitem.kids a b np it).map (fun q => q.2.tree.node_cnt)).sum ≤ fuel := by
        have h1 := bitmap_tree.sum_node_cnt_children it.tree
        rw [← hkt, List.map_map] at h1
        simp only [List.map_cons, List.sum_cons, List.map_append, List.sum_append] at hfuel ⊢
        simp only [Function.comp_def] at h1
        omega
      rw [ih _ _ _ _ hQ' hpw' hfuel']
      simp only [List.map_cons, level_order_cons, List.map_append, hkt, List.filter_cons,
        List.filter_nil]
      cases it.tree.is_inner_node <;> simp

/-- The operator `^` returns the level-order encoding of the XOR of the two
trees. -/
theorem Encodes.xor_spec {a b : tree_mask_lo} {Ta Tb : bitmap_tree} (ha : a.Encodes Ta)
    (hb : b.Encodes Tb) (fuel : Nat) (hfuel : (bitmap_tree.xor_tree Ta Tb).node_cnt ≤ fuel) :
    ∃ r, a.xor fuel b = some r ∧ r.Encodes (bitmap_tree.xor_tree Ta Tb) := by
  have h0a := teb.breadth_first_zero Ta
  have h0b := teb.breadth_first_zero Tb
  have := xor_loop_spec ha hb fuel
    [(1, xitem.both 0 Ta (if a.is_inner_node 0 then false else a.get_label 0) 0 Tb
      (if b.is_inner_node 0 then false else b.get_label 0))] 2 [] []
    (by
      intro q hq
      simp only [List.mem_singleton] at hq
      subst hq
      exact ⟨⟨h0a, h0b⟩, Nat.one_pos, Nat.lt_add_one 1⟩)
    (List.pairwise_singleton _ _)
    (by simpa [xitem.tree] using hfuel)
  simp only [List.filterMap_cons, List.filterMap_nil, xitem.proj_a, xitem.proj_b, List.map_cons,
    List.map_nil, xitem.tree, List.nil_append, ← bitmap_tree.breadth_first_eq_level_order]
    at this
  refine ⟨ctor (bitmap_tree.xor_tree Ta Tb).lo_structure (bitmap_tree.xor_tree Ta Tb).lo_labels,
    ?_, ⟨rfl, rfl⟩⟩
  unfold xor
  simp only [this, Option.map_some']
  rfl

end tree_mask_lo

/-! ## Lemmas: `fetch_bits` and `find_first` on wide word types -/

theorem div_mod_of_eq (W q r n : Nat) (hr : r < W) (h : n = W * q + r) :
    n / W = q ∧ n % W = r := by
  subst h
  have hW : 0 < W := by omega
  constructor
  · rw [Nat.mul_add_div hW, Nat.div_eq_of_lt hr, Nat.add_zero]
  · rw [Nat.mul_add_mod, Nat.mod_eq_of_lt hr]

namespace bitmap_fun

/-- On word types at least as wide as `int`, `fetch_bits` returns the bits of
`[b, e)` and zeros above them, without performing a shift by the word width or
more. -/
theorem fetch_bits_spec (W : Nat) (hW : 32 ≤ W) (bitmap : List Nat)
    (hwf : ∀ k, bitmap.getD k 0 < 2 ^ W) (b e : Nat) (hlt : b < e) (hcnt : e - b ≤ W) :
    ∃ r, fetch_bits W bitmap b e = some r ∧
      ∀ j, r.testBit j = (decide (j < e - b) && test W bitmap (b + j)) := by
  have hWpos : 0 < W := by omega
  have hb := Nat.div_add_mod b W
  have hs := Nat.mod_lt b hWpos
  have he := Nat.div_add_mod (e - 1) W
  have hu := Nat.mod_lt (e - 1) hWpos
  have hxy1 : (e - 1) / W ≤ b / W + 1 := by
    have : (e - 1) / W ≤ (b + W) / W := Nat.div_le_div_right (by omega)
    rwa [Nat.add_div_right b hWpos] at this
  have hxy0 : b / W ≤ (e - 1) / W := Nat.div_le_div_right (by omega)
  have hmask : ∀ k i, (not_zero_shr W k).testBit i = decide (k + i < W) := by
    intro k i
    unfold not_zero_shr
    rw [if_neg (by omega), Nat.testBit_shiftRight, Nat.testBit_two_pow_sub_one]
  unfold fetch_bits
  simp only
  rw [if_neg (not_not.mpr hlt), if_neg (not_not.mpr (by omega))]
  by_cases hxy : b / W = (e - 1) / W
  · rw [if_pos hxy, if_neg (by omega)]
    refine ⟨_, rfl, ?_⟩
    intro j
    rw [Nat.testBit_and, Nat.testBit_shiftRight, hmask, test_eq_testBit]
    by_cases hj : j < e - b
    · have hsj : b % W + j < W := by rw [← hxy] at he; omega
      obtain ⟨d1, d2⟩ := div_mod_of_eq W (b / W) (b % W + j) (b + j) hsj (by omega)
      rw [d1, d2]
      have : W - (e - b) + j < W := by omega
      simp [hj, this]
    · have : ¬ W - (e - b) + j < W := by omega
      simp [hj, this]
  · have hy : (e - 1) / W = b / W + 1 := by omega
    rw [hy] at he
    have hmul : W * (b / W + 1) = W * (b / W) + W := Nat.mul_succ _ _
    have hu1 : (e - 1) % W + 1 < W := by omega
    have hs1 : 1 ≤ b % W := by omega
    obtain ⟨_, em⟩ := div_mod_of_eq W (b / W + 1) ((e - 1) % W + 1) e hu1 (by omega)
    rw [if_neg hxy, em, if_neg (by omega), if_neg (by omega)]
    refine ⟨_, rfl, ?_⟩
    intro j
    rw [Nat.testBit_mod_two_pow, Nat.testBit_or, Nat.testBit_shiftRight, Nat.testBit_shiftLeft,
      Nat.testBit_and, hmask, test_eq_testBit, hy]
    by_cases hj1 : j < W - b % W
    · have hsj : b % W + j < W := by omega
      obtain ⟨d1, d2⟩ := div_mod_of_eq W (b / W) (b % W + j) (b + j) hsj (by omega)
      rw [d1, d2]
      have h1 : j < W := by omega
      have h2 : ¬ j ≥ W - b % W := by omega
      have h3 : j < e - b := by omega
      simp [h1, h2, h3]
    · have hw0 : (bitmap.getD (b / W) 0).testBit (b % W + j) = false :=
        Nat.testBit_lt_two_pow
          (lt_of_lt_of_le (hwf _) (Nat.pow_le_pow_right (by decide) (by omega)))
      rw [hw0]
      by_cases hj2 : j < e - b
      · have hsj : j - (W - b % W) < W := by omega
        obtain ⟨d1, d2⟩ := div_mod_of_eq W (b / W + 1) (j - (W - b % W)) (b + j) hsj (by omega)
        rw [d1, d2]
        have h1 : j < W := by omega
        have h2 : j ≥ W - b % W := by omega
        have h3 : W - ((e - 1) % W + 1) + (j - (W - b % W)) < W := by omega
        simp [h1, h2, h3, hj2]
      · have h3 : ¬ W - ((e - 1) % W + 1) + (j - (W - b % W)) < W := by omega
        simp [h3, hj2]

end bitmap_fun

theorem tz_count_loop_spec : ∀ (fuel w : Nat), w ≠ 0 → w < 2 ^ fuel →
    w.testBit (tz_count_loop fuel w) = true ∧
    ∀ i, i < tz_count_loop fuel w → w.testBit i = false := by
  intro fuel
  induction fuel with
  | zero => intro w h0 h; simp at h; omega
  | succ fuel ih =>
    intro w h0 h
    unfold tz_count_loop
    by_cases hodd : w % 2 = 1
    · rw [if_pos hodd]
      refine ⟨?_, fun i hi => by omega⟩
      rw [Nat.testBit_zero]
      simp [hodd]
    · rw [if_neg hodd]
      have h2 : w / 2 ≠ 0 := by omega
      have h3 : w / 2 < 2 ^ fuel := by rw [pow_succ] at h; omega
      obtain ⟨a1, a2⟩ := ih (w / 2) h2 h3
      refine ⟨?_, ?_⟩
      · rw [Nat.testBit_succ]; exact a1
      · intro i hi
        cases i with
        | zero => rw [Nat.testBit_zero]; simp; omega
        | succ i => rw [Nat.testBit_succ]; exact a2 i (by omega)

theorem tz_count_spec (w : Nat) (h0 : w ≠ 0) (h : w < 2 ^ 64) :
    w.testBit (tz_count w) = true ∧ ∀ i, i < tz_count w → w.testBit i = false :=
  tz_count_loop_spec 64 w h0 h

theorem testBit_lt_of_lt_two_pow (w W i : Nat) (hw : w < 2 ^ W) (h : w.testBit i = true) :
    i < W := by
  by_contra hc
  have := Nat.testBit_lt_two_pow (lt_of_lt_of_le hw (Nat.pow_le_pow_right (by decide)
    (Nat.le_of_not_lt hc)))
  rw [this] at h
  cases h

namespace bitmap_fun

/-- The first set bit of `[b, e)`, or `e`. -/
theorem first_unique (p : Nat → Bool) (b e r1 r2 : Nat)
    (h1 : r1 ≤ e ∧ (∀ i, b ≤ i → i < r1 → p i = false) ∧ (r1 < e → b ≤ r1 ∧ p r1 = true))
    (h2 : r2 ≤ e ∧ (∀ i, b ≤ i → i < r2 → p i = false) ∧ (r2 < e → b ≤ r2 ∧ p r2 = true)) :
    r1 = r2 := by
  rcases Nat.lt_trichotomy r1 r2 with h | h | h
  · have a := h1.2.2 (by omega)
    have c := h2.2.1 r1 a.1 h
    rw [a.2] at c
    cases c
  · exact h
  · have a := h2.2.2 (by omega)
    have c := h1.2.1 r2 a.1 h
    rw [a.2] at c
    cases c

theorem find_first_dense_spec (W : Nat) (bitmap : List Nat) (b e : Nat) (hbe : b ≤ e) :
    find_first_dense W bitmap b e ≤ e ∧
    (∀ i, b ≤ i → i < find_first_dense W bitmap b e → test W bitmap i = false) ∧
    (find_first_dense W bitmap b e < e →
      b ≤ find_first_dense W bitmap b e ∧
      test W bitmap (find_first_dense W bitmap b e) = true) := by
  unfold find_first_dense
  cases hf : (List.range' b (e - b)).find? fun i => test W bitmap i with
  | none =>
    simp only
    rw [List.find?_eq_none] at hf
    refine ⟨Nat.le_refl _, ?_, fun h => absurd h (Nat.lt_irrefl _)⟩
    intro i hbi hie
    have := hf i (List.mem_range'_1.mpr ⟨hbi, by omega⟩)
    simpa using this
  | some r =>
    simp only
    rw [List.find?_range'_eq_some] at hf
    obtain ⟨a1, a2, a3⟩ := hf
    have := List.mem_range'_1.mp a2
    refine ⟨by omega, ?_, fun _ => ⟨this.1, a1⟩⟩
    intro i hbi hir
    have := a3 i hbi hir
    simpa using this

theorem mask_X_testBit (W s r : Nat) (hr : r < W) :
    ((2 ^ W - 1) <<< s % 2 ^ W).testBit r = decide (s ≤ r) := by
  rw [Nat.testBit_mod_two_pow, Nat.testBit_shiftLeft, Nat.testBit_two_pow_sub_one]
  have : r - s < W := by omega
  simp [hr, this]

theorem mask_Y_testBit (W e r : Nat) (hW : 32 ≤ W) (he : 0 < e) :
    (not_zero_shr W ((W - e % W) % W)).testBit r = decide (r ≤ (e - 1) % W) := by
  have ht := end_shift_eq W e (by omega) he
  have hu := Nat.mod_lt (e - 1) (by omega : 0 < W)
  unfold not_zero_shr
  rw [if_neg (by omega), Nat.testBit_shiftRight, Nat.testBit_two_pow_sub_one, ht]
  congr 1
  apply propext
  omega

/-- A set bit of a word that comes after zero bits from the start of the range
is the first set bit of the range. -/
theorem first_of_words (W : Nat) (hW : 0 < W) (bitmap : List Nat) (b e k t : Nat) (hbe : b < e)
    (ht : t < W) (hk1 : b / W ≤ k) (hk2 : k ≤ (e - 1) / W)
    (hs : k = b / W → b % W ≤ t) (hu : k = (e - 1) / W → t ≤ (e - 1) % W)
    (hset : (bitmap.getD k 0).testBit t = true)
    (hzero : ∀ k' r, r < W → b / W ≤ k' → (k' = b / W → b % W ≤ r) →
      (k' < k ∨ (k' = k ∧ r < t)) → (bitmap.getD k' 0).testBit r = false) :
    W * k + t ≤ e ∧ (∀ i, b ≤ i → i < W * k + t → test W bitmap i = false) ∧
    (W * k + t < e → b ≤ W * k + t ∧ test W bitmap (W * k + t) = true) := by
  have hb := Nat.div_add_mod b W
  have hsb := Nat.mod_lt b hW
  have he := Nat.div_add_mod (e - 1) W
  have hue := Nat.mod_lt (e - 1) hW
  have hble : b ≤ W * k + t := by
    rcases Nat.eq_or_lt_of_le hk1 with h | h
    · have := hs h.symm
      rw [← h]
      omega
    · have := mul_add_le_of_lt W _ _ h
      omega
  have hlt : W * k + t < e := by
    rcases Nat.eq_or_lt_of_le hk2 with h | h
    · have := hu h
      rw [h]
      omega
    · have := mul_add_le_of_lt W _ _ h
      omega
  refine ⟨by omega, ?_, fun _ => ⟨hble, ?_⟩⟩
  · intro i hbi hi
    have hi1 := Nat.div_add_mod i W
    have hi2 := Nat.mod_lt i hW
    rw [test_eq_testBit]
    apply hzero _ _ hi2
    · exact Nat.div_le_div_right hbi
    · intro h
      rw [h] at hi1
      omega
    · rcases Nat.lt_trichotomy (i / W) k with h | h | h
      · left; exact h
      · right
        refine ⟨h, ?_⟩
        rw [h] at hi1
        omega
      · have := mul_add_le_of_lt W _ _ h
        omega
  · obtain ⟨d1, d2⟩ := div_mod_of_eq W k t (W * k + t) ht rfl
    rw [test_eq_testBit, d1, d2]
    exact hset

/-- When no word holds a set bit of the range, `e` is the answer. -/
theorem none_of_words (W : Nat) (hW : 0 < W) (bitmap : List Nat) (b e : Nat)
    (hzero : ∀ k r, r < W → b / W ≤ k → k ≤ (e - 1) / W → (k = b / W → b % W ≤ r) →
      (k = (e - 1) / W → r ≤ (e - 1) % W) → (bitmap.getD k 0).testBit r = false) :
    ∀ i, b ≤ i → i < e → test W bitmap i = false := by
  intro i hbi hie
  have hb := Nat.div_add_mod b W
  have he := Nat.div_add_mod (e - 1) W
  have hi1 := Nat.div_add_mod i W
  have hi2 := Nat.mod_lt i hW
  rw [test_eq_testBit]
  apply hzero _ _ hi2
  · exact Nat.div_le_div_right hbi
  · exact Nat.div_le_div_right (by omega)
  · intro h
    rw [h] at hi1
    omega
  · intro h
    rw [h] at hi1
    omega


theorem shiftRight_testBit_false (w s : Nat) (h : w >>> s = 0) (r : Nat) (hr : s ≤ r) :
    w.testBit r = false := by
  have : (w >>> s).testBit (r - s) = false := by rw [h]; exact Nat.zero_testBit _
  rw [Nat.testBit_shiftRight] at this
  rwa [show s + (r - s) = r by omega] at this

/-- On word types of 32 to 64 bits the word-wise `find_first` returns the first
set bit of `[b, e)`, or `e`. -/
theorem find_first_first (W : Nat) (hW : 32 ≤ W) (hW64 : W ≤ 64) (bitmap : List Nat)
    (hwf : ∀ k, bitmap.getD k 0 < 2 ^ W) (b e : Nat) (hbe : b < e) :
    find_first W bitmap b e ≤ e ∧
    (∀ i, b ≤ i → i < find_first W bitmap b e → test W bitmap i = false) ∧
    (find_first W bitmap b e < e →
      b ≤ find_first W bitmap b e ∧ test W bitmap (find_first W bitmap b e) = true) := by
  have hWpos : 0 < W := by omega
  have hb := Nat.div_add_mod b W
  have hs := Nat.mod_lt b hWpos
  have he := Nat.div_add_mod (e - 1) W
  have hu := Nat.mod_lt (e - 1) hWpos
  have hxy0 : b / W ≤ (e - 1) / W := Nat.div_le_div_right (by omega)
  have h64 : ∀ w, w < 2 ^ W → w < 2 ^ 64 := fun w hw =>
    lt_of_lt_of_le hw (Nat.pow_le_pow_right (by decide) hW64)
  unfold find_first
  simp only
  rw [if_neg (by omega)]
  by_cases hxy : b / W = (e - 1) / W
  · rw [if_pos hxy]
    have hwbits : ∀ r, r < W →
        (bitmap.getD (b / W) 0 &&& ((2 ^ W - 1) <<< (b % W) % 2 ^ W
          &&& not_zero_shr W ((W - e % W) % W))).testBit r
        = ((bitmap.getD (b / W) 0).testBit r
          && (decide (b % W ≤ r) && decide (r ≤ (e - 1) % W))) := by
      intro r hr
      rw [Nat.testBit_and, Nat.testBit_and, mask_X_testBit _ _ _ hr,
        mask_Y_testBit _ _ _ hW (by omega)]
    have hwlt : (bitmap.getD (b / W) 0 &&& ((2 ^ W - 1) <<< (b % W) % 2 ^ W
          &&& not_zero_shr W ((W - e % W) % W))) < 2 ^ W :=
      lt_of_le_of_lt Nat.and_le_left (hwf _)
    generalize hwdef : (bitmap.getD (b / W) 0 &&& ((2 ^ W - 1) <<< (b % W) % 2 ^ W
          &&& not_zero_shr W ((W - e % W) % W))) = w at hwbits hwlt ⊢
    by_cases hw0 : w = 0
    · rw [if_pos hw0]
      refine ⟨Nat.le_refl _, ?_, fun h => absurd h (Nat.lt_irrefl _)⟩
      intro i hbi hie
      apply none_of_words W hWpos bitmap b e ?_ i hbi hie
      intro k r hr hk1 hk2 hs' hu'
      have hk : k = b / W := by omega
      have := hwbits r hr
      rw [hw0, Nat.zero_testBit] at this
      have c1 := hs' hk
      have c2 := hu' (by omega)
      rw [hk]
      simpa [c1, c2] using this.symm
    · rw [if_neg hw0]
      obtain ⟨i0, hi0⟩ := Nat.ne_zero_implies_bit_true hw0
      have hi0W : i0 < W := testBit_lt_of_lt_two_pow _ _ _ hwlt hi0
      have hi0s : b % W ≤ i0 := by
        have := hwbits i0 hi0W
        rw [hi0] at this
        by_contra hc
        simp [hc] at this
      have hsh0 : w >>> (b % W) ≠ 0 := by
        intro hc
        have := shiftRight_testBit_false w (b % W) hc i0 hi0s
        rw [hi0] at this
        cases this
      have hshlt : w >>> (b % W) < 2 ^ 64 := by
        rw [Nat.shiftRight_eq_div_pow]
        exact lt_of_le_of_lt (Nat.div_le_self _ _) (h64 _ hwlt)
      obtain ⟨a1, a2⟩ := tz_count_spec _ hsh0 hshlt
      rw [Nat.testBit_shiftRight] at a1
      generalize tz_count (w >>> (b % W)) = tz at a1 a2 ⊢
      have htW : b % W + tz < W := testBit_lt_of_lt_two_pow _ _ _ hwlt a1
      have hbit := hwbits _ htW
      rw [a1] at hbit
      have hset : (bitmap.getD (b / W) 0).testBit (b % W + tz) = true := by
        cases hv : (bitmap.getD (b / W) 0).testBit (b % W + tz)
        · rw [hv] at hbit
          simp at hbit
        · rfl
      have htu : b % W + tz ≤ (e - 1) % W := by
        by_contra hc
        simp [hc] at hbit
      have hres : b + tz = W * (b / W) + (b % W + tz) := by omega
      rw [hres]
      apply first_of_words W hWpos bitmap b e (b / W) (b % W + tz) hbe htW (Nat.le_refl _) hxy0
        (fun _ => by omega) (fun _ => htu) hset
      intro k' r hr hk1 hs' hlt'
      rcases hlt' with h | ⟨h1, h2⟩
      · omega
      · have c1 := hs' h1
        have := a2 (r - b % W) (by omega)
        rw [Nat.testBit_shiftRight, show b % W + (r - b % W) = r by omega, hwbits r hr] at this
        have c2 : r ≤ (e - 1) % W := by omega
        rw [h1]
        simpa [c1, c2] using this
  · rw [if_neg hxy]
    have hxlty : b / W < (e - 1) / W := by omega
    by_cases hwb : bitmap.getD (b / W) 0 >>> (b % W) ≠ 0
    · rw [if_pos hwb]
      have hshlt : bitmap.getD (b / W) 0 >>> (b % W) < 2 ^ 64 := by
        rw [Nat.shiftRight_eq_div_pow]
        exact lt_of_le_of_lt (Nat.div_le_self _ _) (h64 _ (hwf _))
      obtain ⟨a1, a2⟩ := tz_count_spec _ hwb hshlt
      rw [Nat.testBit_shiftRight] at a1
      generalize tz_count (bitmap.getD (b / W) 0 >>> (b % W)) = tz at a1 a2 ⊢
      have htW : b % W + tz < W := testBit_lt_of_lt_two_pow _ _ _ (hwf _) a1
      have hres : b + tz = W * (b / W) + (b % W + tz) := by omega
      rw [hres]
      apply first_of_words W hWpos bitmap b e (b / W) (b % W + tz) hbe htW (Nat.le_refl _) hxy0
        (fun _ => by omega) (fun h => absurd h hxy) a1
      intro k' r hr hk1 hs' hlt'
      rcases hlt' with h | ⟨h1, h2⟩
      · omega
      · have c1 := hs' h1
        have := a2 (r - b % W) (by omega)
        rw [Nat.testBit_shiftRight, show b % W + (r - b % W) = r by omega] at this
        rw [h1]
        exact this
    · rw [if_neg hwb]
      have hwb0 : bitmap.getD (b / W) 0 >>> (b % W) = 0 := not_not.mp hwb
      have hx0 := shiftRight_testBit_false _ _ hwb0
      cases hfind : (List.range' (b / W + 1) ((e - 1) / W - (b / W + 1))).find?
          fun k => bitmap.getD k 0 != 0 with
      | some k =>
        simp only
        rw [List.find?_range'_eq_some] at hfind
        obtain ⟨p1, p2, p3⟩ := hfind
        have hkr := List.mem_range'_1.mp p2
        have hk0 : bitmap.getD k 0 ≠ 0 := by simpa using p1
        obtain ⟨a1, a2⟩ := tz_count_spec _ hk0 (h64 _ (hwf _))
        generalize tz_count (bitmap.getD k 0) = tz at a1 a2 ⊢
        have htW : tz < W := testBit_lt_of_lt_two_pow _ _ _ (hwf _) a1
        obtain ⟨d, hd⟩ : ∃ d, k = b / W + 1 + d := ⟨k - (b / W + 1), by omega⟩
        have hmul : W * k = W * (b / W) + W + d * W := by rw [hd]; ring
        have hsub : (k - (b / W + 1)) * W = d * W := by rw [hd]; congr 1; omega
        have hres : b + (W - b % W) + (k - (b / W + 1)) * W + tz = W * k + tz := by
          rw [hsub, hmul]; omega
        rw [hres]
        apply first_of_words W hWpos bitmap b e k tz hbe htW (by omega) (by omega)
          (fun h => by omega) (fun h => by omega) a1
        intro k' r hr hk1 hs' hlt'
        by_cases hkx : k' = b / W
        · rw [hkx]; exact hx0 r (hs' hkx)
        · rcases hlt' with h | ⟨h1, h2⟩
          · have := p3 k' (by omega) h
            have hz : bitmap.getD k' 0 = 0 := by simpa using this
            rw [hz]; exact Nat.zero_testBit _
          · rw [h1]; exact a2 r h2
      | none =>
        simp only
        rw [List.find?_eq_none] at hfind
        have hmid : ∀ k', b / W < k' → k' < (e - 1) / W → bitmap.getD k' 0 = 0 := by
          intro k' h1 h2
          have := hfind k' (List.mem_range'_1.mpr ⟨by omega, by omega⟩)
          simpa using this
        have hwbits : ∀ r,
            (bitmap.getD ((e - 1) / W) 0 &&& not_zero_shr W ((W - e % W) % W)).testBit r
            = ((bitmap.getD ((e - 1) / W) 0).testBit r && decide (r ≤ (e - 1) % W)) := by
          intro r
          rw [Nat.testBit_and, mask_Y_testBit _ _ _ hW (by omega)]
        have hwlt : (bitmap.getD ((e - 1) / W) 0 &&& not_zero_shr W ((W - e % W) % W)) < 2 ^ W :=
          lt_of_le_of_lt Nat.and_le_left (hwf _)
        generalize hwdef : (bitmap.getD ((e - 1) / W) 0 &&& not_zero_shr W ((W - e % W) % W))
          = w at hwbits hwlt ⊢
        by_cases hwe : w ≠ 0
        · rw [if_pos hwe]
          obtain ⟨a1, a2⟩ := tz_count_spec _ hwe (h64 _ hwlt)
          generalize tz_count w = tz at a1 a2 ⊢
          have htW : tz < W := testBit_lt_of_lt_two_pow _ _ _ hwlt a1
          have hbit := hwbits tz
          rw [a1] at hbit
          have hset : (bitmap.getD ((e - 1) / W) 0).testBit tz = true := by
            cases hv : (bitmap.getD ((e - 1) / W) 0).testBit tz
            · rw [hv] at hbit
              simp at hbit
            · rfl
          have htu : tz ≤ (e - 1) % W := by
            by_contra hc
            simp [hc] at hbit
          obtain ⟨d, hd⟩ : ∃ d, (e - 1) / W = b / W + d := ⟨(e - 1) / W - b / W, by omega⟩
          have hmul : W * ((e - 1) / W) = W * (b / W) + d * W := by rw [hd]; ring
          have hsub : ((e - 1) / W - b / W) * W = d * W := by rw [hd]; congr 1; omega
          have hres : b + ((e - 1) / W - b / W) * W - b % W + tz = W * ((e - 1) / W) + tz := by
            rw [hsub, hmul]; omega
          rw [hres]
          apply first_of_words W hWpos bitmap b e ((e - 1) / W) tz hbe htW hxy0 (Nat.le_refl _)
            (fun h => absurd h.symm hxy) (fun _ => htu) hset
          intro k' r hr hk1 hs' hlt'
          by_cases hkx : k' = b / W
          · rw [hkx]; exact hx0 r (hs' hkx)
          · rcases hlt' with h | ⟨h1, h2⟩
            · rw [hmid k' (by omega) h]; exact Nat.zero_testBit _
            · have := a2 r h2
              rw [hwbits r] at this
              have c2 : r ≤ (e - 1) % W := by omega
              rw [h1]
              simpa [c2] using this
        · rw [if_neg hwe]
          have hw0 : w = 0 := not_not.mp hwe
          refine ⟨Nat.le_refl _, ?_, fun h => absurd h (Nat.lt_irrefl _)⟩
          intro i hbi hie
          apply none_of_words W hWpos bitmap b e ?_ i hbi hie
          intro k r hr hk1 hk2 hs' hu'
          by_cases hkx : k = b / W
          · rw [hkx]; exact hx0 r (hs' hkx)
          · by_cases hky : k = (e - 1) / W
            · have := hwbits r
              rw [hw0, Nat.zero_testBit] at this
              have c2 := hu' hky
              rw [hky]
              simpa [c2] using this.symm
            · rw [hmid k (by omega) (by omega)]; exact Nat.zero_testBit _

/-- On word types of 32 to 64 bits the word-wise `find_first` and the bit-by-bit
`find_first_dense` return the same value. -/
theorem find_first_eq_dense (W : Nat) (hW : 32 ≤ W) (hW64 : W ≤ 64) (bitmap : List Nat)
    (hwf : ∀ k, bitmap.getD k 0 < 2 ^ W) (b e : Nat) :
    find_first W bitmap b e = find_first_dense W bitmap b e := by
  by_cases hbe : b < e
  · exact first_unique (test W bitmap) b e _ _ (find_first_first W hW hW64 bitmap hwf b e hbe)
      (find_first_dense_spec W bitmap b e (by omega))
  · have h1 : find_first W bitmap b e = e := by
      unfold find_first
      simp only
      rw [if_pos (by omega)]
    have h2 : find_first_dense W bitmap b e = e := by
      unfold find_first_dense
      rw [show e - b = 0 by omega]
      rfl
    rw [h1, h2]

end bitmap_fun

/-! ## Lemmas: the states reached by `decompress()` -/

namespace teb

theorem drop_count_trailing_1bits_first (S : List Bool) :
    (S.drop (count_trailing_1bits S)).getD 0 false = false := by
  induction S with
  | nil => simp [count_trailing_1bits]
  | cons b S ih =>
    cases b
    · simp [count_trailing_1bits]
    · simpa [count_trailing_1bits] using ih

theorem pop_back_0bits_last : ∀ (fuel : Nat) (s : List Bool) (cnt : Nat), s.length ≤ fuel →
    (pop_back_0bits fuel s cnt).1.length ≠ 0 →
    (pop_back_0bits fuel s cnt).1.getD ((pop_back_0bits fuel s cnt).1.length - 1) false = true := by
  intro fuel
  induction fuel with
  | zero =>
    intro s cnt hs hne
    simp only [pop_back_0bits] at hne
    omega
  | succ f ih =>
    intro s cnt hs
    simp only [pop_back_0bits]
    split
    · rename_i hc
      exact ih s.dropLast ((cnt + 1) % 2 ^ 32) (by rw [List.length_dropLast]; omega)
    · rename_i hc
      intro hne
      simp only at hne ⊢
      cases hl : s.getD (s.length - 1) false
      · exact absurd ⟨by omega, by rw [hl]; rfl⟩ hc
      · rfl

theorem pop_back_0bits_first (fuel : Nat) (s : List Bool) (cnt : Nat)
    (h : s.getD 0 false = false) : (pop_back_0bits fuel s cnt).1.getD 0 false = false := by
  obtain ⟨k, h2, _⟩ := pop_back_0bits_spec fuel s cnt
  generalize (pop_back_0bits fuel s cnt).1 = r at h2
  cases r with
  | nil => rfl
  | cons a r =>
    rw [← h2] at h
    simpa using h

/-- The structure that the trimming loops leave is empty, or starts with a
0-bit and ends with a 1-bit. -/
theorem trimmed_structure (S : List Bool) (cnt : Nat) :
    (pop_back_0bits (S.drop (count_trailing_1bits S)).length
      (S.drop (count_trailing_1bits S)) cnt).1.getD 0 false = false ∧
    ((pop_back_0bits (S.drop (count_trailing_1bits S)).length
      (S.drop (count_trailing_1bits S)) cnt).1.length ≠ 0 →
     (pop_back_0bits (S.drop (count_trailing_1bits S)).length
      (S.drop (count_trailing_1bits S)) cnt).1.getD
        ((pop_back_0bits (S.drop (count_trailing_1bits S)).length
          (S.drop (count_trailing_1bits S)) cnt).1.length - 1) false = true) :=
  ⟨pop_back_0bits_first _ _ _ (drop_count_trailing_1bits_first S),
    pop_back_0bits_last _ _ _ (le_refl _)⟩

theorem ctor_trimmed (B : List Bool) (o : Nat) (f : ℚ) (ho : 0 < o) :
    (ctor B o f).structure_.getD 0 false = false ∧
    ((ctor B o f).structure_.length ≠ 0 →
      (ctor B o f).structure_.getD ((ctor B o f).structure_.length - 1) false = true) := by
  unfold ctor
  simp only [if_pos ho]
  exact trimmed_structure _ 0

theorem decompress_true_trimmed (t t' : teb) (h : t.decompress = some (true, t')) :
    t'.structure_.getD 0 false = false ∧
    (t'.structure_.length ≠ 0 →
      t'.structure_.getD (t'.structure_.length - 1) false = true) := by
  obtain ⟨h1, h2, h3⟩ := decompress_true_pre t t' h
  obtain ⟨s1, s2, e1, e2, hlen, hget⟩ := decompress_structure t.structure_ t.implicit_inner_node_cnt_
  unfold decompress at h
  rw [if_neg h1] at h
  simp only [h2, h3, bne_self_eq_false, Bool.false_eq_true, if_false] at h
  split at h
  · cases h
  · simp only [e1, e2] at h
    split at h
    · cases h
    · split at h
      · cases h
      · have := (Prod.mk.inj (Option.some.inj h)).2
        subst this
        exact trimmed_structure s2 t.implicit_leaf_node_cnt_

/-- The method `to_bitset()` on an encoding of a tree within the height
`log2(n_)`, when the root case of the method is the case of a leaf root. -/
theorem to_bitset_of_encodes {t : teb} {T : bitmap_tree} (henc : Encodes t T) (H fuel : Nat)
    (hH : H ≤ 31) (hn : t.n_ = 2 ^ H) (hT : T.height ≤ H)
    (hroot : (t.implicit_inner_node_cnt_ = 0 ∧ t.structure_.length ≤ 1)
      ↔ T.is_inner_node = false)
    (hfuel : 2 * 2 ^ H ≤ fuel) :
    t.to_bitset fuel = some (bitmap_tree.to_bits H T) := by
  have h0 := breadth_first_zero T
  have hcnt := bitmap_tree.node_cnt_le _ _ hT
  unfold to_bitset
  cases T with
  | leaf b =>
    have hl := henc.label_of_leaf 0 b h0
    simp only [rank, Nat.sub_zero] at hl
    rw [if_pos (hroot.2 rfl)]
    have hl' : t.labels_[0]?.getD false = b := by
      by_cases hII : 0 < t.implicit_inner_node_cnt_
      · simpa [hII] using hl
      · have : t.implicit_inner_node_cnt_ = 0 := by omega
        simpa [this, rank1] using hl
    simp only [List.getD_eq_getElem?_getD, hl', hn, bitmap_tree.to_bits]
    cases b <;> simp
  | inner l r =>
    have hne : ¬ (t.implicit_inner_node_cnt_ = 0 ∧ t.structure_.length ≤ 1) := by
      intro hc
      have := hroot.1 hc
      simp [bitmap_tree.is_inner_node] at this
    rw [if_neg hne]
    have hlenT := bitmap_tree.length_to_bits _ _ hT
    have := henc.to_bitset_loop_spec H hH fuel [(0, 0, bitmap_tree.inner l r)] 0
      (List.replicate t.n_ false)
      (by intro x hx; simp only [List.mem_singleton] at hx; subst hx
          exact ⟨h0, by simpa using hT, Or.inl rfl⟩)
      (by simp; omega)
      (by simp [flat_bits, hlenT, hn])
    simp only [List.map_cons, List.map_nil] at this
    rw [hn, log_2_two_pow]
    rw [hn] at this
    rw [this]
    simp [flat_bits, hlenT]

/-- The invariant of the states reached by `decompress()`: the state encodes a
tree within the height `log2(N)` that asserts the same bitmap as the tree of
the constructor. -/
theorem decompressed_inv (B : List Bool) (o : Nat) (f : ℚ) (H : Nat) (hB : B.length = 2 ^ H)
    (t : teb) (ht : decompressed B o f t) :
    ∃ T, Encodes t T ∧ T.height ≤ H ∧
      bitmap_tree.to_bits H T = bitmap_tree.to_bits H (bitmap_tree.ctor B f) ∧
      t.n_ = 2 ^ H ∧ t.optimization_level_ = o ∧
      ((t.implicit_inner_node_cnt_ = 0 ∧ t.structure_.length ≤ 1) ↔ T.is_inner_node = false) ∧
      (0 < o → t.structure_.getD 0 false = false ∧
        (t.structure_.length ≠ 0 →
          t.structure_.getD (t.structure_.length - 1) false = true)) := by
  induction ht with
  | ctor =>
    refine ⟨_, ctor_encodes B o f, (bitmap_tree.ctor_spec B H f hB).1, rfl,
      by rw [ctor_n, hB], ?_, ctor_root_case B o f, ctor_trimmed B o f⟩
    unfold ctor; simp only; split <;> rfl
  | step t t' _ hd ih =>
    obtain ⟨T, hT, hh, hb, hn, ho, _, _⟩ := ih
    obtain ⟨h1, h2, h3⟩ := decompress_true_pre t t' hd
    obtain ⟨t'', T', g1, g2, g3, g4, g5, g6, _, g8, _⟩ := hT.decompress_spec h1 h2 h3
    rw [hd] at g1
    have : t' = t'' := by
      have := Option.some.inj g1
      exact (Prod.mk.inj this).2
    subst this
    refine ⟨T', g2, g8 H hh, ?_, by rw [g4, hn], by rw [g5, ho], ?_,
      fun _ => decompress_true_trimmed t t' hd⟩
    · rw [bitmap_tree.to_bits_expands g3 H (g8 H hh), hb]
    · constructor
      · intro hc; omega
      · intro hc
        rw [bitmap_tree.expands_is_inner g3] at hc
        exact Bool.noConfusion hc

/-- On a state reached at an optimization level `>= 1` no assertion of
`decompress()` fails: the call returns `false` and leaves the state as it is
when the structure is empty, and returns `true` otherwise. -/
theorem decompressed_decompress (B : List Bool) (o : Nat) (f : ℚ) (H : Nat)
    (hB : B.length = 2 ^ H) (ho : 0 < o) (t : teb) (ht : decompressed B o f t) :
    (t.structure_.length = 0 → t.decompress = some (false, t)) ∧
    (t.structure_.length ≠ 0 → ∃ t', t.decompress = some (true, t')) := by
  obtain ⟨T, hT, _, _, _, _, _, htr⟩ := decompressed_inv B o f H hB t ht
  obtain ⟨h2, h3⟩ := htr ho
  constructor
  · intro h0
    unfold decompress
    rw [if_pos h0]
  · intro h1
    obtain ⟨t', T', g1, _⟩ := hT.decompress_spec h1 h2 (h3 h1)
    exact ⟨t', g1⟩

end teb

namespace teb

/-- The number of implicit inner nodes of a reached state is below `2 N`. -/
theorem decompressed_II_lt (B : List Bool) (o : Nat) (f : ℚ) (H : Nat) (hB : B.length = 2 ^ H)
    (t : teb) (ht : decompressed B o f t) : t.implicit_inner_node_cnt_ < 2 * 2 ^ H := by
  obtain ⟨T, hT, hh, _⟩ := decompressed_inv B o f H hB t ht
  obtain ⟨il, _, h1, _⟩ := hT.counts
  have h2 := bitmap_tree.node_cnt_le T H hh
  omega

/-- The loop of `run_optimize` returns when the fuel covers the implicit inner
nodes that can still be added. -/
theorem run_optimize_loop_returns (rs : List Bool → Nat) (B : List Bool) (o : Nat) (f : ℚ)
    (H : Nat) (hB : B.length = 2 ^ H) (ho : 0 < o) :
    ∀ (fuel : Nat) (this : teb) (optimized : Bool) (min : teb) (min_size local_cntr : Nat),
      decompressed B o f this → 2 * 2 ^ H ≤ fuel + this.implicit_inner_node_cnt_ →
      ∃ r, run_optimize_loop rs fuel this optimized min min_size local_cntr = some r := by
  intro fuel
  induction fuel with
  | zero =>
    intro this _ _ _ _ ht hf
    have := decompressed_II_lt B o f H hB this ht
    omega
  | succ fuel ih =>
    intro this optimized min min_size local_cntr ht hf
    obtain ⟨h0, h1⟩ := decompressed_decompress B o f H hB ho this ht
    unfold run_optimize_loop
    by_cases hs : this.structure_.length = 0
    · rw [h0 hs]
      exact ⟨_, rfl⟩
    · obtain ⟨t', ht'⟩ := h1 hs
      have hII := (decompress_true_II this t' ht').1
      rw [ht']
      simp only
      split
      · exact ⟨_, rfl⟩
      · split
        · exact ih t' true t' _ 0 (decompressed.step this t' ht ht') (by omega)
        · exact ih t' optimized min min_size _ (decompressed.step this t' ht ht') (by omega)

end teb

/-! ## Lemmas: paths and the ranges of nodes -/

namespace iter

theorem path_from_eq (cs : List Bool) : ∀ p : Nat,
    path_from p cs = p * 2 ^ cs.length + path_from 0 cs := by
  induction cs with
  | nil => intro p; simp [path_from]
  | cons b cs ih =>
    intro p
    simp only [path_from, List.length_cons]
    rw [ih (2 * p + b.toNat), ih (2 * 0 + b.toNat), pow_succ]
    ring

theorem path_from_zero_lt (cs : List Bool) : path_from 0 cs < 2 ^ cs.length := by
  induction cs with
  | nil => simp [path_from]
  | cons b cs ih =>
    simp only [path_from, List.length_cons]
    rw [path_from_eq, pow_succ]
    have : b.toNat ≤ 1 := by cases b <;> decide
    have h1 : (2 * 0 + b.toNat) * 2 ^ cs.length ≤ 1 * 2 ^ cs.length :=
      Nat.mul_le_mul_right _ (by omega)
    omega

theorem path_from_append (cs : List Bool) (b : Bool) : ∀ p : Nat,
    path_from p (cs ++ [b]) = 2 * path_from p cs + b.toNat := by
  induction cs with
  | nil => intro p; simp [path_from]
  | cons c cs ih => intro p; simp only [List.cons_append, path_from]; exact ih _

theorem length_choices_of : ∀ (l d : Nat), (choices_of l d).length = l := by
  intro l
  induction l with
  | zero => intro d; rfl
  | succ l ih => intro d; simp [choices_of, ih]

theorem path_from_choices_of : ∀ (l d : Nat), d < 2 ^ l → path_from 0 (choices_of l d) = d := by
  intro l
  induction l with
  | zero => intro d hd; simp at hd; subst hd; rfl
  | succ l ih =>
    intro d hd
    rw [pow_succ] at hd
    simp only [choices_of]
    rw [path_from_append, ih (d / 2) (by omega)]
    rcases Nat.mod_two_eq_zero_or_one d with h | h <;> simp [h] <;> omega

/-- The three assignments that decode a path, for every height that a `u64`
length allows. -/
theorem decode_path_64 (H l d n : Nat) (hH : H ≤ 63) (hl : l ≤ H) (hd : d < 2 ^ l)
    (hn : n = 2 ^ H) :
    u64_sub (64 - 1) (lz_count (2 ^ l + d)) = l ∧
    u64_shl ((2 ^ l + d) ^^^ (path_msb >>> lz_count (2 ^ l + d))) (u64_sub (log_2 n) l)
      = d * 2 ^ (H - l) ∧
    n >>> l = 2 ^ (H - l) ∧
    d * 2 ^ (H - l) + 2 ^ (H - l) ≤ 2 ^ H := by
  have hlz : lz_count (2 ^ l + d) = 63 - l := by
    unfold lz_count
    have := Nat.one_le_two_pow (n := l)
    rw [if_neg (by omega), log_2_path _ _ hd]
  have hH64 : (H : Nat) < 2 ^ 64 := by
    have : (63 : Nat) < 2 ^ 64 := by decide
    omega
  have hsplit : 2 ^ H = 2 ^ l * 2 ^ (H - l) := by
    rw [← pow_add]; congr 1; omega
  have hle : d * 2 ^ (H - l) + 2 ^ (H - l) ≤ 2 ^ H := by
    rw [hsplit, show d * 2 ^ (H - l) + 2 ^ (H - l) = (d + 1) * 2 ^ (H - l) by ring]
    exact Nat.mul_le_mul_right _ hd
  have h264 : 2 ^ H < 2 ^ 64 := Nat.pow_lt_pow_right (by decide) (by omega)
  have hpos : 0 < 2 ^ (H - l) := by positivity
  refine ⟨?_, ?_, ?_, hle⟩
  · rw [hlz, u64_sub_eq _ _ (by omega) (by decide)]; omega
  · rw [hlz, path_msb_shift _ (by omega), hn, log_2_two_pow, u64_sub_eq _ _ hl hH64,
      xor_sentinel _ _ hd, u64_shl_eq]
    omega
  · rw [hn, Nat.shiftRight_eq_div_pow]
    conv_lhs => rw [hsplit]
    exact Nat.mul_div_cancel_left _ (by positivity)

end iter

namespace bitmap_tree

/-- The node reached by the choice bits `cs` asserts the bits of the tree on
the range that starts at `d * 2 ^ (h - l)` and has the length `2 ^ (h - l)`,
where `l` is the number of choice bits and `d` their value. -/
theorem to_bits_node_at : ∀ (cs : List Bool) (T x : bitmap_tree) (h : Nat), T.height ≤ h →
    node_at cs T = some x →
    x.height + cs.length ≤ h ∧
    to_bits (h - cs.length) x
      = ((to_bits h T).drop (iter.path_from 0 cs * 2 ^ (h - cs.length))).take
          (2 ^ (h - cs.length)) := by
  intro cs
  induction cs with
  | nil =>
    intro T x h hT hx
    simp only [node_at, Option.some.injEq] at hx
    subst hx
    have := length_to_bits T h hT
    simp only [List.length_nil, Nat.sub_zero, iter.path_from, Nat.zero_mul, List.drop_zero,
      Nat.add_zero]
    exact ⟨hT, by rw [← this, List.take_length]⟩
  | cons b cs ih =>
    intro T x h hT hx
    cases T with
    | leaf a => simp [node_at] at hx
    | inner l r =>
      simp only [height] at hT
      obtain ⟨k, rfl⟩ : ∃ k, h = k + 1 := ⟨h - 1, by omega⟩
      have hv := iter.path_from_zero_lt cs
      have hll := length_to_bits l k (by omega)
      have hsub : k + 1 - (cs.length + 1) = k - cs.length := by omega
      cases b with
      | false =>
        simp only [node_at] at hx
        obtain ⟨h1, h2⟩ := ih l x k (by omega) hx
        have hk : 2 ^ k = 2 ^ cs.length * 2 ^ (k - cs.length) := by
          rw [← pow_add]; congr 1; omega
        have hb : iter.path_from 0 cs * 2 ^ (k - cs.length) + 2 ^ (k - cs.length) ≤ 2 ^ k := by
          rw [hk, show iter.path_from 0 cs * 2 ^ (k - cs.length) + 2 ^ (k - cs.length)
            = (iter.path_from 0 cs + 1) * 2 ^ (k - cs.length) by ring]
          exact Nat.mul_le_mul_right _ hv
        refine ⟨by simp only [List.length_cons]; omega, ?_⟩
        have e : iter.path_from 0 (false :: cs) = iter.path_from 0 cs := rfl
        simp only [List.length_cons, to_bits, Nat.add_sub_cancel, hsub, e]
        rw [h2, List.drop_append_of_le_length (by rw [hll]; exact le_trans (Nat.le_add_right _ _) hb),
          List.take_append_of_le_length (by
            rw [List.length_drop, hll]
            exact Nat.le_sub_of_add_le (by rw [Nat.add_comm]; exact hb))]
      | true =>
        simp only [node_at] at hx
        obtain ⟨h1, h2⟩ := ih r x k (by omega) hx
        have hk : 2 ^ k = 2 ^ cs.length * 2 ^ (k - cs.length) := by
          rw [← pow_add]; congr 1; omega
        have hb : iter.path_from 0 cs * 2 ^ (k - cs.length) + 2 ^ (k - cs.length) ≤ 2 ^ k := by
          rw [hk, show iter.path_from 0 cs * 2 ^ (k - cs.length) + 2 ^ (k - cs.length)
            = (iter.path_from 0 cs + 1) * 2 ^ (k - cs.length) by ring]
          exact Nat.mul_le_mul_right _ hv
        refine ⟨by simp only [List.length_cons]; omega, ?_⟩
        have e : iter.path_from 0 (true :: cs) * 2 ^ (k - cs.length)
            = (to_bits k l).length + iter.path_from 0 cs * 2 ^ (k - cs.length) := by
          rw [hll, hk]
          show iter.path_from 1 cs * _ = _
          rw [iter.path_from_eq cs 1]
          ring
        simp only [List.length_cons, to_bits, Nat.add_sub_cancel, hsub]
        rw [e, List.drop_append, h2]

end bitmap_tree

/-! ## Lemmas: the ranges of the 1-labelled leaves -/

namespace bitmap_tree

theorem fills_bounds : ∀ (t : bitmap_tree) (h first : Nat), t.height ≤ h →
    ∀ f ∈ fills h first t, first ≤ f.1 ∧ f.1 + f.2 ≤ first + 2 ^ h ∧ 0 < f.2 := by
  intro t
  induction t with
  | leaf b =>
    intro h first _ f hf
    cases b
    · simp [fills] at hf
    · simp only [fills, if_true, List.mem_singleton] at hf
      subst hf
      exact ⟨le_refl _, le_refl _, by positivity⟩
  | inner l r ihl ihr =>
    intro h first hh f hf
    simp only [height] at hh
    obtain ⟨k, rfl⟩ : ∃ k, h = k + 1 := ⟨h - 1, by omega⟩
    have hp : 2 ^ (k + 1) = 2 ^ k + 2 ^ k := by rw [pow_succ]; omega
    simp only [fills, Nat.add_sub_cancel, List.mem_append] at hf
    rcases hf with hf | hf
    · have := ihl k first (by omega) f hf
      omega
    · have := ihr k (first + 2 ^ k) (by omega) f hf
      omega

theorem fills_sorted : ∀ (t : bitmap_tree) (h first : Nat), t.height ≤ h →
    (fills h first t).Pairwise (fun a b => a.1 + a.2 ≤ b.1) := by
  intro t
  induction t with
  | leaf b =>
    intro h first _
    cases b <;> simp [fills]
  | inner l r ihl ihr =>
    intro h first hh
    simp only [height] at hh
    obtain ⟨k, rfl⟩ : ∃ k, h = k + 1 := ⟨h - 1, by omega⟩
    simp only [fills, Nat.add_sub_cancel]
    rw [List.pairwise_append]
    refine ⟨ihl k first (by omega), ihr k _ (by omega), ?_⟩
    intro a ha b hb
    have h1 := fills_bounds l k first (by omega) a ha
    have h2 := fills_bounds r k (first + 2 ^ k) (by omega) b hb
    omega

/-- A position lies in the range of a 1-labelled leaf exactly when the tree
asserts a 1-bit there. -/
theorem fills_mem_iff : ∀ (t : bitmap_tree) (h first q : Nat), t.height ≤ h →
    ((∃ f ∈ fills h first t, f.1 ≤ q ∧ q < f.1 + f.2)
      ↔ (first ≤ q ∧ q < first + 2 ^ h ∧ (to_bits h t).getD (q - first) false = true)) := by
  intro t
  induction t with
  | leaf b =>
    intro h first q _
    cases b
    · simp only [fills, Bool.false_eq_true, if_false, List.not_mem_nil, false_and, exists_false,
        to_bits, false_iff, not_and]
      intro _ _
      simp only [List.getD_eq_getElem?_getD, List.getElem?_replicate]
      split <;> exact Bool.false_ne_true
    · simp only [fills, if_true, List.mem_singleton, exists_eq_left, to_bits]
      constructor
      · intro ⟨h1, h2⟩
        refine ⟨h1, h2, ?_⟩
        simp only [List.getD_eq_getElem?_getD, List.getElem?_replicate]
        rw [if_pos (by omega)]
        rfl
      · intro ⟨h1, h2, _⟩
        exact ⟨h1, h2⟩
  | inner l r ihl ihr =>
    intro h first q hh
    simp only [height] at hh
    obtain ⟨k, rfl⟩ : ∃ k, h = k + 1 := ⟨h - 1, by omega⟩
    have hp : 2 ^ (k + 1) = 2 ^ k + 2 ^ k := by rw [pow_succ]; omega
    have hll := length_to_bits l k (by omega)
    simp only [fills, Nat.add_sub_cancel, List.mem_append, to_bits]
    have hl := ihl k first q (by omega)
    have hr := ihr k (first + 2 ^ k) q (by omega)
    constructor
    · rintro ⟨f, hf | hf, h1, h2⟩
      · obtain ⟨a, b, c⟩ := hl.1 ⟨f, hf, h1, h2⟩
        refine ⟨a, by omega, ?_⟩
        rw [List.getD_eq_getElem?_getD, List.getElem?_append_left (by omega),
          ← List.getD_eq_getElem?_getD]
        exact c
      · obtain ⟨a, b, c⟩ := hr.1 ⟨f, hf, h1, h2⟩
        refine ⟨by omega, by omega, ?_⟩
        rw [List.getD_eq_getElem?_getD, List.getElem?_append_right (by omega),
          ← List.getD_eq_getElem?_getD, hll, show q - first - 2 ^ k = q - (first + 2 ^ k) by omega]
        exact c
    · rintro ⟨a, b, c⟩
      by_cases hq : q < first + 2 ^ k
      · rw [List.getD_eq_getElem?_getD, List.getElem?_append_left (by omega),
          ← List.getD_eq_getElem?_getD] at c
        obtain ⟨f, hf, h1, h2⟩ := hl.2 ⟨a, hq, c⟩
        exact ⟨f, Or.inl hf, h1, h2⟩
      · rw [List.getD_eq_getElem?_getD, List.getElem?_append_right (by omega),
          ← List.getD_eq_getElem?_getD, hll, show q - first - 2 ^ k = q - (first + 2 ^ k) by omega]
          at c
        obtain ⟨f, hf, h1, h2⟩ := hr.2 ⟨by omega, by omega, c⟩
        exact ⟨f, Or.inr hf, h1, h2⟩

end bitmap_tree

/-! ## Lemmas: the iterator over an untrimmed encoding -/

namespace iter

theorem chain_fills_cons (H : Nat) (x : entry) (xs : List entry) :
    chain_fills H (x :: xs)
      = bitmap_tree.fills (H - x.level) (x.first H) x.node ++ chain_fills H xs := by
  simp [chain_fills]

theorem entry.idx_lt {T : bitmap_tree} {H : Nat} {x : entry} (hx : x.valid T H) :
    x.node_idx < T.node_cnt := by
  have h1 := hx.1
  rw [← bitmap_tree.length_breadth_first]
  by_contra hc
  rw [List.getElem?_eq_none (by omega)] at h1
  cases h1

/-- What `next()` does on the encoding of the whole level-order sequence
(optimization level 0): it pops the stack up to the first 1-labelled leaf and
reports the range of that leaf, or empties the stack when there is none; the
early exit is not taken; the fuel suffices when it covers the nodes below the
entries of the stack. -/
theorem next_level_0 {tm : teb} {T : bitmap_tree} (henc : tm.Encodes T) (H : Nat)
    (hn : tm.n_ = 2 ^ H) (hH : H ≤ 31) (hT : T.height ≤ H)
    (hfull : T.node_cnt ≤ tm.structure_.length) :
    ∀ (fuel : Nat) (xs : List entry) (e path0 level0 pos0 len0 : Nat),
      chain T H e xs →
      (∀ it', next tm fuel ⟨xs.map entry.pack, path0, level0, pos0, len0⟩ = some it' →
        (chain_fills H xs = [] ∧ it' = ⟨[], path0, level0, 2 ^ H, 0⟩) ∨
        (∃ (x' : entry) (xs' : List entry), x'.valid T H ∧ x'.node = bitmap_tree.leaf true ∧
          e ≤ x'.first H ∧ chain T H (x'.last H) xs' ∧
          it' = ⟨xs'.map entry.pack, x'.path, x'.level, x'.first H, 2 ^ (H - x'.level)⟩ ∧
          chain_fills H xs = (x'.first H, 2 ^ (H - x'.level)) :: chain_fills H xs' ∧
          (xs'.map (fun x => x.node.node_cnt)).sum ≤ (xs.map (fun x => x.node.node_cnt)).sum)) ∧
      ((xs.map (fun x => x.node.node_cnt)).sum ≤ fuel →
        ∃ it', next tm fuel ⟨xs.map entry.pack, path0, level0, pos0, len0⟩ = some it') := by
  intro fuel
  induction fuel with
  | zero =>
    intro xs e path0 level0 pos0 len0 hch
    cases xs with
    | nil =>
      simp only [List.map_nil, next, Option.some.injEq]
      exact ⟨fun it' h => Or.inl ⟨rfl, by rw [← h, hn]⟩, fun _ => ⟨_, rfl⟩⟩
    | cons x xs =>
      refine ⟨fun it' h => by simp [next] at h, fun h => ?_⟩
      have := bitmap_tree.node_cnt_pos x.node
      simp only [List.map_cons, List.sum_cons] at h
      omega
  | succ fuel ih =>
    intro xs e path0 level0 pos0 len0 hch
    cases xs with
    | nil =>
      simp only [List.map_nil, next, Option.some.injEq]
      exact ⟨fun it' h => Or.inl ⟨rfl, by rw [← h, hn]⟩, fun _ => ⟨_, rfl⟩⟩
    | cons x xs =>
      obtain ⟨hx, hex, hrest⟩ := hch
      obtain ⟨hu1, hu2⟩ := entry.unpack T H x hH hT hx
      obtain ⟨hb1, hb2, hb3⟩ := entry.bounds T H x hH hT hx
      have hidx := entry.idx_lt hx
      have hrest' : chain T H e xs :=
        chain_mono T H (le_trans hex (entry.first_le_last H x)) xs hrest
      simp only [List.map_cons, next, hu1, hu2, if_neg (show ¬ tm.structure_.length ≤ x.node_idx
        by omega), List.sum_cons]
      obtain ⟨k, lv, j, c⟩ := x
      have hin := henc.is_inner_node_of k c hx.1
      simp only [teb.is_leaf_node, hin]
      cases c with
      | inner l r =>
        simp only [bitmap_tree.is_inner_node, Bool.not_true, Bool.not_false, if_true]
        obtain ⟨hvl, hvr, hf1, hf2, hf3⟩ := entry.children_valid henc H k lv j l r hx
        have hpath : u64_shl (entry.path ⟨k, lv, j, bitmap_tree.inner l r⟩) 1
            = entry.path ⟨2 * tm.rank (k + 1) - 1, lv + 1, 2 * j, l⟩ := by
          rw [u64_shl_eq _ _ (by
            have : (2 : Nat) ^ 32 * 2 ^ 1 < 2 ^ 64 := by decide
            have := Nat.mul_lt_mul_of_pos_right hb2 (show 0 < 2 ^ 1 by decide)
            omega)]
          simp only [entry.path, pow_succ]
          ring
        have hpath2 : u64_shl (entry.path ⟨k, lv, j, bitmap_tree.inner l r⟩) 1 ||| 1
            = entry.path ⟨2 * tm.rank (k + 1), lv + 1, 2 * j + 1, r⟩ := by
          rw [hpath]
          simp only [entry.path, pow_succ]
          rw [show 2 ^ lv * 2 + 2 * j = 2 * (2 ^ lv + j) by ring, or_one_of_even]
          ring
        have hstack : (u64_shl (2 * tm.rank (k + 1) - 1) 32
              ||| u64_shl (entry.path ⟨k, lv, j, bitmap_tree.inner l r⟩) 1)
            :: (u64_shl (2 * tm.rank (k + 1)) 32
              ||| (u64_shl (entry.path ⟨k, lv, j, bitmap_tree.inner l r⟩) 1 ||| 1))
            :: xs.map entry.pack
            = List.map entry.pack (⟨2 * tm.rank (k + 1) - 1, lv + 1, 2 * j, l⟩
                :: ⟨2 * tm.rank (k + 1), lv + 1, 2 * j + 1, r⟩ :: xs) := by
          simp only [List.map_cons, entry.pack]
          rw [hpath2, hpath]
        rw [hstack]
        have hch' : chain T H e (⟨2 * tm.rank (k + 1) - 1, lv + 1, 2 * j, l⟩
            :: ⟨2 * tm.rank (k + 1), lv + 1, 2 * j + 1, r⟩ :: xs) :=
          ⟨hvl, by rw [hf1]; exact hex, hvr, by rw [hf2], by rw [hf3]; exact hrest⟩
        obtain ⟨ih1, ih2⟩ := ih _ e path0 level0 pos0 len0 hch'
        have hh := hx.2.1
        simp only [bitmap_tree.height] at hh
        have hfills : chain_fills H (⟨k, lv, j, bitmap_tree.inner l r⟩ :: xs)
            = chain_fills H (⟨2 * tm.rank (k + 1) - 1, lv + 1, 2 * j, l⟩
                :: ⟨2 * tm.rank (k + 1), lv + 1, 2 * j + 1, r⟩ :: xs) := by
          simp only [chain_fills_cons, bitmap_tree.fills, List.append_assoc]
          have e1 : H - lv - 1 = H - (lv + 1) := by omega
          have e2 : entry.first H ⟨k, lv, j, bitmap_tree.inner l r⟩ + 2 ^ (H - lv - 1)
              = entry.first H ⟨2 * tm.rank (k + 1), lv + 1, 2 * j + 1, r⟩ := by
            rw [← hf2, e1]
            simp only [entry.last, entry.first]
            rw [show H - lv = (H - (lv + 1)) + 1 by omega, pow_succ]
            ring
          rw [e2, e1, hf1]
        rw [hfills]
        have hsum' : ((⟨2 * tm.rank (k + 1) - 1, lv + 1, 2 * j, l⟩
            :: ⟨2 * tm.rank (k + 1), lv + 1, 2 * j + 1, r⟩ :: xs : List entry).map
              (fun x => x.node.node_cnt)).sum + 1
            = bitmap_tree.node_cnt (bitmap_tree.inner l r)
              + (xs.map (fun x => x.node.node_cnt)).sum := by
          simp only [List.map_cons, List.sum_cons, bitmap_tree.node_cnt]
          omega
        refine ⟨fun it' h => ?_, fun hsum => ih2 (by omega)⟩
        rcases ih1 it' h with h1 | ⟨x', xs', g1, g2, g3, g4, g5, g6, g7⟩
        · exact Or.inl h1
        · exact Or.inr ⟨x', xs', g1, g2, g3, g4, g5, g6, by omega⟩
      | leaf b =>
        simp only [bitmap_tree.is_inner_node, Bool.not_false, Bool.not_true,
          Bool.false_eq_true, if_false]
        have hlab : tm.get_label k = b := by
          simp only [teb.get_label, teb.get_label_idx, List.getD_eq_getElem?_getD]
          exact henc.label_of_leaf k b hx.1
        rw [hlab]
        cases b with
        | false =>
          simp only [Bool.false_eq_true, if_false]
          obtain ⟨ih1, ih2⟩ := ih xs e path0 level0 pos0 len0 hrest'
          have hfills : chain_fills H (⟨k, lv, j, bitmap_tree.leaf false⟩ :: xs)
              = chain_fills H xs := by
            simp [chain_fills_cons, bitmap_tree.fills]
          rw [hfills]
          refine ⟨fun it' h => ?_, fun hsum => ih2 (by
            simp only [bitmap_tree.node_cnt] at hsum
            omega)⟩
          rcases ih1 it' h with h1 | ⟨x', xs', g1, g2, g3, g4, g5, g6, g7⟩
          · exact Or.inl h1
          · exact Or.inr ⟨x', xs', g1, g2, g3, g4, g5, g6, by omega⟩
        | true =>
          obtain ⟨hd1, hd2, hd3, hd4, hd5⟩ :=
            entry.decode_path H ⟨k, lv, j, bitmap_tree.leaf true⟩ hH hb3 hx.2.2.1 tm.n_ hn
          simp only [if_true, tree_height, hd1, hd2, hd3, Option.some.injEq]
          refine ⟨fun it' h => Or.inr ⟨⟨k, lv, j, bitmap_tree.leaf true⟩, xs, hx, rfl, hex, hrest,
            h.symm, ?_, by omega⟩, fun _ => ⟨_, rfl⟩⟩
          simp [chain_fills_cons, bitmap_tree.fills]

end iter

theorem bit_test_half (j d δ : Nat) (hδ : δ < 2 ^ (d + 1)) :
    bit_test (j * 2 ^ (d + 1) + δ) d = decide (2 ^ d ≤ δ) := by
  unfold bit_test
  rw [Nat.shiftRight_eq_div_pow, Nat.and_one_is_mod]
  have hpos : 0 < 2 ^ d := by positivity
  have h1 : (j * 2 ^ (d + 1) + δ) / 2 ^ d = 2 * j + δ / 2 ^ d := by
    rw [pow_succ, show j * (2 ^ d * 2) + δ = δ + 2 ^ d * (2 * j) by ring,
      Nat.add_mul_div_left _ _ hpos]
    omega
  rw [h1]
  have h2 : δ / 2 ^ d < 2 := by
    rw [Nat.div_lt_iff_lt_mul hpos]
    rw [pow_succ] at hδ
    omega
  by_cases h : 2 ^ d ≤ δ
  · have h3 : δ / 2 ^ d = 1 := by
      have := Nat.div_pos h hpos
      omega
    rw [h3, decide_eq_true h]
    have : (2 * j + 1) % 2 = 1 := by omega
    rw [this]
    rfl
  · have h3 : δ / 2 ^ d = 0 := Nat.div_eq_of_lt (by omega)
    rw [h3, decide_eq_false h]
    have : (2 * j + 0) % 2 = 0 := by omega
    rw [this]
    rfl

namespace iter

/-- What the loop of `nav_to(to_pos)` does on the encoding of the whole
level-order sequence, started at a node whose range contains `to_pos`: it ends
at the first 1-labelled leaf whose range ends behind `to_pos`, among the leaves
below the node and below the entries of the stack, or exhausted. -/
theorem nav_to_loop_level_0 {tm : teb} {T : bitmap_tree} (henc : tm.Encodes T) (H : Nat)
    (hn : tm.n_ = 2 ^ H) (hH : H ≤ 31) (hT : T.height ≤ H)
    (hfull : T.node_cnt ≤ tm.structure_.length) (to_pos next_fuel : Nat) :
    ∀ (fuel k i lv j : Nat) (c : bitmap_tree) (xs : List entry) (pos0 len0 : Nat),
      entry.valid T H ⟨k, lv, j, c⟩ → (lv < H → i = H - 1 - lv) →
      entry.first H ⟨k, lv, j, c⟩ ≤ to_pos → to_pos < entry.last H ⟨k, lv, j, c⟩ →
      chain T H (entry.last H ⟨k, lv, j, c⟩) xs →
      (∀ it', nav_to_loop tm to_pos next_fuel fuel k i
          ⟨xs.map entry.pack, entry.path ⟨k, lv, j, c⟩, lv, pos0, len0⟩ = some it' →
        ((bitmap_tree.fills (H - lv) (entry.first H ⟨k, lv, j, c⟩) c).filter
            (fun f => decide (to_pos < f.1 + f.2)) ++ chain_fills H xs = [] ∧
          it'.stack_ = [] ∧ it'.pos_ = 2 ^ H ∧ it'.length_ = 0) ∨
        (∃ (x' : entry) (xs' : List entry), x'.valid T H ∧ x'.node = bitmap_tree.leaf true ∧
          chain T H (x'.last H) xs' ∧ to_pos < x'.last H ∧
          it' = ⟨xs'.map entry.pack, x'.path, x'.level, max (x'.first H) to_pos,
            x'.last H - max (x'.first H) to_pos⟩ ∧
          (bitmap_tree.fills (H - lv) (entry.first H ⟨k, lv, j, c⟩) c).filter
              (fun f => decide (to_pos < f.1 + f.2)) ++ chain_fills H xs
            = (x'.first H, 2 ^ (H - x'.level)) :: chain_fills H xs' ∧
          (xs'.map (fun x => x.node.node_cnt)).sum
            ≤ c.node_cnt + (xs.map (fun x => x.node.node_cnt)).sum)) ∧
      (c.height + 1 ≤ fuel → c.node_cnt + (xs.map (fun x => x.node.node_cnt)).sum ≤ next_fuel →
        ∃ it', nav_to_loop tm to_pos next_fuel fuel k i
          ⟨xs.map entry.pack, entry.path ⟨k, lv, j, c⟩, lv, pos0, len0⟩ = some it') := by
  intro fuel
  induction fuel with
  | zero =>
    intro k i lv j c xs pos0 len0 _ _ _ _ _
    exact ⟨fun it' h => by simp [nav_to_loop] at h, fun h => by omega⟩
  | succ fuel ih =>
    intro k i lv j c xs pos0 len0 hx hi hlo hhi hch
    have hin := henc.is_inner_node_of k c hx.1
    obtain ⟨hb1, hb2, hb3⟩ := entry.bounds T H ⟨k, lv, j, c⟩ hH hT hx
    simp only at hb3
    simp only [nav_to_loop, teb.is_leaf_node, hin]
    cases c with
    | leaf b =>
      simp only [bitmap_tree.is_inner_node, Bool.not_false, if_true]
      have hlab : tm.get_label k = b := by
        simp only [teb.get_label, teb.get_label_idx, List.getD_eq_getElem?_getD]
        exact henc.label_of_leaf k b hx.1
      rw [hlab]
      obtain ⟨hd1, hd2, hd3, hd4, hd5⟩ :=
        entry.decode_path H ⟨k, lv, j, bitmap_tree.leaf b⟩ hH hb3 hx.2.2.1 tm.n_ hn
      simp only at hd1 hd2 hd3 hd4 hd5
      cases b with
      | true =>
        have h264 : (2 : Nat) ^ H < 2 ^ 64 := Nat.pow_lt_pow_right (by decide) (by omega)
        have hle : 2 ^ (H - lv) ≤ 2 ^ H := two_pow_le_of_le (Nat.sub_le _ _)
        simp only [if_true, tree_height, hd2, hd3, Option.some.injEq]
        rw [u64_sub_eq _ _ hlo (by omega), u64_sub_eq _ _ (by omega) (by omega)]
        refine ⟨fun it' h => Or.inr ⟨⟨k, lv, j, bitmap_tree.leaf true⟩, xs, hx, rfl, hch, hhi, ?_, ?_,
          Nat.le_add_left _ _⟩, fun _ _ => ⟨_, rfl⟩⟩
        · rw [← h, Nat.max_eq_right hlo]
          simp only [iter.mk.injEq, true_and]
          omega
        · simp only [bitmap_tree.fills, if_true, List.filter_cons, List.filter_nil]
          rw [if_pos (by simp only [decide_eq_true_eq]; omega)]
          rfl
      | false =>
        simp only [Bool.false_eq_true, if_false]
        obtain ⟨n1, n2⟩ := next_level_0 henc H hn hH hT hfull next_fuel xs
          (entry.last H ⟨k, lv, j, bitmap_tree.leaf false⟩)
          (entry.path ⟨k, lv, j, bitmap_tree.leaf false⟩) lv pos0 len0 hch
        have hF : (bitmap_tree.fills (H - lv) (entry.first H ⟨k, lv, j, bitmap_tree.leaf false⟩)
            (bitmap_tree.leaf false)).filter (fun f => decide (to_pos < f.1 + f.2))
              ++ chain_fills H xs = chain_fills H xs := by
          simp [bitmap_tree.fills]
        rw [hF]
        refine ⟨fun it' h => ?_, fun _ hf => n2 (by omega)⟩
        rcases n1 it' h with ⟨h1, h2⟩ | ⟨x', xs', g1, g2, g3, g4, g5, g6, g7⟩
        · exact Or.inl ⟨h1, by rw [h2], by rw [h2], by rw [h2]⟩
        · obtain ⟨_, _, _, gd4, _⟩ :=
            entry.decode_path H x' hH (entry.bounds T H x' hH hT g1).2.2 g1.2.2.1 tm.n_ hn
          have hp : 0 < 2 ^ (H - x'.level) := by positivity
          refine Or.inr ⟨x', xs', g1, g2, g4, ?_, ?_, g6, by omega⟩
          · have := entry.first_le_last H x'
            omega
          · rw [g5, Nat.max_eq_left (by omega)]
            simp only [iter.mk.injEq, true_and]
            omega
    | inner l r =>
      simp only [bitmap_tree.is_inner_node, Bool.not_true, Bool.false_eq_true, if_false]
      obtain ⟨hvl, hvr, hf1, hf2, hf3⟩ := entry.children_valid henc H k lv j l r hx
      have hh := hx.2.1
      simp only [bitmap_tree.height] at hh
      have hlvH : lv < H := by omega
      have hi' := hi hlvH
      have hpath : u64_shl (entry.path ⟨k, lv, j, bitmap_tree.inner l r⟩) 1
          = entry.path ⟨2 * tm.rank (k + 1) - 1, lv + 1, 2 * j, l⟩ := by
        rw [u64_shl_eq _ _ (by
          have : (2 : Nat) ^ 32 * 2 ^ 1 < 2 ^ 64 := by decide
          have := Nat.mul_lt_mul_of_pos_right hb2 (show 0 < 2 ^ 1 by decide)
          omega)]
        simp only [entry.path, pow_succ]
        ring
      have hpath2 : u64_shl (entry.path ⟨k, lv, j, bitmap_tree.inner l r⟩) 1 ||| 1
          = entry.path ⟨2 * tm.rank (k + 1), lv + 1, 2 * j + 1, r⟩ := by
        rw [hpath]
        simp only [entry.path, pow_succ]
        rw [show 2 ^ lv * 2 + 2 * j = 2 * (2 ^ lv + j) by ring, or_one_of_even]
        ring
      -- the bit of `to_pos` that is tested
      obtain ⟨d, hd⟩ : ∃ d, H - lv = d + 1 := ⟨H - lv - 1, by omega⟩
      have hd' : H - (lv + 1) = d := by omega
      have hid : i = d := by omega
      have hfirst : entry.first H ⟨k, lv, j, bitmap_tree.inner l r⟩ = j * 2 ^ (d + 1) := by
        simp only [entry.first, hd]
      have hlast : entry.last H ⟨k, lv, j, bitmap_tree.inner l r⟩
          = j * 2 ^ (d + 1) + 2 ^ (d + 1) := by
        simp only [entry.last, hd]; ring
      have hmid : entry.first H ⟨2 * tm.rank (k + 1), lv + 1, 2 * j + 1, r⟩
          = j * 2 ^ (d + 1) + 2 ^ d := by
        simp only [entry.first, hd', pow_succ]; ring
      have hbit : bit_test to_pos i = decide (j * 2 ^ (d + 1) + 2 ^ d ≤ to_pos) := by
        rw [hfirst] at hlo
        rw [hlast] at hhi
        have := bit_test_half j d (to_pos - j * 2 ^ (d + 1)) (by omega)
        rw [show j * 2 ^ (d + 1) + (to_pos - j * 2 ^ (d + 1)) = to_pos by omega] at this
        rw [hid, this]
        congr 1
        apply propext
        constructor <;> intro h <;> omega
      have hi2 : lv + 1 < H → u64_sub i 1 = H - 1 - (lv + 1) := by
        intro h
        rw [u64_sub_eq _ _ (by omega) (by
          have : (31 : Nat) < 2 ^ 64 := by decide
          omega)]
        omega
      have hfl : bitmap_tree.fills (H - lv) (entry.first H ⟨k, lv, j, bitmap_tree.inner l r⟩)
            (bitmap_tree.inner l r)
          = bitmap_tree.fills (H - (lv + 1))
              (entry.first H ⟨2 * tm.rank (k + 1) - 1, lv + 1, 2 * j, l⟩) l
            ++ bitmap_tree.fills (H - (lv + 1))
              (entry.first H ⟨2 * tm.rank (k + 1), lv + 1, 2 * j + 1, r⟩) r := by
        simp only [bitmap_tree.fills]
        rw [hf1, hmid, hfirst, hd, hd', Nat.add_sub_cancel]
      have hbl := bitmap_tree.fills_bounds l (H - (lv + 1))
        (entry.first H ⟨2 * tm.rank (k + 1) - 1, lv + 1, 2 * j, l⟩) (by omega)
      have hbr := bitmap_tree.fills_bounds r (H - (lv + 1))
        (entry.first H ⟨2 * tm.rank (k + 1), lv + 1, 2 * j + 1, r⟩) (by omega)
      have hll : entry.last H ⟨2 * tm.rank (k + 1) - 1, lv + 1, 2 * j, l⟩
          = entry.first H ⟨2 * tm.rank (k + 1) - 1, lv + 1, 2 * j, l⟩ + 2 ^ (H - (lv + 1)) := by
        simp only [entry.last, entry.first]; ring
      rw [hbit, hfl, List.filter_append]
      by_cases hgo : j * 2 ^ (d + 1) + 2 ^ d ≤ to_pos
      · -- to the right child
        simp only [decide_eq_true hgo, Bool.not_true, Bool.false_eq_true, if_false]
        rw [hpath2]
        obtain ⟨ih1, ih2⟩ := ih (2 * tm.rank (k + 1)) (u64_sub i 1) (lv + 1) (2 * j + 1) r xs
          pos0 len0 hvr hi2 (by rw [hmid]; exact hgo) (by rw [hf3]; exact hhi)
          (by rw [hf3]; exact hch)
        have hnil : (bitmap_tree.fills (H - (lv + 1))
            (entry.first H ⟨2 * tm.rank (k + 1) - 1, lv + 1, 2 * j, l⟩) l).filter
              (fun f => decide (to_pos < f.1 + f.2)) = [] := by
          rw [List.filter_eq_nil_iff]
          intro f hf
          have := hbl f hf
          simp only [decide_eq_true_eq]
          rw [← hll, hf2, hmid] at this
          omega
        rw [hnil, List.nil_append]
        refine ⟨fun it' h => ?_, fun h1 h2 => ih2 ?_ ?_⟩
        · rcases ih1 it' h with h1 | ⟨x', xs', g1, g2, g3, g4, g5, g6, g7⟩
          · exact Or.inl h1
          · refine Or.inr ⟨x', xs', g1, g2, g3, g4, g5, g6, ?_⟩
            simp only [bitmap_tree.node_cnt]
            omega
        · simp only [bitmap_tree.height] at h1; omega
        · simp only [bitmap_tree.node_cnt] at h2; omega
      · -- to the left child
        simp only [decide_eq_false hgo, Bool.not_false, if_true]
        rw [hpath2, hpath]
        have hst : entry.pack ⟨2 * tm.rank (k + 1), lv + 1, 2 * j + 1, r⟩ :: xs.map entry.pack
            = List.map entry.pack (⟨2 * tm.rank (k + 1), lv + 1, 2 * j + 1, r⟩ :: xs) := rfl
        have hst' : (u64_shl (2 * tm.rank (k + 1)) 32
              ||| entry.path ⟨2 * tm.rank (k + 1), lv + 1, 2 * j + 1, r⟩) :: xs.map entry.pack
            = List.map entry.pack (⟨2 * tm.rank (k + 1), lv + 1, 2 * j + 1, r⟩ :: xs) := rfl
        rw [hst']
        obtain ⟨ih1, ih2⟩ := ih (2 * tm.rank (k + 1) - 1) (u64_sub i 1) (lv + 1) (2 * j) l
          (⟨2 * tm.rank (k + 1), lv + 1, 2 * j + 1, r⟩ :: xs)
          pos0 len0 hvl hi2 (by rw [hf1]; exact hlo) (by rw [hf2, hmid]; omega)
          ⟨hvr, by rw [hf2], by rw [hf3]; exact hch⟩
        have hall : (bitmap_tree.fills (H - (lv + 1))
            (entry.first H ⟨2 * tm.rank (k + 1), lv + 1, 2 * j + 1, r⟩) r).filter
              (fun f => decide (to_pos < f.1 + f.2))
            = bitmap_tree.fills (H - (lv + 1))
              (entry.first H ⟨2 * tm.rank (k + 1), lv + 1, 2 * j + 1, r⟩) r := by
          rw [List.filter_eq_self]
          intro f hf
          have := hbr f hf
          simp only [decide_eq_true_eq]
          rw [hmid] at this
          omega
        rw [hall, List.append_assoc, ← chain_fills_cons H ⟨2 * tm.rank (k + 1), lv + 1, 2 * j + 1, r⟩ xs]
        refine ⟨fun it' h => ?_, fun h1 h2 => ih2 ?_ ?_⟩
        · rcases ih1 it' h with h1 | ⟨x', xs', g1, g2, g3, g4, g5, g6, g7⟩
          · exact Or.inl h1
          · refine Or.inr ⟨x', xs', g1, g2, g3, g4, g5, g6, ?_⟩
            simp only [bitmap_tree.node_cnt, List.map_cons, List.sum_cons] at g7 ⊢
            omega
        · simp only [bitmap_tree.height] at h1; omega
        · simp only [bitmap_tree.node_cnt, List.map_cons, List.sum_cons] at h2 ⊢; omega

end iter

theorem bitmap_tree.height_lt_node_cnt : ∀ t : bitmap_tree, t.height < t.node_cnt := by
  intro t
  induction t with
  | leaf b => simp [bitmap_tree.height, bitmap_tree.node_cnt]
  | inner l r ihl ihr =>
    simp only [bitmap_tree.height, bitmap_tree.node_cnt]
    omega

theorem set_range_length (pos length : Nat) (ret : List Bool) :
    (set_range pos length ret).length = ret.length := by
  unfold set_range
  induction length generalizing ret with
  | zero => simp
  | succ n ih =>
    rw [List.range_succ, List.foldl_append]
    simp only [List.foldl_cons, List.foldl_nil, List.length_set]
    exact ih ret

theorem set_range_getD (pos length : Nat) (ret : List Bool) (q : Nat) :
    (set_range pos length ret).getD q false
      = if pos ≤ q ∧ q < pos + length ∧ q < ret.length then true else ret.getD q false := by
  unfold set_range
  induction length generalizing ret with
  | zero =>
    simp only [List.range_zero, List.foldl_nil, Nat.add_zero]
    rw [if_neg (by omega)]
  | succ n ih =>
    rw [List.range_succ, List.foldl_append]
    simp only [List.foldl_cons, List.foldl_nil]
    have hlen := set_range_length pos n ret
    unfold set_range at hlen
    rw [List.getD_eq_getElem?_getD, List.getElem?_set]
    by_cases hq : pos + n = q
    · rw [if_pos hq]
      by_cases hlt : q < ret.length
      · rw [if_pos (by rw [hlen, hq]; exact hlt), if_pos ⟨by omega, by omega, hlt⟩]
        rfl
      · rw [if_neg (by rw [hlen, hq]; exact hlt), if_neg (by omega),
          List.getD_eq_getElem?_getD, List.getElem?_eq_none (by omega)]
    · rw [if_neg hq, ← List.getD_eq_getElem?_getD, ih ret]
      by_cases hc : pos ≤ q ∧ q < pos + n ∧ q < ret.length
      · rw [if_pos hc, if_pos ⟨hc.1, by omega, hc.2.2⟩]
      · rw [if_neg hc, if_neg (by omega)]

theorem foldl_set_range_length (fs : List (Nat × Nat)) : ∀ ret : List Bool,
    (fs.foldl (fun r f => set_range f.1 f.2 r) ret).length = ret.length := by
  induction fs with
  | nil => intro ret; rfl
  | cons f fs ih =>
    intro ret
    simp only [List.foldl_cons]
    rw [ih, set_range_length]

theorem foldl_set_range_getD (fs : List (Nat × Nat)) : ∀ (ret : List Bool) (q : Nat),
    q < ret.length →
    ((fs.foldl (fun r f => set_range f.1 f.2 r) ret).getD q false = true
      ↔ (ret.getD q false = true ∨ ∃ f ∈ fs, f.1 ≤ q ∧ q < f.1 + f.2)) := by
  induction fs with
  | nil => intro ret q _; simp
  | cons f fs ih =>
    intro ret q hq
    simp only [List.foldl_cons]
    rw [ih _ q (by rw [set_range_length]; exact hq), set_range_getD]
    constructor
    · rintro (h | ⟨g, hg, h1, h2⟩)
      · by_cases hc : f.1 ≤ q ∧ q < f.1 + f.2 ∧ q < ret.length
        · exact Or.inr ⟨f, List.mem_cons_self _ _, hc.1, hc.2.1⟩
        · rw [if_neg hc] at h
          exact Or.inl h
      · exact Or.inr ⟨g, List.mem_cons_of_mem _ hg, h1, h2⟩
    · rintro (h | ⟨g, hg, h1, h2⟩)
      · left
        split
        · rfl
        · exact h
      · rcases List.mem_cons.mp hg with rfl | hg'
        · left
          rw [if_pos ⟨h1, h2, hq⟩]
        · exact Or.inr ⟨g, hg', h1, h2⟩

/-- Setting the ranges of the 1-labelled leaves of a tree in a bitmap of
0-bits gives the bitmap that the tree asserts. -/
theorem foldl_set_range_fills (T : bitmap_tree) (H : Nat) (hT : T.height ≤ H) :
    (bitmap_tree.fills H 0 T).foldl (fun r f => set_range f.1 f.2 r)
        (List.replicate (2 ^ H) false)
      = bitmap_tree.to_bits H T := by
  apply ext_getD_false
  · rw [foldl_set_range_length, List.length_replicate, bitmap_tree.length_to_bits T H hT]
  · intro q
    by_cases hq : q < 2 ^ H
    · have h1 := foldl_set_range_getD (bitmap_tree.fills H 0 T) (List.replicate (2 ^ H) false) q
        (by rw [List.length_replicate]; exact hq)
      have h2 := bitmap_tree.fills_mem_iff T H 0 q hT
      have h3 : (List.replicate (2 ^ H) false).getD q false = false := by
        simp only [List.getD_eq_getElem?_getD, List.getElem?_replicate]
        split <;> rfl
      rw [h3] at h1
      simp only [Bool.false_eq_true, false_or, Nat.zero_le, true_and, Nat.zero_add,
        Nat.sub_zero] at h1 h2
      cases hv : (bitmap_tree.to_bits H T).getD q false
      · cases hw : ((bitmap_tree.fills H 0 T).foldl (fun r f => set_range f.1 f.2 r)
            (List.replicate (2 ^ H) false)).getD q false
        · rfl
        · have := (h2.1 (h1.1 hw)).2
          rw [hv] at this
          exact Bool.noConfusion this
      · exact h1.2 (h2.2 ⟨hq, hv⟩)
    · rw [List.getD_eq_getElem?_getD, List.getD_eq_getElem?_getD,
        List.getElem?_eq_none (by
          rw [foldl_set_range_length, List.length_replicate]; omega),
        List.getElem?_eq_none (by rw [bitmap_tree.length_to_bits T H hT]; omega)]

namespace iter

theorem next_nil (tm : teb) (fuel path_ level_ pos_ length_ : Nat) :
    next tm fuel ⟨[], path_, level_, pos_, length_⟩ = some ⟨[], path_, level_, tm.n_, 0⟩ := by
  cases fuel <;> rfl

/-- One `next()` call on an untrimmed encoding moves the iterator to the next
fill, and returns when the fuel covers the nodes of the tree. -/
theorem next_at_fills {tm : teb} {T : bitmap_tree} (henc : tm.Encodes T) (H : Nat)
    (hn : tm.n_ = 2 ^ H) (hH : H ≤ 31) (hT : T.height ≤ H)
    (hfull : T.node_cnt ≤ tm.structure_.length) (fuel : Nat) (it : iter)
    (F : List (Nat × Nat)) (h : at_fills T H it F) :
    (∀ it', next tm fuel it = some it' → at_fills T H it' F.tail) ∧
    (T.node_cnt ≤ fuel → ∃ it', next tm fuel it = some it') := by
  obtain ⟨stack_, path_, level_, pos_, length_⟩ := it
  rcases h with ⟨hF, hs, hp, hl⟩ | ⟨p, n, xs, hF, hs, hp, hl, hn0, hle, hch, hsum⟩
  · simp only at hs hp hl
    subst hs hF
    rw [next_nil]
    refine ⟨fun it' h => ?_, fun _ => ⟨_, rfl⟩⟩
    simp only [Option.some.injEq] at h
    subst h
    exact Or.inl ⟨rfl, rfl, hn, rfl⟩
  · simp only at hs hp hl
    subst hs hF
    obtain ⟨n1, n2⟩ := next_level_0 henc H hn hH hT hfull fuel xs (p + n) path_ level_ pos_
      length_ hch
    refine ⟨fun it' h => ?_, fun hf => n2 (by omega)⟩
    rcases n1 it' h with ⟨h1, h2⟩ | ⟨x', xs', g1, g2, g3, g4, g5, g6, g7⟩
    · rw [List.tail_cons, h1, h2]
      exact Or.inl ⟨rfl, rfl, rfl, rfl⟩
    · obtain ⟨_, _, _, gd4, gd5⟩ :=
        entry.decode_path H x' hH (entry.bounds T H x' hH hT g1).2.2 g1.2.2.1 tm.n_ hn
      rw [List.tail_cons, g6, g5]
      refine Or.inr ⟨_, _, xs', rfl, rfl, rfl, rfl, by positivity, ?_, ?_, by omega⟩
      · rw [← gd4]; exact gd5
      · rw [← gd4]; exact g4

theorem root_valid (T : bitmap_tree) (H : Nat) (hT : T.height ≤ H) :
    entry.valid T H ⟨0, 0, 0, T⟩ := by
  refine ⟨teb.breadth_first_zero T, by simpa using hT, by simp, ?_⟩
  have hlen := bitmap_tree.length_to_bits _ _ hT
  simp only [entry.first, Nat.zero_mul, List.drop_zero, Nat.sub_zero]
  rw [List.take_of_length_le (by omega)]

/-- The constructor of the iterator on an untrimmed encoding puts the iterator
at the first of the ranges of the 1-labelled leaves. -/
theorem ctor_at_fills {tm : teb} {T : bitmap_tree} (henc : tm.Encodes T) (H : Nat)
    (hn : tm.n_ = 2 ^ H) (hH : H ≤ 31) (hT : T.height ≤ H)
    (hfull : T.node_cnt ≤ tm.structure_.length) (fuel : Nat) :
    (∀ it, ctor fuel tm = some it → at_fills T H it (bitmap_tree.fills H 0 T)) ∧
    (T.node_cnt ≤ fuel → ∃ it, ctor fuel tm = some it) := by
  have h0 := teb.breadth_first_zero T
  have hin := henc.is_inner_node_of 0 T h0
  have hroot := root_valid T H hT
  unfold ctor
  simp only [teb.is_leaf_node, hin]
  cases T with
  | leaf b =>
    have hlab : tm.get_label 0 = b := by
      simp only [teb.get_label, teb.get_label_idx, List.getD_eq_getElem?_getD]
      exact henc.label_of_leaf 0 b h0
    simp only [bitmap_tree.is_inner_node, Bool.not_false, if_true, hlab]
    cases b with
    | false =>
      simp only [Bool.false_eq_true, if_false, Option.some.injEq]
      refine ⟨fun it h => ?_, fun _ => ⟨_, rfl⟩⟩
      subst h
      exact Or.inl ⟨by simp [bitmap_tree.fills], rfl, hn, rfl⟩
    | true =>
      simp only [if_true, Option.some.injEq]
      refine ⟨fun it h => ?_, fun _ => ⟨_, rfl⟩⟩
      subst h
      refine Or.inr ⟨0, 2 ^ H, [], by simp [bitmap_tree.fills, chain_fills], rfl, rfl, hn,
        by positivity, by omega, trivial, by simp⟩
  | inner l r =>
    simp only [bitmap_tree.is_inner_node, Bool.not_true, Bool.false_eq_true, if_false]
    have hst : [u64_shl 0 32 ||| 1] = List.map entry.pack [⟨0, 0, 0, bitmap_tree.inner l r⟩] := by
      simp [entry.pack, entry.path]
    rw [hst]
    obtain ⟨n1, n2⟩ := next_level_0 henc H hn hH hT hfull fuel [⟨0, 0, 0, bitmap_tree.inner l r⟩]
      0 1 0 0 0 ⟨hroot, Nat.zero_le _, trivial⟩
    have hcf : chain_fills H [⟨0, 0, 0, bitmap_tree.inner l r⟩]
        = bitmap_tree.fills H 0 (bitmap_tree.inner l r) := by
      simp [chain_fills, entry.first]
    rw [hcf] at n1
    refine ⟨fun it h => ?_, fun hf => n2 (by simpa using hf)⟩
    rcases n1 it h with ⟨h1, h2⟩ | ⟨x', xs', g1, g2, g3, g4, g5, g6, g7⟩
    · rw [h1, h2]
      exact Or.inl ⟨rfl, rfl, rfl, rfl⟩
    · obtain ⟨_, _, _, gd4, gd5⟩ :=
        entry.decode_path H x' hH (entry.bounds _ H x' hH hT g1).2.2 g1.2.2.1 tm.n_ hn
      rw [g6, g5]
      refine Or.inr ⟨_, _, xs', rfl, rfl, rfl, rfl, by positivity, ?_, ?_, ?_⟩
      · rw [← gd4]; exact gd5
      · rw [← gd4]; exact g4
      · simpa using g7

/-- The method `nav_to(to_pos)` with `to_pos < N` on an untrimmed encoding puts
the iterator at the first of the fills from `to_pos` on, whatever its state
was. -/
theorem nav_to_at_fills {tm : teb} {T : bitmap_tree} (henc : tm.Encodes T) (H : Nat)
    (hn : tm.n_ = 2 ^ H) (hH : H ≤ 31) (hT : T.height ≤ H)
    (hfull : T.node_cnt ≤ tm.structure_.length) (fuel to_pos : Nat) (it : iter)
    (ht : to_pos < 2 ^ H) :
    (∀ it', nav_to tm fuel to_pos it = some it' →
      at_fills T H it' (bitmap_tree.fills_from H to_pos T)) ∧
    (T.node_cnt ≤ fuel → ∃ it', nav_to tm fuel to_pos it = some it') := by
  have hroot := root_valid T H hT
  unfold nav_to
  rw [if_neg (by omega)]
  have hi : 0 < H → u64_sub (tree_height tm) 1 = H - 1 - 0 := by
    intro h
    unfold tree_height
    rw [hn, log_2_two_pow, u64_sub_eq _ _ (by omega) (by
      have : (31 : Nat) < 2 ^ 64 := by decide
      omega)]
    rfl
  have hfirst : entry.first H ⟨0, 0, 0, T⟩ = 0 := by simp [entry.first]
  have hlast : entry.last H ⟨0, 0, 0, T⟩ = 2 ^ H := by simp [entry.last]
  obtain ⟨n1, n2⟩ := nav_to_loop_level_0 henc H hn hH hT hfull to_pos fuel fuel 0
    (u64_sub (tree_height tm) 1) 0 0 T [] it.pos_ it.length_ hroot hi
    (by rw [hfirst]; exact Nat.zero_le _) (by rw [hlast]; exact ht) trivial
  have hpath : entry.path ⟨0, 0, 0, T⟩ = 1 := by simp [entry.path]
  rw [hpath, hfirst] at n1
  rw [hpath] at n2
  simp only [List.map_nil, Nat.sub_zero, chain_fills, List.flatMap_nil, List.append_nil,
    List.sum_nil, Nat.add_zero] at n1 n2
  refine ⟨fun it' h => ?_, fun hf => n2 (by
    have := bitmap_tree.height_lt_node_cnt T
    omega) hf⟩
  rcases n1 it' h with ⟨h1, h2, h3, h4⟩ | ⟨x', xs', g1, g2, g3, g4, g5, g6, g7⟩
  · refine Or.inl ⟨?_, h2, h3, h4⟩
    unfold bitmap_tree.fills_from
    rw [h1]
  · obtain ⟨_, _, _, gd4, gd5⟩ :=
      entry.decode_path H x' hH (entry.bounds T H x' hH hT g1).2.2 g1.2.2.1 tm.n_ hn
    have hfl := entry.first_le_last H x'
    have hp : 0 < 2 ^ (H - x'.level) := by positivity
    refine Or.inr ⟨max (x'.first H) to_pos, x'.last H - max (x'.first H) to_pos, xs', ?_,
      by rw [g5], by rw [g5], by rw [g5], by omega, by omega, ?_, by omega⟩
    · unfold bitmap_tree.fills_from
      rw [g6]
      simp only [chain_fills]
      rw [gd4]
    · rw [show max (x'.first H) to_pos + (x'.last H - max (x'.first H) to_pos) = x'.last H
        by omega]
      exact g3

/-- The fills that the iteration loop sees from a state at the fills `F` are
the fills `F`. -/
theorem fills_loop_at_fills {tm : teb} {T : bitmap_tree} (henc : tm.Encodes T) (H : Nat)
    (hn : tm.n_ = 2 ^ H) (hH : H ≤ 31) (hT : T.height ≤ H)
    (hfull : T.node_cnt ≤ tm.structure_.length) (next_fuel : Nat)
    (hnf : T.node_cnt ≤ next_fuel) :
    ∀ (fuel : Nat) (it : iter) (F : List (Nat × Nat)), at_fills T H it F →
      F.length + 1 ≤ fuel → fills_loop tm next_fuel fuel it = some F := by
  intro fuel
  induction fuel with
  | zero => intro it F _ h; omega
  | succ fuel ih =>
    intro it F hat hf
    obtain ⟨n1, n2⟩ := next_at_fills henc H hn hH hT hfull next_fuel it F hat
    obtain ⟨it', hit'⟩ := n2 hnf
    have hat' := n1 it' hit'
    unfold fills_loop
    rcases hat with ⟨hF, hs, hp, hl⟩ | ⟨p, n, xs, hF, hs, hp, hl, hn0, hle, hch, hsum⟩
    · rw [if_pos (by simp [iter.end, hp, hn]), hF]
    · have hend : it.end tm = false := by
        simp only [iter.end, hp, hn]
        rw [beq_eq_false_iff_ne]
        omega
      rw [hend, hit']
      simp only [Bool.false_eq_true, if_false]
      rw [ih it' F.tail hat' (by rw [hF] at hf ⊢; simpa using hf)]
      simp only [Option.map_some', Option.some.injEq, iter.pos, iter.length, hp, hl, hn]
      rw [if_neg (by omega), hF]
      rfl

theorem decode_loop_of_fills_loop (tm : teb) (next_fuel : Nat) :
    ∀ (fuel : Nat) (it : iter) (fs : List (Nat × Nat)) (ret : List Bool),
      fills_loop tm next_fuel fuel it = some fs →
      decode_loop tm next_fuel fuel it ret
        = some (fs.foldl (fun r f => set_range f.1 f.2 r) ret) := by
  intro fuel
  induction fuel with
  | zero => intro it fs ret h; simp [fills_loop] at h
  | succ fuel ih =>
    intro it fs ret h
    unfold fills_loop at h
    unfold decode_loop
    split at h
    · rename_i hend
      rw [if_pos hend]
      simp only [Option.some.injEq] at h
      subst h
      rfl
    · rename_i hend
      rw [if_neg hend]
      cases hnext : next tm next_fuel it with
      | none => rw [hnext] at h; simp at h
      | some it' =>
        rw [hnext] at h
        simp only at h ⊢
        cases hrec : fills_loop tm next_fuel fuel it' with
        | none => rw [hrec] at h; simp at h
        | some fs' =>
          rw [hrec] at h
          simp only [Option.map_some', Option.some.injEq] at h
          subst h
          rw [ih it' fs' _ hrec]
          rfl

/-- A state reached by the constructor, `next()` and `nav_to(to_pos)` with
`to_pos < N` on an untrimmed encoding is at some list of fills. -/
theorem at_fills_reachable_below {tm : teb} {T : bitmap_tree} (henc : tm.Encodes T) (H : Nat)
    (hn : tm.n_ = 2 ^ H) (hH : H ≤ 31) (hT : T.height ≤ H)
    (hfull : T.node_cnt ≤ tm.structure_.length) (it : iter) (hr : reachable_below tm it) :
    ∃ F, at_fills T H it F := by
  induction hr with
  | ctor fuel it h => exact ⟨_, (ctor_at_fills henc H hn hH hT hfull fuel).1 it h⟩
  | next fuel it it' _ h ih =>
    obtain ⟨F, hF⟩ := ih
    exact ⟨_, (next_at_fills henc H hn hH hT hfull fuel it F hF).1 it' h⟩
  | nav_to fuel to_pos it it' _ hlt h _ =>
    exact ⟨_, (nav_to_at_fills henc H hn hH hT hfull fuel to_pos it (by rw [← hn]; exact hlt)).1
      it' h⟩

end iter

/-! ## Lemmas: the depth of the iterator stack -/

namespace iter

theorem desc_mono : ∀ (ys : List entry) (b b' : Nat), b ≤ b' → desc b ys → desc b' ys := by
  intro ys b b' h hd
  cases ys with
  | nil => trivial
  | cons y ys => exact ⟨hd.1, le_trans hd.2.1 h, hd.2.2⟩

theorem desc_length : ∀ (ys : List entry) (b : Nat), desc b ys → ys.length ≤ b := by
  intro ys
  induction ys with
  | nil => intro b _; exact Nat.zero_le _
  | cons y ys ih =>
    intro b hd
    have := ih (y.level - 1) hd.2.2
    have h1 := hd.1
    have h2 := hd.2.1
    simp only [List.length_cons]
    omega

theorem desc_top : ∀ (ys : List entry) (b : Nat), desc b ys → top_desc ys := by
  intro ys b hd
  cases ys with
  | nil => trivial
  | cons y ys => exact desc_mono ys _ _ (Nat.sub_le _ _) hd.2.2

theorem top_desc_tail (x : entry) (xs : List entry) (h : top_desc (x :: xs)) : top_desc xs :=
  desc_top xs x.level h

theorem top_desc_length (T : bitmap_tree) (H : Nat) (xs : List entry)
    (hv : ∀ x ∈ xs, x.valid T H) (hd : top_desc xs) : xs.length ≤ H + 1 := by
  cases xs with
  | nil => exact Nat.zero_le _
  | cons x xs =>
    have h1 := desc_length xs x.level hd
    have h2 := (hv x (List.mem_cons_self _ _)).2.1
    simp only [List.length_cons]
    omega

/-- Every stack that `next()` holds consists of entries of the tree and has at
most `H + 1` elements, and so has the stack that it leaves. -/
theorem next_stacks_ok {tm : teb} {T : bitmap_tree} (henc : tm.Encodes T) (H : Nat)
    (hH : H ≤ 31) (hT : T.height ≤ H) :
    ∀ (fuel : Nat) (xs : List entry), (∀ x ∈ xs, x.valid T H) → top_desc xs →
      (∀ s ∈ next_stacks tm fuel (xs.map entry.pack),
        ∃ ys : List entry, s = ys.map entry.pack ∧ (∀ y ∈ ys, y.valid T H) ∧
          ys.length ≤ H + 1) ∧
      (∀ (path0 level0 pos0 len0 : Nat) (it' : iter),
        next tm fuel ⟨xs.map entry.pack, path0, level0, pos0, len0⟩ = some it' →
        ∃ xs' : List entry, it'.stack_ = xs'.map entry.pack ∧ (∀ x ∈ xs', x.valid T H) ∧
          top_desc xs') := by
  intro fuel
  induction fuel with
  | zero =>
    intro xs hv hd
    cases xs with
    | nil =>
      refine ⟨fun s hs => ?_, fun p0 l0 pos0 len0 it' h => ?_⟩
      · simp only [List.map_nil, next_stacks, List.mem_singleton] at hs
        exact ⟨[], by rw [hs]; rfl, (fun _ h => by cases h), Nat.zero_le _⟩
      · rw [List.map_nil, next_nil] at h
        exact ⟨[], by rw [← Option.some.inj h]; rfl, (fun _ h => by cases h), trivial⟩
    | cons x xs =>
      refine ⟨fun s hs => ?_, fun p0 l0 pos0 len0 it' h => by simp [next] at h⟩
      simp only [List.map_cons, next_stacks, List.mem_singleton] at hs
      exact ⟨x :: xs, by rw [hs]; rfl, hv, top_desc_length T H _ hv hd⟩
  | succ fuel ih =>
    intro xs hv hd
    cases xs with
    | nil =>
      refine ⟨fun s hs => ?_, fun p0 l0 pos0 len0 it' h => ?_⟩
      · simp only [List.map_nil, next_stacks, List.mem_singleton] at hs
        exact ⟨[], by rw [hs]; rfl, (fun _ h => by cases h), Nat.zero_le _⟩
      · rw [List.map_nil, next_nil] at h
        exact ⟨[], by rw [← Option.some.inj h]; rfl, (fun _ h => by cases h), trivial⟩
    | cons x xs =>
      have hx := hv x (List.mem_cons_self _ _)
      have hvt : ∀ y ∈ xs, y.valid T H := fun y hy => hv y (List.mem_cons_of_mem _ hy)
      have hdt := top_desc_tail x xs hd
      obtain ⟨hu1, hu2⟩ := entry.unpack T H x hH hT hx
      obtain ⟨hb1, hb2, hb3⟩ := entry.bounds T H x hH hT hx
      have hfull := top_desc_length T H _ hv hd
      have htl := top_desc_length T H _ hvt hdt
      have hxs : xs.length ≤ x.level := desc_length xs x.level hd
      simp only [List.map_cons, next_stacks, next, hu1, hu2]
      have hS0 : ∃ ys : List entry, x.pack :: xs.map entry.pack = ys.map entry.pack ∧
          (∀ y ∈ ys, y.valid T H) ∧ ys.length ≤ H + 1 := ⟨x :: xs, rfl, hv, hfull⟩
      have hS1 : ∃ ys : List entry, xs.map entry.pack = ys.map entry.pack ∧
          (∀ y ∈ ys, y.valid T H) ∧ ys.length ≤ H + 1 := ⟨xs, rfl, hvt, htl⟩
      by_cases hexit : tm.structure_.length ≤ x.node_idx
      · simp only [if_pos hexit, List.mem_cons, List.not_mem_nil, or_false]
        refine ⟨fun s hs => ?_, fun p0 l0 pos0 len0 it' h => ?_⟩
        · rcases hs with rfl | rfl
          · exact hS0
          · exact hS1
        · exact ⟨xs, by rw [← Option.some.inj h], hvt, hdt⟩
      · simp only [if_neg hexit]
        obtain ⟨k, lv, j, c⟩ := x
        have hin := henc.is_inner_node_of k c hx.1
        simp only [teb.is_leaf_node, hin]
        cases c with
        | inner l r =>
          simp only [bitmap_tree.is_inner_node, Bool.not_true, Bool.not_false, if_true]
          obtain ⟨hvl, hvr, hf1, hf2, hf3⟩ := entry.children_valid henc H k lv j l r hx
          have hpath : u64_shl (entry.path ⟨k, lv, j, bitmap_tree.inner l r⟩) 1
              = entry.path ⟨2 * tm.rank (k + 1) - 1, lv + 1, 2 * j, l⟩ := by
            rw [u64_shl_eq _ _ (by
              have : (2 : Nat) ^ 32 * 2 ^ 1 < 2 ^ 64 := by decide
              have := Nat.mul_lt_mul_of_pos_right hb2 (show 0 < 2 ^ 1 by decide)
              omega)]
            simp only [entry.path, pow_succ]
            ring
          have hpath2 : u64_shl (entry.path ⟨k, lv, j, bitmap_tree.inner l r⟩) 1 ||| 1
              = entry.path ⟨2 * tm.rank (k + 1), lv + 1, 2 * j + 1, r⟩ := by
            rw [hpath]
            simp only [entry.path, pow_succ]
            rw [show 2 ^ lv * 2 + 2 * j = 2 * (2 ^ lv + j) by ring, or_one_of_even]
            ring
          have hright : (u64_shl (2 * tm.rank (k + 1)) 32
                ||| (u64_shl (entry.path ⟨k, lv, j, bitmap_tree.inner l r⟩) 1 ||| 1))
              = entry.pack ⟨2 * tm.rank (k + 1), lv + 1, 2 * j + 1, r⟩ := by
            simp only [entry.pack]
            rw [hpath2]
          have hleft : (u64_shl (2 * tm.rank (k + 1) - 1) 32
                ||| u64_shl (entry.path ⟨k, lv, j, bitmap_tree.inner l r⟩) 1)
              = entry.pack ⟨2 * tm.rank (k + 1) - 1, lv + 1, 2 * j, l⟩ := by
            simp only [entry.pack]
            rw [hpath]
          rw [hright, hleft]
          have hstack : entry.pack ⟨2 * tm.rank (k + 1) - 1, lv + 1, 2 * j, l⟩
              :: entry.pack ⟨2 * tm.rank (k + 1), lv + 1, 2 * j + 1, r⟩ :: xs.map entry.pack
              = List.map entry.pack (⟨2 * tm.rank (k + 1) - 1, lv + 1, 2 * j, l⟩
                  :: ⟨2 * tm.rank (k + 1), lv + 1, 2 * j + 1, r⟩ :: xs) := rfl
          rw [hstack]
          have hv' : ∀ y ∈ (⟨2 * tm.rank (k + 1) - 1, lv + 1, 2 * j, l⟩
              :: ⟨2 * tm.rank (k + 1), lv + 1, 2 * j + 1, r⟩ :: xs : List entry),
              y.valid T H := by
            intro y hy
            simp only [List.mem_cons] at hy
            rcases hy with rfl | rfl | hy
            · exact hvl
            · exact hvr
            · exact hvt y hy
          have hd' : top_desc (⟨2 * tm.rank (k + 1) - 1, lv + 1, 2 * j, l⟩
              :: ⟨2 * tm.rank (k + 1), lv + 1, 2 * j + 1, r⟩ :: xs : List entry) :=
            ⟨Nat.succ_le_succ (Nat.zero_le _), le_refl _, hd⟩
          obtain ⟨ih1, ih2⟩ := ih _ hv' hd'
          refine ⟨fun s hs => ?_, fun p0 l0 pos0 len0 it' h => ih2 p0 l0 pos0 len0 it' h⟩
          simp only [List.mem_cons] at hs
          rcases hs with rfl | rfl | rfl | hs
          · exact hS0
          · exact hS1
          · refine ⟨⟨2 * tm.rank (k + 1), lv + 1, 2 * j + 1, r⟩ :: xs, rfl, ?_, ?_⟩
            · intro y hy
              rcases List.mem_cons.mp hy with rfl | hy
              · exact hvr
              · exact hvt y hy
            · simp only [List.length_cons]
              simp only at hxs hb3
              omega
          · exact ih1 s hs
        | leaf b =>
          simp only [bitmap_tree.is_inner_node, Bool.not_false, Bool.not_true,
            Bool.false_eq_true, if_false]
          cases hlab : tm.get_label k with
          | true =>
            simp only [if_true, List.mem_cons, List.not_mem_nil, or_false]
            refine ⟨fun s hs => ?_, fun p0 l0 pos0 len0 it' h => ?_⟩
            · rcases hs with rfl | rfl
              · exact hS0
              · exact hS1
            · exact ⟨xs, by rw [← Option.some.inj h], hvt, hdt⟩
          | false =>
            simp only [Bool.false_eq_true, if_false]
            obtain ⟨ih1, ih2⟩ := ih xs hvt hdt
            refine ⟨fun s hs => ?_, fun p0 l0 pos0 len0 it' h => ih2 p0 l0 pos0 len0 it' h⟩
            simp only [List.mem_cons] at hs
            rcases hs with rfl | rfl | hs
            · exact hS0
            · exact hS1
            · exact ih1 s hs

/-- Every stack that the loop of `nav_to` holds consists of entries of the
tree and has at most `H + 1` elements, and so has the stack that it leaves. -/
theorem nav_to_loop_stacks_ok {tm : teb} {T : bitmap_tree} (henc : tm.Encodes T) (H : Nat)
    (hH : H ≤ 31) (hT : T.height ≤ H) (to_pos next_fuel : Nat) :
    ∀ (fuel k i lv j : Nat) (c : bitmap_tree) (xs : List entry),
      entry.valid T H ⟨k, lv, j, c⟩ → (∀ x ∈ xs, x.valid T H) → desc lv xs →
      (∀ s ∈ nav_to_loop_stacks tm to_pos next_fuel fuel k i (entry.path ⟨k, lv, j, c⟩)
          (xs.map entry.pack),
        ∃ ys : List entry, s = ys.map entry.pack ∧ (∀ y ∈ ys, y.valid T H) ∧
          ys.length ≤ H + 1) ∧
      (∀ (pos0 len0 : Nat) (it' : iter),
        nav_to_loop tm to_pos next_fuel fuel k i
          ⟨xs.map entry.pack, entry.path ⟨k, lv, j, c⟩, lv, pos0, len0⟩ = some it' →
        ∃ xs' : List entry, it'.stack_ = xs'.map entry.pack ∧ (∀ x ∈ xs', x.valid T H) ∧
          top_desc xs') := by
  intro fuel
  induction fuel with
  | zero =>
    intro k i lv j c xs hx hv hd
    have hb3 := (entry.bounds T H ⟨k, lv, j, c⟩ hH hT hx).2.2
    have hxs := desc_length xs lv hd
    simp only at hb3
    refine ⟨fun s hs => ?_, fun pos0 len0 it' h => by simp [nav_to_loop] at h⟩
    simp only [nav_to_loop_stacks, List.mem_singleton] at hs
    exact ⟨xs, hs, hv, by omega⟩
  | succ fuel ih =>
    intro k i lv j c xs hx hv hd
    obtain ⟨hb1, hb2, hb3⟩ := entry.bounds T H ⟨k, lv, j, c⟩ hH hT hx
    have hxs := desc_length xs lv hd
    simp only at hb3
    have hS0 : ∃ ys : List entry, xs.map entry.pack = ys.map entry.pack ∧
        (∀ y ∈ ys, y.valid T H) ∧ ys.length ≤ H + 1 := ⟨xs, rfl, hv, by omega⟩
    have hin := henc.is_inner_node_of k c hx.1
    simp only [nav_to_loop_stacks, nav_to_loop, teb.is_leaf_node, hin]
    cases c with
    | leaf b =>
      simp only [bitmap_tree.is_inner_node, Bool.not_false, if_true]
      cases hlab : tm.get_label k with
      | true =>
        simp only [if_true, List.mem_cons, List.not_mem_nil, or_false]
        refine ⟨fun s hs => by rw [hs]; exact hS0, fun pos0 len0 it' h => ?_⟩
        exact ⟨xs, by rw [← Option.some.inj h], hv, desc_top xs lv hd⟩
      | false =>
        simp only [Bool.false_eq_true, if_false]
        obtain ⟨n1, n2⟩ := next_stacks_ok henc H hH hT next_fuel xs hv (desc_top xs lv hd)
        refine ⟨fun s hs => ?_, fun pos0 len0 it' h => n2 _ _ _ _ it' h⟩
        rcases List.mem_cons.mp hs with rfl | hs
        · exact hS0
        · exact n1 s hs
    | inner l r =>
      simp only [bitmap_tree.is_inner_node, Bool.not_true, Bool.false_eq_true, if_false]
      obtain ⟨hvl, hvr, hf1, hf2, hf3⟩ := entry.children_valid henc H k lv j l r hx
      have hpath : u64_shl (entry.path ⟨k, lv, j, bitmap_tree.inner l r⟩) 1
          = entry.path ⟨2 * tm.rank (k + 1) - 1, lv + 1, 2 * j, l⟩ := by
        rw [u64_shl_eq _ _ (by
          have : (2 : Nat) ^ 32 * 2 ^ 1 < 2 ^ 64 := by decide
          have := Nat.mul_lt_mul_of_pos_right hb2 (show 0 < 2 ^ 1 by decide)
          omega)]
        simp only [entry.path, pow_succ]
        ring
      have hpath2 : u64_shl (entry.path ⟨k, lv, j, bitmap_tree.inner l r⟩) 1 ||| 1
          = entry.path ⟨2 * tm.rank (k + 1), lv + 1, 2 * j + 1, r⟩ := by
        rw [hpath]
        simp only [entry.path, pow_succ]
        rw [show 2 ^ lv * 2 + 2 * j = 2 * (2 ^ lv + j) by ring, or_one_of_even]
        ring
      rw [hpath2, hpath]
      have hst' : (u64_shl (2 * tm.rank (k + 1)) 32
            ||| entry.path ⟨2 * tm.rank (k + 1), lv + 1, 2 * j + 1, r⟩) :: xs.map entry.pack
          = List.map entry.pack (⟨2 * tm.rank (k + 1), lv + 1, 2 * j + 1, r⟩ :: xs) := rfl
      rw [hst']
      cases hbit : bit_test to_pos i with
      | false =>
        simp only [Bool.not_false, if_true]
        obtain ⟨ih1, ih2⟩ := ih (2 * tm.rank (k + 1) - 1) (u64_sub i 1) (lv + 1) (2 * j) l
          (⟨2 * tm.rank (k + 1), lv + 1, 2 * j + 1, r⟩ :: xs) hvl
          (by
            intro y hy
            rcases List.mem_cons.mp hy with rfl | hy
            · exact hvr
            · exact hv y hy)
          ⟨Nat.succ_le_succ (Nat.zero_le _), le_refl _, hd⟩
        refine ⟨fun s hs => ?_, fun pos0 len0 it' h => ih2 pos0 len0 it' h⟩
        rcases List.mem_cons.mp hs with rfl | hs
        · exact hS0
        · exact ih1 s hs
      | true =>
        simp only [Bool.not_true, Bool.false_eq_true, if_false]
        obtain ⟨ih1, ih2⟩ := ih (2 * tm.rank (k + 1)) (u64_sub i 1) (lv + 1) (2 * j + 1) r xs hvr
          hv (desc_mono xs lv (lv + 1) (Nat.le_succ _) hd)
        refine ⟨fun s hs => ?_, fun pos0 len0 it' h => ih2 pos0 len0 it' h⟩
        rcases List.mem_cons.mp hs with rfl | hs
        · exact hS0
        · exact ih1 s hs

/-- The stack of every state that the constructor, `next()` and `nav_to()`
produce consists of entries of the tree with strictly decreasing levels below
the top. -/
theorem reachable_nav_ok {tm : teb} {T : bitmap_tree} (henc : tm.Encodes T) (H : Nat)
    (hH : H ≤ 31) (hT : T.height ≤ H) (it : iter) (hr : reachable_nav tm it) :
    ∃ xs : List entry, it.stack_ = xs.map entry.pack ∧ (∀ x ∈ xs, x.valid T H) ∧
      top_desc xs := by
  have hroot := root_valid T H hT
  have hst : [u64_shl 0 32 ||| 1] = List.map entry.pack [⟨0, 0, 0, T⟩] := by
    simp [entry.pack, entry.path]
  have hrv : ∀ x ∈ [(⟨0, 0, 0, T⟩ : entry)], x.valid T H := by
    intro x hx
    rw [List.mem_singleton.mp hx]
    exact hroot
  induction hr with
  | ctor fuel it h =>
    by_cases hleaf : tm.is_leaf_node 0 = true
    · simp only [ctor, hleaf, if_true] at h
      split at h
      · exact ⟨[], by rw [← Option.some.inj h]; rfl, (fun _ h => by cases h), trivial⟩
      · exact ⟨[], by rw [← Option.some.inj h]; rfl, (fun _ h => by cases h), trivial⟩
    · simp only [ctor, hleaf, if_false] at h
      rw [hst] at h
      exact (next_stacks_ok henc H hH hT fuel _ hrv trivial).2 _ _ _ _ it h
  | next fuel it it' _ h ih =>
    obtain ⟨xs, hs, hv, hd⟩ := ih
    obtain ⟨stack_, path_, level_, pos_, length_⟩ := it
    simp only at hs
    subst hs
    exact (next_stacks_ok henc H hH hT fuel xs hv hd).2 _ _ _ _ it' h
  | nav_to fuel to_pos it it' _ h ih =>
    unfold nav_to at h
    split at h
    · obtain ⟨xs, hs, hv, hd⟩ := ih
      exact ⟨xs, by rw [← Option.some.inj h]; exact hs, hv, hd⟩
    · have hp : entry.path ⟨0, 0, 0, T⟩ = 1 := by simp [entry.path]
      have := (nav_to_loop_stacks_ok henc H hH hT to_pos fuel fuel 0
        (u64_sub (tree_height tm) 1) 0 0 T [] hroot (fun _ h => by cases h) trivial).2
        it.pos_ it.length_ it'
      rw [hp] at this
      exact this h

end iter

namespace bitmap_tree

theorem fills_length_le : ∀ (t : bitmap_tree) (h first : Nat),
    (fills h first t).length ≤ t.node_cnt := by
  intro t
  induction t with
  | leaf b => intro h first; cases b <;> simp [fills, node_cnt]
  | inner l r ihl ihr =>
    intro h first
    simp only [fills, node_cnt, List.length_append]
    have := ihl (h - 1) first
    have := ihr (h - 1) (first + 2 ^ (h - 1))
    omega

theorem getD_true_lt (T : bitmap_tree) (H q : Nat) (hT : T.height ≤ H)
    (h : (to_bits H T).getD q false = true) : q < 2 ^ H := by
  by_contra hc
  rw [List.getD_eq_getElem?_getD, List.getElem?_eq_none (by
    rw [length_to_bits T H hT]; omega)] at h
  exact Bool.noConfusion h

/-- No fill from position `t` on: the tree asserts no 1-bit at or behind `t`. -/
theorem fills_from_nil (T : bitmap_tree) (H t : Nat) (hT : T.height ≤ H)
    (h : fills_from H t T = []) : ∀ q, t ≤ q → (to_bits H T).getD q false = false := by
  intro q hq
  cases hv : (to_bits H T).getD q false with
  | false => rfl
  | true =>
    have hlt := getD_true_lt T H q hT hv
    obtain ⟨f, hf, h1, h2⟩ := (fills_mem_iff T H 0 q hT).2 ⟨Nat.zero_le _, by omega, hv⟩
    have hmem : f ∈ (fills H 0 T).filter (fun f => decide (t < f.1 + f.2)) := by
      rw [List.mem_filter]
      exact ⟨hf, by simp only [decide_eq_true_eq]; omega⟩
    unfold fills_from at h
    cases hG : (fills H 0 T).filter (fun f => decide (t < f.1 + f.2)) with
    | nil => rw [hG] at hmem; cases hmem
    | cons g G =>
      rw [hG] at h
      obtain ⟨p, n⟩ := g
      simp at h

/-- The first fill from position `t` on starts at the first 1-bit at or behind
`t` and ends with the range of the leaf of that bit; the other fills are the
ranges of the 1-labelled leaves behind it. -/
theorem fills_from_cons (T : bitmap_tree) (H t p' n' : Nat) (rest : List (Nat × Nat))
    (hT : T.height ≤ H) (h : fills_from H t T = (p', n') :: rest) :
    t ≤ p' ∧ 0 < n' ∧ p' + n' ≤ 2 ^ H ∧
    (∀ q, p' ≤ q → q < p' + n' → (to_bits H T).getD q false = true) ∧
    (∀ q, t ≤ q → q < p' → (to_bits H T).getD q false = false) ∧
    (∃ f ∈ fills H 0 T, f.1 ≤ p' ∧ p' + n' = f.1 + f.2) ∧
    rest = (fills H 0 T).filter (fun f => decide (p' + n' ≤ f.1)) := by
  unfold fills_from at h
  have hsorted := fills_sorted T H 0 hT
  have hbounds := fills_bounds T H 0 hT
  cases hG : (fills H 0 T).filter (fun f => decide (t < f.1 + f.2)) with
  | nil => rw [hG] at h; cases h
  | cons g G =>
    rw [hG] at h
    obtain ⟨p, n⟩ := g
    simp only [List.cons.injEq, Prod.mk.injEq] at h
    obtain ⟨⟨hp', hn'⟩, hrest⟩ := h
    subst hrest
    have hmem : (p, n) ∈ (fills H 0 T).filter (fun f => decide (t < f.1 + f.2)) := by
      rw [hG]; exact List.mem_cons_self _ _
    rw [List.mem_filter] at hmem
    obtain ⟨hpF, hkeep⟩ := hmem
    simp only [decide_eq_true_eq] at hkeep
    obtain ⟨hb1, hb2, hb3⟩ := hbounds (p, n) hpF
    simp only [Nat.zero_add] at hb2
    simp only at hb1 hb3
    have hGs : ((p, n) :: G).Pairwise (fun a b => a.1 + a.2 ≤ b.1) := by
      rw [← hG]
      exact hsorted.sublist (List.filter_sublist _)
    have hGrest : ∀ f ∈ G, p + n ≤ f.1 := by
      intro f hf
      exact (List.pairwise_cons.mp hGs).1 f hf
    have hsum : p' + n' = p + n := by omega
    refine ⟨by omega, by omega, by omega, ?_, ?_, ⟨(p, n), hpF, by simp only; omega,
      by simp only; omega⟩, ?_⟩
    · intro q h1 h2
      exact ((fills_mem_iff T H 0 q hT).1 ⟨(p, n), hpF, by simp only; omega,
        by simp only; omega⟩).2.2
    · intro q h1 h2
      cases hv : (to_bits H T).getD q false with
      | false => rfl
      | true =>
        exfalso
        have hlt := getD_true_lt T H q hT hv
        obtain ⟨f, hf, g1, g2⟩ := (fills_mem_iff T H 0 q hT).2 ⟨Nat.zero_le _, by omega, hv⟩
        have hfm : f ∈ (p, n) :: G := by
          rw [← hG, List.mem_filter]
          exact ⟨hf, by simp only [decide_eq_true_eq]; omega⟩
        rcases List.mem_cons.mp hfm with rfl | hfG
        · simp only at g1 g2
          omega
        · have := hGrest f hfG
          omega
    · have h1 : (fills H 0 T).filter (fun f => decide (p' + n' ≤ f.1))
          = ((fills H 0 T).filter (fun f => decide (t < f.1 + f.2))).filter
              (fun f => decide (p' + n' ≤ f.1)) := by
        rw [List.filter_filter]
        apply List.filter_congr
        intro f _
        by_cases hc : p' + n' ≤ f.1
        · simp only [decide_eq_true hc, Bool.true_and]
          symm
          simp only [decide_eq_true_eq]
          omega
        · simp only [decide_eq_false hc, Bool.false_and]
      rw [h1, hG, List.filter_cons, if_neg (by simp only [decide_eq_true_eq]; omega)]
      symm
      rw [List.filter_eq_self]
      intro f hf
      have := hGrest f hf
      simp only [decide_eq_true_eq]
      omega

end bitmap_tree

namespace teb

theorem ctor_level_0_structure (B : List Bool) (f : ℚ) :
    (ctor B 0 f).structure_ = (bitmap_tree.ctor B f).lo_structure := by
  unfold ctor
  simp only [encode_eq]
  simp [bitmap_tree.lo_structure]

/-- At optimization level 0 the structure holds one bit for every node. -/
theorem ctor_level_0_full (B : List Bool) (f : ℚ) :
    (bitmap_tree.ctor B f).node_cnt ≤ (ctor B 0 f).structure_.length := by
  rw [ctor_level_0_structure, bitmap_tree.lo_structure, List.length_map,
    bitmap_tree.length_breadth_first]

end teb

namespace iter

theorem reachable_nav_of_reachable (tm : teb) (it : iter) (h : reachable tm it) :
    reachable_nav tm it := by
  induction h with
  | ctor fuel it h => exact reachable_nav.ctor fuel it h
  | next fuel it it' _ h ih => exact reachable_nav.next fuel it it' ih h

theorem reachable_nav_of_reachable_below (tm : teb) (it : iter) (h : reachable_below tm it) :
    reachable_nav tm it := by
  induction h with
  | ctor fuel it h => exact reachable_nav.ctor fuel it h
  | next fuel it it' _ h ih => exact reachable_nav.next fuel it it' ih h
  | nav_to fuel to_pos it it' _ _ h ih => exact reachable_nav.nav_to fuel to_pos it it' ih h

/-- The stacks that the constructor of the iterator holds consist of entries
of the tree and have at most `H + 1` elements. -/
theorem ctor_stacks_ok {tm : teb} {T : bitmap_tree} (henc : tm.Encodes T) (H : Nat)
    (hH : H ≤ 31) (hT : T.height ≤ H) (fuel : Nat) :
    ∀ s ∈ ctor_stacks fuel tm,
      ∃ ys : List entry, s = ys.map entry.pack ∧ (∀ y ∈ ys, y.valid T H) ∧
        ys.length ≤ H + 1 := by
  have hroot := root_valid T H hT
  have hst : [u64_shl 0 32 ||| 1] = List.map entry.pack [⟨0, 0, 0, T⟩] := by
    simp [entry.pack, entry.path]
  have hrv : ∀ x ∈ [(⟨0, 0, 0, T⟩ : entry)], x.valid T H := by
    intro x hx
    rw [List.mem_singleton.mp hx]
    exact hroot
  intro s hs
  unfold ctor_stacks at hs
  split at hs
  · rw [List.mem_singleton.mp hs]
    exact ⟨[], rfl, (fun _ h => by cases h), Nat.zero_le _⟩
  · rcases List.mem_cons.mp hs with rfl | hs
    · exact ⟨[], rfl, (fun _ h => by cases h), Nat.zero_le _⟩
    · rw [hst] at hs
      exact (next_stacks_ok henc H hH hT fuel _ hrv trivial).1 s hs

/-- The stacks that a call of `nav_to` holds consist of entries of the tree and
have at most `H + 1` elements. -/
theorem nav_to_stacks_ok {tm : teb} {T : bitmap_tree} (henc : tm.Encodes T) (H : Nat)
    (hH : H ≤ 31) (hT : T.height ≤ H) (fuel to_pos : Nat) (it : iter) (xs : List entry)
    (hs : it.stack_ = xs.map entry.pack) (hv : ∀ x ∈ xs, x.valid T H) (hd : top_desc xs) :
    ∀ s ∈ nav_to_stacks tm fuel to_pos it,
      ∃ ys : List entry, s = ys.map entry.pack ∧ (∀ y ∈ ys, y.valid T H) ∧
        ys.length ≤ H + 1 := by
  have hroot := root_valid T H hT
  have h0 : ∃ ys : List entry, it.stack_ = ys.map entry.pack ∧ (∀ y ∈ ys, y.valid T H) ∧
      ys.length ≤ H + 1 := ⟨xs, hs, hv, top_desc_length T H xs hv hd⟩
  intro s hmem
  unfold nav_to_stacks at hmem
  split at hmem
  · rw [List.mem_singleton.mp hmem]
    exact h0
  · rcases List.mem_cons.mp hmem with rfl | hmem
    · exact h0
    · have hp : entry.path ⟨0, 0, 0, T⟩ = 1 := by simp [entry.path]
      have := (nav_to_loop_stacks_ok henc H hH hT to_pos fuel fuel 0
        (u64_sub (tree_height tm) 1) 0 0 T [] hroot (fun _ h => by cases h) trivial).1
      rw [hp] at this
      exact this s hmem

theorem pack_idx_lt {T : bitmap_tree} (H : Nat) (hH : H ≤ 31) (hT : T.height ≤ H)
    (ys : List entry) (hv : ∀ y ∈ ys, y.valid T H) :
    ∀ pair ∈ ys.map entry.pack, pair >>> 32 < T.node_cnt := by
  intro pair hp
  obtain ⟨y, hy, rfl⟩ := List.mem_map.mp hp
  rw [(entry.unpack T H y hH hT (hv y hy)).1]
  exact entry.idx_lt (hv y hy)

end iter

theorem bitmap_tree.fills_from_length_le (T : bitmap_tree) (H t : Nat) :
    (bitmap_tree.fills_from H t T).length ≤ (bitmap_tree.fills H 0 T).length := by
  have h := List.length_filter_le (fun f : Nat × Nat => decide (t < f.1 + f.2))
    (bitmap_tree.fills H 0 T)
  unfold bitmap_tree.fills_from
  cases hG : (bitmap_tree.fills H 0 T).filter (fun f => decide (t < f.1 + f.2)) with
  | nil => exact Nat.zero_le _
  | cons g G =>
    rw [hG] at h
    exact h

/-! ## Lemmas: the complete tree of the bitmap `0101...01` -/

namespace bitmap_tree

theorem height_alternating : ∀ h, (alternating h).height = h + 1 := by
  intro h
  induction h with
  | zero => rfl
  | succ h ih => simp only [alternating, height, ih, Nat.max_self]

theorem is_pruned_alternating : ∀ h, (alternating h).is_pruned = true := by
  intro h
  induction h with
  | zero => rfl
  | succ h ih =>
    cases h with
    | zero => rfl
    | succ k =>
      have e : alternating (k + 1 + 1)
          = inner (inner (alternating k) (alternating k)) (inner (alternating k) (alternating k)) :=
        rfl
      have e1 : alternating (k + 1) = inner (alternating k) (alternating k) := rfl
      rw [e]
      rw [e1] at ih
      simp only [is_pruned, ih, Bool.and_self]

theorem node_cnt_alternating : ∀ h, (alternating h).node_cnt + 1 = 2 ^ (h + 2) := by
  intro h
  induction h with
  | zero => rfl
  | succ h ih =>
    simp only [alternating, node_cnt]
    rw [pow_succ]
    omega

theorem flatten_replicate_pair {α : Type} (x : α) : ∀ m : Nat,
    (List.replicate m [x, x]).flatten = List.replicate (2 * m) x := by
  intro m
  induction m with
  | zero => rfl
  | succ m ih =>
    rw [List.replicate_succ, List.flatten_cons, ih,
      show 2 * (m + 1) = (2 * m + 1) + 1 by ring, List.replicate_succ, List.replicate_succ]
    rfl

theorem to_bits_alternating : ∀ h,
    to_bits (h + 1) (alternating h) = (List.replicate (2 ^ h) [false, true]).flatten := by
  intro h
  induction h with
  | zero => rfl
  | succ h ih =>
    simp only [alternating, to_bits, Nat.add_sub_cancel, ih]
    rw [← List.flatten_append, ← List.replicate_add, pow_succ]
    congr 2
    omega

theorem bitmap_01_2_32_eq : bitmap_01_2_32 = to_bits 32 (alternating 31) :=
  (to_bits_alternating 31).symm

theorem flatMap_children_replicate (l r : bitmap_tree) : ∀ m : Nat,
    (List.replicate m (inner l r)).flatMap children = (List.replicate m [l, r]).flatten := by
  intro m
  induction m with
  | zero => rfl
  | succ m ih =>
    rw [List.replicate_succ, List.flatMap_cons, ih, List.replicate_succ, List.flatten_cons]
    rfl

theorem flatMap_children_leaves (a b : Bool) : ∀ m : Nat,
    ((List.replicate m [leaf a, leaf b]).flatten).flatMap children = [] := by
  intro m
  induction m with
  | zero => rfl
  | succ m ih =>
    rw [List.replicate_succ, List.flatten_cons, List.flatMap_append, ih]
    rfl

theorem map_is_inner_leaves (a b : Bool) : ∀ m : Nat,
    ((List.replicate m [leaf a, leaf b]).flatten).map is_inner_node
      = List.replicate (2 * m) false := by
  intro m
  induction m with
  | zero => rfl
  | succ m ih =>
    rw [List.replicate_succ, List.flatten_cons, List.map_append, ih,
      show 2 * (m + 1) = 2 + 2 * m by ring, List.replicate_add]
    rfl

/-- The flags of the level-order traversal of `m` copies of the complete tree:
all inner nodes come first. -/
theorem lo_flags_alternating : ∀ (h m : Nat),
    (level_order (List.replicate m (alternating h))).map is_inner_node
      = List.replicate (m * (2 ^ (h + 1) - 1)) true ++ List.replicate (m * 2 ^ (h + 1)) false := by
  intro h
  induction h with
  | zero =>
    intro m
    rw [level_order_step]
    simp only [alternating]
    rw [flatMap_children_replicate, level_order_step, flatMap_children_leaves, level_order_nil,
      List.append_nil, List.map_append, map_is_inner_leaves, List.map_replicate]
    simp only [is_inner_node, Nat.zero_add, pow_one, Nat.add_one_sub_one, Nat.mul_one]
    rw [Nat.mul_comm]
  | succ h ih =>
    intro m
    rw [level_order_step]
    simp only [alternating]
    rw [flatMap_children_replicate, flatten_replicate_pair, List.map_append, ih (2 * m),
      List.map_replicate, ← List.append_assoc]
    simp only [is_inner_node]
    rw [← List.replicate_add]
    have hp : 2 ^ (h + 1 + 1) = 2 * 2 ^ (h + 1) := by rw [pow_succ]; omega
    have hpos : 0 < 2 ^ (h + 1) := by positivity
    congr 2
    · rw [hp, Nat.mul_sub, Nat.mul_sub, Nat.mul_one, Nat.mul_one]
      have h1 : 2 * m ≤ 2 * m * 2 ^ (h + 1) := Nat.le_mul_of_pos_right _ hpos
      have h2 : m * (2 * 2 ^ (h + 1)) = 2 * m * 2 ^ (h + 1) := by ring
      rw [h2]
      omega
    · rw [hp]; ring

/-- The first leaf of the level-order traversal of `m` copies of the complete
tree carries the label 0. -/
theorem first_leaf_alternating : ∀ (h m : Nat), 0 < m →
    (level_order (List.replicate m (alternating h)))[m * (2 ^ (h + 1) - 1)]?
      = some (leaf false) := by
  intro h
  induction h with
  | zero =>
    intro m hm
    rw [level_order_step]
    simp only [alternating]
    rw [flatMap_children_replicate, List.getElem?_append_right (by simp),
      List.length_replicate]
    simp only [Nat.zero_add, pow_one, Nat.add_one_sub_one, Nat.mul_one, Nat.sub_self]
    obtain ⟨k, rfl⟩ : ∃ k, m = k + 1 := ⟨m - 1, by omega⟩
    rw [List.replicate_succ, List.flatten_cons, level_order_step]
    rfl
  | succ h ih =>
    intro m hm
    rw [level_order_step]
    simp only [alternating]
    have hp : 2 ^ (h + 1 + 1) = 2 * 2 ^ (h + 1) := by rw [pow_succ]; omega
    have hpos : 0 < 2 ^ (h + 1) := by positivity
    have hidx : m * (2 ^ (h + 1 + 1) - 1) = m + 2 * m * (2 ^ (h + 1) - 1) := by
      rw [hp, Nat.mul_sub, Nat.mul_sub, Nat.mul_one, Nat.mul_one]
      have h1 : 2 * m ≤ 2 * m * 2 ^ (h + 1) := Nat.le_mul_of_pos_right _ hpos
      have h2 : m * (2 * 2 ^ (h + 1)) = 2 * m * 2 ^ (h + 1) := by ring
      rw [h2]
      omega
    rw [flatMap_children_replicate, flatten_replicate_pair, hidx,
      List.getElem?_append_right (by simp), List.length_replicate, Nat.add_sub_cancel_left]
    exact ih (2 * m) (by omega)

end bitmap_tree

namespace teb

theorem ctor_level_0_counts (B : List Bool) (f : ℚ) :
    (ctor B 0 f).implicit_inner_node_cnt_ = 0 ∧ (ctor B 0 f).implicit_leaf_node_cnt_ = 0 := by
  constructor <;> simp [ctor]

/-- The untrimmed encoding of the complete tree of height `h + 1`: the nodes
`0 .. 2 ^ (h + 1) - 2` are inner nodes, the children of node `k` are the nodes
`2 k + 1` and `2 k + 2`, and node `2 ^ (h + 1) - 1` is a leaf with label 0. -/
theorem alternating_facts (h : Nat) (tm : teb) (henc : tm.Encodes (bitmap_tree.alternating h))
    (hII : tm.implicit_inner_node_cnt_ = 0)
    (hs : tm.structure_ = (bitmap_tree.alternating h).lo_structure) :
    tm.structure_.length + 1 = 2 ^ (h + 2) ∧
    (∀ k, k + 1 < 2 ^ (h + 1) → tm.is_leaf_node k = false ∧ tm.rank (k + 1) = k + 1) ∧
    tm.is_leaf_node (2 ^ (h + 1) - 1) = true ∧ tm.get_label (2 ^ (h + 1) - 1) = false := by
  have hcnt : tm.structure_.length = (bitmap_tree.alternating h).node_cnt := by
    rw [hs, bitmap_tree.lo_structure, List.length_map, bitmap_tree.length_breadth_first]
  have hn := bitmap_tree.node_cnt_alternating h
  have hS : (bitmap_tree.alternating h).lo_structure
      = List.replicate (2 ^ (h + 1) - 1) true ++ List.replicate (2 ^ (h + 1)) false := by
    have := bitmap_tree.lo_flags_alternating h 1
    rw [Nat.one_mul, Nat.one_mul] at this
    rw [← this]
    unfold bitmap_tree.lo_structure
    rw [bitmap_tree.breadth_first_eq_level_order]
    rfl
  have hfirst := bitmap_tree.first_leaf_alternating h 1 Nat.one_pos
  rw [Nat.one_mul] at hfirst
  have hbf : (bitmap_tree.alternating h).breadth_first[2 ^ (h + 1) - 1]?
      = some (bitmap_tree.leaf false) := by
    rw [bitmap_tree.breadth_first_eq_level_order]
    exact hfirst
  have hpos : 0 < 2 ^ (h + 1) := by positivity
  refine ⟨by omega, ?_, ?_, ?_⟩
  · intro k hk
    constructor
    · unfold is_leaf_node
      rw [henc.is_inner_node_eq, hS, List.getD_eq_getElem?_getD,
        List.getElem?_append_left (by rw [List.length_replicate]; omega),
        List.getElem?_replicate, if_pos (by omega)]
      rfl
    · rw [henc.rank_eq, hS, List.take_append_of_le_length (by
        rw [List.length_replicate]; omega), List.take_replicate, List.count_replicate_self]
      omega
  · unfold is_leaf_node
    rw [henc.is_inner_node_of _ _ hbf]
    rfl
  · have := henc.label_of_leaf _ false hbf
    simpa [get_label, get_label_idx, List.getD_eq_getElem?_getD] using this

end teb

namespace iter

theorem mem_next_stacks_self (tm : teb) (fuel : Nat) (st : List Nat) :
    st ∈ next_stacks tm fuel st := by
  cases st with
  | nil => cases fuel <;> simp [next_stacks]
  | cons p st => cases fuel <;> simp [next_stacks]

theorem next_stacks_inner (tm : teb) (fuel pair k : Nat) (st : List Nat)
    (hk : pair >>> 32 = k) (hlt : k < tm.structure_.length)
    (hin : tm.is_leaf_node k = false) (hr : tm.rank (k + 1) = k + 1) (s : List Nat)
    (hs : s ∈ next_stacks tm fuel
      ((u64_shl (2 * (k + 1) - 1) 32 ||| u64_shl (pair &&& ((1 <<< 32) - 1)) 1)
        :: (u64_shl (2 * (k + 1)) 32 ||| (u64_shl (pair &&& ((1 <<< 32) - 1)) 1 ||| 1))
        :: st)) :
    s ∈ next_stacks tm (fuel + 1) (pair :: st) := by
  simp only [next_stacks, hk, if_neg (Nat.not_le.mpr hlt), hin, hr, Bool.not_false, if_true,
    List.mem_cons]
  exact Or.inr (Or.inr (Or.inr hs))

theorem next_stacks_leaf_0 (tm : teb) (fuel pair k : Nat) (st : List Nat)
    (hk : pair >>> 32 = k) (hlt : k < tm.structure_.length)
    (hin : tm.is_leaf_node k = true) (hlab : tm.get_label k = false) (s : List Nat)
    (hs : s ∈ next_stacks tm fuel st) :
    s ∈ next_stacks tm (fuel + 1) (pair :: st) := by
  simp only [next_stacks, hk, if_neg (Nat.not_le.mpr hlt), hin, hlab, Bool.not_true,
    Bool.false_eq_true, if_false, List.mem_cons]
  exact Or.inr (Or.inr hs)

/-- On the untrimmed encoding of the complete tree of height 32, `next()`
descends along the leftmost path; the right child of the node on level 31 has
the index `2 ^ 32`, which is shifted out of its stack entry, and the entry is
read as node 1, from where the descent starts again on a stack that already
holds 31 entries. -/
theorem next_stacks_descend (tm : teb) (hlen : tm.structure_.length + 1 = 2 ^ 33)
    (hinner : ∀ k, k + 1 < 2 ^ 32 → tm.is_leaf_node k = false ∧ tm.rank (k + 1) = k + 1)
    (hleaf : tm.is_leaf_node (2 ^ 32 - 1) = true) (hlab : tm.get_label (2 ^ 32 - 1) = false) :
    ∀ (d l : Nat) (st : List Nat) (fuel : Nat), l + d = 31 → st.length = l → d + 4 ≤ fuel →
      ∃ s ∈ next_stacks tm fuel ((u64_shl (2 ^ l - 1) 32 ||| 2 ^ l) :: st), 34 ≤ s.length := by
  have h232 : (2 : Nat) ^ 32 = 4294967296 := by decide
  have h233 : (2 : Nat) ^ 33 = 8589934592 := by decide
  intro d
  induction d with
  | zero =>
    intro l st fuel hl hst hfuel
    have hl31 : l = 31 := by omega
    subst hl31
    obtain ⟨f, rfl⟩ : ∃ f, fuel = f + 4 := ⟨fuel - 4, by omega⟩
    have h3 := hinner 3 (by decide)
    have h1 := hinner 1 (by decide)
    have h31 := hinner (2 ^ 31 - 1) (by decide)
    have hlt : 2 ^ 32 - 1 < tm.structure_.length := by omega
    exact ⟨_, next_stacks_inner tm (f + 3) _ (2 ^ 31 - 1) st (by decide) (by omega) h31.1 h31.2 _
      (next_stacks_leaf_0 tm (f + 2) _ (2 ^ 32 - 1) _ (by decide) hlt hleaf hlab _
        (next_stacks_inner tm (f + 1) _ 1 _ (by decide) (by omega) h1.1 h1.2 _
          (next_stacks_inner tm f _ 3 _ (by decide) (by omega) h3.1 h3.2 _
            (mem_next_stacks_self tm f _)))),
      by simp only [List.length_cons, hst]; exact le_refl 34⟩
  | succ d ih =>
    intro l st fuel hl hst hfuel
    obtain ⟨f, rfl⟩ : ∃ f, fuel = f + 1 := ⟨fuel - 1, by omega⟩
    have hl30 : l ≤ 30 := by omega
    have hpl : 2 ^ l ≤ 2 ^ 30 := Nat.pow_le_pow_right (by decide) hl30
    have hp0 : 0 < 2 ^ l := by positivity
    have h230 : (2 : Nat) ^ 30 = 1073741824 := by decide
    have hps : 2 ^ (l + 1) = 2 * 2 ^ l := by rw [Nat.pow_succ, Nat.mul_comm]
    have hk : (u64_shl (2 ^ l - 1) 32 ||| 2 ^ l) >>> 32 = 2 ^ l - 1 :=
      pack_node_idx _ _ (by omega) (by omega)
    have hpath : (u64_shl (2 ^ l - 1) 32 ||| 2 ^ l) &&& ((1 <<< 32) - 1) = 2 ^ l :=
      pack_path _ _ (by omega) (by omega)
    have hin := hinner (2 ^ l - 1) (by omega)
    obtain ⟨s, hs, h34⟩ := ih (l + 1)
      ((u64_shl (2 * (2 ^ l - 1 + 1)) 32 ||| (u64_shl (2 ^ l) 1 ||| 1)) :: st) f (by omega)
      (by simp only [List.length_cons, hst]) (by omega)
    refine ⟨s, next_stacks_inner tm f _ (2 ^ l - 1) st hk (by omega) hin.1 hin.2 s ?_, h34⟩
    rw [hpath]
    have e1 : 2 * (2 ^ l - 1 + 1) - 1 = 2 ^ (l + 1) - 1 := by omega
    have e2 : u64_shl (2 ^ l) 1 = 2 ^ (l + 1) := by
      rw [u64_shl_eq _ _ (by omega)]; omega
    rw [e1]
    rw [e2] at hs ⊢
    exact hs

end iter

/-! ## Lemmas: the constructor `tree_mask_lo(bitmask)` -/

namespace bitmap_tree

theorem heap_complete_leaf (N : Nat) (B : List Bool) (i : Nat) (h : N - 1 ≤ i) :
    heap_complete N B i = leaf (B.getD (i - (N - 1)) false) := by
  rw [heap_complete, if_pos h]

theorem heap_complete_inner (N : Nat) (B : List Bool) (i : Nat) (h : i < N - 1) :
    heap_complete N B i
      = inner (heap_complete N B (2 * i + 1)) (heap_complete N B (2 * i + 2)) := by
  rw [heap_complete, if_neg (by omega)]

/-- The `j`-th node of level `d` of the implicit tree stands above the bits
`[j * 2 ^ h, (j + 1) * 2 ^ h)` with `h = H - d`. -/
theorem heap_complete_coord (H : Nat) (B : List Bool) : ∀ h d j, d + h = H → j < 2 ^ d →
    heap_complete (2 ^ H) B (2 ^ d - 1 + j) = complete h ((B.drop (j * 2 ^ h)).take (2 ^ h)) := by
  intro h
  induction h with
  | zero =>
    intro d j hd hj
    have hd' : d = H := by omega
    subst hd'
    rw [heap_complete_leaf _ _ _ (by omega)]
    simp only [complete, pow_zero, Nat.mul_one]
    congr 1
    rw [show 2 ^ d - 1 + j - (2 ^ d - 1) = j by omega]
    simp [List.getD_eq_getElem?_getD, List.getElem?_take, List.getElem?_drop]
  | succ h ih =>
    intro d j hd hj
    have hp : 0 < 2 ^ d := by positivity
    have hps : 2 ^ (d + 1) = 2 * 2 ^ d := by rw [pow_succ]; omega
    have hle : 2 ^ (d + 1) ≤ 2 ^ H := Nat.pow_le_pow_right (by decide) (by omega)
    rw [heap_complete_inner _ _ _ (by omega)]
    have e1 : 2 * (2 ^ d - 1 + j) + 1 = 2 ^ (d + 1) - 1 + 2 * j := by omega
    have e2 : 2 * (2 ^ d - 1 + j) + 2 = 2 ^ (d + 1) - 1 + (2 * j + 1) := by omega
    rw [e1, e2, ih (d + 1) (2 * j) (by omega) (by omega),
      ih (d + 1) (2 * j + 1) (by omega) (by omega)]
    have hph : 2 ^ (h + 1) = 2 ^ h + 2 ^ h := by rw [pow_succ]; omega
    have hph0 : 0 < 2 ^ h := by positivity
    have ea : j * 2 ^ (h + 1) = 2 * j * 2 ^ h := by rw [pow_succ]; ring
    have eb : j * 2 ^ (h + 1) + 2 ^ h = (2 * j + 1) * 2 ^ h := by rw [pow_succ]; ring
    have ec : 2 ^ (h + 1) - 2 ^ h = 2 ^ h := by omega
    simp only [complete]
    rw [List.take_take, Nat.min_eq_left (by omega), List.drop_take, List.drop_drop, ec, eb, ea]

theorem heap_complete_root (H : Nat) (B : List Bool) (hB : B.length = 2 ^ H) :
    heap_complete (2 ^ H) B 0 = complete H B := by
  have := heap_complete_coord H B H 0 0 (by omega) (by simp)
  simpa [← hB] using this

theorem prune_inner_eq (l r : bitmap_tree) :
    prune (inner l r)
      = if (!(prune l).is_inner_node && !(prune r).is_inner_node
            && !(Bool.xor (prune l).label_of_node (prune r).label_of_node)) = true
        then leaf (prune l).label_of_node else inner (prune l) (prune r) := by
  simp only [prune]
  cases hl : prune l with
  | leaf a =>
    cases hr : prune r with
    | leaf b => cases a <;> cases b <;> simp [is_inner_node, label_of_node]
    | inner _ _ => simp [is_inner_node]
  | inner _ _ => simp [is_inner_node]

theorem label_of_node_prune : ∀ t : bitmap_tree, (prune t).label_of_node = t.label_of_node := by
  intro t
  induction t with
  | leaf b => rfl
  | inner l r ihl ihr =>
    rw [prune_inner_eq]
    split
    · rename_i hc
      simp only [label_of_node, ← ihl, ← ihr]
      revert hc
      cases (prune l).label_of_node <;> cases (prune r).label_of_node <;> simp
    · simp only [label_of_node, ihl, ihr]

theorem is_pruned_prune : ∀ t : bitmap_tree, (prune t).is_pruned = true := by
  intro t
  induction t with
  | leaf b => rfl
  | inner l r ihl ihr =>
    rw [prune_inner_eq]
    split
    · rfl
    · rename_i hc
      revert hc ihl ihr
      cases prune l with
      | leaf a =>
        cases prune r with
        | leaf b => cases a <;> cases b <;> simp [is_pruned, is_inner_node, label_of_node]
        | inner _ _ => intro h1 h2 _; simp only [is_pruned, h2, Bool.and_true] 
      | inner _ _ =>
        intro h1 h2 _
        simp only [is_pruned, h1, h2, Bool.and_self]

theorem eq_leaf_of_not_inner : ∀ t : bitmap_tree, t.is_inner_node = false →
    t = leaf t.label_of_node := by
  intro t h
  cases t with
  | leaf b => rfl
  | inner _ _ => cases h

theorem uniform_replicate (n : Nat) (b : Bool) : uniform (List.replicate n b) := by
  intro x hx y hy
  rw [(List.mem_replicate.1 hx).2, (List.mem_replicate.1 hy).2]

theorem uniform_eq_replicate (s : List Bool) (h : uniform s) :
    ∃ b, s = List.replicate s.length b := by
  cases s with
  | nil => exact ⟨false, rfl⟩
  | cons x s =>
    refine ⟨x, List.eq_replicate_iff.2 ⟨rfl, ?_⟩⟩
    intro y hy
    exact h y hy x (List.mem_cons_self _ _)

/-- The bits of an inner node of a pruned tree are not all equal. -/
theorem not_uniform_of_inner (x : bitmap_tree) (h : Nat) (hh : x.height ≤ h)
    (hp : x.is_pruned = true) (hi : x.is_inner_node = true) : ¬ uniform (to_bits h x) := by
  intro hu
  obtain ⟨b, hb⟩ := uniform_eq_replicate _ hu
  rw [length_to_bits x h hh] at hb
  have := prune_complete_to_bits x h hh hp
  rw [hb, prune_complete_replicate] at this
  rw [← this] at hi
  cases hi

theorem is_pruned_node_at : ∀ (cs : List Bool) (T x : bitmap_tree), T.is_pruned = true →
    node_at cs T = some x → x.is_pruned = true := by
  intro cs
  induction cs with
  | nil => intro T x hp hx; cases hx; exact hp
  | cons c cs ih =>
    intro T x hp hx
    cases T with
    | leaf b => cases c <;> simp [node_at] at hx
    | inner l r =>
      obtain ⟨hl, hr⟩ := is_pruned_inner l r hp
      cases c with
      | false => exact ih l x hl hx
      | true => exact ih r x hr hx

theorem node_at_append : ∀ (p e : List Bool) (T : bitmap_tree),
    node_at (p ++ e) T = (node_at p T).bind (node_at e) := by
  intro p
  induction p with
  | nil => intro e T; rfl
  | cons c p ih =>
    intro e T
    cases T with
    | leaf b => cases c <;> simp [node_at]
    | inner l r =>
      cases c with
      | false => exact ih e l
      | true => exact ih e r

theorem mem_to_bits_node_at : ∀ (e : List Bool) (y z : bitmap_tree) (h : Nat),
    node_at e y = some z → ∀ x ∈ to_bits (h - e.length) z, x ∈ to_bits h y := by
  intro e
  induction e with
  | nil => intro y z h hz x hx; cases hz; simpa using hx
  | cons c e ih =>
    intro y z h hz x hx
    cases y with
    | leaf b => cases c <;> simp [node_at] at hz
    | inner l r =>
      rw [List.length_cons, show h - (e.length + 1) = h - 1 - e.length by omega] at hx
      simp only [to_bits, List.mem_append]
      cases c with
      | false => exact Or.inl (ih l z (h - 1) hz x hx)
      | true => exact Or.inr (ih r z (h - 1) hz x hx)

theorem node_at_complete : ∀ (cs : List Bool) (h : Nat) (s : List Bool), cs.length ≤ h →
    ∃ z, node_at cs (complete h s) = some z := by
  intro cs
  induction cs with
  | nil => intro h s _; exact ⟨_, rfl⟩
  | cons c cs ih =>
    intro h s hl
    obtain ⟨h', rfl⟩ : ∃ h', h = h' + 1 := ⟨h - 1, by simp at hl; omega⟩
    simp only [List.length_cons, Nat.add_le_add_iff_right] at hl
    cases c with
    | false => exact ih h' _ hl
    | true => exact ih h' _ hl

/-- The walk along the choice bits ends at a node of the tree or leaves the
tree at a leaf. -/
theorem node_at_or_leaf : ∀ (cs : List Bool) (T : bitmap_tree),
    (∃ x, node_at cs T = some x) ∨
    ∃ k b, k < cs.length ∧ node_at (cs.take k) T = some (leaf b) := by
  intro cs
  induction cs with
  | nil => intro T; exact Or.inl ⟨T, rfl⟩
  | cons c cs ih =>
    intro T
    cases T with
    | leaf b => exact Or.inr ⟨0, b, by simp, rfl⟩
    | inner l r =>
      cases c with
      | false =>
        rcases ih l with h | ⟨k, b, hk, hb⟩
        · exact Or.inl h
        · exact Or.inr ⟨k + 1, b, by simpa using hk, hb⟩
      | true =>
        rcases ih r with h | ⟨k, b, hk, hb⟩
        · exact Or.inl h
        · exact Or.inr ⟨k + 1, b, by simpa using hk, hb⟩

theorem covered_eq (B : List Bool) (H : Nat) (T x : bitmap_tree) (cs : List Bool)
    (hT : T.height ≤ H) (hb : to_bits H T = B) (hx : node_at cs T = some x) :
    covered B H cs = to_bits (H - cs.length) x := by
  have := (to_bits_node_at cs T x H hT hx).2
  rw [hb] at this
  exact this.symm

/-- The range of a node lies in the range of each node above it. -/
theorem covered_mono (B : List Bool) (H : Nat) (hB : B.length = 2 ^ H) (p e : List Bool)
    (hl : (p ++ e).length ≤ H) : ∀ x ∈ covered B H (p ++ e), x ∈ covered B H p := by
  have hC := height_complete H B
  have hbits := to_bits_complete H B hB
  obtain ⟨z, hz⟩ := node_at_complete (p ++ e) H B hl
  have hz' := hz
  rw [node_at_append] at hz'
  cases hy : node_at p (complete H B) with
  | none => rw [hy] at hz'; cases hz'
  | some y =>
    rw [hy] at hz'
    rw [covered_eq B H _ z (p ++ e) (le_of_eq hC) hbits hz,
      covered_eq B H _ y p (le_of_eq hC) hbits hy]
    intro x hx
    rw [List.length_append, show H - (p.length + e.length) = H - p.length - e.length by omega]
      at hx
    exact mem_to_bits_node_at e y z (H - p.length) hz' x hx

end bitmap_tree

namespace tree_mask_lo

open bitmap_tree binary_tree_structure

theorem getD_set_bool (l : List Bool) (k j : Nat) (v : Bool) :
    (l.set k v).getD j false = if j = k ∧ k < l.length then v else l.getD j false := by
  rw [List.getD_eq_getElem?_getD, List.getD_eq_getElem?_getD, List.getElem?_set]
  by_cases h : k = j
  · subst h
    by_cases h2 : k < l.length
    · simp [h2]
    · simp [h2, List.getElem?_eq_none (Nat.le_of_not_lt h2)]
  · have : ¬ (j = k ∧ k < l.length) := fun hh => h hh.1.symm
    simp [h, this]

theorem foldl_set_range'_length (g : Nat → Bool) : ∀ (n a : Nat) (L : List Bool),
    ((List.range' a n).foldl (fun labels i => labels.set i (g i)) L).length = L.length := by
  intro n
  induction n with
  | zero => intro a L; rfl
  | succ n ih =>
    intro a L
    rw [List.range'_succ, List.foldl_cons, ih, List.length_set]

theorem foldl_set_range'_getD (g : Nat → Bool) : ∀ (n a : Nat) (L : List Bool) (p : Nat),
    ((List.range' a n).foldl (fun labels i => labels.set i (g i)) L).getD p false
      = if a ≤ p ∧ p < a + n ∧ p < L.length then g p else L.getD p false := by
  intro n
  induction n with
  | zero =>
    intro a L p
    rw [if_neg (by omega)]
    rfl
  | succ n ih =>
    intro a L p
    rw [List.range'_succ, List.foldl_cons, ih, List.length_set, getD_set_bool]
    by_cases hA : a + 1 ≤ p ∧ p < a + 1 + n ∧ p < L.length
    · rw [if_pos hA, if_pos ⟨by omega, by omega, hA.2.2⟩]
    · rw [if_neg hA]
      by_cases hB : p = a ∧ a < L.length
      · rw [if_pos hB, if_pos ⟨by omega, by omega, by omega⟩, hB.1]
      · rw [if_neg hB, if_neg (by omega)]

theorem init_labels_length (length : Nat) (B : List Bool) :
    (init_labels length B).length = length := by
  unfold init_labels
  rw [foldl_set_range'_length (fun i => B.getD (i - length / 2) false), List.length_replicate]

theorem init_labels_getD (N : Nat) (B : List Bool) (hN : 1 ≤ N) (hB : B.length = N) (p : Nat) :
    (init_labels (max_node_cnt N) B).getD p false
      = if N - 1 ≤ p then B.getD (p - (N - 1)) false else false := by
  unfold init_labels max_node_cnt
  rw [foldl_set_range'_getD (fun i => B.getD (i - (2 * N - 1) / 2) false), List.length_replicate]
  have e : (2 * N - 1) / 2 = N - 1 := by omega
  rw [e]
  have hrep : (List.replicate (2 * N - 1) false).getD p false = false := by
    simp only [List.getD_eq_getElem?_getD, List.getElem?_replicate]
    split <;> rfl
  rw [hrep]
  by_cases h1 : N - 1 ≤ p
  · rw [if_pos h1]
    by_cases h2 : p < 2 * N - 1
    · rw [if_pos ⟨h1, by omega, h2⟩]
    · rw [if_neg (by omega)]
      rw [List.getD_eq_getElem?_getD, List.getElem?_eq_none (by omega)]
      rfl
  · rw [if_neg h1, if_neg (by omega)]

theorem labels_during_eq (N : Nat) (B : List Bool) (m p : Nat) (h : m ≤ p) :
    labels_during N B m p = (heap_complete N B p).label_of_node := by
  unfold labels_during
  by_cases h1 : N - 1 ≤ p
  · rw [if_pos h1, heap_complete_leaf N B p h1]
    rfl
  · rw [if_neg h1, heap_complete_inner N B p (by omega)]
    have d1 : decide (m < 2 * p + 1) = true := decide_eq_true (by omega)
    have d2 : decide (m < 2 * p + 2) = true := decide_eq_true (by omega)
    rw [d1, d2]
    simp [label_of_node]

theorem propagate_labels_inv (N : Nat) (B L0 : List Bool) (hN : 1 ≤ N)
    (hlen : L0.length = 2 * N - 1)
    (h0 : ∀ p, L0.getD p false = if N - 1 ≤ p then B.getD (p - (N - 1)) false else false) :
    ∀ n, n ≤ 2 * N - 2 →
      ((List.range n).foldl
        (fun labels i =>
          let node_idx := 2 * N - 1 - i - 1
          labels.set (parent_of node_idx)
            (labels.getD (parent_of node_idx) false || labels.getD node_idx false)) L0).length
        = 2 * N - 1 ∧
      ∀ p, ((List.range n).foldl
        (fun labels i =>
          let node_idx := 2 * N - 1 - i - 1
          labels.set (parent_of node_idx)
            (labels.getD (parent_of node_idx) false || labels.getD node_idx false)) L0).getD p false
        = labels_during N B (2 * N - 2 - n) p := by
  intro n
  induction n with
  | zero =>
    intro _
    refine ⟨hlen, fun p => ?_⟩
    simp only [List.range_zero, List.foldl_nil, h0, labels_during]
    by_cases h1 : N - 1 ≤ p
    · rw [if_pos h1, if_pos h1]
    · rw [if_neg h1, if_neg h1]
      have d1 : decide (2 * N - 2 - 0 < 2 * p + 1) = false := decide_eq_false (by omega)
      have d2 : decide (2 * N - 2 - 0 < 2 * p + 2) = false := decide_eq_false (by omega)
      rw [d1, d2]
      rfl
  | succ n ih =>
    intro hn
    obtain ⟨hl, hg⟩ := ih (by omega)
    rw [List.range_succ, List.foldl_append]
    simp only [List.foldl_cons, List.foldl_nil]
    generalize (List.range n).foldl _ L0 = S at hl hg ⊢
    refine ⟨by rw [List.length_set]; exact hl, fun p => ?_⟩
    have hm : 2 * N - 1 - n - 1 = 2 * N - 2 - n := by omega
    rw [hm]
    generalize hmm : 2 * N - 2 - n = m at *
    have hm1 : 2 * N - 2 - (n + 1) = m - 1 := by omega
    rw [hm1, getD_set_bool, hg, hg, labels_during_eq N B m m (le_refl _)]
    have hq : parent_of m < N - 1 := by unfold parent_of; omega
    by_cases hp : p = parent_of m
    · subst hp
      rw [if_pos ⟨rfl, by omega⟩]
      unfold labels_during
      rw [if_neg (by omega), if_neg (by omega)]
      rcases (show m = 2 * parent_of m + 1 ∨ m = 2 * parent_of m + 2 by
        unfold parent_of; omega) with hc | hc
      · have d1 : decide (m < 2 * parent_of m + 1) = false := decide_eq_false (by omega)
        have d2 : decide (m < 2 * parent_of m + 2) = true := decide_eq_true (by omega)
        have d3 : decide (m - 1 < 2 * parent_of m + 1) = true := decide_eq_true (by omega)
        have d4 : decide (m - 1 < 2 * parent_of m + 2) = true := decide_eq_true (by omega)
        rw [d1, d2, d3, d4, ← hc]
        simp [Bool.or_comm]
      · have d1 : decide (m < 2 * parent_of m + 1) = false := decide_eq_false (by omega)
        have d2 : decide (m < 2 * parent_of m + 2) = false := decide_eq_false (by omega)
        have d3 : decide (m - 1 < 2 * parent_of m + 1) = false := decide_eq_false (by omega)
        have d4 : decide (m - 1 < 2 * parent_of m + 2) = true := decide_eq_true (by omega)
        rw [d1, d2, d3, d4, ← hc]
        simp
    · rw [if_neg (fun hh => hp hh.1), hg p]
      unfold labels_during
      by_cases h1 : N - 1 ≤ p
      · rw [if_pos h1, if_pos h1]
      · rw [if_neg h1, if_neg h1]
        have e1 : (m - 1 < 2 * p + 1) ↔ (m < 2 * p + 1) := by
          unfold parent_of at hp; omega
        have e2 : (m - 1 < 2 * p + 2) ↔ (m < 2 * p + 2) := by
          unfold parent_of at hp; omega
        simp only [e1, e2]

theorem ctor_labels_getD (N : Nat) (B : List Bool) (hN : 1 ≤ N) (hB : B.length = N) (p : Nat) :
    (ctor_labels N B).getD p false = (heap_complete N B p).label_of_node := by
  have h := (propagate_labels_inv N B (init_labels (max_node_cnt N) B) hN
    (by rw [init_labels_length]; rfl) (init_labels_getD N B hN hB) (2 * N - 2) (le_refl _)).2 p
  rw [Nat.sub_self, labels_during_eq N B 0 p (Nat.zero_le _)] at h
  rw [← h]
  simp only [ctor_labels, propagate_labels, max_node_cnt]
  rw [show 2 * N - 1 - 1 = 2 * N - 2 by omega]

theorem init_is_inner_node (N : Nat) (p : Nat) :
    (binary_tree_structure.init N).is_inner_node p = decide (p < N - 1) := by
  unfold binary_tree_structure.init binary_tree_structure.is_inner_node
  simp only [List.getD_eq_getElem?_getD]
  by_cases h : p < N - 1
  · rw [List.getElem?_append_left (by rw [List.length_replicate]; exact h),
      List.getElem?_replicate, if_pos h, decide_eq_true h]
    rfl
  · rw [List.getElem?_append_right (by rw [List.length_replicate]; omega),
      List.getElem?_replicate, decide_eq_false h]
    split <;> rfl

/-- The inner/leaf flag of a node of the lossless prune, read off the flags and
labels of its children. -/
theorem prune_is_inner_node (N : Nat) (B : List Bool) (q : Nat) (hq : q < N - 1) :
    (prune (heap_complete N B q)).is_inner_node
      = !(!(prune (heap_complete N B (2 * q + 1))).is_inner_node
          && !(prune (heap_complete N B (2 * q + 2))).is_inner_node
          && !(Bool.xor (heap_complete N B (2 * q + 1)).label_of_node
                (heap_complete N B (2 * q + 2)).label_of_node)) := by
  rw [heap_complete_inner _ _ _ hq, prune_inner_eq, label_of_node_prune, label_of_node_prune]
  split
  · rename_i hc
    rw [hc]; rfl
  · rename_i hc
    rw [Bool.not_eq_true] at hc
    rw [hc]; rfl

theorem prune_loop_inv (N : Nat) (B labels : List Bool) (hN : 1 ≤ N)
    (hL : ∀ p, labels.getD p false = (heap_complete N B p).label_of_node) :
    ∀ n, n ≤ N - 1 →
      ((List.range n).foldl
        (fun (tree_structure : binary_tree_structure) k =>
          let i := 2 * k
          let left_node_idx := 2 * N - 1 - i - 2
          let right_node_idx := left_node_idx + 1
          let left_bit := labels.getD left_node_idx false
          let right_bit := labels.getD right_node_idx false
          let parent_node_idx := parent_of left_node_idx
          let prune_causes_false_positives := Bool.xor left_bit right_bit
          let both_nodes_are_leaves :=
            !tree_structure.is_inner_node left_node_idx
              && !tree_structure.is_inner_node right_node_idx
          let prune := both_nodes_are_leaves && !prune_causes_false_positives
          if prune then tree_structure.set_leaf parent_node_idx else tree_structure)
        (binary_tree_structure.init N)).inner_node.length = 2 * N - 1 ∧
      ∀ p, ((List.range n).foldl
        (fun (tree_structure : binary_tree_structure) k =>
          let i := 2 * k
          let left_node_idx := 2 * N - 1 - i - 2
          let right_node_idx := left_node_idx + 1
          let left_bit := labels.getD left_node_idx false
          let right_bit := labels.getD right_node_idx false
          let parent_node_idx := parent_of left_node_idx
          let prune_causes_false_positives := Bool.xor left_bit right_bit
          let both_nodes_are_leaves :=
            !tree_structure.is_inner_node left_node_idx
              && !tree_structure.is_inner_node right_node_idx
          let prune := both_nodes_are_leaves && !prune_causes_false_positives
          if prune then tree_structure.set_leaf parent_node_idx else tree_structure)
        (binary_tree_structure.init N)).is_inner_node p
        = if N - 1 - n ≤ p then (prune (heap_complete N B p)).is_inner_node else true := by
  intro n
  induction n with
  | zero =>
    intro _
    refine ⟨by simp [binary_tree_structure.init]; omega, fun p => ?_⟩
    simp only [List.range_zero, List.foldl_nil, init_is_inner_node, Nat.sub_zero]
    by_cases h : N - 1 ≤ p
    · rw [if_pos h, heap_complete_leaf _ _ _ h, decide_eq_false (by omega)]
      rfl
    · rw [if_neg h, decide_eq_true (by omega)]
  | succ n ih =>
    intro hn
    obtain ⟨hl, hg⟩ := ih (by omega)
    rw [List.range_succ, List.foldl_append]
    simp only [List.foldl_cons, List.foldl_nil]
    generalize (List.range n).foldl _ (binary_tree_structure.init N) = ts at hl hg ⊢
    have el : 2 * N - 1 - 2 * n - 2 = 2 * (N - 2 - n) + 1 := by omega
    have eq : parent_of (2 * (N - 2 - n) + 1) = N - 2 - n := by unfold parent_of; omega
    have en : N - 1 - (n + 1) = N - 2 - n := by omega
    rw [el, eq, en]
    generalize hqq : N - 2 - n = q at *
    have hn' : N - 1 - n = q + 1 := by omega
    rw [hn'] at hg
    rw [show 2 * q + 1 + 1 = 2 * q + 2 by omega]
    have h1 : ts.is_inner_node (2 * q + 1)
        = (prune (heap_complete N B (2 * q + 1))).is_inner_node := by
      rw [hg]; exact if_pos (by omega)
    have h2 : ts.is_inner_node (2 * q + 2)
        = (prune (heap_complete N B (2 * q + 2))).is_inner_node := by
      rw [hg]; exact if_pos (by omega)
    rw [h1, h2, hL, hL]
    have hpr := prune_is_inner_node N B q (by omega)
    generalize hc : (!(prune (heap_complete N B (2 * q + 1))).is_inner_node
          && !(prune (heap_complete N B (2 * q + 2))).is_inner_node
          && !(Bool.xor (heap_complete N B (2 * q + 1)).label_of_node
                (heap_complete N B (2 * q + 2)).label_of_node)) = c at hpr ⊢
    cases c with
    | true =>
      simp only [if_true]
      refine ⟨by simp only [binary_tree_structure.set_leaf, List.length_set]; exact hl, fun p => ?_⟩
      simp only [binary_tree_structure.set_leaf, binary_tree_structure.is_inner_node, getD_set_bool]
      by_cases hp : p = q
      · subst hp
        rw [if_pos ⟨rfl, by omega⟩, if_pos (le_refl _), hpr]
        rfl
      · rw [if_neg (fun hh => hp hh.1)]
        have := hg p
        simp only [binary_tree_structure.is_inner_node] at this
        rw [this]
        by_cases h1 : q + 1 ≤ p
        · rw [if_pos h1, if_pos (by omega)]
        · rw [if_neg h1, if_neg (by omega)]
    | false =>
      simp only [Bool.false_eq_true, if_false]
      refine ⟨hl, fun p => ?_⟩
      rw [hg]
      by_cases hp : p = q
      · subst hp
        rw [if_neg (by omega), if_pos (le_refl _), hpr]
        rfl
      · by_cases h1 : q + 1 ≤ p
        · rw [if_pos h1, if_pos (by omega)]
        · rw [if_neg h1, if_neg (by omega)]

theorem ctor_tree_structure_is_inner_node (N : Nat) (B : List Bool) (hN : 1 ≤ N)
    (hB : B.length = N) (p : Nat) :
    (ctor_tree_structure N B).is_inner_node p = (prune (heap_complete N B p)).is_inner_node := by
  have h := (prune_loop_inv N B (ctor_labels N B) hN (ctor_labels_getD N B hN hB) (N - 1)
    (le_refl _)).2 p
  rw [if_pos (by omega)] at h
  rw [← h]
  simp only [ctor_tree_structure, prune_loop, max_node_cnt]
  rw [show (2 * N - 1) / 2 = N - 1 by omega]

theorem ctor_labels_eq (N : Nat) (B : List Bool) (hN : 1 ≤ N) (hB : B.length = N) (p : Nat) :
    (ctor_labels N B).getD p false = (prune (heap_complete N B p)).label_of_node := by
  rw [ctor_labels_getD N B hN hB, label_of_node_prune]

theorem prune_heap_complete_inner (N : Nat) (B : List Bool) (p : Nat)
    (h : (prune (heap_complete N B p)).is_inner_node = true) :
    prune (heap_complete N B p)
      = inner (prune (heap_complete N B (2 * p + 1))) (prune (heap_complete N B (2 * p + 2))) := by
  by_cases hp : N - 1 ≤ p
  · rw [heap_complete_leaf _ _ _ hp] at h
    cases h
  · rw [heap_complete_inner _ _ _ (by omega)] at h ⊢
    rw [prune_inner_eq] at h ⊢
    split
    · rename_i hc
      rw [if_pos hc] at h
      cases h
    · rfl

end tree_mask_lo

namespace tree_mask_lo

open bitmap_tree

/-- The loop that encodes the tree emits the structure bits of the nodes that
are still to be enqueued and the labels of the leaves that are still to be
dequeued, in level order. -/
theorem add_node_loop_spec (ts : binary_tree_structure) (labels : List Bool) (cap : Nat)
    (P : Nat → bitmap_tree)
    (hP : ∀ p, ts.is_inner_node p = (P p).is_inner_node)
    (hPi : ∀ p, (P p).is_inner_node = true → P p = inner (P (2 * p + 1)) (P (2 * p + 2)))
    (hPl : ∀ p, labels.getD p false = (P p).label_of_node) :
    ∀ (fuel : Nat) (fifo : List Nat) (S Lb : List Bool),
      (level_order (fifo.map P)).length ≤ fuel →
      S.length + (level_order ((fifo.map P).flatMap children)).length ≤ cap →
      Lb.length + ((level_order (fifo.map P)).filter (fun k => !k.is_inner_node)).length ≤ cap →
      add_node_loop ts labels cap fuel fifo S Lb
        = some (S ++ (level_order ((fifo.map P).flatMap children)).map bitmap_tree.is_inner_node,
            Lb ++ ((level_order (fifo.map P)).filter
              (fun k => !k.is_inner_node)).map label_of_node) := by
  intro fuel
  induction fuel with
  | zero =>
    intro fifo S Lb hf _ _
    cases fifo with
    | nil => simp [add_node_loop, level_order_nil]
    | cons idx fifo =>
      rw [List.map_cons, level_order_cons] at hf
      simp at hf
  | succ fuel ih =>
    intro fifo S Lb hf hS hL
    cases fifo with
    | nil => simp [add_node_loop, level_order_nil]
    | cons idx fifo =>
      simp only [add_node_loop, hP, binary_tree_structure.left_child_of,
        binary_tree_structure.right_child_of]
      rw [List.map_cons] at hf hS hL ⊢
      by_cases hin : (P idx).is_inner_node = true
      · have hx := hPi idx hin
        have e1 : level_order (P idx :: fifo.map P)
            = P idx :: level_order ((fifo ++ [2 * idx + 1, 2 * idx + 2]).map P) := by
          rw [level_order_cons, List.map_append]
          congr 2
          rw [hx]
          rfl
        have e2 : level_order ((P idx :: fifo.map P).flatMap children)
            = P (2 * idx + 1) :: P (2 * idx + 2)
              :: level_order (((fifo ++ [2 * idx + 1, 2 * idx + 2]).map P).flatMap children) := by
          rw [List.flatMap_cons, List.map_append, List.flatMap_append]
          have : children (P idx) = [P (2 * idx + 1), P (2 * idx + 2)] := by rw [hx]; rfl
          rw [this, level_order_append]
          rfl
        rw [e1] at hf hL ⊢
        rw [e2] at hS ⊢
        have hfl : (List.filter (fun k => !k.is_inner_node)
            (P idx :: level_order ((fifo ++ [2 * idx + 1, 2 * idx + 2]).map P)))
            = List.filter (fun k => !k.is_inner_node)
              (level_order ((fifo ++ [2 * idx + 1, 2 * idx + 2]).map P)) := by
          rw [List.filter_cons, hin]
          rfl
        rw [hfl] at hL ⊢
        simp only [List.length_cons] at hf hS
        rw [if_pos hin, if_pos (by omega),
          ih (fifo ++ [2 * idx + 1, 2 * idx + 2]) _ Lb (by omega)
            (by simp only [List.length_append, List.length_cons, List.length_nil]; omega) hL]
        simp
      · have hin' : (P idx).is_inner_node = false := by simpa using hin
        have hx := eq_leaf_of_not_inner _ hin'
        have hch : children (P idx) = [] := by rw [hx]; rfl
        have e1 : level_order (P idx :: fifo.map P) = P idx :: level_order (fifo.map P) := by
          rw [level_order_cons, hch, List.append_nil]
        have e2 : (P idx :: fifo.map P).flatMap children = (fifo.map P).flatMap children := by
          rw [List.flatMap_cons, hch, List.nil_append]
        rw [e1] at hf hL ⊢
        rw [e2] at hS ⊢
        have hfl : (List.filter (fun k => !k.is_inner_node) (P idx :: level_order (fifo.map P)))
            = P idx :: List.filter (fun k => !k.is_inner_node) (level_order (fifo.map P)) := by
          rw [List.filter_cons, hin']
          rfl
        rw [hfl] at hL ⊢
        simp only [List.length_cons] at hf hL
        rw [if_neg hin, if_pos (by omega),
          ih fifo S _ (by omega) hS
            (by simp only [List.length_append, List.length_cons, List.length_nil]; omega)]
        rw [hPl]
        simp

/-- The constructor returns the level-order encoding of the lossless prune of
the complete tree of the bitmap. -/
theorem ctor_bitmask_spec (B : List Bool) (H fuel : Nat) (hB : B.length = 2 ^ H)
    (hfuel : 2 * 2 ^ H ≤ fuel) :
    ∃ tm, ctor_bitmask (2 ^ H) fuel B = some tm ∧ tm.Encodes (prune (complete H B)) := by
  have hN : 1 ≤ 2 ^ H := Nat.one_le_two_pow
  have hroot := heap_complete_root H B hB
  have hT : (prune (complete H B)).height ≤ H :=
    le_trans (height_prune _) (le_of_eq (height_complete H B))
  have hcnt := node_cnt_le _ _ hT
  have hlen := length_level_order [prune (complete H B)]
  simp only [List.map_cons, List.map_nil, List.sum_cons, List.sum_nil, Nat.add_zero] at hlen
  have hstep := level_order_step [prune (complete H B)]
  unfold ctor_bitmask
  simp only [ctor_tree_structure_is_inner_node _ B hN hB, hroot]
  by_cases hin : (prune (complete H B)).is_inner_node = true
  · have hspec := add_node_loop_spec (ctor_tree_structure (2 ^ H) B) (ctor_labels (2 ^ H) B)
      (binary_tree_structure.max_node_cnt (2 ^ H)) (fun p => prune (heap_complete (2 ^ H) B p))
      (ctor_tree_structure_is_inner_node _ B hN hB)
      (prune_heap_complete_inner _ B) (ctor_labels_eq _ B hN hB) fuel [0] [true] []
    simp only [List.map_cons, List.map_nil, hroot] at hspec
    have hl2 : (level_order [prune (complete H B)]).length
        = 1 + (level_order ([prune (complete H B)].flatMap children)).length := by
      conv_lhs => rw [hstep]
      simp
      omega
    have hfl := List.length_filter_le (fun k : bitmap_tree => !k.is_inner_node)
      (level_order [prune (complete H B)])
    rw [if_pos hin, hin, hspec (by omega)
      (by simp only [List.length_cons, List.length_nil, binary_tree_structure.max_node_cnt]; omega)
      (by simp only [List.length_nil, binary_tree_structure.max_node_cnt]; omega)]
    refine ⟨_, rfl, ?_, ?_⟩
    · simp only [lo_structure, breadth_first_eq_level_order]
      conv_rhs => rw [hstep]
      simp [hin]
    · simp only [lo_labels, breadth_first_eq_level_order, List.nil_append]
  · have hin' : (prune (complete H B)).is_inner_node = false := by simpa using hin
    have hx := eq_leaf_of_not_inner _ hin'
    rw [if_neg hin, hin']
    refine ⟨_, rfl, ?_, ?_⟩
    · rw [hx]
      simp [lo_structure, breadth_first, bfs, node_cnt, children, bitmap_tree.is_inner_node]
    · simp only [ctor_labels_eq _ B hN hB, hroot]
      rw [hx]
      simp [lo_labels, breadth_first, bfs, node_cnt, children, bitmap_tree.is_inner_node, label_of_node]

end tree_mask_lo

namespace tree_mask_lo

open bitmap_tree

theorem node_from_append (cs : List Bool) (c : Bool) : ∀ i,
    binary_tree_structure.node_from i (cs ++ [c])
      = 2 * binary_tree_structure.node_from i cs + 1 + c.toNat := by
  induction cs with
  | nil =>
    intro i
    cases c <;>
      simp [binary_tree_structure.node_from, binary_tree_structure.left_child_of,
        binary_tree_structure.right_child_of]
  | cons d cs ih =>
    intro i
    cases d <;> exact ih _

theorem node_from_lower (cs : List Bool) : ∀ i,
    (i + 1) * 2 ^ cs.length ≤ binary_tree_structure.node_from i cs + 1 := by
  induction cs with
  | nil => intro i; simp [binary_tree_structure.node_from]
  | cons d cs ih =>
    intro i
    have e : (i + 1) * 2 ^ (d :: cs).length = (2 * i + 1 + 1) * 2 ^ cs.length := by
      rw [List.length_cons, pow_succ]; ring
    rw [e]
    cases d with
    | false =>
      exact ih (2 * i + 1)
    | true =>
      have h1 := ih (2 * i + 2)
      have h2 : (2 * i + 1 + 1) * 2 ^ cs.length ≤ (2 * i + 2 + 1) * 2 ^ cs.length :=
        Nat.mul_le_mul_right _ (by omega)
      exact le_trans h2 h1

/-- Every node of the implicit tree is reached from the root by at most `H`
choice bits. -/
theorem exists_choices (H : Nat) : ∀ i, i + 1 < 2 * 2 ^ H →
    ∃ cs : List Bool, cs.length ≤ H ∧ binary_tree_structure.node_from 0 cs = i := by
  intro i
  induction i using Nat.strong_induction_on with
  | _ i ih =>
    intro hi
    by_cases h0 : i = 0
    · exact ⟨[], Nat.zero_le _, h0.symm⟩
    · obtain ⟨cs, hl, hcs⟩ := ih ((i - 1) / 2) (by omega) (by omega)
      refine ⟨cs ++ [decide (i = 2 * ((i - 1) / 2) + 2)], ?_, ?_⟩
      · have hlow := node_from_lower cs 0
        rw [hcs, Nat.zero_add, Nat.one_mul] at hlow
        rw [List.length_append, List.length_singleton]
        by_contra hc
        have : cs.length = H := by omega
        rw [this] at hlow
        omega
      · rw [node_from_append, hcs]
        by_cases h2 : i = 2 * ((i - 1) / 2) + 2
        · rw [decide_eq_true h2]
          simp only [Bool.toNat_true]
          omega
        · rw [decide_eq_false h2]
          simp only [Bool.toNat_false]
          omega

theorem node_at_of_inner (P : Nat → bitmap_tree)
    (hPi : ∀ p, (P p).is_inner_node = true → P p = inner (P (2 * p + 1)) (P (2 * p + 2))) :
    ∀ (cs : List Bool) (i : Nat),
      (∀ k, k < cs.length →
        (P (binary_tree_structure.node_from i (cs.take k))).is_inner_node = true) →
      node_at cs (P i) = some (P (binary_tree_structure.node_from i cs)) := by
  intro cs
  induction cs with
  | nil => intro i _; rfl
  | cons c cs ih =>
    intro i h
    have h0 := h 0 (by simp)
    simp only [List.take_zero, binary_tree_structure.node_from] at h0
    rw [hPi i h0]
    have hk : ∀ j, (∀ k, k < (c :: cs).length →
        (P (binary_tree_structure.node_from i ((c :: cs).take k))).is_inner_node = true) →
        binary_tree_structure.node_from i [c] = j →
        ∀ k, k < cs.length →
          (P (binary_tree_structure.node_from j (cs.take k))).is_inner_node = true := by
      intro j hh hj k hk
      have := hh (k + 1) (by simpa using hk)
      rw [List.take_succ_cons] at this
      rw [← hj]
      cases c <;> exact this
    cases c with
    | false => exact ih (2 * i + 1) (hk _ h rfl)
    | true => exact ih (2 * i + 2) (hk _ h rfl)

theorem inner_of_node_at (P : Nat → bitmap_tree)
    (hPi : ∀ p, (P p).is_inner_node = true → P p = inner (P (2 * p + 1)) (P (2 * p + 2))) :
    ∀ (cs : List Bool) (i : Nat) (x : bitmap_tree), node_at cs (P i) = some x →
      x = P (binary_tree_structure.node_from i cs) ∧
      ∀ k, k < cs.length →
        (P (binary_tree_structure.node_from i (cs.take k))).is_inner_node = true := by
  intro cs
  induction cs with
  | nil =>
    intro i x hx
    cases hx
    exact ⟨rfl, fun k hk => by cases hk⟩
  | cons c cs ih =>
    intro i x hx
    by_cases hin : (P i).is_inner_node = true
    · rw [hPi i hin] at hx
      have key : ∀ j, binary_tree_structure.node_from i [c] = j → node_at cs (P j) = some x →
          x = P (binary_tree_structure.node_from i (c :: cs)) ∧
          ∀ k, k < (c :: cs).length →
            (P (binary_tree_structure.node_from i ((c :: cs).take k))).is_inner_node = true := by
        intro j hj hxj
        obtain ⟨e, hall⟩ := ih j x hxj
        have hnf : ∀ l : List Bool, binary_tree_structure.node_from i (c :: l)
            = binary_tree_structure.node_from j l := by
          intro l
          rw [← hj]
          cases c <;> rfl
        refine ⟨by rw [hnf]; exact e, fun k hk => ?_⟩
        cases k with
        | zero => simpa [binary_tree_structure.node_from] using hin
        | succ k =>
          rw [List.take_succ_cons, hnf]
          exact hall k (by simpa using hk)
      cases c with
      | false => exact key (2 * i + 1) rfl hx
      | true => exact key (2 * i + 2) rfl hx
    · have hin' : (P i).is_inner_node = false := by simpa using hin
      rw [eq_leaf_of_not_inner _ hin'] at hx
      cases c <;> simp [node_at] at hx

/-- The leaves of the tree after the pruning pass are the leaves of the
lossless prune of the complete tree, with their labels. -/
theorem is_leaf_at_iff (B : List Bool) (H : Nat) (hB : B.length = 2 ^ H) (cs : List Bool)
    (b : Bool) :
    node_at cs (prune (complete H B)) = some (leaf b) ↔
      (ctor_tree_structure (2 ^ H) B).is_leaf_at cs ∧
      (ctor_labels (2 ^ H) B).getD (binary_tree_structure.node_from 0 cs) false = b := by
  have hN : 1 ≤ 2 ^ H := Nat.one_le_two_pow
  have hroot := heap_complete_root H B hB
  have hF := ctor_tree_structure_is_inner_node _ B hN hB
  have hL := ctor_labels_eq _ B hN hB
  have hPi := prune_heap_complete_inner (2 ^ H) B
  rw [← hroot]
  unfold binary_tree_structure.is_leaf_at
  simp only [hF, hL]
  constructor
  · intro h
    obtain ⟨e, hall⟩ := inner_of_node_at (fun p => prune (heap_complete (2 ^ H) B p)) hPi cs 0 _ h
    rw [← e]
    exact ⟨⟨rfl, hall⟩, rfl⟩
  · rintro ⟨⟨h1, h2⟩, h3⟩
    have := node_at_of_inner (fun p => prune (heap_complete (2 ^ H) B p)) hPi cs 0 h2
    rw [this]
    show some (prune (heap_complete (2 ^ H) B (binary_tree_structure.node_from 0 cs))) = _
    rw [eq_leaf_of_not_inner _ h1, h3]

/-- The state after the pruning pass is a fixpoint: the flag of every inner
node of the complete tree agrees with the flags and labels of its children. -/
theorem ctor_tree_structure_fixpoint (N : Nat) (B : List Bool) (hN : 1 ≤ N) (hB : B.length = N)
    (q : Nat) (hq : q < N - 1) :
    (ctor_tree_structure N B).is_inner_node q
      = !(!(ctor_tree_structure N B).is_inner_node (2 * q + 1)
          && !(ctor_tree_structure N B).is_inner_node (2 * q + 2)
          && !(Bool.xor ((ctor_labels N B).getD (2 * q + 1) false)
                ((ctor_labels N B).getD (2 * q + 2) false))) := by
  simp only [ctor_tree_structure_is_inner_node N B hN hB, ctor_labels_getD N B hN hB]
  exact prune_is_inner_node N B q hq

theorem foldl_fixed (f : binary_tree_structure → Nat → binary_tree_structure)
    (ts : binary_tree_structure) : ∀ l : List Nat, (∀ k ∈ l, f ts k = ts) → l.foldl f ts = ts := by
  intro l
  induction l with
  | nil => intro _; rfl
  | cons k l ih =>
    intro h
    rw [List.foldl_cons, h k (List.mem_cons_self _ _)]
    exact ih (fun j hj => h j (List.mem_cons_of_mem _ hj))

theorem set_leaf_of_not_inner (ts : binary_tree_structure) (q : Nat)
    (h : ts.is_inner_node q = false) : ts.set_leaf q = ts := by
  cases ts with
  | mk l =>
    unfold binary_tree_structure.set_leaf
    simp only [binary_tree_structure.is_inner_node] at h ⊢
    congr 1
    apply List.ext_getElem?
    intro j
    rw [List.getElem?_set]
    split
    · rename_i hj
      subst hj
      split
      · rename_i hlt
        rw [List.getD_eq_getElem?_getD, List.getElem?_eq_getElem hlt] at h
        rw [List.getElem?_eq_getElem hlt]
        simp only [Option.getD_some] at h
        rw [h]
      · rename_i hlt
        rw [List.getElem?_eq_none (by omega)]
    · rfl

/-- A second pass of the pruning loop changes nothing. -/
theorem prune_loop_ctor_tree_structure (N : Nat) (B : List Bool) (hN : 1 ≤ N)
    (hB : B.length = N) :
    prune_loop (binary_tree_structure.max_node_cnt N) (ctor_labels N B)
      (ctor_tree_structure N B) = ctor_tree_structure N B := by
  unfold prune_loop
  apply foldl_fixed
  intro k hk
  rw [List.mem_range] at hk
  unfold binary_tree_structure.max_node_cnt at hk ⊢
  simp only
  have el : 2 * N - 1 - 2 * k - 2 = 2 * (N - 2 - k) + 1 := by omega
  have eq : binary_tree_structure.parent_of (2 * (N - 2 - k) + 1) = N - 2 - k := by
    unfold binary_tree_structure.parent_of; omega
  rw [el, eq, show 2 * (N - 2 - k) + 1 + 1 = 2 * (N - 2 - k) + 2 by omega]
  have hfix := ctor_tree_structure_fixpoint N B hN hB (N - 2 - k) (by omega)
  split
  · rename_i hc
    rw [hc] at hfix
    exact set_leaf_of_not_inner _ _ hfix
  · rfl

end tree_mask_lo

namespace tree_mask_lo

open bitmap_tree

/-- The leaves after the pruning pass are the topmost nodes whose range holds
equal bits, and the label of a leaf is the bit of its range. -/
theorem is_leaf_at_exact (B : List Bool) (H : Nat) (hB : B.length = 2 ^ H) (cs : List Bool)
    (hcs : cs.length ≤ H) :
    ((ctor_tree_structure (2 ^ H) B).is_leaf_at cs ↔
      uniform (covered B H cs) ∧ (cs = [] ∨ ¬ uniform (covered B H cs.dropLast))) ∧
    ((ctor_tree_structure (2 ^ H) B).is_leaf_at cs →
      ∀ x ∈ covered B H cs,
        x = (ctor_labels (2 ^ H) B).getD (binary_tree_structure.node_from 0 cs) false) := by
  have hT : (prune (complete H B)).height ≤ H :=
    le_trans (height_prune _) (le_of_eq (height_complete H B))
  have hbits : to_bits H (prune (complete H B)) = B := by
    rw [to_bits_prune _ _ (le_of_eq (height_complete H B)), to_bits_complete H B hB]
  have hpr := is_pruned_prune (complete H B)
  have hleaf : (ctor_tree_structure (2 ^ H) B).is_leaf_at cs →
      node_at cs (prune (complete H B))
        = some (leaf ((ctor_labels (2 ^ H) B).getD (binary_tree_structure.node_from 0 cs) false)) :=
    fun h => (is_leaf_at_iff B H hB cs _).2 ⟨h, rfl⟩
  have hcov : ∀ (p : List Bool) (b : Bool), node_at p (prune (complete H B)) = some (leaf b) →
      covered B H p = List.replicate (2 ^ (H - p.length)) b := by
    intro p b hp
    rw [covered_eq B H _ _ p hT hbits hp]
    rfl
  refine ⟨⟨fun h => ?_, fun h => ?_⟩, fun h x hx => ?_⟩
  · have hn := hleaf h
    refine ⟨by rw [hcov cs _ hn]; exact uniform_replicate _ _, ?_⟩
    by_cases hnil : cs = []
    · exact Or.inl hnil
    · refine Or.inr ?_
      have hsplit := List.dropLast_append_getLast hnil
      rw [← hsplit, node_at_append] at hn
      cases hy : node_at cs.dropLast (prune (complete H B)) with
      | none => rw [hy] at hn; cases hn
      | some y =>
        rw [hy] at hn
        have hin : y.is_inner_node = true := by
          cases y with
          | leaf b =>
            exfalso
            revert hn
            cases cs.getLast hnil <;> simp [node_at]
          | inner _ _ => rfl
        rw [covered_eq B H _ y _ hT hbits hy]
        exact not_uniform_of_inner y _
          (by have := (to_bits_node_at _ _ y H hT hy).1; omega)
          (is_pruned_node_at _ _ y hpr hy) hin
  · obtain ⟨hu, hpar⟩ := h
    rcases node_at_or_leaf cs (prune (complete H B)) with ⟨x, hx⟩ | ⟨k, b, hk, hb⟩
    · have hxin : x.is_inner_node = false := by
        by_contra hc
        have hc' : x.is_inner_node = true := by simpa using hc
        rw [covered_eq B H _ x _ hT hbits hx] at hu
        exact not_uniform_of_inner x _
          (by have := (to_bits_node_at _ _ x H hT hx).1; omega)
          (is_pruned_node_at _ _ x hpr hx) hc' hu
      rw [eq_leaf_of_not_inner _ hxin] at hx
      exact ((is_leaf_at_iff B H hB cs _).1 hx).1
    · exfalso
      have hnil : cs ≠ [] := by
        intro e
        rw [e] at hk
        cases hk
      rcases hpar with e | hnu
      · exact hnil e
      · apply hnu
        have hd : cs.dropLast = cs.take k ++ (cs.drop k).take (cs.length - 1 - k) := by
          rw [List.dropLast_eq_take, show cs.length - 1 = k + (cs.length - 1 - k) by omega,
            List.take_add]
          congr 2
          omega
        have hlen : (cs.take k ++ (cs.drop k).take (cs.length - 1 - k)).length ≤ H := by
          rw [← hd, List.length_dropLast]
          omega
        have hmono := covered_mono B H hB _ _ hlen
        rw [hcov _ b hb] at hmono
        rw [hd]
        intro x hx y hy
        rw [(List.mem_replicate.1 (hmono x hx)).2, (List.mem_replicate.1 (hmono y hy)).2]
  · rw [hcov cs _ (hleaf h)] at hx
    exact (List.mem_replicate.1 hx).2

end tree_mask_lo

namespace teb

theorem count_trailing_1bits_replicate (a b : Nat) :
    count_trailing_1bits (List.replicate a true ++ List.replicate b false) = a := by
  induction a with
  | zero =>
    cases b with
    | zero => rfl
    | succ b => rfl
  | succ a ih =>
    rw [List.replicate_succ, List.cons_append, count_trailing_1bits, ih]

theorem dropWhile_rtakeWhile_replicate (a b : Nat) :
    ((List.replicate a true ++ List.replicate b false).dropWhile (· == true)).rtakeWhile
      (· == false) = List.replicate b false := by
  have h1 : (List.replicate a true ++ List.replicate b false).dropWhile (· == true)
      = List.replicate b false := by
    induction a with
    | zero =>
      cases b with
      | zero => rfl
      | succ b => rfl
    | succ a ih =>
      rw [List.replicate_succ, List.cons_append, List.dropWhile_cons_of_pos (by rfl), ih]
  rw [h1, List.rtakeWhile_eq_self_iff]
  intro x hx
  rw [(List.mem_replicate.1 hx).2]
  rfl

/-- The fields of a TEB built at an optimization level `>= 1` from a tree whose
level-order structure is `1^a 0^b`: all bits are trimmed, and the counter of
the trailing leaves holds `b` modulo `2 ^ 32`. -/
theorem ctor_fields_of_trimmed (B : List Bool) (o : Nat) (f : ℚ) (ho : 0 < o) (a b : Nat)
    (hS : (bitmap_tree.ctor B f).lo_structure
      = List.replicate a true ++ List.replicate b false) :
    (ctor B o f).structure_ = [] ∧ (ctor B o f).implicit_inner_node_cnt_ = a ∧
    (ctor B o f).implicit_leaf_node_cnt_ = b % 2 ^ 32 ∧
    (ctor B o f).labels_.length = b := by
  have henc := ctor_encodes B o f
  obtain ⟨il, h1, h2, h3⟩ := henc.counts
  have hII : (ctor B o f).implicit_inner_node_cnt_ = a := by
    simp only [ctor, if_pos ho, encode_eq]
    rw [show (bitmap_tree.ctor B f).breadth_first.map bitmap_tree.is_inner_node
      = (bitmap_tree.ctor B f).lo_structure from rfl, hS]
    exact count_trailing_1bits_replicate a b
  have hst : (ctor B o f).structure_ = [] := by
    simp only [ctor, if_pos ho, encode_eq]
    rw [show (bitmap_tree.ctor B f).breadth_first.map bitmap_tree.is_inner_node
      = (bitmap_tree.ctor B f).lo_structure from rfl, hS, count_trailing_1bits_replicate,
      List.drop_left' (List.length_replicate _ _)]
    rw [pop_back_0bits_eq _ _ _ (le_refl _) (by positivity)]
    simp only
    rw [List.rdropWhile_eq_nil_iff]
    intro x hx
    rw [(List.mem_replicate.1 hx).2]
    rfl
  have hlen : (bitmap_tree.ctor B f).node_cnt = a + b := by
    rw [← bitmap_tree.length_breadth_first]
    have := congrArg List.length hS
    simpa [bitmap_tree.lo_structure] using this
  rw [hst, hII] at h2
  rw [hst] at h3
  simp only [List.length_nil, List.count_nil] at h2 h3
  have hil : il = b := by omega
  subst hil
  exact ⟨hst, hII, h1, by omega⟩

/-- The TEB of the bitmap `0101...01` of length `2 ^ 32` at an optimization
level `>= 1`: the tree is the complete tree with `2 ^ 32` leaves, the whole
structure `1^(2^32 - 1) 0^(2^32)` is trimmed, and the 32-bit counter of the
trailing leaves has wrapped to 0. -/
theorem ctor_alternating_trimmed (o : Nat) (ho : 0 < o) :
    bitmap_tree.ctor bitmap_01_2_32 0 = bitmap_tree.alternating 31 ∧
    (bitmap_tree.alternating 31).lo_structure
      = List.replicate (2 ^ 32 - 1) true ++ List.replicate (2 ^ 32) false ∧
    (ctor bitmap_01_2_32 o 0).structure_ = [] ∧
    (ctor bitmap_01_2_32 o 0).implicit_inner_node_cnt_ = 2 ^ 32 - 1 ∧
    (ctor bitmap_01_2_32 o 0).implicit_leaf_node_cnt_ = 0 ∧
    (ctor bitmap_01_2_32 o 0).labels_.length = 2 ^ 32 := by
  have hh : (bitmap_tree.alternating 31).height ≤ 32 := by
    rw [bitmap_tree.height_alternating]
  have hT : bitmap_tree.ctor bitmap_01_2_32 0 = bitmap_tree.alternating 31 := by
    rw [bitmap_tree.bitmap_01_2_32_eq,
      bitmap_tree.ctor_of_pruned _ 32 hh (bitmap_tree.is_pruned_alternating 31)]
  have hS : (bitmap_tree.alternating 31).lo_structure
      = List.replicate (2 ^ 32 - 1) true ++ List.replicate (2 ^ 32) false := by
    have := bitmap_tree.lo_flags_alternating 31 1
    rw [Nat.one_mul, Nat.one_mul] at this
    unfold bitmap_tree.lo_structure
    rw [bitmap_tree.breadth_first_eq_level_order]
    exact this
  obtain ⟨g1, g2, g3, g4⟩ := ctor_fields_of_trimmed bitmap_01_2_32 o 0 ho _ _ (by rw [hT]; exact hS)
  exact ⟨hT, hS, g1, g2, by rw [g3]; exact Nat.mod_self _, g4⟩

end teb

theorem teb.length_of_trimmed (S st : List Bool) (a c : Nat)
    (h : S = List.replicate a true ++ st ++ List.replicate c false) :
    S.length = a + st.length + c := by
  rw [h]
  simp
  omega

namespace teb

/-- At an optimization level `>= 1` the TEB of the bits of a pruned tree
consists of the trimmed level-order encoding of that tree. -/
theorem ctor_level_pos_of_pruned (t : bitmap_tree) (h o : Nat) (hh : t.height ≤ h)
    (hp : t.is_pruned = true) (ho : 0 < o) :
    ctor (bitmap_tree.to_bits h t) o 0
      = ⟨2 ^ h,
          (pop_back_0bits
            ((encode t.breadth_first).1.drop
              (count_trailing_1bits (encode t.breadth_first).1)).length
            ((encode t.breadth_first).1.drop
              (count_trailing_1bits (encode t.breadth_first).1)) 0).1,
          (encode t.breadth_first).2,
          count_trailing_1bits (encode t.breadth_first).1,
          o,
          (pop_back_0bits
            ((encode t.breadth_first).1.drop
              (count_trailing_1bits (encode t.breadth_first).1)).length
            ((encode t.breadth_first).1.drop
              (count_trailing_1bits (encode t.breadth_first).1)) 0).2⟩ := by
  unfold ctor
  simp only [bitmap_tree.ctor_of_pruned t h hh hp, bitmap_tree.length_to_bits t h hh, if_pos ho]

/-- The decoder `to_bitset()` on a tree of height 32 or more whose root is an
inner node with a leaf as left child: the run of that leaf has `2 ^ 31` or more
bits, the shift of line 271 overflows the `int`, and no fuel lets the call
return. -/
theorem to_bitset_aborts (t : teb)
    (hroot : ¬ (t.implicit_inner_node_cnt_ = 0 ∧ t.structure_.length ≤ 1))
    (h0 : t.is_inner_node 0 = true) (h1 : t.is_inner_node (t.left_child 0) = false)
    (hs : 32 ≤ log_2 t.n_) : ∀ fuel, t.to_bitset fuel = Option.none := by
  intro fuel
  unfold to_bitset
  simp only
  rw [if_neg hroot]
  rcases fuel with _ | _ | fuel
  · rfl
  · simp only [to_bitset_loop, h0, if_true]
  · simp only [to_bitset_loop, h0, h1, if_true, Bool.false_eq_true, if_false]
    rw [if_neg (by omega)]

end teb

/-! ## Lemmas: the reported fill is the range of one leaf -/

namespace iter

/-- One call of `next()` on a stack whose entries are nodes of the tree, each
with the choice bits that lead to it: the entries of the new stack are such
nodes, and a reported fill is the range of a 1-labelled leaf. -/
theorem next_leaf {tm : teb} {T : bitmap_tree} (henc : tm.Encodes T) (H : Nat)
    (hn : tm.n_ = 2 ^ H) (hH : H ≤ 31) (hT : T.height ≤ H) :
    ∀ (fuel : Nat) (xs : List entry) (e path0 level0 pos0 len0 : Nat) (it' : iter),
      chain T H e xs →
      (∀ x ∈ xs, ∃ cs : List Bool, cs.length = x.level ∧ path_from 0 cs = x.offset ∧
        bitmap_tree.node_at cs T = some x.node) →
      next tm fuel ⟨xs.map entry.pack, path0, level0, pos0, len0⟩ = some it' →
      ∃ (xs' : List entry) (e' : Nat), it'.stack_ = xs'.map entry.pack ∧ chain T H e' xs' ∧
        (∀ x ∈ xs', ∃ cs : List Bool, cs.length = x.level ∧ path_from 0 cs = x.offset ∧
          bitmap_tree.node_at cs T = some x.node) ∧
        (it'.pos_ ≠ 2 ^ H → ∃ cs : List Bool, cs.length ≤ H ∧
          bitmap_tree.node_at cs T = some (bitmap_tree.leaf true) ∧
          it'.pos_ = path_from 0 cs * 2 ^ (H - cs.length) ∧
          it'.length_ = 2 ^ (H - cs.length)) := by
  intro fuel
  induction fuel with
  | zero =>
    intro xs e path0 level0 pos0 len0 it' hch hon hnext
    cases xs with
    | nil =>
      simp only [List.map_nil, next, Option.some.injEq] at hnext
      subst hnext
      exact ⟨[], 0, rfl, trivial, hon, fun h => absurd hn h⟩
    | cons x xs => simp [next] at hnext
  | succ fuel ih =>
    intro xs e path0 level0 pos0 len0 it' hch hon hnext
    cases xs with
    | nil =>
      simp only [List.map_nil, next, Option.some.injEq] at hnext
      subst hnext
      exact ⟨[], 0, rfl, trivial, hon, fun h => absurd hn h⟩
    | cons x xs =>
      obtain ⟨hx, hex, hrest⟩ := hch
      obtain ⟨hu1, hu2⟩ := entry.unpack T H x hH hT hx
      obtain ⟨hb1, hb2, hb3⟩ := entry.bounds T H x hH hT hx
      have honx := hon x (List.mem_cons_self _ _)
      have honxs : ∀ y ∈ xs, ∃ cs : List Bool, cs.length = y.level ∧ path_from 0 cs = y.offset ∧
          bitmap_tree.node_at cs T = some y.node :=
        fun y hy => hon y (List.mem_cons_of_mem _ hy)
      simp only [List.map_cons, next, hu1, hu2] at hnext
      split at hnext
      · -- the early exit
        simp only [Option.some.injEq] at hnext
        subst hnext
        exact ⟨xs, _, rfl, hrest, honxs, fun h => absurd hn h⟩
      · obtain ⟨k, lv, j, c⟩ := x
        have hin := henc.is_inner_node_of k c hx.1
        simp only [teb.is_leaf_node, hin] at hnext
        cases c with
        | inner l r =>
          simp only [bitmap_tree.is_inner_node, Bool.not_true, Bool.not_false, if_true] at hnext
          obtain ⟨hvl, hvr, hf1, hf2, hf3⟩ := entry.children_valid henc H k lv j l r hx
          have hpath : u64_shl (entry.path ⟨k, lv, j, bitmap_tree.inner l r⟩) 1
              = entry.path ⟨2 * tm.rank (k + 1) - 1, lv + 1, 2 * j, l⟩ := by
            rw [u64_shl_eq _ _ (by
              have : (2 : Nat) ^ 32 * 2 ^ 1 < 2 ^ 64 := by decide
              have := Nat.mul_lt_mul_of_pos_right hb2 (show 0 < 2 ^ 1 by decide)
              omega)]
            simp only [entry.path, pow_succ]
            ring
          have hpath2 : u64_shl (entry.path ⟨k, lv, j, bitmap_tree.inner l r⟩) 1 ||| 1
              = entry.path ⟨2 * tm.rank (k + 1), lv + 1, 2 * j + 1, r⟩ := by
            rw [hpath]
            simp only [entry.path, pow_succ]
            rw [show 2 ^ lv * 2 + 2 * j = 2 * (2 ^ lv + j) by ring, or_one_of_even]
            ring
          have hstack : (u64_shl (2 * tm.rank (k + 1) - 1) 32
                ||| u64_shl (entry.path ⟨k, lv, j, bitmap_tree.inner l r⟩) 1)
              :: (u64_shl (2 * tm.rank (k + 1)) 32
                ||| (u64_shl (entry.path ⟨k, lv, j, bitmap_tree.inner l r⟩) 1 ||| 1))
              :: xs.map entry.pack
              = List.map entry.pack (⟨2 * tm.rank (k + 1) - 1, lv + 1, 2 * j, l⟩
                  :: ⟨2 * tm.rank (k + 1), lv + 1, 2 * j + 1, r⟩ :: xs) := by
            simp only [List.map_cons, entry.pack]
            rw [hpath2, hpath]
          rw [hstack] at hnext
          obtain ⟨cs, hc1, hc2, hc3⟩ := honx
          simp only at hc1 hc2 hc3
          refine ih _ e path0 level0 pos0 len0 it' ?_ ?_ hnext
          · exact ⟨hvl, by rw [hf1]; exact hex, hvr, by rw [hf2], by rw [hf3]; exact hrest⟩
          · intro y hy
            rcases List.mem_cons.mp hy with rfl | hy
            · refine ⟨cs ++ [false], by simp [hc1], ?_, ?_⟩
              · rw [path_from_append, hc2]; rfl
              · rw [bitmap_tree.node_at_append, hc3]; rfl
            · rcases List.mem_cons.mp hy with rfl | hy
              · refine ⟨cs ++ [true], by simp [hc1], ?_, ?_⟩
                · rw [path_from_append, hc2]; rfl
                · rw [bitmap_tree.node_at_append, hc3]; rfl
              · exact honxs y hy
        | leaf b =>
          simp only [bitmap_tree.is_inner_node, Bool.not_false, Bool.not_true,
            Bool.false_eq_true, if_false] at hnext
          have hlab : tm.get_label k = b := by
            simp only [teb.get_label, teb.get_label_idx, List.getD_eq_getElem?_getD]
            exact henc.label_of_leaf k b hx.1
          rw [hlab] at hnext
          cases b with
          | false =>
            simp only [Bool.false_eq_true, if_false] at hnext
            exact ih xs _ path0 level0 pos0 len0 it' hrest honxs hnext
          | true =>
            obtain ⟨hd1, hd2, hd3, hd4, hd5⟩ :=
              entry.decode_path H ⟨k, lv, j, bitmap_tree.leaf true⟩ hH hb3 hx.2.2.1 tm.n_ hn
            simp only [if_true, tree_height, hd1, hd2, hd3, Option.some.injEq] at hnext
            subst hnext
            obtain ⟨cs, hc1, hc2, hc3⟩ := honx
            simp only at hc1 hc2 hc3 hb3
            refine ⟨xs, _, rfl, hrest, honxs, fun _ => ⟨cs, by omega, hc3, ?_, ?_⟩⟩
            · show entry.first H ⟨k, lv, j, bitmap_tree.leaf true⟩ = _
              rw [hc1, hc2]; rfl
            · show 2 ^ (H - lv) = _
              rw [hc1]

/-- Every state that the constructor and `next()` produce is exhausted or
reports the range of a 1-labelled leaf of the encoded tree. -/
theorem reachable_leaf {tm : teb} {T : bitmap_tree} (henc : tm.Encodes T) (H : Nat)
    (hn : tm.n_ = 2 ^ H) (hH : H ≤ 31) (hT : T.height ≤ H)
    (it : iter) (hr : reachable tm it) :
    ∃ (xs : List entry) (e : Nat), it.stack_ = xs.map entry.pack ∧ chain T H e xs ∧
      (∀ x ∈ xs, ∃ cs : List Bool, cs.length = x.level ∧ path_from 0 cs = x.offset ∧
        bitmap_tree.node_at cs T = some x.node) ∧
      (it.pos_ ≠ 2 ^ H → ∃ cs : List Bool, cs.length ≤ H ∧
        bitmap_tree.node_at cs T = some (bitmap_tree.leaf true) ∧
        it.pos_ = path_from 0 cs * 2 ^ (H - cs.length) ∧
        it.length_ = 2 ^ (H - cs.length)) := by
  induction hr with
  | ctor fuel it hctor =>
    have h0 := teb.breadth_first_zero T
    have hin := henc.is_inner_node_of 0 T h0
    unfold ctor at hctor
    simp only [teb.is_leaf_node, hin] at hctor
    cases T with
    | leaf b =>
      have hlab : tm.get_label 0 = b := by
        simp only [teb.get_label, teb.get_label_idx, List.getD_eq_getElem?_getD]
        exact henc.label_of_leaf 0 b h0
      simp only [bitmap_tree.is_inner_node, Bool.not_false, if_true, hlab] at hctor
      cases b with
      | false =>
        simp only [Bool.false_eq_true, if_false, Option.some.injEq] at hctor
        subst hctor
        exact ⟨[], 0, rfl, trivial, fun x hx => absurd hx (List.not_mem_nil _),
          fun h => absurd hn h⟩
      | true =>
        simp only [if_true, Option.some.injEq] at hctor
        subst hctor
        refine ⟨[], 0, rfl, trivial, fun x hx => absurd hx (List.not_mem_nil _),
          fun _ => ⟨[], Nat.zero_le _, rfl, ?_, ?_⟩⟩
        · simp [path_from]
        · simp [hn]
    | inner l r =>
      simp only [bitmap_tree.is_inner_node, Bool.not_true, Bool.false_eq_true, if_false] at hctor
      have hroot : entry.valid (bitmap_tree.inner l r) H ⟨0, 0, 0, bitmap_tree.inner l r⟩ := by
        refine ⟨h0, by simpa using hT, by simp, ?_⟩
        have hlen := bitmap_tree.length_to_bits _ _ hT
        simp only [entry.first, Nat.zero_mul, List.drop_zero, Nat.sub_zero]
        rw [List.take_of_length_le (by omega)]
      have hst : [u64_shl 0 32 ||| 1]
          = List.map entry.pack [⟨0, 0, 0, bitmap_tree.inner l r⟩] := by
        simp [entry.pack, entry.path]
      rw [hst] at hctor
      refine next_leaf henc H hn hH hT fuel _ 0 _ _ _ _ it
        (show chain _ H 0 [_] from ⟨hroot, Nat.zero_le _, trivial⟩) ?_ hctor
      intro x hx
      rw [List.mem_singleton] at hx
      subst hx
      exact ⟨[], rfl, rfl, rfl⟩
  | next fuel it it' _ h ih =>
    obtain ⟨xs, e, hst, hch, hon, _⟩ := ih
    obtain ⟨stack_, path_, level_, pos_, length_⟩ := it
    simp only at hst
    subst hst
    exact next_leaf henc H hn hH hT fuel xs e _ _ _ _ it' hch hon h

end iter

/-- A positive power of two is recognised by `2 ^ log_2 n = n`. -/
theorem two_pow_log_2_iff (n : Nat) : (n ≠ 0 ∧ 2 ^ log_2 n = n) ↔ ∃ H, n = 2 ^ H := by
  constructor
  · rintro ⟨_, h⟩
    exact ⟨log_2 n, h.symm⟩
  · rintro ⟨H, rfl⟩
    exact ⟨by positivity, by rw [log_2_two_pow]⟩

/-! ## The claims -/

set_option maxRecDepth 1000000 in
/-- Counterexample to C1 as stated: the bitmap of length `2 ^ 32` whose only
set bit is position `2 ^ 31`, encoded with fpr 0 at optimization level 0.  The
left child of the root is a 0-leaf on level 1 that covers `2 ^ 31` positions;
`to_bitset()` computes its run length as `1 << 31` on a 32-bit `int` (line 271)
and counts the written bits with an `int` (line 273): the shift overflows, and
with no amount of fuel does the call return a bitmap. -/
theorem C1_to_bitset_undefined_at_height_32 :
    bitmap_2_31.length = 2 ^ 32 ∧
    ∀ fuel, (teb.ctor bitmap_2_31 0 0).to_bitset fuel = none := by
  rw [bitmap_tree.bitmap_2_31_eq, teb.ctor_level_0_of_pruned _ 32 (by decide) (by decide)]
  exact ⟨bitmap_tree.length_to_bits _ 32 (by decide),
    teb.to_bitset_aborts _ (by decide) (by decide) (by decide) (by decide)⟩

/-- C1 as amended: for every bitmap `B` of length `2 ^ H` with `H ≤ 31` and
every optimization level, the TEB built from `B` with fpr 0 decodes back to
`B`: with enough fuel for the decoding loop (`2 * N` iterations suffice)
`to_bitset` returns `B`. -/
theorem C1_to_bitset_round_trip (B : List Bool) (H opt_level fuel : Nat)
    (hB : B.length = 2 ^ H) (hH : H ≤ 31) (hfuel : 2 * B.length ≤ fuel) :
    (teb.ctor B opt_level 0).to_bitset fuel = some B := by
  rw [teb.ctor_to_bitset B opt_level 0 H fuel hB hH (bitmap_tree.height_ctor_zero B H hB) hfuel,
    bitmap_tree.to_bits_ctor_zero B H hB]

/-- Witness of C1 as amended: the bitmap `11001100` of length `8 = 2 ^ 3` at
the default optimization level 3. -/
theorem C1_to_bitset_round_trip_witness :
    [true, true, false, false, true, true, false, false].length = 2 ^ 3 ∧
    3 ≤ 31 ∧
    2 * [true, true, false, false, true, true, false, false].length ≤ 16 ∧
    (teb.ctor [true, true, false, false, true, true, false, false] 3 0).to_bitset 16
      = some [true, true, false, false, true, true, false, false] :=
  ⟨by decide, by decide, by decide,
    C1_to_bitset_round_trip [true, true, false, false, true, true, false, false] 3 3 16
      (by decide) (by decide) (by decide)⟩

/-- C2: for every bitmap `B` of power-of-two length, every optimization level
and every position `p < N`, `test(p)` on the TEB built from `B` with fpr 0
returns the bit `B[p]`. -/
theorem C2_test_point_lookup (B : List Bool) (H opt_level p : Nat)
    (hB : B.length = 2 ^ H) (hp : p < B.length) :
    (teb.ctor B opt_level 0).test p = B[p]? := by
  rw [(teb.ctor_encodes B opt_level 0).test_spec H p (by rw [teb.ctor_n, hB])
    (bitmap_tree.height_ctor_zero B H hB) (by omega),
    bitmap_tree.to_bits_ctor_zero B H hB, List.getD_eq_getElem?_getD,
    List.getElem?_eq_getElem hp]
  rfl

/-- Witness of C2: position 3 of the bitmap `00010000` (scenario S3). -/
theorem C2_test_point_lookup_witness :
    [false, false, false, true, false, false, false, false].length = 2 ^ 3 ∧
    3 < [false, false, false, true, false, false, false, false].length ∧
    (teb.ctor [false, false, false, true, false, false, false, false] 3 0).test 3
      = [false, false, false, true, false, false, false, false][3]? :=
  ⟨by decide, by decide,
    C2_test_point_lookup [false, false, false, true, false, false, false, false] 3 3 3
      (by decide) (by decide)⟩

/-- C3 (code defect): decoding by iteration does not reproduce the bitmap at
the constructor's default optimization level.  For `B = 11110000` the
level-order structure `100` is trimmed to the empty structure with one
implicit inner node; `next()` pops the root, finds `node_idx = 0 >=
structure_.size() = 0`, and leaves its loop, so `decode_using_iterator`
returns `00000000`. -/
theorem C3_decode_using_iterator_misses_fills :
    decode_using_iterator 100
        (teb.ctor [true, true, true, true, false, false, false, false] 3 0)
      = some [false, false, false, false, false, false, false, false] := by
  decide

/-- C4 (code defect): for `B = 11001100` the claim expects `nav_to(3)` to
report the fill `(4, 2)`.  `nav_to` reaches the 0-leaf that covers position 3
and calls `next()`, which stops at `node_idx >= structure_.size()`: the
iterator ends up exhausted although `B[4]` is set.  The second call of the
scenario, `nav_to(1)`, reports `(1, 1)` as claimed. -/
theorem C4_nav_to_exhausted_before_set_bit :
    (((teb.ctor [true, true, false, false, true, true, false, false] 3 0).it 100).bind
        (iter.nav_to (teb.ctor [true, true, false, false, true, true, false, false] 3 0) 100 3)).map
      (fun it => (it.pos, it.length (teb.ctor [true, true, false, false, true, true, false, false] 3 0)))
      = some (8, 0) ∧
    [true, true, false, false, true, true, false, false][4]? = some true ∧
    (((teb.ctor [true, true, false, false, true, true, false, false] 3 0).it 100).bind
        (iter.nav_to (teb.ctor [true, true, false, false, true, true, false, false] 3 0) 100 1)).map
      (fun it => (it.pos, it.length (teb.ctor [true, true, false, false, true, true, false, false] 3 0)))
      = some (1, 1) := by
  decide

set_option maxRecDepth 1000000 in
/-- Counterexample to C5 as stated: the bitmap of length `2 ^ 32` with set bits
0, 1, 2, 3 and `2 ^ 31`, encoded at optimization level 0.  The iterator first
reports `(0, 4)`.  The 1-leaf of position `2 ^ 31` lies on level 32, its path
`2 ^ 32 + 2 ^ 31` does not fit the 32 bits that a stack entry keeps for the
path, and the entry is decoded as the fill `(0, 2)`: the next emission starts
before the end of the previous one. -/
theorem C5_order_violated_at_height_32 :
    bitmap_0_3_and_2_31.length = 2 ^ 32 ∧
    ((teb.ctor bitmap_0_3_and_2_31 0 0).it 300).map
        (fun it => (it.end (teb.ctor bitmap_0_3_and_2_31 0 0), it.pos,
          it.length (teb.ctor bitmap_0_3_and_2_31 0 0)))
      = some (false, 0, 4) ∧
    (((teb.ctor bitmap_0_3_and_2_31 0 0).it 300).bind
        (iter.next (teb.ctor bitmap_0_3_and_2_31 0 0) 300)).map
        (fun it => (it.end (teb.ctor bitmap_0_3_and_2_31 0 0), it.pos,
          it.length (teb.ctor bitmap_0_3_and_2_31 0 0)))
      = some (false, 0, 2) := by
  rw [bitmap_tree.bitmap_0_3_and_2_31_eq,
    teb.ctor_level_0_of_pruned _ 32 (by decide) (by decide)]
  exact ⟨bitmap_tree.length_to_bits _ 32 (by decide), by decide, by decide⟩

/-- C5 as amended: on the TEB built from a bitmap of length `2 ^ H` with
`H ≤ 31` (any optimization level, any fpr), two consecutive emissions of the
iterator, the second obtained from the first by one `next()` call and neither
at the end, satisfy `p1 + l1 ≤ p2`; since `l1 > 0` the positions increase
strictly. -/
theorem C5_fills_ascending_disjoint (B : List Bool) (H opt_level fuel : Nat) (f : ℚ)
    (it it' : iter) (hB : B.length = 2 ^ H) (hH : H ≤ 31)
    (hreach : iter.reachable (teb.ctor B opt_level f) it)
    (hnext : iter.next (teb.ctor B opt_level f) fuel it = some it')
    (h1 : it.end (teb.ctor B opt_level f) = false)
    (h2 : it'.end (teb.ctor B opt_level f) = false) :
    it.pos + it.length (teb.ctor B opt_level f) ≤ it'.pos ∧ it.pos < it'.pos := by
  have henc := teb.ctor_encodes B opt_level f
  have hn : (teb.ctor B opt_level f).n_ = 2 ^ H := by rw [teb.ctor_n, hB]
  have hT := (bitmap_tree.ctor_spec B H f hB).1
  have hinv := iter.inv_reachable henc H hn hH hT it hreach
  obtain ⟨hinv', hord⟩ := iter.inv_next henc H hn hH hT fuel it it' hinv hnext
  obtain ⟨a1, a2, a3, _, _⟩ := iter.inv_accessors H hn it hinv h1
  obtain ⟨b1, _, _, _, _⟩ := iter.inv_accessors H hn it' hinv' h2
  have := hord a1 b1
  simp only [iter.pos, a2]
  omega

/-- Witness of C5 as amended: the two emissions `(0, 4)` and `(4, 2)` of the
iterator over the TEB of `11111110`. -/
theorem C5_fills_ascending_disjoint_witness :
    [true, true, true, true, true, true, true, false].length = 2 ^ 3 ∧ 3 ≤ 31 ∧
    iter.reachable (teb.ctor [true, true, true, true, true, true, true, false] 3 0)
      ⟨[8589934595], 2, 1, 0, 4⟩ ∧
    iter.next (teb.ctor [true, true, true, true, true, true, true, false] 3 0) 100
        ⟨[8589934595], 2, 1, 0, 4⟩ = some ⟨[17179869191], 6, 2, 4, 2⟩ ∧
    iter.end (teb.ctor [true, true, true, true, true, true, true, false] 3 0)
      ⟨[8589934595], 2, 1, 0, 4⟩ = false ∧
    iter.end (teb.ctor [true, true, true, true, true, true, true, false] 3 0)
      ⟨[17179869191], 6, 2, 4, 2⟩ = false ∧
    (iter.pos ⟨[8589934595], 2, 1, 0, 4⟩
        + iter.length (teb.ctor [true, true, true, true, true, true, true, false] 3 0)
            ⟨[8589934595], 2, 1, 0, 4⟩
        ≤ iter.pos ⟨[17179869191], 6, 2, 4, 2⟩ ∧
      iter.pos ⟨[8589934595], 2, 1, 0, 4⟩ < iter.pos ⟨[17179869191], 6, 2, 4, 2⟩) :=
  ⟨by decide, by decide, iter.reachable.ctor 100 _ (by decide), by decide, by decide, by decide,
    C5_fills_ascending_disjoint [true, true, true, true, true, true, true, false] 3 3 100 0
      ⟨[8589934595], 2, 1, 0, 4⟩ ⟨[17179869191], 6, 2, 4, 2⟩ (by decide) (by decide)
      (iter.reachable.ctor 100 _ (by decide)) (by decide) (by decide) (by decide)⟩

set_option maxRecDepth 1000000 in
/-- Counterexample to C6 as stated.  For `B = 1110` (positions 0, 1, 2 set) the
freshly constructed iterator reports the fill `(0, 2)`, the range of the 1-leaf
that covers positions 0 and 1, although `B[2]` is set: the fill is not a
maximal run.  For the bitmap of length `2 ^ 32` whose only set bit is position
`2 ^ 31` (optimization level 0) the path of the 1-leaf does not fit the 32 bits
of a stack entry and the iterator reports `(0, 2)` although bit 0 is not
set. -/
theorem C6_reported_fill_not_maximal :
    (((teb.ctor [true, true, true, false] 3 0).it 100).map
        (fun it => (it.end (teb.ctor [true, true, true, false] 3 0), it.pos,
          it.length (teb.ctor [true, true, true, false] 3 0)))
      = some (false, 0, 2) ∧
     0 + 2 < [true, true, true, false].length ∧
     [true, true, true, false][0 + 2]? = some true) ∧
    (bitmap_2_31.length = 2 ^ 32 ∧
     ((teb.ctor bitmap_2_31 0 0).it 300).map
        (fun it => (it.end (teb.ctor bitmap_2_31 0 0), it.pos,
          it.length (teb.ctor bitmap_2_31 0 0)))
      = some (false, 0, 2) ∧
     bitmap_2_31[0]? = some false) := by
  refine ⟨by decide, ?_⟩
  rw [bitmap_tree.bitmap_2_31_eq, teb.ctor_level_0_of_pruned _ 32 (by decide) (by decide)]
  exact ⟨bitmap_tree.length_to_bits _ 32 (by decide), by decide,
    bitmap_tree.to_bits_head 31 false _⟩

/-- C6 as amended: on the TEB built from a bitmap `B` of length `2 ^ H` with
`H ≤ 31` (any optimization level, fpr 0), every fill `(pos, length)` that the
iterator reports after construction and `next()` calls is a non-empty range
inside the bitmap all of whose bits are set in `B`, and it is the range of one
1-labelled leaf of the encoded tree: there are choice bits `cs` that lead from
the root of the tree of `B` to a leaf with label 1 on level `|cs|`, and the
fill is the range `[d * 2 ^ (H - |cs|), (d + 1) * 2 ^ (H - |cs|))` that this
leaf covers, `d` being the value of the choice bits. -/
theorem C6_reported_fill_is_run_of_set_bits (B : List Bool) (H opt_level : Nat) (it : iter)
    (hB : B.length = 2 ^ H) (hH : H ≤ 31)
    (hreach : iter.reachable (teb.ctor B opt_level 0) it)
    (hend : it.end (teb.ctor B opt_level 0) = false) :
    0 < it.length (teb.ctor B opt_level 0) ∧
    it.pos + it.length (teb.ctor B opt_level 0) ≤ B.length ∧
    (∀ p, it.pos ≤ p → p < it.pos + it.length (teb.ctor B opt_level 0) → B[p]? = some true) ∧
    bitmap_tree.to_bits H (bitmap_tree.ctor B 0) = B ∧
    ∃ cs : List Bool, cs.length ≤ H ∧
      bitmap_tree.node_at cs (bitmap_tree.ctor B 0) = some (bitmap_tree.leaf true) ∧
      it.pos = iter.path_from 0 cs * 2 ^ (H - cs.length) ∧
      it.length (teb.ctor B opt_level 0) = 2 ^ (H - cs.length) := by
  have henc := teb.ctor_encodes B opt_level 0
  have hn : (teb.ctor B opt_level 0).n_ = 2 ^ H := by rw [teb.ctor_n, hB]
  have hT := bitmap_tree.height_ctor_zero B H hB
  have hinv := iter.inv_reachable henc H hn hH hT it hreach
  obtain ⟨a1, a2, a3, a4, a5⟩ := iter.inv_accessors H hn it hinv hend
  obtain ⟨_, _, _, _, _, hleaf⟩ := iter.reachable_leaf henc H hn hH hT it hreach
  obtain ⟨cs, c1, c2, c3, c4⟩ := hleaf a1
  rw [bitmap_tree.to_bits_ctor_zero B H hB] at a5
  simp only [iter.pos, a2, hB]
  exact ⟨a3, a4, a5, bitmap_tree.to_bits_ctor_zero B H hB, cs, c1, c2, c3, c4⟩

/-- Witness of C6 as amended: the fill `(0, 2)` reported for `B = 1110`. -/
theorem C6_reported_fill_is_run_of_set_bits_witness :
    [true, true, true, false].length = 2 ^ 2 ∧ 2 ≤ 31 ∧
    iter.reachable (teb.ctor [true, true, true, false] 3 0) ⟨[8589934595], 2, 1, 0, 2⟩ ∧
    iter.end (teb.ctor [true, true, true, false] 3 0) ⟨[8589934595], 2, 1, 0, 2⟩ = false ∧
    (0 < iter.length (teb.ctor [true, true, true, false] 3 0) ⟨[8589934595], 2, 1, 0, 2⟩ ∧
     iter.pos ⟨[8589934595], 2, 1, 0, 2⟩
        + iter.length (teb.ctor [true, true, true, false] 3 0) ⟨[8589934595], 2, 1, 0, 2⟩
       ≤ [true, true, true, false].length ∧
     (∀ p, iter.pos ⟨[8589934595], 2, 1, 0, 2⟩ ≤ p →
       p < iter.pos ⟨[8589934595], 2, 1, 0, 2⟩
          + iter.length (teb.ctor [true, true, true, false] 3 0) ⟨[8589934595], 2, 1, 0, 2⟩ →
       [true, true, true, false][p]? = some true) ∧
     bitmap_tree.to_bits 2 (bitmap_tree.ctor [true, true, true, false] 0)
       = [true, true, true, false] ∧
     ∃ cs : List Bool, cs.length ≤ 2 ∧
       bitmap_tree.node_at cs (bitmap_tree.ctor [true, true, true, false] 0)
         = some (bitmap_tree.leaf true) ∧
       iter.pos ⟨[8589934595], 2, 1, 0, 2⟩ = iter.path_from 0 cs * 2 ^ (2 - cs.length) ∧
       iter.length (teb.ctor [true, true, true, false] 3 0) ⟨[8589934595], 2, 1, 0, 2⟩
         = 2 ^ (2 - cs.length)) :=
  ⟨by decide, by decide, iter.reachable.ctor 100 _ (by decide), by decide,
    C6_reported_fill_is_run_of_set_bits [true, true, true, false] 2 3 ⟨[8589934595], 2, 1, 0, 2⟩
      (by decide) (by decide) (iter.reachable.ctor 100 _ (by decide)) (by decide)⟩

/-- C7: for every TEB, every iterator state and every `p ≥ N`, `nav_to(p)` and
`skip_to(p)` return the exhausted state: `pos() = N`, `length() = 0` and
`end()` holds.  The TEB is a value that the iterator only reads. -/
theorem C7_nav_to_out_of_range (tm : teb) (it : iter) (fuel p : Nat) (hp : tm.n_ ≤ p) :
    ∃ it', iter.nav_to tm fuel p it = some it' ∧ iter.skip_to tm fuel p it = some it' ∧
      it'.pos = tm.n_ ∧ it'.length tm = 0 ∧ it'.end tm = true := by
  refine ⟨{ it with pos_ := tm.n_, length_ := 0 }, ?_, ?_, rfl, ?_, ?_⟩
  · simp [iter.nav_to, hp]
  · simp [iter.skip_to, iter.nav_to, hp]
  · simp [iter.length]
  · simp [iter.end]

/-- Witness of C7: `nav_to(8)` on the iterator over the TEB of `11111110`. -/
theorem C7_nav_to_out_of_range_witness :
    (teb.ctor [true, true, true, true, true, true, true, false] 3 0).n_ ≤ 8 ∧
    ∃ it', iter.nav_to (teb.ctor [true, true, true, true, true, true, true, false] 3 0) 100 8
        ⟨[8589934595], 2, 1, 0, 4⟩ = some it' ∧
      iter.skip_to (teb.ctor [true, true, true, true, true, true, true, false] 3 0) 100 8
        ⟨[8589934595], 2, 1, 0, 4⟩ = some it' ∧
      it'.pos = (teb.ctor [true, true, true, true, true, true, true, false] 3 0).n_ ∧
      it'.length (teb.ctor [true, true, true, true, true, true, true, false] 3 0) = 0 ∧
      it'.end (teb.ctor [true, true, true, true, true, true, true, false] 3 0) = true :=
  ⟨by decide,
    C7_nav_to_out_of_range (teb.ctor [true, true, true, true, true, true, true, false] 3 0)
      ⟨[8589934595], 2, 1, 0, 4⟩ 100 8 (by decide)⟩

/-- C8: when the root of the encoded tree is a leaf, the freshly constructed
iterator is, for label 1, at the single fill `pos() = 0`, `length() = N` and
exhausted after one `next()`; for label 0 it is exhausted at once (`pos() = N`,
`length() = 0`).  The TEB of a constant bitmap of length `2 ^ H` has such a
root at every optimization level, so the all-ones bitmap yields exactly
`(0, N)` and the all-zero bitmap yields no fill. -/
theorem C8_iterator_single_leaf :
    (∀ (tm : teb) (fuel : Nat), tm.is_leaf_node 0 = true →
      (tm.get_label 0 = true →
        ∃ it, tm.it fuel = some it ∧ it.pos = 0 ∧ it.length tm = tm.n_ ∧
          ∃ it', iter.next tm fuel it = some it' ∧
            it'.end tm = true ∧ it'.pos = tm.n_ ∧ it'.length tm = 0) ∧
      (tm.get_label 0 = false →
        ∃ it, tm.it fuel = some it ∧ it.end tm = true ∧ it.pos = tm.n_ ∧ it.length tm = 0)) ∧
    (∀ (H opt_level fuel : Nat),
      ∃ it, (teb.ctor (List.replicate (2 ^ H) true) opt_level 0).it fuel = some it ∧
        it.end (teb.ctor (List.replicate (2 ^ H) true) opt_level 0) = false ∧
        it.pos = 0 ∧
        it.length (teb.ctor (List.replicate (2 ^ H) true) opt_level 0) = 2 ^ H ∧
        ∃ it', iter.next (teb.ctor (List.replicate (2 ^ H) true) opt_level 0) fuel it = some it' ∧
          it'.end (teb.ctor (List.replicate (2 ^ H) true) opt_level 0) = true) ∧
    (∀ (H opt_level fuel : Nat),
      ∃ it, (teb.ctor (List.replicate (2 ^ H) false) opt_level 0).it fuel = some it ∧
        it.end (teb.ctor (List.replicate (2 ^ H) false) opt_level 0) = true ∧
        it.length (teb.ctor (List.replicate (2 ^ H) false) opt_level 0) = 0) := by
  refine ⟨fun tm fuel hroot => iter.ctor_leaf_root tm fuel hroot, ?_, ?_⟩
  · intro H o fuel
    obtain ⟨h1, h2⟩ := teb.ctor_replicate_root true H o
    have hn : (teb.ctor (List.replicate (2 ^ H) true) o 0).n_ = 2 ^ H := by
      rw [teb.ctor_n, List.length_replicate]
    obtain ⟨it, e1, e2, e3, it', e4, e5, _, _⟩ := (iter.ctor_leaf_root _ fuel h1).1 h2
    refine ⟨it, e1, ?_, e2, by rw [e3, hn], it', e4, e5⟩
    have hpos : 0 < 2 ^ H := Nat.two_pow_pos H
    have hp : it.pos_ = 0 := e2
    simp only [iter.end, hp, hn, beq_eq_false_iff_ne, ne_eq]
    omega
  · intro H o fuel
    obtain ⟨h1, h2⟩ := teb.ctor_replicate_root false H o
    obtain ⟨it, e1, e2, _, e4⟩ := (iter.ctor_leaf_root _ fuel h1).2 h2
    exact ⟨it, e1, e2, e4⟩

/-- Witness of C8: the iterator over the TEB of the all-ones bitmap of length
8 reports `(0, 8)` and is exhausted after one `next()`. -/
theorem C8_iterator_single_leaf_witness :
    (teb.ctor (List.replicate (2 ^ 3) true) 3 0).is_leaf_node 0 = true ∧
    (teb.ctor (List.replicate (2 ^ 3) true) 3 0).get_label 0 = true ∧
    ∃ it, (teb.ctor (List.replicate (2 ^ 3) true) 3 0).it 100 = some it ∧ it.pos = 0 ∧
      it.length (teb.ctor (List.replicate (2 ^ 3) true) 3 0)
        = (teb.ctor (List.replicate (2 ^ 3) true) 3 0).n_ ∧
      ∃ it', iter.next (teb.ctor (List.replicate (2 ^ 3) true) 3 0) 100 it = some it' ∧
        it'.end (teb.ctor (List.replicate (2 ^ 3) true) 3 0) = true ∧
        it'.pos = (teb.ctor (List.replicate (2 ^ 3) true) 3 0).n_ ∧
        it'.length (teb.ctor (List.replicate (2 ^ 3) true) 3 0) = 0 :=
  ⟨by decide, by decide,
    ((C8_iterator_single_leaf.1 (teb.ctor (List.replicate (2 ^ 3) true) 3 0) 100
      (by decide)).1 (by decide))⟩

set_option maxRecDepth 1000000 in
/-- Counterexample to C9 as stated: the bitmap of length `2 ^ 32` whose only
set bit is position `2 ^ 31`, encoded with fpr 0 (a rate in `[0, 1]`) at the
default optimization level 3.  The node after the implicit root is a 0-leaf on
level 1 that covers `2 ^ 31` positions; `to_bitset()` computes its run length
as `1 << 31` on a 32-bit `int` (line 271), the shift overflows, and with no
amount of fuel is there a decoded bitmap `D` to compare with `B`. -/
theorem C9_no_decoded_bitmap_at_height_32 :
    bitmap_2_31.length = 2 ^ 32 ∧ (0 : ℚ) ≤ 0 ∧ (0 : ℚ) ≤ 1 ∧
    ∀ fuel, ¬ ∃ D, (teb.ctor bitmap_2_31 3 0).to_bitset fuel = some D := by
  rw [bitmap_tree.bitmap_2_31_eq,
    teb.ctor_level_pos_of_pruned _ 32 3 (by decide) (by decide) (by decide)]
  refine ⟨bitmap_tree.length_to_bits _ 32 (by decide), le_refl _, zero_le_one, ?_⟩
  intro fuel hD
  obtain ⟨D, hD⟩ := hD
  rw [teb.to_bitset_aborts _ (by decide) (by decide) (by decide) (by decide) fuel] at hD
  exact Option.noConfusion hD

/-- C9 as amended: for every bitmap `B` of length `N = 2 ^ H` with `H ≤ 31`,
every optimization level and every false-positive rate `f` (in particular every
`f` in `[0, 1]`), the bitmap `D` decoded from the TEB built with `f` has the
length of `B`, has no false negatives (`B & D = B`) and differs from `B` in at
most `⌊N · f⌋` positions (`popcount(B xor D) ≤ ⌊N · f⌋`). -/
theorem C9_false_positive_budget (B : List Bool) (H opt_level fuel : Nat) (f : ℚ)
    (hB : B.length = 2 ^ H) (hH : H ≤ 31) (hfuel : 2 * B.length ≤ fuel) :
    ∃ D, (teb.ctor B opt_level f).to_bitset fuel = some D ∧ D.length = B.length ∧
      List.zipWith (· && ·) B D = B ∧
      (List.zipWith xor B D).count true ≤ ⌊(B.length : ℚ) * f⌋₊ := by
  obtain ⟨h1, h2, h3⟩ := bitmap_tree.ctor_spec B H f hB
  exact ⟨_, teb.ctor_to_bitset B opt_level f H fuel hB hH h1 hfuel,
    by rw [bitmap_tree.length_to_bits _ _ h1, hB], h2, h3⟩

/-- Witness of C9 as amended: scenario S6, the bitmap `10000000` with
`fpr = 1/2`. -/
theorem C9_false_positive_budget_witness :
    [true, false, false, false, false, false, false, false].length = 2 ^ 3 ∧
    3 ≤ 31 ∧
    2 * [true, false, false, false, false, false, false, false].length ≤ 16 ∧
    ∃ D, (teb.ctor [true, false, false, false, false, false, false, false] 3 (1 / 2)).to_bitset 16
        = some D ∧
      D.length = [true, false, false, false, false, false, false, false].length ∧
      List.zipWith (· && ·) [true, false, false, false, false, false, false, false] D
        = [true, false, false, false, false, false, false, false] ∧
      (List.zipWith xor [true, false, false, false, false, false, false, false] D).count true
        ≤ ⌊(([true, false, false, false, false, false, false, false].length : ℕ) : ℚ) * (1 / 2)⌋₊ :=
  ⟨by decide, by decide, by decide,
    C9_false_positive_budget [true, false, false, false, false, false, false, false] 3 3 16 (1 / 2)
      (by decide) (by decide) (by decide)⟩

/-- Counterexample to C10 as stated: the TEBs of the all-zero bitmaps of length
4 and of length 8 have different `n_`, and `operator==` returns `true` for
them (`operator!=` returns `false`): `n_` is not compared. -/
theorem C10_eq_ignores_n :
    (teb.ctor [false, false, false, false] 3 0).eq
        (teb.ctor [false, false, false, false, false, false, false, false] 3 0) = true ∧
    (teb.ctor [false, false, false, false] 3 0).ne
        (teb.ctor [false, false, false, false, false, false, false, false] 3 0) = false ∧
    (teb.ctor [false, false, false, false] 3 0).n_ = 4 ∧
    (teb.ctor [false, false, false, false, false, false, false, false] 3 0).n_ = 8 := by
  decide

/-- C10 as amended: for any two TEB values `operator==` returns `true` if and
only if their implicit inner node counts, structures and labels are equal, and
`operator!=` returns the negation. -/
theorem C10_eq_iff (t other : teb) :
    (t.eq other = true ↔
      t.implicit_inner_node_cnt_ = other.implicit_inner_node_cnt_ ∧
      t.structure_ = other.structure_ ∧ t.labels_ = other.labels_) ∧
    t.ne other = !(t.eq other) := by
  refine ⟨?_, rfl⟩
  simp only [teb.eq, Bool.and_eq_true, beq_iff_eq, and_assoc]

/-- Counterexample to C11 as stated: the bitmaps `01` and `0011` have
power-of-two lengths, are distinct and differ in the bit at position 1, and
the TEBs built from them (fpr 0, the same optimization level, 3 or 0) have the
same implicit inner node count, structure and labels, so `operator!=` returns
`false`. -/
theorem C11_ne_false_for_different_lengths :
    [false, true] ≠ [false, false, true, true] ∧
    [false, true][1]? = some true ∧ [false, false, true, true][1]? = some false ∧
    (teb.ctor [false, true] 3 0).ne (teb.ctor [false, false, true, true] 3 0) = false ∧
    (teb.ctor [false, true] 0 0).ne (teb.ctor [false, false, true, true] 0 0) = false := by
  decide

/-- C11 as amended: for any two distinct bitmaps `B1`, `B2` of the same
power-of-two length (they then differ in at least one bit), the TEBs built
from them with fpr 0 at the same optimization level compare unequal. -/
theorem C11_ne_of_same_length (B1 B2 : List Bool) (H opt_level : Nat)
    (h1 : B1.length = 2 ^ H) (h2 : B2.length = 2 ^ H) (hne : B1 ≠ B2) :
    (teb.ctor B1 opt_level 0).ne (teb.ctor B2 opt_level 0) = true := by
  cases he : (teb.ctor B1 opt_level 0).eq (teb.ctor B2 opt_level 0)
  · simp [teb.ne, he]
  · exfalso
    apply hne
    apply List.ext_getElem (by rw [h1, h2])
    intro p hp1 hp2
    have hc := teb.test_congr _ _ p (by rw [teb.ctor_n, teb.ctor_n, h1, h2]) he
    rw [(teb.ctor_encodes B1 opt_level 0).test_spec H p (by rw [teb.ctor_n, h1])
        (bitmap_tree.height_ctor_zero B1 H h1) (by omega),
      (teb.ctor_encodes B2 opt_level 0).test_spec H p (by rw [teb.ctor_n, h2])
        (bitmap_tree.height_ctor_zero B2 H h2) (by omega),
      bitmap_tree.to_bits_ctor_zero B1 H h1, bitmap_tree.to_bits_ctor_zero B2 H h2] at hc
    have hc := Option.some.inj hc
    rw [List.getD_eq_getElem?_getD, List.getD_eq_getElem?_getD, List.getElem?_eq_getElem hp1,
      List.getElem?_eq_getElem hp2] at hc
    exact hc

/-- Witness of C11 as amended: the bitmaps `0001` and `0011` of length
`4 = 2 ^ 2` at optimization level 3. -/
theorem C11_ne_of_same_length_witness :
    [false, false, false, true].length = 2 ^ 2 ∧ [false, false, true, true].length = 2 ^ 2 ∧
    [false, false, false, true] ≠ [false, false, true, true] ∧
    (teb.ctor [false, false, false, true] 3 0).ne (teb.ctor [false, false, true, true] 3 0)
      = true :=
  ⟨by decide, by decide, by decide,
    C11_ne_of_same_length [false, false, false, true] [false, false, true, true] 2 3
      (by decide) (by decide) (by decide)⟩

/-- C12: reads never fail.  For every TEB built from a bitmap of power-of-two
length `N = 2 ^ H` (any optimization level, any fpr) and every position `p`
(every `p < N` in particular; only the low `H` bits of `p` are read), the
descent of `test(p)` reaches a leaf after `j <= H = log2(N)` steps (the nodes
before it are inner nodes), the label index of that leaf lies inside `labels_`,
and `test(p)` returns that label; so `test(p)` is not the fall-through branch. -/
theorem C12_test_never_fails (B : List Bool) (H opt_level p : Nat) (f : ℚ)
    (hB : B.length = 2 ^ H) :
    ∃ j, j ≤ H ∧
      (∀ j', j' < j →
        (teb.ctor B opt_level f).is_leaf_node ((teb.ctor B opt_level f).descend p H 0 j') = false) ∧
      (teb.ctor B opt_level f).is_leaf_node ((teb.ctor B opt_level f).descend p H 0 j) = true ∧
      (teb.ctor B opt_level f).get_label_idx ((teb.ctor B opt_level f).descend p H 0 j)
        < (teb.ctor B opt_level f).labels_.length ∧
      (teb.ctor B opt_level f).test p
        = some ((teb.ctor B opt_level f).labels_.getD
            ((teb.ctor B opt_level f).get_label_idx
              ((teb.ctor B opt_level f).descend p H 0 j)) false) ∧
      (teb.ctor B opt_level f).test p ≠ Option.none := by
  obtain ⟨j, h1, h2, h3, h4, h5⟩ := (teb.ctor_encodes B opt_level f).test_trace H p
    (by rw [teb.ctor_n, hB]) (bitmap_tree.ctor_spec B H f hB).1
  exact ⟨j, h1, h2, h3, h4, h5, by rw [h5]; exact Option.some_ne_none _⟩

/-- Witness of C12: position 5 of the bitmap `11001100` at optimization level 3. -/
theorem C12_test_never_fails_witness :
    [true, true, false, false, true, true, false, false].length = 2 ^ 3 ∧
    ∃ j, j ≤ 3 ∧
      (∀ j', j' < j →
        (teb.ctor [true, true, false, false, true, true, false, false] 3 0).is_leaf_node
          ((teb.ctor [true, true, false, false, true, true, false, false] 3 0).descend 5 3 0 j')
          = false) ∧
      (teb.ctor [true, true, false, false, true, true, false, false] 3 0).is_leaf_node
        ((teb.ctor [true, true, false, false, true, true, false, false] 3 0).descend 5 3 0 j)
        = true ∧
      (teb.ctor [true, true, false, false, true, true, false, false] 3 0).get_label_idx
        ((teb.ctor [true, true, false, false, true, true, false, false] 3 0).descend 5 3 0 j)
        < (teb.ctor [true, true, false, false, true, true, false, false] 3 0).labels_.length ∧
      (teb.ctor [true, true, false, false, true, true, false, false] 3 0).test 5
        = some ((teb.ctor [true, true, false, false, true, true, false, false] 3 0).labels_.getD
            ((teb.ctor [true, true, false, false, true, true, false, false] 3 0).get_label_idx
              ((teb.ctor [true, true, false, false, true, true, false, false] 3 0).descend
                5 3 0 j)) false) ∧
      (teb.ctor [true, true, false, false, true, true, false, false] 3 0).test 5 ≠ Option.none :=
  ⟨by decide,
    C12_test_never_fails [true, true, false, false, true, true, false, false] 3 3 5 0
      (by decide)⟩

/-- C13: for every TEB that the constructor produces from a bitmap `B` of
power-of-two length with fpr 0 (any optimization level), `all()` returns true
if and only if every bit of `B` is set, and `none()` returns true if and only
if no bit of `B` is set. -/
theorem C13_all_none (B : List Bool) (H opt_level : Nat) (hB : B.length = 2 ^ H) :
    ((teb.ctor B opt_level 0).all = true ↔ ∀ x ∈ B, x = true) ∧
    ((teb.ctor B opt_level 0).none = true ↔ ∀ x ∈ B, x = false) := by
  obtain ⟨h1, h2⟩ := (teb.ctor_encodes B opt_level 0).root
  have hiff := bitmap_tree.ctor_zero_eq_leaf_iff B H hB
  simp only [teb.all, teb.none, h1]
  cases hT : bitmap_tree.ctor B 0 with
  | leaf b =>
    rw [hT] at h2
    rw [← hiff true, ← hiff false, hT, h2 b rfl]
    cases b <;> simp [bitmap_tree.is_inner_node]
  | inner l r =>
    rw [← hiff true, ← hiff false, hT]
    simp [bitmap_tree.is_inner_node]

/-- Witness of C13: the bitmap `1111` at optimization level 3. -/
theorem C13_all_none_witness :
    [true, true, true, true].length = 2 ^ 2 ∧
    ((teb.ctor [true, true, true, true] 3 0).all = true
      ↔ ∀ x ∈ [true, true, true, true], x = true) ∧
    ((teb.ctor [true, true, true, true] 3 0).none = true
      ↔ ∀ x ∈ [true, true, true, true], x = false) :=
  ⟨by decide, C13_all_none [true, true, true, true] 2 3 (by decide)⟩

/-- C14: an invalid length is rejected at construction.  The constructor of
the TEB holds no check of its own and constructs the bitmap tree first (line
58); the check of the length is the one of that construction as §4.4 and §7
describe it (`bitmap_tree.ctor_checked`).  For a bitmap whose length is not a
positive power of two the construction of the tree fails with `InvalidLength`,
the constructor of the TEB fails with it, and there is no TEB value.  For a
bitmap whose length is a positive power of two (`2 ^ H` for some `H`) the
construction succeeds with the value `teb.ctor`. -/
theorem C14_invalid_length_rejected (bitmap : List Bool) (opt_level : Nat) (fpr : ℚ) :
    ((¬ ∃ H, bitmap.length = 2 ^ H) →
      bitmap_tree.ctor_checked bitmap fpr = Except.error error_kind.InvalidLength ∧
      teb.ctor_checked bitmap opt_level fpr = Except.error error_kind.InvalidLength ∧
      ¬ ∃ t : teb, teb.ctor_checked bitmap opt_level fpr = Except.ok t) ∧
    ((∃ H, bitmap.length = 2 ^ H) →
      teb.ctor_checked bitmap opt_level fpr = Except.ok (teb.ctor bitmap opt_level fpr)) := by
  constructor
  · intro h
    have hc : ¬ (bitmap.length ≠ 0 ∧ 2 ^ log_2 bitmap.length = bitmap.length) :=
      fun hc => h ((two_pow_log_2_iff _).mp hc)
    have h1 : bitmap_tree.ctor_checked bitmap fpr = Except.error error_kind.InvalidLength := by
      unfold bitmap_tree.ctor_checked
      rw [if_neg hc]
    have h2 : teb.ctor_checked bitmap opt_level fpr
        = Except.error error_kind.InvalidLength := by
      unfold teb.ctor_checked
      rw [h1]
    refine ⟨h1, h2, ?_⟩
    rintro ⟨t, ht⟩
    rw [h2] at ht
    exact Except.noConfusion ht
  · intro h
    have hc := (two_pow_log_2_iff _).mpr h
    unfold teb.ctor_checked bitmap_tree.ctor_checked
    rw [if_pos hc]

/-- Witness of C14: the bitmap `101` of length 3 and the empty bitmap are
rejected with `InvalidLength`; the bitmap `1011` of length `4 = 2 ^ 2` is
accepted. -/
theorem C14_invalid_length_rejected_witness :
    (¬ ∃ H, [true, false, true].length = 2 ^ H) ∧
    (bitmap_tree.ctor_checked [true, false, true] 0 = Except.error error_kind.InvalidLength ∧
      teb.ctor_checked [true, false, true] 3 0 = Except.error error_kind.InvalidLength ∧
      ¬ ∃ t : teb, teb.ctor_checked [true, false, true] 3 0 = Except.ok t) ∧
    teb.ctor_checked [] 3 0 = Except.error error_kind.InvalidLength ∧
    (∃ H, [true, false, true, true].length = 2 ^ H) ∧
    teb.ctor_checked [true, false, true, true] 3 0
      = Except.ok (teb.ctor [true, false, true, true] 3 0) :=
  have h3 : ¬ ∃ H, [true, false, true].length = 2 ^ H := by
    rintro ⟨H, hH⟩
    match H, hH with
    | 0, h => simp at h
    | 1, h => simp at h
    | H + 2, h =>
      have : 4 ≤ 2 ^ (H + 2) := by
        have := Nat.one_le_two_pow (n := H)
        rw [pow_succ, pow_succ]; omega
      simp at h
      omega
  ⟨h3, (C14_invalid_length_rejected [true, false, true] 3 0).1 h3,
    by unfold teb.ctor_checked bitmap_tree.ctor_checked; rw [if_neg (by decide)],
    ⟨2, by decide⟩,
    (C14_invalid_length_rejected [true, false, true, true] 3 0).2 ⟨2, by decide⟩⟩

/-- Counterexample to C15 as stated: the default optimization level of the
constructor is 3, which is outside `{0, 1, 2}`, and the levels 3 and 7 are not
rejected: the constructor returns a TEB value that records the level. -/
theorem C15_default_level_is_3 :
    teb.ctor_default [true, true, false, false] = teb.ctor [true, true, false, false] 3 0 ∧
    (teb.ctor_default [true, true, false, false]).optimization_level_ = 3 ∧
    (teb.ctor [true, true, false, false] 7 0).optimization_level_ = 7 ∧
    teb.ctor_default [true, true, false, false] ≠ teb.ctor [true, true, false, false] 2 0 := by
  decide

/-- C15 as amended: the optimization level of the constructor ranges over all
unsigned values, with default 3, and no level is rejected.  The level passed
is recorded; level 0 stores the untrimmed encoding (no implicit nodes), and
every level `>= 1` stores the same implicit node counts, structure and labels
as level 1. -/
theorem C15_opt_level_domain (bitmap : List Bool) (opt_level : Nat) (fpr : ℚ) :
    teb.ctor_default bitmap = teb.ctor bitmap 3 0 ∧
    (teb.ctor bitmap opt_level fpr).optimization_level_ = opt_level ∧
    ((teb.ctor bitmap 0 fpr).implicit_inner_node_cnt_ = 0 ∧
      (teb.ctor bitmap 0 fpr).implicit_leaf_node_cnt_ = 0 ∧
      (teb.ctor bitmap 0 fpr).structure_ = (bitmap_tree.ctor bitmap fpr).lo_structure) ∧
    (0 < opt_level →
      teb.ctor bitmap opt_level fpr
        = { teb.ctor bitmap 1 fpr with optimization_level_ := opt_level }) := by
  refine ⟨rfl, ?_, ?_, ?_⟩
  · unfold teb.ctor
    simp only
    split <;> rfl
  · simp [teb.ctor, teb.encode_eq, bitmap_tree.lo_structure]
  · intro h
    simp [teb.ctor, h]

/-- Witness of C15 as amended: the bitmap `1100` at level 5. -/
theorem C15_opt_level_domain_witness :
    teb.ctor_default [true, true, false, false] = teb.ctor [true, true, false, false] 3 0 ∧
    (teb.ctor [true, true, false, false] 5 0).optimization_level_ = 5 ∧
    ((teb.ctor [true, true, false, false] 0 0).implicit_inner_node_cnt_ = 0 ∧
      (teb.ctor [true, true, false, false] 0 0).implicit_leaf_node_cnt_ = 0 ∧
      (teb.ctor [true, true, false, false] 0 0).structure_
        = (bitmap_tree.ctor [true, true, false, false] 0).lo_structure) ∧
    (0 < 5 →
      teb.ctor [true, true, false, false] 5 0
        = { teb.ctor [true, true, false, false] 1 0 with optimization_level_ := 5 }) :=
  C15_opt_level_domain [true, true, false, false] 5 0

/-- C16 (code defect): for `A = 11110000` and `B = 11111111`, both encoded with
the constructor's default arguments as in the test, `it_a` is exhausted right
after its construction (`next()` pops the root, finds `node_idx = 0 >=
structure_.size() = 0` and leaves its loop), the `while` loop of
`bitwise_and_using_skip_iterator` is never entered, and the function returns
`00000000` instead of `A & B = 11110000`.  With optimization level 0 the
same call returns `A & B`. -/
theorem C16_and_skip_misses_bits :
    bitwise_and_using_skip_iterator 100
        (teb.ctor_default [true, true, true, true, false, false, false, false])
        (teb.ctor_default [true, true, true, true, true, true, true, true])
      = some [false, false, false, false, false, false, false, false] ∧
    List.zipWith (· && ·) [true, true, true, true, false, false, false, false]
        [true, true, true, true, true, true, true, true]
      = [true, true, true, true, false, false, false, false] ∧
    (teb.ctor_default [true, true, true, true, false, false, false, false]).it 100
      = some ⟨[], 1, 0, 8, 0⟩ ∧
    bitwise_and_using_skip_iterator 100
        (teb.ctor [true, true, true, true, false, false, false, false] 0 0)
        (teb.ctor [true, true, true, true, true, true, true, true] 0 0)
      = some [true, true, true, true, false, false, false, false] := by
  decide

/-- Counterexample to C17 as stated: the bitmap `0101...01` of length `2 ^ 32`
at optimization level 1.  Its tree is the complete tree, the structure sequence
is `S = 1^(2^32 - 1) 0^(2^32)`, and the longest all-0 suffix of what remains
after the all-1 prefix has `2 ^ 32` bits; the constructor counts them in the
32-bit member `implicit_leaf_node_cnt_` and stores `IL = 0`, so that
`1^II ++ structure ++ 0^IL` is not `S`. -/
theorem C17_leaf_count_wraps_at_height_32 :
    bitmap_01_2_32.length = 2 ^ 32 ∧
    (((bitmap_tree.ctor bitmap_01_2_32 0).lo_structure.dropWhile (· == true)).rtakeWhile
      (· == false)).length = 2 ^ 32 ∧
    (teb.ctor bitmap_01_2_32 1 0).implicit_leaf_node_cnt_ = 0 ∧
    (bitmap_tree.ctor bitmap_01_2_32 0).lo_structure
      ≠ List.replicate (teb.ctor bitmap_01_2_32 1 0).implicit_inner_node_cnt_ true
        ++ (teb.ctor bitmap_01_2_32 1 0).structure_
        ++ List.replicate (teb.ctor bitmap_01_2_32 1 0).implicit_leaf_node_cnt_ false := by
  obtain ⟨hT, hS, g1, g2, g3, _⟩ := teb.ctor_alternating_trimmed 1 (by decide)
  have hh : (bitmap_tree.alternating 31).height ≤ 32 := by
    rw [bitmap_tree.height_alternating]
  refine ⟨by rw [bitmap_tree.bitmap_01_2_32_eq]; exact bitmap_tree.length_to_bits _ 32 hh,
    ?_, g3, ?_⟩
  · rw [hT, hS, teb.dropWhile_rtakeWhile_replicate, List.length_replicate]
  · intro h
    have h1 := teb.length_of_trimmed _ _ _ _ h
    have hn := bitmap_tree.node_cnt_alternating 31
    rw [bitmap_tree.lo_structure, List.length_map, bitmap_tree.length_breadth_first, hT, g1, g2,
      g3] at h1
    simp only [List.length_nil] at h1
    omega

/-- C17 as amended: implicit-node trimming for `N <= 2 ^ 31`.  Let `S` be the
level-order structure sequence of the pruned tree of a bitmap of length
`N = 2 ^ H` with `H <= 31`.  At an optimization level `>= 1` the constructor
stores as `II` the length of the longest all-1 prefix of `S`, as `IL` the
length of the longest all-0 suffix of what remains after that prefix, and as
structure what remains without that suffix, so that
`S = 1^II ++ structure ++ 0^IL`.  At level 0 it stores `II = IL = 0` and
`structure = S`. -/
theorem C17_implicit_node_trimming (B : List Bool) (H opt_level : Nat) (f : ℚ)
    (hB : B.length = 2 ^ H) (hH : H ≤ 31) :
    (0 < opt_level →
      (teb.ctor B opt_level f).implicit_inner_node_cnt_
        = ((bitmap_tree.ctor B f).lo_structure.takeWhile (· == true)).length ∧
      (teb.ctor B opt_level f).implicit_leaf_node_cnt_
        = (((bitmap_tree.ctor B f).lo_structure.dropWhile (· == true)).rtakeWhile
            (· == false)).length ∧
      (teb.ctor B opt_level f).structure_
        = ((bitmap_tree.ctor B f).lo_structure.dropWhile (· == true)).rdropWhile
            (· == false) ∧
      (bitmap_tree.ctor B f).lo_structure
        = List.replicate (teb.ctor B opt_level f).implicit_inner_node_cnt_ true
          ++ (teb.ctor B opt_level f).structure_
          ++ List.replicate (teb.ctor B opt_level f).implicit_leaf_node_cnt_ false) ∧
    (opt_level = 0 →
      (teb.ctor B opt_level f).implicit_inner_node_cnt_ = 0 ∧
      (teb.ctor B opt_level f).implicit_leaf_node_cnt_ = 0 ∧
      (teb.ctor B opt_level f).structure_ = (bitmap_tree.ctor B f).lo_structure) := by
  have hcnt := bitmap_tree.node_cnt_le _ H (bitmap_tree.ctor_spec B H f hB).1
  have hpow : 2 ^ H ≤ 2 ^ 31 := Nat.pow_le_pow_right (by decide) hH
  have hlt : (bitmap_tree.ctor B f).node_cnt < 2 ^ 32 := by omega
  constructor
  · intro ho
    obtain ⟨il, hs, hil⟩ := (teb.ctor_encodes B opt_level f).structure_eq
    have hil' : il < 2 ^ 32 := by
      have h1 := congrArg List.length hs
      rw [bitmap_tree.lo_structure, List.length_map, bitmap_tree.length_breadth_first] at h1
      simp only [List.length_append, List.length_replicate] at h1
      omega
    rw [Nat.mod_eq_of_lt hil'] at hil
    have hsuf : (((bitmap_tree.ctor B f).lo_structure.dropWhile (· == true)).rtakeWhile
        (· == false)).length < 2 ^ 32 := by
      refine lt_of_le_of_lt ?_ hlt
      rw [← bitmap_tree.length_breadth_first]
      refine le_trans (List.Sublist.length_le (List.rtakeWhile_suffix _ _).sublist) ?_
      refine le_trans (List.Sublist.length_le (List.dropWhile_suffix _).sublist) ?_
      simp [bitmap_tree.lo_structure]
    refine ⟨?_, ?_, ?_, by rw [hil]; exact hs⟩
    · simp only [teb.ctor, if_pos ho, teb.encode_eq, bitmap_tree.lo_structure]
      exact (teb.count_trailing_1bits_eq _).1
    · simp only [teb.ctor, if_pos ho, teb.encode_eq]
      rw [teb.pop_back_0bits_eq _ _ _ (le_refl _) (by positivity),
        (teb.count_trailing_1bits_eq _).2]
      simp only [Nat.zero_add]
      exact Nat.mod_eq_of_lt hsuf
    · simp only [teb.ctor, if_pos ho, teb.encode_eq, bitmap_tree.lo_structure]
      rw [teb.pop_back_0bits_eq _ _ _ (le_refl _) (by positivity),
        (teb.count_trailing_1bits_eq _).2]
  · intro ho
    subst ho
    simp [teb.ctor, teb.encode_eq, bitmap_tree.lo_structure]

/-- Witness of C17: the bitmap `11001100` (`S = 1110000`) at level 3 and at
level 0. -/
theorem C17_implicit_node_trimming_witness :
    [true, true, false, false, true, true, false, false].length = 2 ^ 3 ∧ 3 ≤ 31 ∧
    (0 < 3 →
      (teb.ctor [true, true, false, false, true, true, false, false] 3 0).implicit_inner_node_cnt_
        = ((bitmap_tree.ctor [true, true, false, false, true, true, false, false]
            0).lo_structure.takeWhile (· == true)).length ∧
      (teb.ctor [true, true, false, false, true, true, false, false] 3 0).implicit_leaf_node_cnt_
        = (((bitmap_tree.ctor [true, true, false, false, true, true, false, false]
            0).lo_structure.dropWhile (· == true)).rtakeWhile (· == false)).length ∧
      (teb.ctor [true, true, false, false, true, true, false, false] 3 0).structure_
        = ((bitmap_tree.ctor [true, true, false, false, true, true, false, false]
            0).lo_structure.dropWhile (· == true)).rdropWhile (· == false) ∧
      (bitmap_tree.ctor [true, true, false, false, true, true, false, false] 0).lo_structure
        = List.replicate
            (teb.ctor [true, true, false, false, true, true, false, false] 3
              0).implicit_inner_node_cnt_ true
          ++ (teb.ctor [true, true, false, false, true, true, false, false] 3 0).structure_
          ++ List.replicate
            (teb.ctor [true, true, false, false, true, true, false, false] 3
              0).implicit_leaf_node_cnt_ false) ∧
    (teb.ctor [true, true, false, false, true, true, false, false] 3 0).implicit_inner_node_cnt_
      = 3 ∧
    (teb.ctor [true, true, false, false, true, true, false, false] 3 0).implicit_leaf_node_cnt_
      = 4 ∧
    (teb.ctor [true, true, false, false, true, true, false, false] 3 0).structure_ = [] ∧
    ((0 : Nat) = 0 →
      (teb.ctor [true, true, false, false, true, true, false, false] 0 0).implicit_inner_node_cnt_
        = 0 ∧
      (teb.ctor [true, true, false, false, true, true, false, false] 0 0).implicit_leaf_node_cnt_
        = 0 ∧
      (teb.ctor [true, true, false, false, true, true, false, false] 0 0).structure_
        = (bitmap_tree.ctor [true, true, false, false, true, true, false, false]
            0).lo_structure) :=
  ⟨by decide, by decide,
    (C17_implicit_node_trimming [true, true, false, false, true, true, false, false] 3 3 0
      (by decide) (by decide)).1,
    by decide, by decide, by decide,
    (C17_implicit_node_trimming [true, true, false, false, true, true, false, false] 3 0 0
      (by decide) (by decide)).2⟩

/-- Counterexample to C18 as stated: the bitmap `0101...01` of length `2 ^ 32`
at optimization level 3.  The pruned tree is the complete tree with
`2 ^ 33 - 1` nodes; the structure is trimmed to nothing, `II = 2 ^ 32 - 1`, and
the 32-bit counter `IL` has wrapped to 0, so that `|structure| + II + IL` is
`2 ^ 32 - 1`. -/
theorem C18_node_count_fails_at_height_32 :
    bitmap_01_2_32.length = 2 ^ 32 ∧
    (teb.ctor bitmap_01_2_32 3 0).structure_.length
      + (teb.ctor bitmap_01_2_32 3 0).implicit_inner_node_cnt_
      + (teb.ctor bitmap_01_2_32 3 0).implicit_leaf_node_cnt_ = 2 ^ 32 - 1 ∧
    (bitmap_tree.ctor bitmap_01_2_32 0).node_cnt = 2 ^ 33 - 1 := by
  obtain ⟨hT, _, g1, g2, g3, _⟩ := teb.ctor_alternating_trimmed 3 (by decide)
  have hh : (bitmap_tree.alternating 31).height ≤ 32 := by
    rw [bitmap_tree.height_alternating]
  have hn := bitmap_tree.node_cnt_alternating 31
  refine ⟨by rw [bitmap_tree.bitmap_01_2_32_eq]; exact bitmap_tree.length_to_bits _ 32 hh,
    by rw [g1, g2, g3]; rfl, ?_⟩
  rw [hT]
  omega

/-- C18 as amended: node-count invariant for `N <= 2 ^ 31`.  For a bitmap of
length `N = 2 ^ H` with `H <= 31`: after construction at every optimization
level `|structure| + II + IL` is the number of nodes of the pruned tree.  Every
state `t` reached from the constructed TEB by `decompress()` calls that return
`true` encodes a tree, and `|structure| + II + IL` is the number of nodes of
every tree that `t` encodes.  A `decompress()` call on `t` that returns `true`
(a failed assertion aborts the call) leads to a state that encodes the tree
with one leaf expanded into an inner node with two leaf children, which has
exactly two more nodes, and the equation holds again. -/
theorem C18_node_count_invariant (B : List Bool) (H opt_level : Nat) (f : ℚ) (t : teb)
    (hB : B.length = 2 ^ H) (hH : H ≤ 31) (ht : teb.decompressed B opt_level f t) :
    (teb.ctor B opt_level f).structure_.length + (teb.ctor B opt_level f).implicit_inner_node_cnt_
        + (teb.ctor B opt_level f).implicit_leaf_node_cnt_ = (bitmap_tree.ctor B f).node_cnt ∧
    (∃ T, t.Encodes T) ∧
    (∀ T, t.Encodes T →
      t.structure_.length + t.implicit_inner_node_cnt_ + t.implicit_leaf_node_cnt_
        = T.node_cnt) ∧
    (∀ t', t.decompress = some (true, t') →
      ∃ T T', t.Encodes T ∧ t'.Encodes T' ∧ T.expands T' ∧ T'.node_cnt = T.node_cnt + 2 ∧
        t'.structure_.length + t'.implicit_inner_node_cnt_ + t'.implicit_leaf_node_cnt_
          = T'.node_cnt) := by
  have hpow : 2 ^ H ≤ 2 ^ 31 := Nat.pow_le_pow_right (by decide) hH
  have hbound : ∀ T : bitmap_tree, T.height ≤ H → T.node_cnt < 2 ^ 32 := by
    intro T hT
    have := bitmap_tree.node_cnt_le T H hT
    omega
  obtain ⟨T, hT, hh, _⟩ := teb.decompressed_inv B opt_level f H hB t ht
  refine ⟨(teb.ctor_encodes B opt_level f).node_count
      (hbound _ (bitmap_tree.ctor_spec B H f hB).1), ⟨T, hT⟩, fun T' hT' => ?_, ?_⟩
  · obtain ⟨il, _, a2, a3⟩ := hT.counts
    obtain ⟨il', _, b2, b3⟩ := hT'.counts
    have := hT.node_count (hbound T hh)
    omega
  · intro t' hd
    obtain ⟨h1, h2, h3⟩ := teb.decompress_true_pre t t' hd
    obtain ⟨t'', T', g1, g2, g3, _, _, _, _, g8, _⟩ := hT.decompress_spec h1 h2 h3
    rw [hd] at g1
    have : t' = t'' := (Prod.mk.inj (Option.some.inj g1)).2
    subst this
    exact ⟨T, T', hT, g2, g3, bitmap_tree.expands_node_cnt g3,
      g2.node_count (hbound T' (g8 H hh))⟩

/-- Witness of C18: the TEB of `00010000` at optimization level 3 (structure
`001`, `II = 2`, `IL = 2`, 7 nodes), on which `decompress()` returns `true` and
leads to structure `01`, `II = 3`, `IL = 4` (9 nodes). -/
theorem C18_node_count_invariant_witness :
    [false, false, false, true, false, false, false, false].length = 2 ^ 3 ∧ 3 ≤ 31 ∧
    teb.decompressed [false, false, false, true, false, false, false, false] 3 0
      (teb.ctor [false, false, false, true, false, false, false, false] 3 0) ∧
    (teb.ctor [false, false, false, true, false, false, false, false] 3 0).decompress
      = some (true, ⟨8, [false, true], [false, false, false, false, true], 3, 3, 4⟩) ∧
    ((teb.ctor [false, false, false, true, false, false, false, false] 3 0).structure_.length
        + (teb.ctor [false, false, false, true, false, false, false, false] 3
            0).implicit_inner_node_cnt_
        + (teb.ctor [false, false, false, true, false, false, false, false] 3
            0).implicit_leaf_node_cnt_
        = (bitmap_tree.ctor [false, false, false, true, false, false, false, false] 0).node_cnt ∧
      (∃ T, (teb.ctor [false, false, false, true, false, false, false, false] 3 0).Encodes T) ∧
      (∀ T, (teb.ctor [false, false, false, true, false, false, false, false] 3 0).Encodes T →
        (teb.ctor [false, false, false, true, false, false, false, false] 3 0).structure_.length
          + (teb.ctor [false, false, false, true, false, false, false, false] 3
              0).implicit_inner_node_cnt_
          + (teb.ctor [false, false, false, true, false, false, false, false] 3
              0).implicit_leaf_node_cnt_
          = T.node_cnt) ∧
      (∀ t', (teb.ctor [false, false, false, true, false, false, false, false] 3 0).decompress
          = some (true, t') →
        ∃ T T', (teb.ctor [false, false, false, true, false, false, false, false] 3 0).Encodes T ∧
          t'.Encodes T' ∧ T.expands T' ∧ T'.node_cnt = T.node_cnt + 2 ∧
          t'.structure_.length + t'.implicit_inner_node_cnt_ + t'.implicit_leaf_node_cnt_
            = T'.node_cnt)) :=
  ⟨by decide, by decide, teb.decompressed.ctor, by decide,
    C18_node_count_invariant [false, false, false, true, false, false, false, false] 3 3 0 _
      (by decide) (by decide) teb.decompressed.ctor⟩

/-- Counterexample to C19 as stated: the bitmap `0101...01` of length `2 ^ 32`
at optimization level 2.  The TEB keeps the `2 ^ 32` labels of the leaves of
the complete tree, the structure is trimmed to nothing, and the 32-bit counter
`IL` has wrapped to 0: the number of 0-bits of the structure plus `IL` is 0. -/
theorem C19_label_count_fails_at_height_32 :
    bitmap_01_2_32.length = 2 ^ 32 ∧
    (teb.ctor bitmap_01_2_32 2 0).labels_.length = 2 ^ 32 ∧
    (teb.ctor bitmap_01_2_32 2 0).structure_.count false
      + (teb.ctor bitmap_01_2_32 2 0).implicit_leaf_node_cnt_ = 0 := by
  obtain ⟨_, _, g1, _, g3, g4⟩ := teb.ctor_alternating_trimmed 2 (by decide)
  have hh : (bitmap_tree.alternating 31).height ≤ 32 := by
    rw [bitmap_tree.height_alternating]
  exact ⟨by rw [bitmap_tree.bitmap_01_2_32_eq]; exact bitmap_tree.length_to_bits _ 32 hh,
    g4, by rw [g1, g3]; rfl⟩

/-- C19 as amended: label-count invariant for `N <= 2 ^ 31`.  For a bitmap of
length `N = 2 ^ H` with `H <= 31`: after construction at every optimization
level, and in every state reached from there by `decompress()` calls that
return `true`, `|labels|` is the number of 0-bits of the structure plus `IL`:
the labels of the trimmed trailing leaves are kept.  A `decompress()` call that
returns `true` adds one label. -/
theorem C19_label_count_invariant (B : List Bool) (H opt_level : Nat) (f : ℚ) (t : teb)
    (hB : B.length = 2 ^ H) (hH : H ≤ 31) (ht : teb.decompressed B opt_level f t) :
    (teb.ctor B opt_level f).labels_.length
      = (teb.ctor B opt_level f).structure_.count false
        + (teb.ctor B opt_level f).implicit_leaf_node_cnt_ ∧
    t.labels_.length = t.structure_.count false + t.implicit_leaf_node_cnt_ ∧
    (∀ t', t.decompress = some (true, t') →
      t'.labels_.length = t.labels_.length + 1 ∧
      t'.labels_.length = t'.structure_.count false + t'.implicit_leaf_node_cnt_) := by
  have hpow : 2 ^ H ≤ 2 ^ 31 := Nat.pow_le_pow_right (by decide) hH
  have hbound : ∀ T : bitmap_tree, T.height ≤ H → T.node_cnt < 2 ^ 32 := by
    intro T hT
    have := bitmap_tree.node_cnt_le T H hT
    omega
  obtain ⟨T, hT, hh, _⟩ := teb.decompressed_inv B opt_level f H hB t ht
  refine ⟨(teb.ctor_encodes B opt_level f).label_count
      (hbound _ (bitmap_tree.ctor_spec B H f hB).1), hT.label_count (hbound T hh), ?_⟩
  intro t' hd
  obtain ⟨h1, h2, h3⟩ := teb.decompress_true_pre t t' hd
  obtain ⟨t'', T', g1, g2, _, _, _, _, g7, g8, _⟩ := hT.decompress_spec h1 h2 h3
  rw [hd] at g1
  have : t' = t'' := (Prod.mk.inj (Option.some.inj g1)).2
  subst this
  exact ⟨g7, g2.label_count (hbound T' (g8 H hh))⟩

/-- Witness of C19: the state that one `decompress()` call reaches from the TEB
of `00010000` built at optimization level 3: 5 labels, one 0-bit in the
structure `01` and `IL = 4`. -/
theorem C19_label_count_invariant_witness :
    [false, false, false, true, false, false, false, false].length = 2 ^ 3 ∧ 3 ≤ 31 ∧
    teb.decompressed [false, false, false, true, false, false, false, false] 3 0
      ⟨8, [false, true], [false, false, false, false, true], 3, 3, 4⟩ ∧
    ((teb.ctor [false, false, false, true, false, false, false, false] 3 0).labels_.length
      = (teb.ctor [false, false, false, true, false, false, false, false] 3
          0).structure_.count false
        + (teb.ctor [false, false, false, true, false, false, false, false] 3
          0).implicit_leaf_node_cnt_ ∧
      (⟨8, [false, true], [false, false, false, false, true], 3, 3, 4⟩ : teb).labels_.length
        = (⟨8, [false, true], [false, false, false, false, true], 3, 3, 4⟩ : teb).structure_.count
            false
          + (⟨8, [false, true], [false, false, false, false, true], 3, 3,
              4⟩ : teb).implicit_leaf_node_cnt_ ∧
      (∀ t', (⟨8, [false, true], [false, false, false, false, true], 3, 3, 4⟩ : teb).decompress
          = some (true, t') →
        t'.labels_.length
          = (⟨8, [false, true], [false, false, false, false, true], 3, 3, 4⟩ : teb).labels_.length
            + 1 ∧
        t'.labels_.length = t'.structure_.count false + t'.implicit_leaf_node_cnt_)) :=
  ⟨by decide, by decide, teb.decompressed.step _ _ teb.decompressed.ctor (by decide),
    C19_label_count_invariant [false, false, false, true, false, false, false, false] 3 3 0 _
      (by decide) (by decide) (teb.decompressed.step _ _ teb.decompressed.ctor (by decide))⟩

/-- C20: encoding of a constant bitmap.  For every `N = 2 ^ H` and every bit
`b`, the bitmap of length `N` with all bits equal to `b` is encoded at an
optimization level `>= 1` with fpr 0 as `structure = empty`, `II = 0`,
`IL = 1`, `labels = [b]`, and `test(i)` returns `b` for every `i < N`
(scenario S1 is `H = 3`, `b = 0`). -/
theorem C20_constant_bitmap (H opt_level : Nat) (b : Bool) (ho : 0 < opt_level) :
    (teb.ctor (List.replicate (2 ^ H) b) opt_level 0).structure_ = [] ∧
    (teb.ctor (List.replicate (2 ^ H) b) opt_level 0).implicit_inner_node_cnt_ = 0 ∧
    (teb.ctor (List.replicate (2 ^ H) b) opt_level 0).implicit_leaf_node_cnt_ = 1 ∧
    (teb.ctor (List.replicate (2 ^ H) b) opt_level 0).labels_ = [b] ∧
    ∀ i, i < 2 ^ H → (teb.ctor (List.replicate (2 ^ H) b) opt_level 0).test i = some b := by
  have hfields : (teb.ctor (List.replicate (2 ^ H) b) opt_level 0).structure_ = [] ∧
      (teb.ctor (List.replicate (2 ^ H) b) opt_level 0).implicit_inner_node_cnt_ = 0 ∧
      (teb.ctor (List.replicate (2 ^ H) b) opt_level 0).implicit_leaf_node_cnt_ = 1 ∧
      (teb.ctor (List.replicate (2 ^ H) b) opt_level 0).labels_ = [b] := by
    simp only [teb.ctor, if_pos ho, bitmap_tree.ctor_replicate, teb.encode_eq]
    simp [bitmap_tree.breadth_first, bitmap_tree.bfs, bitmap_tree.node_cnt, bitmap_tree.children,
      bitmap_tree.is_inner_node, bitmap_tree.label_of_node, teb.count_trailing_1bits,
      teb.pop_back_0bits]
  refine ⟨hfields.1, hfields.2.1, hfields.2.2.1, hfields.2.2.2, ?_⟩
  intro i hi
  rw [(teb.ctor_encodes _ opt_level 0).test_spec H i (by rw [teb.ctor_n]; simp)
    (bitmap_tree.height_ctor_zero _ H (by simp)) hi,
    bitmap_tree.to_bits_ctor_zero _ H (by simp)]
  simp [List.getD_eq_getElem?_getD, List.getElem?_replicate, hi]

/-- Witness of C20: scenario S1, the all-zero bitmap of length 8 at the default
optimization level 3. -/
theorem C20_constant_bitmap_witness :
    0 < 3 ∧
    (teb.ctor (List.replicate (2 ^ 3) false) 3 0).structure_ = [] ∧
    (teb.ctor (List.replicate (2 ^ 3) false) 3 0).implicit_inner_node_cnt_ = 0 ∧
    (teb.ctor (List.replicate (2 ^ 3) false) 3 0).implicit_leaf_node_cnt_ = 1 ∧
    (teb.ctor (List.replicate (2 ^ 3) false) 3 0).labels_ = [false] ∧
    ∀ i, i < 2 ^ 3 → (teb.ctor (List.replicate (2 ^ 3) false) 3 0).test i = some false :=
  ⟨by decide, C20_constant_bitmap 3 3 false (by decide)⟩

/-- C21: gradual decompression.  When at least one `decompress()` succeeds and
no step produces a strictly smaller size (the loop of `run_optimize` is left
with `optimized = false`), `run_optimize` at an optimization level `>= 2` does
not revert the TEB: it leaves the last decompressed state, whose implicit inner
node count is larger than before the call. -/
theorem C21_run_optimize_keeps_last_state (rs : List Bool → Nat) (fuel : Nat)
    (t cur min : teb) (hlvl : 1 < t.optimization_level_)
    (hstep : ∃ t', t.decompress = some (true, t'))
    (hloop : teb.run_optimize_loop rs fuel t false t (t.size_in_byte rs) 0
      = some (cur, false, min)) :
    t.run_optimize rs fuel = some cur ∧ min = t ∧
    t.implicit_inner_node_cnt_ < cur.implicit_inner_node_cnt_ ∧ cur ≠ t := by
  obtain ⟨k1, _, _, k4⟩ := teb.run_optimize_loop_false rs _ _ _ _ _ _ _ hloop
  have hlt := k4 hstep
  refine ⟨?_, k1, hlt, ?_⟩
  · unfold teb.run_optimize
    rw [if_pos hlvl, hloop]
    rfl
  · intro h
    rw [h] at hlt
    exact Nat.lt_irrefl _ hlt

set_option maxRecDepth 1000000 in
/-- Witness of C21: the TEB of the 64-bit bitmap `0100 (0011)^14 0000` built
at optimization level 3 (`II = 30`, structure `01`, 32 labels), with a rank
support of constant size.  One `decompress()` gives `II = 32`, an empty
structure and 33 labels, of the same size in bytes; `run_optimize` leaves that
state. -/
theorem C21_run_optimize_keeps_last_state_witness :
    (1 < (teb.ctor bitmap_64_inner_30_1 3 0).optimization_level_ ∧
      (∃ t', (teb.ctor bitmap_64_inner_30_1 3 0).decompress = some (true, t')) ∧
      teb.run_optimize_loop (fun _ => 0) 2 (teb.ctor bitmap_64_inner_30_1 3 0) false
          (teb.ctor bitmap_64_inner_30_1 3 0)
          ((teb.ctor bitmap_64_inner_30_1 3 0).size_in_byte (fun _ => 0)) 0
        = some (teb_64_inner_32_decompressed, false,
            teb.ctor bitmap_64_inner_30_1 3 0)) ∧
    ((teb.ctor bitmap_64_inner_30_1 3 0).run_optimize (fun _ => 0) 2
        = some teb_64_inner_32_decompressed ∧
      teb.ctor bitmap_64_inner_30_1 3 0 = teb.ctor bitmap_64_inner_30_1 3 0 ∧
      (teb.ctor bitmap_64_inner_30_1 3 0).implicit_inner_node_cnt_
        < teb_64_inner_32_decompressed.implicit_inner_node_cnt_ ∧
      teb_64_inner_32_decompressed
        ≠ teb.ctor bitmap_64_inner_30_1 3 0) :=
  ⟨⟨by decide, ⟨teb_64_inner_32_decompressed, by decide⟩, by decide⟩,
    C21_run_optimize_keeps_last_state (fun _ => 0) 2 (teb.ctor bitmap_64_inner_30_1 3 0) _ _
      (by decide) ⟨teb_64_inner_32_decompressed, by decide⟩ (by decide)⟩

set_option maxRecDepth 1000000 in
/-- C22, counterexample: four TEBs built by the constructor at optimization
level 3 from bitmaps of length 64.  `|structure| + |labels|` is `2 + 33` for
`0001 (0011)^15` and `0 + 64` for `0101...01`, and it is `0 + 33` for
`0100 (0011)^15` and `2 + 32` for `0100 (0011)^14 0000`; whatever the size of the
rank support of the empty structure and of the structure `01` is, the first of
one of the two pairs has more bytes than the second, because the structure and
the labels are rounded up to 32-bit blocks separately. -/
theorem C22_size_not_monotone_in_sum :
    (teb.ctor bitmap_64_inner_31_1 3 0).optimization_level_
      = (teb.ctor bitmap_64_alternating 3 0).optimization_level_ ∧
    (teb.ctor bitmap_64_inner_31_1 3 0).structure_.length
        + (teb.ctor bitmap_64_inner_31_1 3 0).labels_.length
      ≤ (teb.ctor bitmap_64_alternating 3 0).structure_.length
        + (teb.ctor bitmap_64_alternating 3 0).labels_.length ∧
    (teb.ctor bitmap_64_inner_32 3 0).optimization_level_
      = (teb.ctor bitmap_64_inner_30_1 3 0).optimization_level_ ∧
    (teb.ctor bitmap_64_inner_32 3 0).structure_.length
        + (teb.ctor bitmap_64_inner_32 3 0).labels_.length
      ≤ (teb.ctor bitmap_64_inner_30_1 3 0).structure_.length
        + (teb.ctor bitmap_64_inner_30_1 3 0).labels_.length ∧
    ∀ rs : List Bool → Nat,
      (teb.ctor bitmap_64_alternating 3 0).size_in_byte rs
        < (teb.ctor bitmap_64_inner_31_1 3 0).size_in_byte rs ∨
      (teb.ctor bitmap_64_inner_30_1 3 0).size_in_byte rs
        < (teb.ctor bitmap_64_inner_32 3 0).size_in_byte rs := by
  have hA : (teb.ctor bitmap_64_alternating 3 0).structure_ = [] ∧
      (teb.ctor bitmap_64_alternating 3 0).labels_.length = 64 ∧
      (teb.ctor bitmap_64_alternating 3 0).optimization_level_ = 3 := by decide
  have hB : (teb.ctor bitmap_64_inner_31_1 3 0).structure_ = [false, true] ∧
      (teb.ctor bitmap_64_inner_31_1 3 0).labels_.length = 33 ∧
      (teb.ctor bitmap_64_inner_31_1 3 0).optimization_level_ = 3 := by decide
  have hX : (teb.ctor bitmap_64_inner_32 3 0).structure_ = [] ∧
      (teb.ctor bitmap_64_inner_32 3 0).labels_.length = 33 ∧
      (teb.ctor bitmap_64_inner_32 3 0).optimization_level_ = 3 := by decide
  have hY : (teb.ctor bitmap_64_inner_30_1 3 0).structure_ = [false, true] ∧
      (teb.ctor bitmap_64_inner_30_1 3 0).labels_.length = 32 ∧
      (teb.ctor bitmap_64_inner_30_1 3 0).optimization_level_ = 3 := by decide
  refine ⟨by rw [hA.2.2, hB.2.2], ?_, by rw [hX.2.2, hY.2.2], ?_, ?_⟩
  · rw [hA.1, hA.2.1, hB.1, hB.2.1]; decide
  · rw [hX.1, hX.2.1, hY.1, hY.2.1]; decide
  · intro rs
    unfold teb.size_in_byte
    simp only [hA.1, hA.2.1, hA.2.2, hB.1, hB.2.1, hB.2.2, hX.1, hX.2.1, hX.2.2, hY.1, hY.2.1,
      hY.2.2, List.length_nil, List.length_cons, show (0 : Nat) < 3 from by decide, if_true]
    omega

/-- C22, amended: size monotonicity, component by component.  For any two
TEBs built by the constructor at the same optimization level, if the structure,
the labels and the rank support of the first are each not larger than those of
the second, then `size_in_byte` of the first is not larger than that of the
second. -/
theorem C22_size_monotone_componentwise (rs : List Bool → Nat) (B1 B2 : List Bool)
    (opt_level : Nat) (f1 f2 : ℚ)
    (hs : (teb.ctor B1 opt_level f1).structure_.length
      ≤ (teb.ctor B2 opt_level f2).structure_.length)
    (hl : (teb.ctor B1 opt_level f1).labels_.length ≤ (teb.ctor B2 opt_level f2).labels_.length)
    (hr : rs (teb.ctor B1 opt_level f1).structure_ ≤ rs (teb.ctor B2 opt_level f2).structure_) :
    (teb.ctor B1 opt_level f1).size_in_byte rs ≤ (teb.ctor B2 opt_level f2).size_in_byte rs := by
  have ho : ∀ B f, (teb.ctor B opt_level f).optimization_level_ = opt_level := by
    intro B f
    unfold teb.ctor
    split <;> rfl
  unfold teb.size_in_byte
  simp only [ho]
  have h1 := Nat.div_le_div_right (c := 4 * 8) (Nat.sub_le_sub_right (Nat.add_le_add_right hs (4 * 8)) 1)
  have h2 := Nat.div_le_div_right (c := 4 * 8) (Nat.sub_le_sub_right (Nat.add_le_add_right hl (4 * 8)) 1)
  split <;> omega

set_option maxRecDepth 1000000 in
/-- Witness of C22: the TEBs of `0100 (0011)^15` (empty structure, 33 labels)
and of `0101...01` (empty structure, 64 labels) at optimization level 3, with a
rank support of one byte per structure bit. -/
theorem C22_size_monotone_componentwise_witness :
    ((teb.ctor bitmap_64_inner_32 3 0).structure_.length
        ≤ (teb.ctor bitmap_64_alternating 3 0).structure_.length ∧
      (teb.ctor bitmap_64_inner_32 3 0).labels_.length
        ≤ (teb.ctor bitmap_64_alternating 3 0).labels_.length ∧
      List.length (teb.ctor bitmap_64_inner_32 3 0).structure_
        ≤ List.length (teb.ctor bitmap_64_alternating 3 0).structure_) ∧
    (teb.ctor bitmap_64_inner_32 3 0).size_in_byte List.length
      ≤ (teb.ctor bitmap_64_alternating 3 0).size_in_byte List.length :=
  ⟨by decide,
    C22_size_monotone_componentwise List.length bitmap_64_inner_32 bitmap_64_alternating 3 0 0
      (by decide) (by decide) (by decide)⟩

/-- C23: range set.  For every word width `W > 0`, every word array and all
positions `b`, `e` within it, `set(bitmap, b, e)` keeps the number of words and
leaves `test(i) = true` for every `i` in `[b, e)` and `test(i)` unchanged for
every other position `i` of the array, whether the range lies in one word or
spans several; when `b >= e` the array is unchanged.  The words written, from
`b / W` to `(e - 1) / W`, lie in the array. -/
theorem C23_range_set (W : Nat) (hW : 0 < W) (bitmap : List Nat) (b e : Nat)
    (he : e ≤ W * bitmap.length) :
    (bitmap_fun.set W bitmap b e).length = bitmap.length ∧
    (∀ i, i < W * bitmap.length →
      bitmap_fun.test W (bitmap_fun.set W bitmap b e) i
        = if b ≤ i ∧ i < e then true else bitmap_fun.test W bitmap i) ∧
    (b ≥ e → bitmap_fun.set W bitmap b e = bitmap) ∧
    (b < e → b / W < bitmap.length ∧ (e - 1) / W < bitmap.length) := by
  refine ⟨bitmap_fun.set_length W bitmap b e, ?_, ?_,
    fun hlt => ⟨Nat.div_lt_of_lt_mul (by omega), Nat.div_lt_of_lt_mul (by omega)⟩⟩
  · intro i hi
    by_cases hlt : b < e
    · have hj : i / W < bitmap.length := Nat.div_lt_of_lt_mul hi
      rw [bitmap_fun.test_eq_testBit, bitmap_fun.test_eq_testBit,
        bitmap_fun.set_testBit W hW bitmap b e hlt _ _ hj (Nat.mod_lt i hW), Nat.div_add_mod]
      by_cases hc : b ≤ i ∧ i < e
      · simp [hc]
      · simp [hc]
    · have hset : bitmap_fun.set W bitmap b e = bitmap := by
        unfold bitmap_fun.set
        simp only
        rw [if_pos (by omega)]
      rw [hset, if_neg (by omega)]
  · intro hge
    unfold bitmap_fun.set
    simp only
    rw [if_pos hge]

/-- Witness of C23: three 8-bit words and the range `[3, 21)`, which spans all
three words. -/
theorem C23_range_set_witness :
    (0 < 8 ∧ 21 ≤ 8 * [0x12, 0, 0x80].length) ∧
    ((bitmap_fun.set 8 [0x12, 0, 0x80] 3 21).length = [0x12, 0, 0x80].length ∧
      (∀ i, i < 8 * [0x12, 0, 0x80].length →
        bitmap_fun.test 8 (bitmap_fun.set 8 [0x12, 0, 0x80] 3 21) i
          = if 3 ≤ i ∧ i < 21 then true else bitmap_fun.test 8 [0x12, 0, 0x80] i) ∧
      (3 ≥ 21 → bitmap_fun.set 8 [0x12, 0, 0x80] 3 21 = [0x12, 0, 0x80]) ∧
      (3 < 21 → 3 / 8 < [0x12, 0, 0x80].length ∧ (21 - 1) / 8 < [0x12, 0, 0x80].length)) :=
  ⟨by decide, C23_range_set 8 (by decide) [0x12, 0, 0x80] 3 21 (by decide)⟩

/-- C24: `fetch_bits` on a word type narrower than `int`.  For 8-bit words the
mask `(~word_type(0)) >> (word_bitlength - cnt)` is computed on the promoted
`int` value `-1` and has all bits set: `fetch_bits` of the word `0xFF` for the
range `[0, 4)` returns `0xFF`, whose bits 4 to 7 are set, and not `0x0F`.  For
word types of at least 32 bits the property holds: for every word array and
every `b < e` with `e - b <= W`, `fetch_bits` performs no shift by `W` or more,
bit `j` of its result is `test(b + j)` for `j < e - b`, and every bit
`j >= e - b` is 0. -/
theorem C24_fetch_bits_unmasked_on_narrow_words :
    bitmap_fun.fetch_bits 8 [0xFF] 0 4 = some 0xFF ∧
    Nat.testBit 0xFF 4 = true ∧
    ∀ W, 32 ≤ W → ∀ bitmap : List Nat, (∀ k, bitmap.getD k 0 < 2 ^ W) →
      ∀ b e, b < e → e - b ≤ W →
        ∃ r, bitmap_fun.fetch_bits W bitmap b e = some r ∧
          ∀ j, r.testBit j = (decide (j < e - b) && bitmap_fun.test W bitmap (b + j)) :=
  ⟨by decide, by decide,
    fun W hW bitmap hwf b e hlt hcnt => bitmap_fun.fetch_bits_spec W hW bitmap hwf b e hlt hcnt⟩

/-- C25: range `find_first` on a word type narrower than `int`.  For 8-bit words
the mask `Y = ~word_type(0) >> ...` is computed on the promoted `int` value `-1`
and has all bits set: on the word `0x80` (only bit 7 set) and the range
`[0, 4)`, which holds no set bit, the word-wise `find_first` returns 7, while
`find_first_dense` returns `e = 4`.  For word types of 32 to 64 bits the
property holds: `find_first` returns the value of `find_first_dense`, which is
`e` when `e <= b` and otherwise the smallest position of `[b, e)` whose bit is
set, or `e` if there is none. -/
theorem C25_find_first_past_end_on_narrow_words :
    bitmap_fun.find_first 8 [0x80] 0 4 = 7 ∧
    bitmap_fun.find_first_dense 8 [0x80] 0 4 = 4 ∧
    (∀ i, i < 4 → bitmap_fun.test 8 [0x80] i = false) ∧
    ∀ W, 32 ≤ W → W ≤ 64 → ∀ bitmap : List Nat, (∀ k, bitmap.getD k 0 < 2 ^ W) →
      ∀ b e,
        bitmap_fun.find_first W bitmap b e = bitmap_fun.find_first_dense W bitmap b e ∧
        (e ≤ b → bitmap_fun.find_first W bitmap b e = e) ∧
        (b < e →
          bitmap_fun.find_first W bitmap b e ≤ e ∧
          (∀ i, b ≤ i → i < bitmap_fun.find_first W bitmap b e →
            bitmap_fun.test W bitmap i = false) ∧
          (bitmap_fun.find_first W bitmap b e < e →
            b ≤ bitmap_fun.find_first W bitmap b e ∧
            bitmap_fun.test W bitmap (bitmap_fun.find_first W bitmap b e) = true)) := by
  refine ⟨by decide, by decide, by decide, ?_⟩
  intro W hW hW64 bitmap hwf b e
  refine ⟨bitmap_fun.find_first_eq_dense W hW hW64 bitmap hwf b e, ?_,
    bitmap_fun.find_first_first W hW hW64 bitmap hwf b e⟩
  intro hle
  unfold bitmap_fun.find_first
  simp only
  rw [if_pos hle]

/-- C26: argument validation of the partitioned tree mask.  With
`partition_cnt = 0` the constructor divides `N` by zero in its member
initialisers, before any of the three checks is reached: for every bitmask the
call ends in undefined behaviour and not in `std::invalid_argument`.  For
`1 <= partition_cnt <= N` the checks are reached: the call throws exactly when
`N` or `partition_cnt` is not a power of two, and otherwise builds
`partition_cnt` partitions of `N / partition_cnt` bits each. -/
theorem C26_division_before_checks {tree_mask_t : Type} (is_power_of_two : Nat → Bool)
    (tree_mask : List Bool → tree_mask_t) (bitmask : List Bool) :
    dynamic_partitioned_tree_mask.ctor is_power_of_two tree_mask bitmask 0
      = ctor_result.undefined_behaviour ∧
    ∀ partition_cnt, 1 ≤ partition_cnt → partition_cnt ≤ bitmask.length →
      ((is_power_of_two bitmask.length = false ∨ is_power_of_two partition_cnt = false) →
        ∃ what, dynamic_partitioned_tree_mask.ctor is_power_of_two tree_mask bitmask partition_cnt
          = ctor_result.invalid_argument what) ∧
      ((is_power_of_two bitmask.length = true ∧ is_power_of_two partition_cnt = true) →
        ∃ v, dynamic_partitioned_tree_mask.ctor is_power_of_two tree_mask bitmask partition_cnt
            = ctor_result.constructed v ∧
          v.tree_masks_.length = partition_cnt ∧
          ∀ pid, pid < partition_cnt →
            ∃ part_bitmask, v.tree_masks_[pid]? = some (tree_mask part_bitmask) ∧
              part_bitmask.length = bitmask.length / partition_cnt ∧
              ∀ i, i < bitmask.length / partition_cnt →
                part_bitmask.getD i false
                  = bitmask.getD (i + bitmask.length / partition_cnt * pid) false) := by
  refine ⟨rfl, ?_⟩
  intro pc h1 h2
  have hpc : pc ≠ 0 := by omega
  have hpn : 1 ≤ bitmask.length / pc := (Nat.one_le_div_iff (by omega)).mpr h2
  have hlog : bitmask.length / pc ≠ 1 → 1 ≤ log_2 (bitmask.length / pc) := by
    intro hne
    have h2le : 2 ≤ bitmask.length / pc := by omega
    unfold log_2
    obtain ⟨m, hm⟩ : ∃ m, bitmask.length / pc = m + 1 := ⟨bitmask.length / pc - 1, by omega⟩
    rw [hm] at h2le ⊢
    simp only [log_2_loop, if_pos h2le]
    omega
  have hub : ¬ (bitmask.length / pc ≠ 1 ∧ 64 ≤ 64 - log_2 (bitmask.length / pc)) := by
    rintro ⟨a, b⟩
    have := hlog a
    omega
  constructor
  · intro hp
    unfold dynamic_partitioned_tree_mask.ctor
    simp only [if_neg hpc, if_neg hub]
    rcases hp with hp | hp
    · simp only [hp, Bool.not_false, if_true]
      exact ⟨_, rfl⟩
    · cases hN : is_power_of_two bitmask.length
      · simp only [Bool.not_false, if_true]
        exact ⟨_, rfl⟩
      · simp only [hp, Bool.not_true, Bool.not_false, if_true, Bool.false_eq_true, if_false]
        exact ⟨_, rfl⟩
  · rintro ⟨hN, hP⟩
    unfold dynamic_partitioned_tree_mask.ctor
    simp only [if_neg hpc, if_neg hub, hN, hP, Bool.not_true, if_neg (Nat.not_lt.mpr h2)]
    simp only [Bool.false_eq_true, if_false]
    refine ⟨_, rfl, by simp, ?_⟩
    intro pid hpid
    refine ⟨(List.range (bitmask.length / pc)).map fun i =>
      bitmask.getD (i + bitmask.length / pc * pid) false, by simp [hpid], by simp, ?_⟩
    intro i hi
    simp [List.getD_eq_getElem?_getD, hi]

/-- C27: tree-mask XOR is a homomorphism onto bitwise XOR.  For any two
level-order tree masks `a` and `b` over the same length `N = 2 ^ H`, each a
valid encoding of a full binary tree of height `<= H`, the operator `^` returns
a tree mask that is again a valid level-order encoding of a full binary tree of
height `<= H`, and its `to_bitset()` is the bitwise XOR of `a.to_bitset()` and
`b.to_bitset()`, two bitmaps of length `N`. -/
theorem C27_xor_homomorphism (H fuel : Nat) (a b : tree_mask_lo) (Ta Tb : bitmap_tree)
    (ha : a.Encodes Ta) (hb : b.Encodes Tb) (hTa : Ta.height ≤ H) (hTb : Tb.height ≤ H)
    (hfuel : 2 * 2 ^ H ≤ fuel) :
    ∃ r T x y, a.xor fuel b = some r ∧ r.Encodes T ∧ T.height ≤ H ∧
      a.to_bitset (2 ^ H) fuel = some x ∧ b.to_bitset (2 ^ H) fuel = some y ∧
      x.length = 2 ^ H ∧ y.length = 2 ^ H ∧
      r.to_bitset (2 ^ H) fuel = some (List.zipWith Bool.xor x y) := by
  have hT : (bitmap_tree.xor_tree Ta Tb).height ≤ H :=
    (bitmap_tree.height_xor_tree Ta Tb).trans (by omega)
  have hcnt := bitmap_tree.node_cnt_le _ _ hT
  obtain ⟨r, hr, hre⟩ := tree_mask_lo.Encodes.xor_spec ha hb fuel (by omega)
  refine ⟨r, _, _, _, hr, hre, hT, ha.to_bitset_spec H fuel hTa hfuel,
    hb.to_bitset_spec H fuel hTb hfuel, bitmap_tree.length_to_bits _ _ hTa,
    bitmap_tree.length_to_bits _ _ hTb, ?_⟩
  rw [hre.to_bitset_spec H fuel hT hfuel, bitmap_tree.to_bits_xor_tree _ _ _ hTa hTb]

/-- Witness of C27: `N = 4`, the tree masks of `1101` (structure `10100`, labels
`101`) and of `0111` (structure `11000`, labels `101`). -/
theorem C27_xor_homomorphism_witness :
    ((⟨[true, false, true, false, false], [true, false, true]⟩ : tree_mask_lo).Encodes
        (bitmap_tree.inner (bitmap_tree.leaf true)
          (bitmap_tree.inner (bitmap_tree.leaf false) (bitmap_tree.leaf true))) ∧
      (⟨[true, true, false, false, false], [true, false, true]⟩ : tree_mask_lo).Encodes
        (bitmap_tree.inner (bitmap_tree.inner (bitmap_tree.leaf false) (bitmap_tree.leaf true))
          (bitmap_tree.leaf true)) ∧
      (bitmap_tree.inner (bitmap_tree.leaf true)
          (bitmap_tree.inner (bitmap_tree.leaf false) (bitmap_tree.leaf true))).height ≤ 2 ∧
      (bitmap_tree.inner (bitmap_tree.inner (bitmap_tree.leaf false) (bitmap_tree.leaf true))
          (bitmap_tree.leaf true)).height ≤ 2 ∧
      2 * 2 ^ 2 ≤ 8) ∧
    ∃ r T x y,
      (⟨[true, false, true, false, false], [true, false, true]⟩ : tree_mask_lo).xor 8
          ⟨[true, true, false, false, false], [true, false, true]⟩ = some r ∧
      r.Encodes T ∧ T.height ≤ 2 ∧
      (⟨[true, false, true, false, false], [true, false, true]⟩ : tree_mask_lo).to_bitset (2 ^ 2) 8
        = some x ∧
      (⟨[true, true, false, false, false], [true, false, true]⟩ : tree_mask_lo).to_bitset (2 ^ 2) 8
        = some y ∧
      x.length = 2 ^ 2 ∧ y.length = 2 ^ 2 ∧
      r.to_bitset (2 ^ 2) 8 = some (List.zipWith Bool.xor x y) :=
  ⟨⟨⟨by decide, by decide⟩, ⟨by decide, by decide⟩, by decide, by decide, by decide⟩,
    C27_xor_homomorphism 2 8 _ _
      (bitmap_tree.inner (bitmap_tree.leaf true)
        (bitmap_tree.inner (bitmap_tree.leaf false) (bitmap_tree.leaf true)))
      (bitmap_tree.inner (bitmap_tree.inner (bitmap_tree.leaf false) (bitmap_tree.leaf true))
        (bitmap_tree.leaf true))
      ⟨by decide, by decide⟩ ⟨by decide, by decide⟩ (by decide) (by decide) (by decide)⟩

/-- C28, counterexample: the TEB of `11110000` built at optimization level 3
has `II = 1`, and `rank(0)` is 0, the number of 1 bits among the first 0 entries
of the untrimmed sequence, while `II + rank1(structure, min(max(0 - II, 0),
|structure|))` is 1. -/
theorem C28_rank_formula_fails_below_II :
    (teb.ctor [true, true, true, true, false, false, false, false] 3 0).implicit_inner_node_cnt_
      = 1 ∧
    (teb.ctor [true, true, true, true, false, false, false, false] 3 0).rank 0 = 0 ∧
    (teb.ctor [true, true, true, true, false, false, false, false] 3 0).rank_scan 0 = 0 ∧
    (((bitmap_tree.ctor [true, true, true, true, false, false, false, false] 0).lo_structure.take
      (min 0 (bitmap_tree.ctor [true, true, true, true, false, false, false, false]
        0).lo_structure.length)).count true) = 0 ∧
    (teb.ctor [true, true, true, true, false, false, false, false] 3 0).implicit_inner_node_cnt_
      + rank1 (teb.ctor [true, true, true, true, false, false, false, false] 3 0).structure_
          (min (max (0 - (teb.ctor [true, true, true, true, false, false, false, false] 3
              0).implicit_inner_node_cnt_) 0)
            (teb.ctor [true, true, true, true, false, false, false, false] 3
              0).structure_.length)
      = 1 := by
  decide

/-- C28, amended: rank is transparent to trimming.  For every TEB built by the
constructor (any optimization level) with untrimmed level-order sequence `S`,
and every `k`, `rank(k)` is the number of 1 bits among the first
`min(k, |S|)` entries of `S`, and `rank_scan(k)` returns the same value; for
`k < II` the value is `k`, and for `k >= II` it is
`II + rank1(structure, min(k - II, |structure|))`. -/
theorem C28_rank_transparent (B : List Bool) (opt_level : Nat) (f : ℚ) (k : Nat) :
    (teb.ctor B opt_level f).rank k
      = ((bitmap_tree.ctor B f).lo_structure.take
          (min k (bitmap_tree.ctor B f).lo_structure.length)).count true ∧
    (teb.ctor B opt_level f).rank_scan k = (teb.ctor B opt_level f).rank k ∧
    (k < (teb.ctor B opt_level f).implicit_inner_node_cnt_ →
      (teb.ctor B opt_level f).rank k = k) ∧
    ((teb.ctor B opt_level f).implicit_inner_node_cnt_ ≤ k →
      (teb.ctor B opt_level f).rank k
        = (teb.ctor B opt_level f).implicit_inner_node_cnt_
          + rank1 (teb.ctor B opt_level f).structure_
              (min (k - (teb.ctor B opt_level f).implicit_inner_node_cnt_)
                (teb.ctor B opt_level f).structure_.length)) := by
  refine ⟨?_, teb.rank_scan_eq_rank _ k, ?_, ?_⟩
  · rw [(teb.ctor_encodes B opt_level f).rank_eq k]
    rcases Nat.le_total k (bitmap_tree.ctor B f).lo_structure.length with h | h
    · rw [Nat.min_eq_left h]
    · rw [Nat.min_eq_right h, List.take_of_length_le h, List.take_of_length_le (Nat.le_refl _)]
  · intro h
    unfold teb.rank
    simp only [if_pos h]
  · intro h
    unfold teb.rank
    simp only [if_neg (Nat.not_lt.mpr h)]

/-- C29: child navigation.  For every TEB built by the constructor and every
inner node with level-order index `k` of the pruned tree, `left_child(k)` is
`2*rank(k+1) - 1` and `right_child(k)` is `2*rank(k+1)`, the nodes at these
level-order indices are the left and the right child of node `k`, and for
`k < II` the two values are `2k+1` and `2k+2`. -/
theorem C29_child_navigation (B : List Bool) (opt_level : Nat) (f : ℚ) (k : Nat)
    (l r : bitmap_tree)
    (hk : (bitmap_tree.ctor B f).breadth_first[k]? = some (bitmap_tree.inner l r)) :
    (teb.ctor B opt_level f).is_inner_node k = true ∧
    (teb.ctor B opt_level f).left_child k = 2 * (teb.ctor B opt_level f).rank (k + 1) - 1 ∧
    (teb.ctor B opt_level f).right_child k = 2 * (teb.ctor B opt_level f).rank (k + 1) ∧
    (bitmap_tree.ctor B f).breadth_first[(teb.ctor B opt_level f).left_child k]? = some l ∧
    (bitmap_tree.ctor B f).breadth_first[(teb.ctor B opt_level f).right_child k]? = some r ∧
    (k < (teb.ctor B opt_level f).implicit_inner_node_cnt_ →
      (teb.ctor B opt_level f).left_child k = 2 * k + 1 ∧
      (teb.ctor B opt_level f).right_child k = 2 * k + 2) := by
  have h := teb.ctor_encodes B opt_level f
  obtain ⟨_, h2, h3⟩ := h.inner_nav k l r hk
  refine ⟨?_, teb.left_child_eq _ k, teb.right_child_eq _ k, ?_, ?_, ?_⟩
  · rw [h.is_inner_node_of k _ hk]; rfl
  · rw [teb.left_child_eq]; exact h2
  · rw [teb.right_child_eq]; exact h3
  · intro hlt
    unfold teb.left_child teb.right_child
    simp only [if_pos hlt, and_self]

/-- Witness of C29: the root of the tree of `00010000` at optimization level 3
(`II = 2`): its children are the nodes 1 and 2. -/
theorem C29_child_navigation_witness :
    (bitmap_tree.ctor [false, false, false, true, false, false, false, false] 0).breadth_first[0]?
      = some (bitmap_tree.inner
          (bitmap_tree.inner (bitmap_tree.leaf false)
            (bitmap_tree.inner (bitmap_tree.leaf false) (bitmap_tree.leaf true)))
          (bitmap_tree.leaf false)) ∧
    ((teb.ctor [false, false, false, true, false, false, false, false] 3 0).is_inner_node 0
        = true ∧
      (teb.ctor [false, false, false, true, false, false, false, false] 3 0).left_child 0
        = 2 * (teb.ctor [false, false, false, true, false, false, false, false] 3 0).rank (0 + 1)
          - 1 ∧
      (teb.ctor [false, false, false, true, false, false, false, false] 3 0).right_child 0
        = 2 * (teb.ctor [false, false, false, true, false, false, false, false] 3 0).rank
          (0 + 1) ∧
      (bitmap_tree.ctor [false, false, false, true, false, false, false, false]
          0).breadth_first[(teb.ctor [false, false, false, true, false, false, false, false] 3
            0).left_child 0]?
        = some (bitmap_tree.inner (bitmap_tree.leaf false)
            (bitmap_tree.inner (bitmap_tree.leaf false) (bitmap_tree.leaf true))) ∧
      (bitmap_tree.ctor [false, false, false, true, false, false, false, false]
          0).breadth_first[(teb.ctor [false, false, false, true, false, false, false, false] 3
            0).right_child 0]?
        = some (bitmap_tree.leaf false) ∧
      (0 < (teb.ctor [false, false, false, true, false, false, false, false] 3
          0).implicit_inner_node_cnt_ →
        (teb.ctor [false, false, false, true, false, false, false, false] 3 0).left_child 0
          = 2 * 0 + 1 ∧
        (teb.ctor [false, false, false, true, false, false, false, false] 3 0).right_child 0
          = 2 * 0 + 2)) :=
  ⟨by decide,
    C29_child_navigation [false, false, false, true, false, false, false, false] 3 0 0 _ _
      (by decide)⟩

/-- C30: label lookup.  For every TEB built by the constructor (any
optimization level) and every leaf of the pruned tree with level-order index
`k` and label `b` (also a leaf of the trimmed trailing region), node `k` is a
leaf for the TEB, the label index `k - rank(k)` is `< |labels|`, and
`labels[k - rank(k)]`, which `get_label(k)` returns, is `b`. -/
theorem C30_label_lookup (B : List Bool) (opt_level : Nat) (f : ℚ) (k : Nat) (b : Bool)
    (hk : (bitmap_tree.ctor B f).breadth_first[k]? = some (bitmap_tree.leaf b)) :
    (teb.ctor B opt_level f).is_leaf_node k = true ∧
    (teb.ctor B opt_level f).get_label_idx k = k - (teb.ctor B opt_level f).rank k ∧
    k - (teb.ctor B opt_level f).rank k < (teb.ctor B opt_level f).labels_.length ∧
    (teb.ctor B opt_level f).labels_[k - (teb.ctor B opt_level f).rank k]? = some b ∧
    (teb.ctor B opt_level f).get_label k = b := by
  have h := teb.ctor_encodes B opt_level f
  have hlt := h.label_idx_lt k b hk
  have hlab := h.label_of_leaf k b hk
  have hidx : (teb.ctor B opt_level f).get_label_idx k
      = k - (teb.ctor B opt_level f).rank k := rfl
  rw [hidx] at hlt
  refine ⟨?_, rfl, hlt, ?_, ?_⟩
  · unfold teb.is_leaf_node
    rw [h.is_inner_node_of k _ hk]; rfl
  · rw [List.getElem?_eq_getElem hlt] at hlab ⊢
    simpa using hlab
  · unfold teb.get_label
    rw [hidx, List.getD_eq_getElem?_getD]
    exact hlab

/-- Witness of C30: the last leaf (level-order index 6, in the trimmed trailing
region) of the tree of `00010000` at optimization level 3. -/
theorem C30_label_lookup_witness :
    (bitmap_tree.ctor [false, false, false, true, false, false, false, false] 0).breadth_first[6]?
      = some (bitmap_tree.leaf true) ∧
    ((teb.ctor [false, false, false, true, false, false, false, false] 3 0).is_leaf_node 6
        = true ∧
      (teb.ctor [false, false, false, true, false, false, false, false] 3 0).get_label_idx 6
        = 6 - (teb.ctor [false, false, false, true, false, false, false, false] 3 0).rank 6 ∧
      6 - (teb.ctor [false, false, false, true, false, false, false, false] 3 0).rank 6
        < (teb.ctor [false, false, false, true, false, false, false, false] 3
            0).labels_.length ∧
      (teb.ctor [false, false, false, true, false, false, false, false] 3
          0).labels_[6 - (teb.ctor [false, false, false, true, false, false, false, false] 3
            0).rank 6]?
        = some true ∧
      (teb.ctor [false, false, false, true, false, false, false, false] 3 0).get_label 6
        = true) :=
  ⟨by decide,
    C30_label_lookup [false, false, false, true, false, false, false, false] 3 0 6 true
      (by decide)⟩

set_option maxRecDepth 1000000 in
/-- Counterexample to C31 as stated: the bitmap of length `2 ^ 32` whose only
set bit is position `2 ^ 31`, encoded with fpr 0 at optimization level 1.
`decompress()` returns `true` on this TEB, but `to_bitset()` returns no bitmap
on it: node `II = 1` is a 0-leaf on level 1 that covers `2 ^ 31` positions, and
the run length `1 << 31` of line 271 overflows the 32-bit `int`. -/
theorem C31_to_bitset_undefined_at_height_32 :
    bitmap_2_31.length = 2 ^ 32 ∧
    (∃ t', (teb.ctor bitmap_2_31 1 0).decompress = some (true, t')) ∧
    ∀ fuel, (teb.ctor bitmap_2_31 1 0).to_bitset fuel = none := by
  have hlen : bitmap_2_31.length = 2 ^ 32 := by
    rw [bitmap_tree.bitmap_2_31_eq]
    exact bitmap_tree.length_to_bits _ 32 (by decide)
  refine ⟨hlen, ?_, ?_⟩
  · refine (teb.decompressed_decompress bitmap_2_31 1 0 32 hlen (by decide) _
      teb.decompressed.ctor).2 ?_
    rw [bitmap_tree.bitmap_2_31_eq,
      teb.ctor_level_pos_of_pruned _ 32 1 (by decide) (by decide) (by decide)]
    decide
  · rw [bitmap_tree.bitmap_2_31_eq,
      teb.ctor_level_pos_of_pruned _ 32 1 (by decide) (by decide) (by decide)]
    exact teb.to_bitset_aborts _ (by decide) (by decide) (by decide) (by decide)

/-- C31 as amended: `decompress()` preserves the encoded bitmap.  For every TEB
built from a bitmap of power-of-two length `N = 2 ^ H` (any optimization level,
any fpr) and every state `t` reached from it by `decompress()` calls that
return `true`: if `decompress()` on `t` returns `true` and leads to `t'`, then,
when `H ≤ 31`, `to_bitset()` returns the same bitmap on `t'` as on `t` (with
fuel for the `2 N` nodes), and, for every `H`,
`test(p)` returns the same bit on `t'` as on `t` for every `p < N`; node `II` of
`t`, a leaf, is an inner node of `t'` whose two children are leaves that carry
the label of that leaf; `II` has grown by at least 1 and `|labels|` by exactly
1. -/
theorem C31_decompress_preserves_bitmap (B : List Bool) (H opt_level : Nat) (f : ℚ)
    (t t' : teb) (hB : B.length = 2 ^ H) (ht : teb.decompressed B opt_level f t)
    (hd : t.decompress = some (true, t')) :
    (∀ fuel, H ≤ 31 → 2 * B.length ≤ fuel →
      t'.to_bitset fuel = t.to_bitset fuel ∧
      t.to_bitset fuel = some (bitmap_tree.to_bits H (bitmap_tree.ctor B f))) ∧
    (∀ p, p < B.length → t'.test p = t.test p ∧
      t.test p = some ((bitmap_tree.to_bits H (bitmap_tree.ctor B f)).getD p false)) ∧
    t.is_leaf_node t.implicit_inner_node_cnt_ = true ∧
    t'.is_inner_node t.implicit_inner_node_cnt_ = true ∧
    t'.is_leaf_node (t'.left_child t.implicit_inner_node_cnt_) = true ∧
    t'.is_leaf_node (t'.right_child t.implicit_inner_node_cnt_) = true ∧
    t'.get_label (t'.left_child t.implicit_inner_node_cnt_)
      = t.get_label t.implicit_inner_node_cnt_ ∧
    t'.get_label (t'.right_child t.implicit_inner_node_cnt_)
      = t.get_label t.implicit_inner_node_cnt_ ∧
    t.implicit_inner_node_cnt_ + 1 ≤ t'.implicit_inner_node_cnt_ ∧
    t'.labels_.length = t.labels_.length + 1 := by
  obtain ⟨T, hT, hh, hb, hn, _, hroot, _⟩ := teb.decompressed_inv B opt_level f H hB t ht
  obtain ⟨h1, h2, h3⟩ := teb.decompress_true_pre t t' hd
  obtain ⟨t'', T', g1, g2, g3, g4, _, g6, g7, g8, b, g9, g10⟩ := hT.decompress_spec h1 h2 h3
  rw [hd] at g1
  have : t' = t'' := (Prod.mk.inj (Option.some.inj g1)).2
  subst this
  have hh' := g8 H hh
  have hb' : bitmap_tree.to_bits H T' = bitmap_tree.to_bits H (bitmap_tree.ctor B f) := by
    rw [bitmap_tree.to_bits_expands g3 H hh', hb]
  have hn' : t'.n_ = 2 ^ H := by rw [g4, hn]
  have hroot' : (t'.implicit_inner_node_cnt_ = 0 ∧ t'.structure_.length ≤ 1)
      ↔ T'.is_inner_node = false := by
    constructor
    · intro hc; omega
    · intro hc
      rw [bitmap_tree.expands_is_inner g3] at hc
      exact Bool.noConfusion hc
  have hrank : t'.rank (t.implicit_inner_node_cnt_ + 1) = t.implicit_inner_node_cnt_ + 1 := by
    unfold teb.rank
    simp only
    split
    · rfl
    · have e : t.implicit_inner_node_cnt_ + 1 - t'.implicit_inner_node_cnt_ = 0 := by omega
      rw [e, Nat.zero_min]
      simp only [rank1, List.take_zero, List.count_nil]
      omega
  have hl : t'.left_child t.implicit_inner_node_cnt_
      = 2 * t'.rank (t.implicit_inner_node_cnt_ + 1) - 1 := by
    unfold teb.left_child
    rw [if_pos g6, hrank]
    omega
  have hr : t'.right_child t.implicit_inner_node_cnt_
      = 2 * t'.rank (t.implicit_inner_node_cnt_ + 1) := by
    unfold teb.right_child
    rw [if_pos g6, hrank]
    omega
  obtain ⟨_, n1, n2⟩ := g2.inner_nav _ _ _ g10
  rw [← hl] at n1
  rw [← hr] at n2
  have hlab : t.get_label t.implicit_inner_node_cnt_ = b := by
    have := hT.label_of_leaf _ b g9
    simpa [teb.get_label, teb.get_label_idx, List.getD_eq_getElem?_getD] using this
  refine ⟨?_, ?_, ?_, ?_, ?_, ?_, ?_, ?_, g6, g7⟩
  · intro fuel hH hfuel
    rw [teb.to_bitset_of_encodes hT H fuel hH hn hh hroot (by omega),
      teb.to_bitset_of_encodes g2 H fuel hH hn' hh' hroot' (by omega), hb', hb]
    exact ⟨rfl, rfl⟩
  · intro p hp
    rw [hT.test_spec H p hn hh (by omega), g2.test_spec H p hn' hh' (by omega), hb', hb]
    exact ⟨rfl, rfl⟩
  · unfold teb.is_leaf_node
    rw [hT.is_inner_node_of _ _ g9]
    rfl
  · rw [g2.is_inner_node_of _ _ g10]
    rfl
  · unfold teb.is_leaf_node
    rw [g2.is_inner_node_of _ _ n1]
    rfl
  · unfold teb.is_leaf_node
    rw [g2.is_inner_node_of _ _ n2]
    rfl
  · rw [hlab]
    have := g2.label_of_leaf _ b n1
    simpa [teb.get_label, teb.get_label_idx, List.getD_eq_getElem?_getD] using this
  · rw [hlab]
    have := g2.label_of_leaf _ b n2
    simpa [teb.get_label, teb.get_label_idx, List.getD_eq_getElem?_getD] using this

/-- Witness of C31 as amended: the TEB of `00010000` built at optimization
level 3, on which `decompress()` returns `true`. -/
theorem C31_decompress_preserves_bitmap_witness :
    [false, false, false, true, false, false, false, false].length = 2 ^ 3 ∧
    teb.decompressed [false, false, false, true, false, false, false, false] 3 0
      (teb.ctor [false, false, false, true, false, false, false, false] 3 0) ∧
    (teb.ctor [false, false, false, true, false, false, false, false] 3 0).decompress
      = some (true, ⟨8, [false, true], [false, false, false, false, true], 3, 3, 4⟩) ∧
    ((∀ fuel, 3 ≤ 31 →
      2 * [false, false, false, true, false, false, false, false].length ≤ fuel →
      (⟨8, [false, true], [false, false, false, false, true], 3, 3, 4⟩ : teb).to_bitset fuel
        = (teb.ctor [false, false, false, true, false, false, false, false] 3 0).to_bitset fuel ∧
      (teb.ctor [false, false, false, true, false, false, false, false] 3 0).to_bitset fuel
        = some (bitmap_tree.to_bits 3
            (bitmap_tree.ctor [false, false, false, true, false, false, false, false] 0))) ∧
    (∀ p, p < [false, false, false, true, false, false, false, false].length →
      (⟨8, [false, true], [false, false, false, false, true], 3, 3, 4⟩ : teb).test p
        = (teb.ctor [false, false, false, true, false, false, false, false] 3 0).test p ∧
      (teb.ctor [false, false, false, true, false, false, false, false] 3 0).test p
        = some ((bitmap_tree.to_bits 3
            (bitmap_tree.ctor [false, false, false, true, false, false, false, false] 0)).getD
              p false)) ∧
    (teb.ctor [false, false, false, true, false, false, false, false] 3 0).is_leaf_node
      (teb.ctor [false, false, false, true, false, false, false, false] 3
        0).implicit_inner_node_cnt_ = true ∧
    (⟨8, [false, true], [false, false, false, false, true], 3, 3, 4⟩ : teb).is_inner_node
      (teb.ctor [false, false, false, true, false, false, false, false] 3
        0).implicit_inner_node_cnt_ = true ∧
    (⟨8, [false, true], [false, false, false, false, true], 3, 3, 4⟩ : teb).is_leaf_node
      ((⟨8, [false, true], [false, false, false, false, true], 3, 3, 4⟩ : teb).left_child
        (teb.ctor [false, false, false, true, false, false, false, false] 3
          0).implicit_inner_node_cnt_) = true ∧
    (⟨8, [false, true], [false, false, false, false, true], 3, 3, 4⟩ : teb).is_leaf_node
      ((⟨8, [false, true], [false, false, false, false, true], 3, 3, 4⟩ : teb).right_child
        (teb.ctor [false, false, false, true, false, false, false, false] 3
          0).implicit_inner_node_cnt_) = true ∧
    (⟨8, [false, true], [false, false, false, false, true], 3, 3, 4⟩ : teb).get_label
      ((⟨8, [false, true], [false, false, false, false, true], 3, 3, 4⟩ : teb).left_child
        (teb.ctor [false, false, false, true, false, false, false, false] 3
          0).implicit_inner_node_cnt_)
      = (teb.ctor [false, false, false, true, false, false, false, false] 3 0).get_label
        (teb.ctor [false, false, false, true, false, false, false, false] 3
          0).implicit_inner_node_cnt_ ∧
    (⟨8, [false, true], [false, false, false, false, true], 3, 3, 4⟩ : teb).get_label
      ((⟨8, [false, true], [false, false, false, false, true], 3, 3, 4⟩ : teb).right_child
        (teb.ctor [false, false, false, true, false, false, false, false] 3
          0).implicit_inner_node_cnt_)
      = (teb.ctor [false, false, false, true, false, false, false, false] 3 0).get_label
        (teb.ctor [false, false, false, true, false, false, false, false] 3
          0).implicit_inner_node_cnt_ ∧
    (teb.ctor [false, false, false, true, false, false, false, false] 3
      0).implicit_inner_node_cnt_ + 1
      ≤ (⟨8, [false, true], [false, false, false, false, true], 3, 3,
          4⟩ : teb).implicit_inner_node_cnt_ ∧
    (⟨8, [false, true], [false, false, false, false, true], 3, 3, 4⟩ : teb).labels_.length
      = (teb.ctor [false, false, false, true, false, false, false, false] 3 0).labels_.length
        + 1) :=
  ⟨by decide, teb.decompressed.ctor, by decide,
    C31_decompress_preserves_bitmap [false, false, false, true, false, false, false, false] 3 3 0
      (teb.ctor [false, false, false, true, false, false, false, false] 3 0)
      ⟨8, [false, true], [false, false, false, false, true], 3, 3, 4⟩ (by decide)
      teb.decompressed.ctor (by decide)⟩

/-- C32: the lossless pruning of `tree_mask_lo(bitmask)` is exact and reaches
its fixpoint in one bottom-up pass.  For every bitmap `B` of length
`N = 2 ^ H` and fuel for the `2 N` nodes: every node `i < 2 N - 1` of the
implicit tree is reached from the root by at most `H` choice bits; after the
single pass over the sibling pairs, the node reached by the choice bits `cs` is
a leaf of the pruned tree iff all bits of `B` in its range are equal and it is
the root or the bits in the range of its parent are not all equal; the label of
such a leaf equals every bit it covers; the flag of every inner node of the
complete tree agrees with the flags and labels of its two children (it is a
leaf iff both children are leaves with equal labels), and a second pass of the
loop changes nothing.  The constructor returns the level-order encoding of a
tree of height at most `H` in which no inner node has two leaf children with
equal labels, whose leaves are the leaves after the pass with their labels and
whose bits are `B`, and `to_bitset()` decodes it to `B`. -/
theorem C32_lossless_pruning_exact (B : List Bool) (H fuel : Nat) (hB : B.length = 2 ^ H)
    (hfuel : 2 * 2 ^ H ≤ fuel) :
    (∀ i, i < binary_tree_structure.max_node_cnt (2 ^ H) →
      ∃ cs : List Bool, cs.length ≤ H ∧ binary_tree_structure.node_from 0 cs = i) ∧
    (∀ cs : List Bool, cs.length ≤ H →
      ((tree_mask_lo.ctor_tree_structure (2 ^ H) B).is_leaf_at cs ↔
        bitmap_tree.uniform (bitmap_tree.covered B H cs) ∧
        (cs = [] ∨ ¬ bitmap_tree.uniform (bitmap_tree.covered B H cs.dropLast)))) ∧
    (∀ cs : List Bool, cs.length ≤ H →
      (tree_mask_lo.ctor_tree_structure (2 ^ H) B).is_leaf_at cs →
      ∀ x ∈ bitmap_tree.covered B H cs,
        x = (tree_mask_lo.ctor_labels (2 ^ H) B).getD
          (binary_tree_structure.node_from 0 cs) false) ∧
    (∀ q, q < 2 ^ H - 1 →
      (tree_mask_lo.ctor_tree_structure (2 ^ H) B).is_inner_node q
        = !(!(tree_mask_lo.ctor_tree_structure (2 ^ H) B).is_inner_node
                (binary_tree_structure.left_child_of q)
            && !(tree_mask_lo.ctor_tree_structure (2 ^ H) B).is_inner_node
                (binary_tree_structure.right_child_of q)
            && !(Bool.xor
                ((tree_mask_lo.ctor_labels (2 ^ H) B).getD
                  (binary_tree_structure.left_child_of q) false)
                ((tree_mask_lo.ctor_labels (2 ^ H) B).getD
                  (binary_tree_structure.right_child_of q) false)))) ∧
    tree_mask_lo.prune_loop (binary_tree_structure.max_node_cnt (2 ^ H))
      (tree_mask_lo.ctor_labels (2 ^ H) B) (tree_mask_lo.ctor_tree_structure (2 ^ H) B)
      = tree_mask_lo.ctor_tree_structure (2 ^ H) B ∧
    ∃ tm T, tree_mask_lo.ctor_bitmask (2 ^ H) fuel B = some tm ∧ tm.Encodes T ∧
      T.height ≤ H ∧ T.is_pruned = true ∧
      (∀ (cs : List Bool) (b : Bool), bitmap_tree.node_at cs T = some (bitmap_tree.leaf b) ↔
        (tree_mask_lo.ctor_tree_structure (2 ^ H) B).is_leaf_at cs ∧
        (tree_mask_lo.ctor_labels (2 ^ H) B).getD
          (binary_tree_structure.node_from 0 cs) false = b) ∧
      T.to_bits H = B ∧
      tm.to_bitset (2 ^ H) fuel = some B := by
  have hN : 1 ≤ 2 ^ H := Nat.one_le_two_pow
  have hT : (bitmap_tree.prune (bitmap_tree.complete H B)).height ≤ H :=
    le_trans (bitmap_tree.height_prune _) (le_of_eq (bitmap_tree.height_complete H B))
  have hbits : bitmap_tree.to_bits H (bitmap_tree.prune (bitmap_tree.complete H B)) = B := by
    rw [bitmap_tree.to_bits_prune _ _ (le_of_eq (bitmap_tree.height_complete H B)),
      bitmap_tree.to_bits_complete H B hB]
  obtain ⟨tm, htm, henc⟩ := tree_mask_lo.ctor_bitmask_spec B H fuel hB hfuel
  refine ⟨fun i hi => tree_mask_lo.exists_choices H i (by
      unfold binary_tree_structure.max_node_cnt at hi; omega),
    fun cs hcs => (tree_mask_lo.is_leaf_at_exact B H hB cs hcs).1,
    fun cs hcs => (tree_mask_lo.is_leaf_at_exact B H hB cs hcs).2,
    fun q hq => tree_mask_lo.ctor_tree_structure_fixpoint _ B hN hB q hq,
    tree_mask_lo.prune_loop_ctor_tree_structure _ B hN hB,
    tm, _, htm, henc, hT, bitmap_tree.is_pruned_prune _,
    fun cs b => tree_mask_lo.is_leaf_at_iff B H hB cs b, hbits, ?_⟩
  have := henc.to_bitset_spec H fuel hT hfuel
  rw [hbits] at this
  exact this

/-- Witness of C32: the bitmap `10001101` of length `2 ^ 3`. -/
theorem C32_lossless_pruning_exact_witness :
    [true, false, false, false, true, true, false, true].length = 2 ^ 3 ∧ 2 * 2 ^ 3 ≤ 16 ∧
    ((∀ i, i < binary_tree_structure.max_node_cnt (2 ^ 3) →
      ∃ cs : List Bool, cs.length ≤ 3 ∧ binary_tree_structure.node_from 0 cs = i) ∧
    (∀ cs : List Bool, cs.length ≤ 3 →
      ((tree_mask_lo.ctor_tree_structure (2 ^ 3)
          [true, false, false, false, true, true, false, true]).is_leaf_at cs ↔
        bitmap_tree.uniform
          (bitmap_tree.covered [true, false, false, false, true, true, false, true] 3 cs) ∧
        (cs = [] ∨ ¬ bitmap_tree.uniform
          (bitmap_tree.covered [true, false, false, false, true, true, false, true] 3
            cs.dropLast)))) ∧
    (∀ cs : List Bool, cs.length ≤ 3 →
      (tree_mask_lo.ctor_tree_structure (2 ^ 3)
        [true, false, false, false, true, true, false, true]).is_leaf_at cs →
      ∀ x ∈ bitmap_tree.covered [true, false, false, false, true, true, false, true] 3 cs,
        x = (tree_mask_lo.ctor_labels (2 ^ 3)
          [true, false, false, false, true, true, false, true]).getD
          (binary_tree_structure.node_from 0 cs) false) ∧
    (∀ q, q < 2 ^ 3 - 1 →
      (tree_mask_lo.ctor_tree_structure (2 ^ 3)
          [true, false, false, false, true, true, false, true]).is_inner_node q
        = !(!(tree_mask_lo.ctor_tree_structure (2 ^ 3)
                [true, false, false, false, true, true, false, true]).is_inner_node
                (binary_tree_structure.left_child_of q)
            && !(tree_mask_lo.ctor_tree_structure (2 ^ 3)
                [true, false, false, false, true, true, false, true]).is_inner_node
                (binary_tree_structure.right_child_of q)
            && !(Bool.xor
                ((tree_mask_lo.ctor_labels (2 ^ 3)
                  [true, false, false, false, true, true, false, true]).getD
                  (binary_tree_structure.left_child_of q) false)
                ((tree_mask_lo.ctor_labels (2 ^ 3)
                  [true, false, false, false, true, true, false, true]).getD
                  (binary_tree_structure.right_child_of q) false)))) ∧
    tree_mask_lo.prune_loop (binary_tree_structure.max_node_cnt (2 ^ 3))
      (tree_mask_lo.ctor_labels (2 ^ 3) [true, false, false, false, true, true, false, true])
      (tree_mask_lo.ctor_tree_structure (2 ^ 3)
        [true, false, false, false, true, true, false, true])
      = tree_mask_lo.ctor_tree_structure (2 ^ 3)
        [true, false, false, false, true, true, false, true] ∧
    ∃ tm T, tree_mask_lo.ctor_bitmask (2 ^ 3) 16
        [true, false, false, false, true, true, false, true] = some tm ∧ tm.Encodes T ∧
      T.height ≤ 3 ∧ T.is_pruned = true ∧
      (∀ (cs : List Bool) (b : Bool), bitmap_tree.node_at cs T = some (bitmap_tree.leaf b) ↔
        (tree_mask_lo.ctor_tree_structure (2 ^ 3)
          [true, false, false, false, true, true, false, true]).is_leaf_at cs ∧
        (tree_mask_lo.ctor_labels (2 ^ 3)
          [true, false, false, false, true, true, false, true]).getD
          (binary_tree_structure.node_from 0 cs) false = b) ∧
      T.to_bits 3 = [true, false, false, false, true, true, false, true] ∧
      tm.to_bitset (2 ^ 3) 16 = some [true, false, false, false, true, true, false, true]) :=
  ⟨by decide, by decide,
    C32_lossless_pruning_exact [true, false, false, false, true, true, false, true] 3 16
      (by decide) (by decide)⟩

set_option maxRecDepth 1000000 in
/-- Counterexample to C33 as stated: height `H = 32`, level `l = 32` and
`d = 2 ^ 31`.  In the TEB of the bitmap of length `2 ^ 32` whose only set bit is
position `2 ^ 31` (optimization level 0) node 63 is the 1-labelled leaf of
level 32 with the path `2 ^ 32 + 2 ^ 31`.  `next()` reads the path from the
stack entry `(63 << 32) | path` as `2 ^ 31` and computes `level = 31`,
`pos = 0` and `length = 2` instead of `level = 32`, `pos = 2 ^ 31` and
`length = 1`; the freshly constructed iterator is in this state. -/
theorem C33_path_truncated_at_level_32 :
    bitmap_2_31.length = 2 ^ 32 ∧ (teb.ctor bitmap_2_31 0 0).n_ = 2 ^ 32 ∧
    32 ≤ 32 ∧ 2 ^ 31 < 2 ^ 32 ∧
    iter.path_from 1 (true :: List.replicate 31 false) = 2 ^ 32 + 2 ^ 31 ∧
    63 < (teb.ctor bitmap_2_31 0 0).structure_.length ∧
    (teb.ctor bitmap_2_31 0 0).is_leaf_node 63 = true ∧
    (teb.ctor bitmap_2_31 0 0).get_label 63 = true ∧
    iter.next (teb.ctor bitmap_2_31 0 0) 1
        ⟨[u64_shl 63 32 ||| (2 ^ 32 + 2 ^ 31)], 1, 0, 0, 0⟩
      = some ⟨[], 2 ^ 31, 31, 0, 2⟩ ∧
    ((teb.ctor bitmap_2_31 0 0).it 300).map
        (fun it => (it.path_, it.level_, it.pos_, it.length_))
      = some (2 ^ 31, 31, 0, 2) ∧
    (2 ^ 31, 31, 0, 2) ≠ (2 ^ 32 + 2 ^ 31, 32, 2 ^ 31 * 2 ^ (32 - 32), 2 ^ (32 - 32)) := by
  rw [bitmap_tree.bitmap_2_31_eq, teb.ctor_level_0_of_pruned _ 32 (by decide) (by decide)]
  exact ⟨bitmap_tree.length_to_bits _ 32 (by decide), rfl, by decide, by decide, by decide,
    by decide, by decide, by decide, by decide, by decide, by decide⟩

/-- C33 as amended: path decoding.  For a TEB of a bitmap of length `N = 2 ^ H`
(`H <= 63`, the heights that a 64-bit `n_` allows), every level `l <= H` and
every path `2 ^ l + d` with `d < 2 ^ l`: for `l <= 31`, the levels whose paths
fit the 32 bits that a stack entry keeps, `next()` on the stack entry
`(node_idx << 32) | path` of a 1-labelled leaf inside the structure
(`node_idx < 2 ^ 32`) reads this path from the entry and reports `level = l`,
`pos = d * 2 ^ (H - l)` and `length = N >> l = 2 ^ (H - l)`; `nav_to(to_pos)`,
at a 1-labelled leaf with this path on level `l` and `to_pos` in the range of
the leaf, computes the same range and reports `pos = to_pos` with the rest of
the range as length; `pos + length <= N`; and the path is the one built for the
node reached from the root by the `l` choice bits of `d`, which asserts the
bits of the tree on exactly the range
`[d * 2 ^ (H - l), d * 2 ^ (H - l) + 2 ^ (H - l))`. -/
theorem C33_path_decoding (tm : teb) (H l d : Nat) (hn : tm.n_ = 2 ^ H) (hH : H ≤ 63)
    (hl : l ≤ H) (hd : d < 2 ^ l) :
    (l ≤ 31 → ∀ (fuel node_idx : Nat) (stack_ : List Nat) (path_ level_ pos_ length_ : Nat),
      node_idx < 2 ^ 32 → node_idx < tm.structure_.length →
      tm.is_leaf_node node_idx = true → tm.get_label node_idx = true →
      (u64_shl node_idx 32 ||| (2 ^ l + d)) >>> 32 = node_idx ∧
      (u64_shl node_idx 32 ||| (2 ^ l + d)) &&& ((1 <<< 32) - 1) = 2 ^ l + d ∧
      iter.next tm (fuel + 1)
          ⟨(u64_shl node_idx 32 ||| (2 ^ l + d)) :: stack_, path_, level_, pos_, length_⟩
        = some ⟨stack_, 2 ^ l + d, l, d * 2 ^ (H - l), 2 ^ (H - l)⟩) ∧
    (∀ (fuel next_fuel to_pos node_idx i : Nat) (stack_ : List Nat) (pos_ length_ : Nat),
      tm.is_leaf_node node_idx = true → tm.get_label node_idx = true →
      d * 2 ^ (H - l) ≤ to_pos → to_pos < d * 2 ^ (H - l) + 2 ^ (H - l) →
      iter.nav_to_loop tm to_pos next_fuel (fuel + 1) node_idx i
          ⟨stack_, 2 ^ l + d, l, pos_, length_⟩
        = some ⟨stack_, 2 ^ l + d, l, to_pos, d * 2 ^ (H - l) + 2 ^ (H - l) - to_pos⟩) ∧
    d * 2 ^ (H - l) + 2 ^ (H - l) ≤ tm.n_ ∧
    ∃ cs : List Bool, cs.length = l ∧ iter.path_from 1 cs = 2 ^ l + d ∧
      ∀ T x : bitmap_tree, T.height ≤ H → bitmap_tree.node_at cs T = some x →
        bitmap_tree.to_bits (H - l) x
          = ((bitmap_tree.to_bits H T).drop (d * 2 ^ (H - l))).take (2 ^ (H - l)) := by
  obtain ⟨h1, h2, h3, h4⟩ := iter.decode_path_64 H l d tm.n_ hH hl hd hn
  have h264 : 2 ^ H < 2 ^ 64 := Nat.pow_lt_pow_right (by decide) (by omega)
  refine ⟨?_, ?_, by rw [hn]; exact h4, iter.choices_of l d, iter.length_choices_of l d, ?_, ?_⟩
  · intro hl31 fuel node_idx stack_ path_ level_ pos_ length_ hk hlt hleaf hlab
    have hp32 : 2 ^ l + d < 2 ^ 32 := by
      have := iter.two_pow_le_of_le (show l + 1 ≤ 32 by omega)
      rw [pow_succ] at this
      omega
    have e1 := pack_node_idx node_idx (2 ^ l + d) hk hp32
    have e2 := pack_path node_idx (2 ^ l + d) hk hp32
    refine ⟨e1, e2, ?_⟩
    simp only [iter.next, e1, e2, if_neg (Nat.not_le.mpr hlt), hleaf, hlab, Bool.not_true,
      Bool.false_eq_true, if_false, if_true, iter.tree_height, h1, h2, h3]
  · intro fuel next_fuel to_pos node_idx i stack_ pos_ length_ hleaf hlab hp1 hp2
    simp only [iter.nav_to_loop, hleaf, hlab, if_true, iter.tree_height, h2, h3]
    rw [u64_sub_eq _ _ hp1 (by omega), u64_sub_eq _ _ (by omega) (by omega)]
    congr 2
    omega
  · rw [iter.path_from_eq, iter.length_choices_of, iter.path_from_choices_of l d hd, Nat.one_mul]
  · intro T x hT hx
    have := (bitmap_tree.to_bits_node_at _ T x H hT hx).2
    rw [iter.length_choices_of, iter.path_from_choices_of l d hd] at this
    exact this

/-- Witness of C33 as amended: the path `5 = 2 ^ 2 + 1` in the TEB of
`11001100`. -/
theorem C33_path_decoding_witness :
    (teb.ctor [true, true, false, false, true, true, false, false] 3 0).n_ = 2 ^ 3 ∧
    3 ≤ 63 ∧ 2 ≤ 3 ∧ 1 < 2 ^ 2 ∧
    ((2 ≤ 31 → ∀ (fuel node_idx : Nat) (stack_ : List Nat) (path_ level_ pos_ length_ : Nat),
      node_idx < 2 ^ 32 →
      node_idx
        < (teb.ctor [true, true, false, false, true, true, false, false] 3 0).structure_.length →
      (teb.ctor [true, true, false, false, true, true, false, false] 3 0).is_leaf_node
        node_idx = true →
      (teb.ctor [true, true, false, false, true, true, false, false] 3 0).get_label
        node_idx = true →
      (u64_shl node_idx 32 ||| (2 ^ 2 + 1)) >>> 32 = node_idx ∧
      (u64_shl node_idx 32 ||| (2 ^ 2 + 1)) &&& ((1 <<< 32) - 1) = 2 ^ 2 + 1 ∧
      iter.next (teb.ctor [true, true, false, false, true, true, false, false] 3 0) (fuel + 1)
          ⟨(u64_shl node_idx 32 ||| (2 ^ 2 + 1)) :: stack_, path_, level_, pos_, length_⟩
        = some ⟨stack_, 2 ^ 2 + 1, 2, 1 * 2 ^ (3 - 2), 2 ^ (3 - 2)⟩) ∧
    (∀ (fuel next_fuel to_pos node_idx i : Nat) (stack_ : List Nat) (pos_ length_ : Nat),
      (teb.ctor [true, true, false, false, true, true, false, false] 3 0).is_leaf_node
        node_idx = true →
      (teb.ctor [true, true, false, false, true, true, false, false] 3 0).get_label
        node_idx = true →
      1 * 2 ^ (3 - 2) ≤ to_pos → to_pos < 1 * 2 ^ (3 - 2) + 2 ^ (3 - 2) →
      iter.nav_to_loop (teb.ctor [true, true, false, false, true, true, false, false] 3 0)
          to_pos next_fuel (fuel + 1) node_idx i ⟨stack_, 2 ^ 2 + 1, 2, pos_, length_⟩
        = some ⟨stack_, 2 ^ 2 + 1, 2, to_pos, 1 * 2 ^ (3 - 2) + 2 ^ (3 - 2) - to_pos⟩) ∧
    1 * 2 ^ (3 - 2) + 2 ^ (3 - 2)
      ≤ (teb.ctor [true, true, false, false, true, true, false, false] 3 0).n_ ∧
    ∃ cs : List Bool, cs.length = 2 ∧ iter.path_from 1 cs = 2 ^ 2 + 1 ∧
      ∀ T x : bitmap_tree, T.height ≤ 3 → bitmap_tree.node_at cs T = some x →
        bitmap_tree.to_bits (3 - 2) x
          = ((bitmap_tree.to_bits 3 T).drop (1 * 2 ^ (3 - 2))).take (2 ^ (3 - 2))) :=
  ⟨by decide, by decide, by decide, by decide,
    C33_path_decoding (teb.ctor [true, true, false, false, true, true, false, false] 3 0) 3 2 1
      (by decide) (by decide) (by decide) (by decide)⟩

/-- Counterexample to C34 as stated: the bitmap `0101...01` of length `2 ^ 32`
(`H = 32`), encoded at optimization level 0 with fpr 0; its tree is the complete
tree of height 32.  While the constructor of the iterator descends to the first
leaf, the right child of the node on level 31 has the node index `2 ^ 32`; the
shift by 32 bits drops it from the stack entry, and the bit 32 of the path makes
the entry read as node 1.  After the 0-labelled first leaf is popped, the
descent starts again from node 1 on a stack that still holds the 31 entries of
the first descent, and with the two children of node 3 the stack holds 34
entries, more than `H + 1 = 33`. -/
theorem C34_stack_exceeds_bound_at_height_32 :
    bitmap_01_2_32.length = 2 ^ 32 ∧
    ∃ s ∈ iter.ctor_stacks 35 (teb.ctor bitmap_01_2_32 0 0), 32 + 1 < s.length := by
  have hh : (bitmap_tree.alternating 31).height ≤ 32 := by
    rw [bitmap_tree.height_alternating]
  have henc := teb.ctor_encodes bitmap_01_2_32 0 0
  rw [bitmap_tree.bitmap_01_2_32_eq,
    bitmap_tree.ctor_of_pruned _ 32 hh (bitmap_tree.is_pruned_alternating 31)] at henc
  rw [bitmap_tree.bitmap_01_2_32_eq]
  have hs := teb.ctor_level_0_structure bitmap_01_2_32 0
  rw [bitmap_tree.bitmap_01_2_32_eq,
    bitmap_tree.ctor_of_pruned _ 32 hh (bitmap_tree.is_pruned_alternating 31)] at hs
  obtain ⟨hlen, hinner, hleaf, hlab⟩ := teb.alternating_facts 31 _ henc
    (teb.ctor_level_0_counts _ 0).1 hs
  refine ⟨bitmap_tree.length_to_bits _ 32 hh, ?_⟩
  obtain ⟨s, hs, h34⟩ := iter.next_stacks_descend _ hlen hinner hleaf hlab 31 0 [] 35 rfl rfl
    (by decide)
  refine ⟨s, ?_, h34⟩
  unfold iter.ctor_stacks
  rw [(hinner 0 (by decide)).1]
  exact List.mem_cons_of_mem _ hs

/-- C34 as amended: bounded iterator stack for `H <= 31`.  For every TEB built
from a bitmap of length `N = 2 ^ H` with `H <= 31` (any optimization level, any
fpr) and every iterator state reached by the constructor, `next()` and
`nav_to()` calls: the stack of the state, every stack that the constructor
holds, every stack that a further `next()` call holds and every stack that a
further `nav_to()` call holds has at most `H + 1 <= 32` entries; and `next()`
on an empty stack pops nothing: it leaves its loop at once. -/
theorem C34_stack_bound (B : List Bool) (H opt_level : Nat) (f : ℚ) (it : iter)
    (hB : B.length = 2 ^ H) (hH : H ≤ 31)
    (hr : iter.reachable_nav (teb.ctor B opt_level f) it) :
    it.stack_.length ≤ H + 1 ∧ H + 1 ≤ 32 ∧
    (∀ fuel, ∀ s ∈ iter.ctor_stacks fuel (teb.ctor B opt_level f), s.length ≤ H + 1) ∧
    (∀ fuel, ∀ s ∈ iter.next_stacks (teb.ctor B opt_level f) fuel it.stack_,
      s.length ≤ H + 1) ∧
    (∀ fuel to_pos, ∀ s ∈ iter.nav_to_stacks (teb.ctor B opt_level f) fuel to_pos it,
      s.length ≤ H + 1) ∧
    (∀ fuel path_ level_ pos_ length_,
      iter.next_stacks (teb.ctor B opt_level f) fuel [] = [[]] ∧
      iter.next (teb.ctor B opt_level f) fuel ⟨[], path_, level_, pos_, length_⟩
        = some ⟨[], path_, level_, (teb.ctor B opt_level f).n_, 0⟩) := by
  have henc := teb.ctor_encodes B opt_level f
  have hT := (bitmap_tree.ctor_spec B H f hB).1
  obtain ⟨xs, hxs, hv, hd⟩ := iter.reachable_nav_ok henc H hH hT it hr
  refine ⟨?_, by omega, ?_, ?_, ?_, ?_⟩
  · rw [hxs, List.length_map]
    exact iter.top_desc_length _ H xs hv hd
  · intro fuel s hs
    obtain ⟨ys, rfl, _, hlen⟩ := iter.ctor_stacks_ok henc H hH hT fuel s hs
    rw [List.length_map]
    exact hlen
  · intro fuel s hs
    rw [hxs] at hs
    obtain ⟨ys, rfl, _, hlen⟩ := (iter.next_stacks_ok henc H hH hT fuel xs hv hd).1 s hs
    rw [List.length_map]
    exact hlen
  · intro fuel to_pos s hs
    obtain ⟨ys, rfl, _, hlen⟩ :=
      iter.nav_to_stacks_ok henc H hH hT fuel to_pos it xs hxs hv hd s hs
    rw [List.length_map]
    exact hlen
  · intro fuel path_ level_ pos_ length_
    refine ⟨?_, iter.next_nil _ fuel path_ level_ pos_ length_⟩
    cases fuel <;> rfl

/-- Witness of C34 as amended: the state that `it()` and `nav_to(5)` reach on
the TEB of `11111110` built at level 3. -/
theorem C34_stack_bound_witness :
    [true, true, true, true, true, true, true, false].length = 2 ^ 3 ∧ 3 ≤ 31 ∧
    iter.reachable_nav (teb.ctor [true, true, true, true, true, true, true, false] 3 0)
      ⟨[17179869191], 6, 2, 5, 1⟩ ∧
    ((⟨[17179869191], 6, 2, 5, 1⟩ : iter).stack_.length ≤ 3 + 1 ∧ 3 + 1 ≤ 32 ∧
    (∀ fuel, ∀ s ∈ iter.ctor_stacks fuel
        (teb.ctor [true, true, true, true, true, true, true, false] 3 0), s.length ≤ 3 + 1) ∧
    (∀ fuel, ∀ s ∈ iter.next_stacks
        (teb.ctor [true, true, true, true, true, true, true, false] 3 0) fuel
        (⟨[17179869191], 6, 2, 5, 1⟩ : iter).stack_, s.length ≤ 3 + 1) ∧
    (∀ fuel to_pos, ∀ s ∈ iter.nav_to_stacks
        (teb.ctor [true, true, true, true, true, true, true, false] 3 0) fuel to_pos
        ⟨[17179869191], 6, 2, 5, 1⟩, s.length ≤ 3 + 1) ∧
    (∀ fuel path_ level_ pos_ length_,
      iter.next_stacks (teb.ctor [true, true, true, true, true, true, true, false] 3 0) fuel []
        = [[]] ∧
      iter.next (teb.ctor [true, true, true, true, true, true, true, false] 3 0) fuel
          ⟨[], path_, level_, pos_, length_⟩
        = some ⟨[], path_, level_,
            (teb.ctor [true, true, true, true, true, true, true, false] 3 0).n_, 0⟩)) :=
  ⟨by decide, by decide,
    iter.reachable_nav.nav_to 100 5 ⟨[8589934595], 2, 1, 0, 4⟩ _
      (iter.reachable_nav.ctor 100 _ (by decide)) (by decide),
    C34_stack_bound [true, true, true, true, true, true, true, false] 3 3 0
      ⟨[17179869191], 6, 2, 5, 1⟩ (by decide) (by decide)
      (iter.reachable_nav.nav_to 100 5 ⟨[8589934595], 2, 1, 0, 4⟩ _
        (iter.reachable_nav.ctor 100 _ (by decide)) (by decide))⟩

set_option maxRecDepth 1000000 in
/-- Counterexample to C35 as stated: height `H = 32`.  In the tree of the
bitmap of length `2 ^ 32` whose only set bit is position `2 ^ 31`, the 1-leaf
is node 63, reached from the root by the 32 choice bits `1 0 ... 0`; its path
`2 ^ 32 + 2 ^ 31` has 33 bits, and the stack word `(63 << 32) | path` is
unpacked to the path `2 ^ 31`: the sentinel bit is lost.  Its right sibling is
node 64 with the path `2 ^ 32 + 2 ^ 31 + 1`; the sentinel bit falls into the
bits of the node index and the word is unpacked to node 65. -/
theorem C35_entry_not_recovered_at_height_32 :
    32 ≤ 63 ∧ bitmap_2_31.length = 2 ^ 32 ∧
    (bitmap_tree.ctor bitmap_2_31 0).breadth_first[63]? = some (bitmap_tree.leaf true) ∧
    bitmap_tree.node_at (true :: List.replicate 31 false) (bitmap_tree.ctor bitmap_2_31 0)
      = some (bitmap_tree.leaf true) ∧
    iter.path_from 1 (true :: List.replicate 31 false) = 2 ^ 32 + 2 ^ 31 ∧
    (u64_shl 63 32 ||| (2 ^ 32 + 2 ^ 31)) &&& ((1 <<< 32) - 1) = 2 ^ 31 ∧
    (bitmap_tree.ctor bitmap_2_31 0).breadth_first[64]? = some (bitmap_tree.leaf false) ∧
    bitmap_tree.node_at (true :: (List.replicate 30 false ++ [true]))
        (bitmap_tree.ctor bitmap_2_31 0)
      = some (bitmap_tree.leaf false) ∧
    iter.path_from 1 (true :: (List.replicate 30 false ++ [true])) = 2 ^ 32 + 2 ^ 31 + 1 ∧
    (u64_shl 64 32 ||| (2 ^ 32 + 2 ^ 31 + 1)) >>> 32 = 65 := by
  have hlen : bitmap_2_31.length = 2 ^ 32 := by
    rw [bitmap_tree.bitmap_2_31_eq]
    exact bitmap_tree.length_to_bits _ 32 (by decide)
  rw [bitmap_tree.bitmap_2_31_eq] at hlen ⊢
  rw [bitmap_tree.ctor_of_pruned _ 32 (by decide) (by decide)]
  exact ⟨by decide, hlen, by decide, by decide, by decide, by decide, by decide, by decide,
    by decide, by decide⟩

/-- C35 as amended: for every TEB built from a bitmap of length `2 ^ H` with
`H <= 31` (any optimization level, any fpr), every node index `k` of the
encoded tree (`k < |structure| + II + IL`) and every path made of the sentinel
bit and up to `H` choice bits, the 64-bit word `(k << 32) | path` is unpacked
by `>> 32` and `& (2 ^ 32 - 1)` to the same node index and path. -/
theorem C35_stack_entry_round_trip (B : List Bool) (H opt_level k : Nat) (f : ℚ)
    (cs : List Bool) (hB : B.length = 2 ^ H) (hH : H ≤ 31)
    (hk : k < (teb.ctor B opt_level f).structure_.length
      + (teb.ctor B opt_level f).implicit_inner_node_cnt_
      + (teb.ctor B opt_level f).implicit_leaf_node_cnt_)
    (hcs : cs.length ≤ H) :
    (u64_shl k 32 ||| iter.path_from 1 cs) >>> 32 = k ∧
    (u64_shl k 32 ||| iter.path_from 1 cs) &&& ((1 <<< 32) - 1) = iter.path_from 1 cs := by
  have hcnt := (teb.ctor_encodes B opt_level f).node_count
  have hle := bitmap_tree.node_cnt_le _ H (bitmap_tree.ctor_spec B H f hB).1
  have hp1 : 2 * 2 ^ H ≤ 2 ^ 32 := by
    have := iter.two_pow_le_of_le (show H + 1 ≤ 32 by omega)
    rw [pow_succ] at this; omega
  have hk32 : k < 2 ^ 32 := by omega
  have hp32 : iter.path_from 1 cs < 2 ^ 32 := by
    rw [iter.path_from_eq, Nat.one_mul]
    have h1 := iter.path_from_zero_lt cs
    have h2 := iter.two_pow_le_of_le hcs
    omega
  exact ⟨pack_node_idx _ _ hk32 hp32, pack_path _ _ hk32 hp32⟩

/-- Witness of C35 as amended: node 4 of the tree of `11001100`, reached by the
choice bits `0 1`. -/
theorem C35_stack_entry_round_trip_witness :
    [true, true, false, false, true, true, false, false].length = 2 ^ 3 ∧ 3 ≤ 31 ∧
    4 < (teb.ctor [true, true, false, false, true, true, false, false] 3 0).structure_.length
      + (teb.ctor [true, true, false, false, true, true, false, false] 3
          0).implicit_inner_node_cnt_
      + (teb.ctor [true, true, false, false, true, true, false, false] 3
          0).implicit_leaf_node_cnt_ ∧
    [false, true].length ≤ 3 ∧
    (u64_shl 4 32 ||| iter.path_from 1 [false, true]) >>> 32 = 4 ∧
    (u64_shl 4 32 ||| iter.path_from 1 [false, true]) &&& ((1 <<< 32) - 1)
      = iter.path_from 1 [false, true] :=
  ⟨by decide, by decide, by decide, by decide,
    C35_stack_entry_round_trip [true, true, false, false, true, true, false, false] 3 3 4 0
      [false, true] (by decide) (by decide) (by decide) (by decide)⟩

/-- C36: `run_optimize()` terminates.  For every TEB built from a bitmap of
power-of-two length `N = 2 ^ H` at an optimization level `>= 2` (any fpr, any
size of the rank structure), the `while (decompress())` loop is left after at
most `2 N` iterations, so `run_optimize()` returns.  In every state `t` that
the loop reaches, `decompress()` fails no assertion: it returns `false` on an
empty structure and leaves `t` as it is, or it returns `true` and strictly
increases `II`, and the new state encodes a tree within the height `log2(N)`,
which has fewer than `2 N` nodes, `II` of them at least. -/
theorem C36_run_optimize_terminates (rs : List Bool → Nat) (B : List Bool) (H opt_level : Nat)
    (f : ℚ) (hB : B.length = 2 ^ H) (ho : 2 ≤ opt_level) :
    (∀ fuel, 2 * B.length ≤ fuel →
      ∃ r, (teb.ctor B opt_level f).run_optimize rs fuel = some r) ∧
    (∀ t, teb.decompressed B opt_level f t →
      (t.structure_ = [] ∧ t.decompress = some (false, t)) ∨
      (∃ t' T', t.decompress = some (true, t') ∧
        t.implicit_inner_node_cnt_ < t'.implicit_inner_node_cnt_ ∧
        t'.Encodes T' ∧ T'.height ≤ H ∧
        t'.implicit_inner_node_cnt_ ≤ T'.node_cnt ∧ T'.node_cnt < 2 * B.length)) := by
  constructor
  · intro fuel hfuel
    unfold teb.run_optimize
    have hlvl : (teb.ctor B opt_level f).optimization_level_ = opt_level := by
      unfold teb.ctor; simp only; split <;> rfl
    rw [hlvl, if_pos (by omega)]
    obtain ⟨r, hr⟩ := teb.run_optimize_loop_returns rs B opt_level f H hB (by omega) fuel
      (teb.ctor B opt_level f) false (teb.ctor B opt_level f)
      ((teb.ctor B opt_level f).size_in_byte rs) 0 teb.decompressed.ctor (by omega)
    rw [hr]
    exact ⟨_, rfl⟩
  · intro t ht
    obtain ⟨h0, h1⟩ := teb.decompressed_decompress B opt_level f H hB (by omega) t ht
    by_cases hs : t.structure_.length = 0
    · exact Or.inl ⟨List.eq_nil_of_length_eq_zero hs, h0 hs⟩
    · obtain ⟨t', ht'⟩ := h1 hs
      obtain ⟨T', hT', hh', _⟩ := teb.decompressed_inv B opt_level f H hB t'
        (teb.decompressed.step t t' ht ht')
      obtain ⟨il, _, hc, _⟩ := hT'.counts
      have hle := bitmap_tree.node_cnt_le T' H hh'
      exact Or.inr ⟨t', T', ht', (teb.decompress_true_II t t' ht').1, hT', hh', by omega,
        by omega⟩

/-- Witness of C36: the bitmap `00010000` at optimization level 2. -/
theorem C36_run_optimize_terminates_witness :
    [false, false, false, true, false, false, false, false].length = 2 ^ 3 ∧ 2 ≤ 2 ∧
    ((∀ fuel, 2 * [false, false, false, true, false, false, false, false].length ≤ fuel →
      ∃ r, (teb.ctor [false, false, false, true, false, false, false, false] 2 0).run_optimize
        (fun _ => 0) fuel = some r) ∧
    (∀ t, teb.decompressed [false, false, false, true, false, false, false, false] 2 0 t →
      (t.structure_ = [] ∧ t.decompress = some (false, t)) ∨
      (∃ t' T', t.decompress = some (true, t') ∧
        t.implicit_inner_node_cnt_ < t'.implicit_inner_node_cnt_ ∧
        t'.Encodes T' ∧ T'.height ≤ 3 ∧
        t'.implicit_inner_node_cnt_ ≤ T'.node_cnt ∧
        T'.node_cnt < 2 * [false, false, false, true, false, false, false, false].length))) :=
  ⟨by decide, by decide,
    C36_run_optimize_terminates (fun _ => 0)
      [false, false, false, true, false, false, false, false] 3 2 0 (by decide) (by decide)⟩

/-- C37: the assertions of `decompress()` are valid.  For every TEB built from
a bitmap of power-of-two length at an optimization level `>= 1` (any fpr) and
every state `t` reached from it by `decompress()` calls that return `true`: the
structure is empty, or its first bit is 0 and its last bit is 1; node `II` is a
leaf; and `decompress()` fails no assertion (those of the copy loops included):
on an empty structure it returns `false` and changes nothing, otherwise it
returns `true`. -/
theorem C37_decompress_assertions_valid (B : List Bool) (H opt_level : Nat) (f : ℚ) (t : teb)
    (hB : B.length = 2 ^ H) (ho : 1 ≤ opt_level) (ht : teb.decompressed B opt_level f t) :
    (t.structure_ = [] ∨
      (t.structure_.getD 0 false = false ∧
        t.structure_.getD (t.structure_.length - 1) false = true)) ∧
    t.is_leaf_node t.implicit_inner_node_cnt_ = true ∧
    t.decompress ≠ Option.none ∧
    (t.structure_ = [] → t.decompress = some (false, t)) ∧
    (t.structure_ ≠ [] → ∃ t', t.decompress = some (true, t')) := by
  obtain ⟨T, hT, _, _, _, _, _, htr⟩ := teb.decompressed_inv B opt_level f H hB t ht
  obtain ⟨h2, h3⟩ := htr (by omega)
  obtain ⟨h0, h1⟩ := teb.decompressed_decompress B opt_level f H hB (by omega) t ht
  have hleaf : t.is_leaf_node t.implicit_inner_node_cnt_ = true := by
    unfold teb.is_leaf_node teb.is_inner_node
    simp only [lt_irrefl, if_false, Nat.sub_self, h2]
    split <;> rfl
  by_cases hs : t.structure_.length = 0
  · have hnil := List.eq_nil_of_length_eq_zero hs
    refine ⟨Or.inl hnil, hleaf, ?_, fun _ => h0 hs, fun hc => absurd hnil hc⟩
    rw [h0 hs]
    exact Option.some_ne_none _
  · obtain ⟨t', ht'⟩ := h1 hs
    refine ⟨Or.inr ⟨h2, h3 hs⟩, hleaf, ?_, fun hc => absurd (by rw [hc]; rfl) hs,
      fun _ => ⟨t', ht'⟩⟩
    rw [ht']
    exact Option.some_ne_none _

/-- Witness of C37: the state that one `decompress()` call reaches from the TEB
of `00010000` built at optimization level 3. -/
theorem C37_decompress_assertions_valid_witness :
    [false, false, false, true, false, false, false, false].length = 2 ^ 3 ∧ 1 ≤ 3 ∧
    teb.decompressed [false, false, false, true, false, false, false, false] 3 0
      ⟨8, [false, true], [false, false, false, false, true], 3, 3, 4⟩ ∧
    (((⟨8, [false, true], [false, false, false, false, true], 3, 3, 4⟩ : teb).structure_ = [] ∨
      ((⟨8, [false, true], [false, false, false, false, true], 3, 3, 4⟩ : teb).structure_.getD
          0 false = false ∧
        (⟨8, [false, true], [false, false, false, false, true], 3, 3, 4⟩ : teb).structure_.getD
          ((⟨8, [false, true], [false, false, false, false, true], 3, 3,
            4⟩ : teb).structure_.length - 1) false = true)) ∧
    (⟨8, [false, true], [false, false, false, false, true], 3, 3, 4⟩ : teb).is_leaf_node
      (⟨8, [false, true], [false, false, false, false, true], 3, 3,
        4⟩ : teb).implicit_inner_node_cnt_ = true ∧
    (⟨8, [false, true], [false, false, false, false, true], 3, 3, 4⟩ : teb).decompress
      ≠ Option.none ∧
    ((⟨8, [false, true], [false, false, false, false, true], 3, 3, 4⟩ : teb).structure_ = [] →
      (⟨8, [false, true], [false, false, false, false, true], 3, 3, 4⟩ : teb).decompress
        = some (false, ⟨8, [false, true], [false, false, false, false, true], 3, 3, 4⟩)) ∧
    ((⟨8, [false, true], [false, false, false, false, true], 3, 3, 4⟩ : teb).structure_ ≠ [] →
      ∃ t', (⟨8, [false, true], [false, false, false, false, true], 3, 3, 4⟩ : teb).decompress
        = some (true, t'))) :=
  ⟨by decide, by decide,
    teb.decompressed.step _ _ teb.decompressed.ctor (by decide),
    C37_decompress_assertions_valid [false, false, false, true, false, false, false, false] 3 3 0
      ⟨8, [false, true], [false, false, false, false, true], 3, 3, 4⟩ (by decide) (by decide)
      (teb.decompressed.step _ _ teb.decompressed.ctor (by decide))⟩

/-- C38: iteration at optimization level 0.  For every bitmap `B` of length
`N = 2 ^ H <= 2 ^ 31` encoded with optimization level 0 and fpr 0, and fuel
for the `2 N` nodes: `it()` returns an iterator, and the fills that the loop
`while (!it.end()) { ...; it.next(); }` sees are exactly the ranges of the
1-labelled leaves of the pruned tree, from left to right; these ranges are
disjoint and ascending; `decode_using_iterator`, which sets all reported
ranges, returns `B`; and every stack entry that the constructor and the
`next()` calls hold has a node index below `structure_.size()`, so the early
exit of `next()` is not taken. -/
theorem C38_iteration_level_0 (B : List Bool) (H fuel : Nat) (hB : B.length = 2 ^ H)
    (hH : H ≤ 31) (hfuel : 2 * B.length ≤ fuel) :
    (∃ it, (teb.ctor B 0 0).it fuel = some it ∧
      iter.fills_loop (teb.ctor B 0 0) fuel fuel it
        = some (bitmap_tree.fills H 0 (bitmap_tree.prune (bitmap_tree.complete H B)))) ∧
    (bitmap_tree.fills H 0 (bitmap_tree.prune (bitmap_tree.complete H B))).Pairwise
      (fun a b => a.1 + a.2 ≤ b.1) ∧
    decode_using_iterator fuel (teb.ctor B 0 0) = some B ∧
    (∀ s ∈ iter.ctor_stacks fuel (teb.ctor B 0 0), ∀ pair ∈ s,
      pair >>> 32 < (teb.ctor B 0 0).structure_.length) ∧
    (∀ it', iter.reachable (teb.ctor B 0 0) it' → ∀ fuel',
      ∀ s ∈ iter.next_stacks (teb.ctor B 0 0) fuel' it'.stack_, ∀ pair ∈ s,
        pair >>> 32 < (teb.ctor B 0 0).structure_.length) := by
  have henc := teb.ctor_encodes B 0 0
  have hn : (teb.ctor B 0 0).n_ = 2 ^ H := by rw [teb.ctor_n, hB]
  have hT := bitmap_tree.height_ctor_zero B H hB
  have hfull := teb.ctor_level_0_full B 0
  have hbits := bitmap_tree.to_bits_ctor_zero B H hB
  have hcnt := bitmap_tree.node_cnt_le _ H hT
  have hTeq : bitmap_tree.ctor B 0 = bitmap_tree.prune (bitmap_tree.complete H B) := by
    rw [bitmap_tree.ctor_zero, hB, log_2_two_pow]
  rw [← hTeq]
  have hflen := bitmap_tree.fills_length_le (bitmap_tree.ctor B 0) H 0
  obtain ⟨c1, c2⟩ := iter.ctor_at_fills henc H hn hH hT hfull fuel
  obtain ⟨it, hit⟩ := c2 (by omega)
  have hat := c1 it hit
  have hloop := iter.fills_loop_at_fills henc H hn hH hT hfull fuel (by omega) fuel it _ hat
    (by omega)
  refine ⟨⟨it, hit, hloop⟩, bitmap_tree.fills_sorted _ H 0 hT, ?_, ?_, ?_⟩
  · unfold decode_using_iterator
    have hit' : (teb.ctor B 0 0).it fuel = some it := hit
    rw [hit']
    simp only
    rw [iter.decode_loop_of_fills_loop _ fuel fuel it _ _ hloop, hn,
      foldl_set_range_fills _ H hT, hbits]
  · intro s hs pair hp
    obtain ⟨ys, rfl, hv, _⟩ := iter.ctor_stacks_ok henc H hH hT fuel s hs
    have := iter.pack_idx_lt H hH hT ys hv pair hp
    omega
  · intro it' hr fuel' s hs pair hp
    obtain ⟨xs, hxs, hv, hd⟩ := iter.reachable_nav_ok henc H hH hT it'
      (iter.reachable_nav_of_reachable _ _ hr)
    rw [hxs] at hs
    obtain ⟨ys, rfl, hv', _⟩ := (iter.next_stacks_ok henc H hH hT fuel' xs hv hd).1 s hs
    have := iter.pack_idx_lt H hH hT ys hv' pair hp
    omega

/-- Witness of C38: the bitmap `11001100`, whose pruned tree has the 1-labelled
leaves `[0, 2)` and `[4, 6)`. -/
theorem C38_iteration_level_0_witness :
    [true, true, false, false, true, true, false, false].length = 2 ^ 3 ∧ 3 ≤ 31 ∧
    2 * [true, true, false, false, true, true, false, false].length ≤ 16 ∧
    bitmap_tree.fills 3 0 (bitmap_tree.prune
      (bitmap_tree.complete 3 [true, true, false, false, true, true, false, false]))
      = [(0, 2), (4, 2)] ∧
    ((∃ it, (teb.ctor [true, true, false, false, true, true, false, false] 0 0).it 16 = some it ∧
      iter.fills_loop (teb.ctor [true, true, false, false, true, true, false, false] 0 0) 16 16 it
        = some (bitmap_tree.fills 3 0 (bitmap_tree.prune (bitmap_tree.complete 3
            [true, true, false, false, true, true, false, false])))) ∧
    (bitmap_tree.fills 3 0 (bitmap_tree.prune (bitmap_tree.complete 3
        [true, true, false, false, true, true, false, false]))).Pairwise
      (fun a b => a.1 + a.2 ≤ b.1) ∧
    decode_using_iterator 16 (teb.ctor [true, true, false, false, true, true, false, false] 0 0)
      = some [true, true, false, false, true, true, false, false] ∧
    (∀ s ∈ iter.ctor_stacks 16 (teb.ctor [true, true, false, false, true, true, false, false] 0 0),
      ∀ pair ∈ s, pair >>> 32
        < (teb.ctor [true, true, false, false, true, true, false, false] 0 0).structure_.length) ∧
    (∀ it', iter.reachable (teb.ctor [true, true, false, false, true, true, false, false] 0 0)
        it' → ∀ fuel',
      ∀ s ∈ iter.next_stacks (teb.ctor [true, true, false, false, true, true, false, false] 0 0)
          fuel' it'.stack_, ∀ pair ∈ s,
        pair >>> 32
          < (teb.ctor [true, true, false, false, true, true, false, false] 0
              0).structure_.length)) :=
  ⟨by decide, by decide, by decide, by decide,
    C38_iteration_level_0 [true, true, false, false, true, true, false, false] 3 16 (by decide)
      (by decide) (by decide)⟩

set_option maxRecDepth 1000000 in
/-- Counterexample to C39 as stated: the bitmap of length `2 ^ 32` whose only
set bit is position `2 ^ 31`, encoded at optimization level 0 with fpr 0.
`nav_to(0)` reaches the 0-labelled leaf of the left half and calls `next()`;
the path `2 ^ 32 + 2 ^ 31` of the 1-labelled leaf does not fit the 32 bits that
a stack entry keeps for it, and the iterator reports `pos() = 0`,
`length() = 2` although bit 0 is not set and the smallest set position is
`2 ^ 31`. -/
theorem C39_nav_to_wrong_at_height_32 :
    bitmap_2_31.length = 2 ^ 32 ∧ 0 < bitmap_2_31.length ∧
    (((teb.ctor bitmap_2_31 0 0).it 300).bind
        (iter.nav_to (teb.ctor bitmap_2_31 0 0) 300 0)).map
        (fun it => (it.end (teb.ctor bitmap_2_31 0 0), it.pos,
          it.length (teb.ctor bitmap_2_31 0 0)))
      = some (false, 0, 2) ∧
    bitmap_2_31[0]? = some false := by
  rw [bitmap_tree.bitmap_2_31_eq, teb.ctor_level_0_of_pruned _ 32 (by decide) (by decide)]
  have hlen := bitmap_tree.length_to_bits
    (bitmap_tree.inner (bitmap_tree.leaf false)
      (bitmap_tree.left_spine (bitmap_tree.leaf true) 31)) 32 (by decide)
  exact ⟨hlen, by rw [hlen]; exact Nat.two_pow_pos 32, by decide,
    bitmap_tree.to_bits_head 31 false _⟩

/-- C39 as amended: `nav_to` at optimization level 0 for `N <= 2 ^ 31`.  For
every bitmap `B` of length `N = 2 ^ H` with `H <= 31` encoded with optimization
level 0 and fpr 0, every iterator state, every `t < N` and fuel for the `2 N`
nodes, `nav_to(t)` returns.  If `B` has no set bit at or behind `t`, the
iterator is exhausted.  If it has one, then `pos()` is the smallest set
position `>= t`, `length() >= 1`, all bits in `[pos(), pos() + length())` are
set, `pos() + length()` is the end of the range of the 1-labelled leaf that
contains `pos()`, and the loop of `next()` calls reports this fill and then the
ranges of the 1-labelled leaves that start at or behind `pos() + length()`, from
left to right. -/
theorem C39_nav_to_level_0 (B : List Bool) (H fuel t : Nat) (it : iter)
    (hB : B.length = 2 ^ H) (hH : H ≤ 31) (ht : t < B.length) (hfuel : 2 * B.length ≤ fuel) :
    ∃ it', iter.nav_to (teb.ctor B 0 0) fuel t it = some it' ∧
      ((∀ q, t ≤ q → B.getD q false = false) →
        it'.end (teb.ctor B 0 0) = true ∧ it'.pos = B.length ∧
        it'.length (teb.ctor B 0 0) = 0 ∧
        iter.fills_loop (teb.ctor B 0 0) fuel fuel it' = some []) ∧
      ((∃ q, t ≤ q ∧ B.getD q false = true) →
        it'.end (teb.ctor B 0 0) = false ∧ t ≤ it'.pos ∧ B.getD it'.pos false = true ∧
        (∀ q, t ≤ q → q < it'.pos → B.getD q false = false) ∧
        1 ≤ it'.length (teb.ctor B 0 0) ∧
        it'.pos + it'.length (teb.ctor B 0 0) ≤ B.length ∧
        (∀ q, it'.pos ≤ q → q < it'.pos + it'.length (teb.ctor B 0 0) →
          B.getD q false = true) ∧
        (∃ f ∈ bitmap_tree.fills H 0 (bitmap_tree.prune (bitmap_tree.complete H B)),
          f.1 ≤ it'.pos ∧ it'.pos + it'.length (teb.ctor B 0 0) = f.1 + f.2) ∧
        iter.fills_loop (teb.ctor B 0 0) fuel fuel it'
          = some ((it'.pos, it'.length (teb.ctor B 0 0))
              :: (bitmap_tree.fills H 0 (bitmap_tree.prune (bitmap_tree.complete H B))).filter
                (fun f => decide (it'.pos + it'.length (teb.ctor B 0 0) ≤ f.1)))) := by
  have henc := teb.ctor_encodes B 0 0
  have hn : (teb.ctor B 0 0).n_ = 2 ^ H := by rw [teb.ctor_n, hB]
  have hT := bitmap_tree.height_ctor_zero B H hB
  have hfull := teb.ctor_level_0_full B 0
  have hbits := bitmap_tree.to_bits_ctor_zero B H hB
  have hcnt := bitmap_tree.node_cnt_le _ H hT
  have hTeq : bitmap_tree.ctor B 0 = bitmap_tree.prune (bitmap_tree.complete H B) := by
    rw [bitmap_tree.ctor_zero, hB, log_2_two_pow]
  rw [← hTeq]
  obtain ⟨c1, c2⟩ := iter.nav_to_at_fills henc H hn hH hT hfull fuel t it (by omega)
  obtain ⟨it', hit'⟩ := c2 (by omega)
  have hat := c1 it' hit'
  have hflen := bitmap_tree.fills_length_le (bitmap_tree.ctor B 0) H 0
  have hloop := iter.fills_loop_at_fills henc H hn hH hT hfull fuel (by omega) fuel it' _ hat
  refine ⟨it', hit', ?_, ?_⟩
  · intro hnone
    cases hF : bitmap_tree.fills_from H t (bitmap_tree.ctor B 0) with
    | nil =>
      rw [hF] at hat hloop
      rcases hat with ⟨_, hs, hp, hl⟩ | ⟨p, n, xs, hc, _⟩
      · refine ⟨by simp [iter.end, hp, hn], by simp [iter.pos, hp, hB],
          by simp [iter.length, hl], hloop (by simp; omega)⟩
      · cases hc
    | cons g G =>
      obtain ⟨p', n'⟩ := g
      obtain ⟨f1, f2, f3, f4, _⟩ := bitmap_tree.fills_from_cons _ H t p' n' G hT hF
      have := f4 p' (le_refl _) (by omega)
      rw [hbits, hnone p' f1] at this
      exact Bool.noConfusion this
  · intro ⟨q, hq1, hq2⟩
    cases hF : bitmap_tree.fills_from H t (bitmap_tree.ctor B 0) with
    | nil =>
      have := bitmap_tree.fills_from_nil _ H t hT hF q hq1
      rw [hbits, hq2] at this
      exact Bool.noConfusion this
    | cons g G =>
      obtain ⟨p', n'⟩ := g
      obtain ⟨f1, f2, f3, f4, f5, f6, f7⟩ := bitmap_tree.fills_from_cons _ H t p' n' G hT hF
      rw [hbits] at f4 f5
      rw [hF] at hat hloop
      rcases hat with ⟨hc, _⟩ | ⟨p, n, xs, hc, hs, hp, hl, hn0, hle, hch, hsum⟩
      · cases hc
      · simp only [List.cons.injEq, Prod.mk.injEq] at hc
        obtain ⟨⟨e1, e2⟩, e3⟩ := hc
        subst e1 e2
        have hpos : it'.pos = p' := hp
        have hlen : it'.length (teb.ctor B 0 0) = n' := by
          simp only [iter.length, hl, hn]
          rw [if_neg (by omega)]
        have hG : G.length + 1 ≤ (bitmap_tree.fills H 0 (bitmap_tree.ctor B 0)).length := by
          have := bitmap_tree.fills_from_length_le (bitmap_tree.ctor B 0) H t
          rw [hF] at this
          exact this
        rw [hpos, hlen, ← f7]
        refine ⟨?_, f1, f4 p' (le_refl _) (by omega), f5, f2, by rw [hB]; exact f3, f4, f6,
          hloop (by simp only [List.length_cons]; omega)⟩
        simp only [iter.end, hp, hn]
        rw [beq_eq_false_iff_ne]
        omega

/-- Witness of C39 as amended: `nav_to(3)` on the fresh iterator over the TEB
of `11001100` reports the fill `(4, 2)`. -/
theorem C39_nav_to_level_0_witness :
    [true, true, false, false, true, true, false, false].length = 2 ^ 3 ∧ 3 ≤ 31 ∧
    3 < [true, true, false, false, true, true, false, false].length ∧
    2 * [true, true, false, false, true, true, false, false].length ≤ 16 ∧
    iter.nav_to (teb.ctor [true, true, false, false, true, true, false, false] 0 0) 16 3
        ⟨[17179869189, 8589934595], 4, 2, 0, 2⟩ = some ⟨[25769803783], 6, 2, 4, 2⟩ ∧
    ∃ it', iter.nav_to (teb.ctor [true, true, false, false, true, true, false, false] 0 0) 16 3
        ⟨[17179869189, 8589934595], 4, 2, 0, 2⟩ = some it' ∧
      ((∀ q, 3 ≤ q → [true, true, false, false, true, true, false, false].getD q false = false) →
        it'.end (teb.ctor [true, true, false, false, true, true, false, false] 0 0) = true ∧
        it'.pos = [true, true, false, false, true, true, false, false].length ∧
        it'.length (teb.ctor [true, true, false, false, true, true, false, false] 0 0) = 0 ∧
        iter.fills_loop (teb.ctor [true, true, false, false, true, true, false, false] 0 0)
          16 16 it' = some []) ∧
      ((∃ q, 3 ≤ q ∧ [true, true, false, false, true, true, false, false].getD q false = true) →
        it'.end (teb.ctor [true, true, false, false, true, true, false, false] 0 0) = false ∧
        3 ≤ it'.pos ∧
        [true, true, false, false, true, true, false, false].getD it'.pos false = true ∧
        (∀ q, 3 ≤ q → q < it'.pos →
          [true, true, false, false, true, true, false, false].getD q false = false) ∧
        1 ≤ it'.length (teb.ctor [true, true, false, false, true, true, false, false] 0 0) ∧
        it'.pos + it'.length (teb.ctor [true, true, false, false, true, true, false, false] 0 0)
          ≤ [true, true, false, false, true, true, false, false].length ∧
        (∀ q, it'.pos ≤ q →
          q < it'.pos
            + it'.length (teb.ctor [true, true, false, false, true, true, false, false] 0 0) →
          [true, true, false, false, true, true, false, false].getD q false = true) ∧
        (∃ f ∈ bitmap_tree.fills 3 0 (bitmap_tree.prune (bitmap_tree.complete 3
            [true, true, false, false, true, true, false, false])),
          f.1 ≤ it'.pos ∧
          it'.pos + it'.length (teb.ctor [true, true, false, false, true, true, false, false] 0 0)
            = f.1 + f.2) ∧
        iter.fills_loop (teb.ctor [true, true, false, false, true, true, false, false] 0 0)
            16 16 it'
          = some ((it'.pos,
                it'.length (teb.ctor [true, true, false, false, true, true, false, false] 0 0))
              :: (bitmap_tree.fills 3 0 (bitmap_tree.prune (bitmap_tree.complete 3
                  [true, true, false, false, true, true, false, false]))).filter
                (fun f => decide (it'.pos
                  + it'.length (teb.ctor [true, true, false, false, true, true, false, false] 0 0)
                  ≤ f.1)))) :=
  ⟨by decide, by decide, by decide, by decide, by decide,
    C39_nav_to_level_0 [true, true, false, false, true, true, false, false] 3 16 3
      ⟨[17179869189, 8589934595], 4, 2, 0, 2⟩ (by decide) (by decide) (by decide) (by decide)⟩

/-- Counterexample to C40 as stated.  Optimization level 0: the iterator over
the TEB of `11111110` is at the fill `(0, 4)` with one entry on its stack;
`nav_to(8)` sets `pos() = N` and `length() = 0` and keeps the stack, `end()`
holds, and the next `next()` call reports the fill `(4, 2)`.  Optimization
level 3: the iterator constructed over the TEB of `0010111110001000` is
exhausted, because `next()` left its loop at `node_idx >= structure_.size()`
with two entries on the stack, and the next `next()` call reports the fill
`(4, 4)`. -/
theorem C40_next_reports_after_end :
    (iter.reachable_nav (teb.ctor [true, true, true, true, true, true, true, false] 0 0)
        ⟨[8589934595], 2, 1, 8, 0⟩ ∧
      iter.end (teb.ctor [true, true, true, true, true, true, true, false] 0 0)
        ⟨[8589934595], 2, 1, 8, 0⟩ = true ∧
      iter.next (teb.ctor [true, true, true, true, true, true, true, false] 0 0) 100
        ⟨[8589934595], 2, 1, 8, 0⟩ = some ⟨[17179869191], 6, 2, 4, 2⟩ ∧
      iter.end (teb.ctor [true, true, true, true, true, true, true, false] 0 0)
        ⟨[17179869191], 6, 2, 4, 2⟩ = false ∧
      iter.length (teb.ctor [true, true, true, true, true, true, true, false] 0 0)
        ⟨[17179869191], 6, 2, 4, 2⟩ = 2) ∧
    (iter.reachable_nav
        (teb.ctor [false, false, true, false, true, true, true, true, true, false, false, false,
          true, false, false, false] 3 0)
        ⟨[17179869189, 8589934595], 1, 0, 16, 0⟩ ∧
      iter.end
        (teb.ctor [false, false, true, false, true, true, true, true, true, false, false, false,
          true, false, false, false] 3 0)
        ⟨[17179869189, 8589934595], 1, 0, 16, 0⟩ = true ∧
      iter.next
        (teb.ctor [false, false, true, false, true, true, true, true, true, false, false, false,
          true, false, false, false] 3 0) 100
        ⟨[17179869189, 8589934595], 1, 0, 16, 0⟩ = some ⟨[8589934595], 5, 2, 4, 4⟩ ∧
      iter.end
        (teb.ctor [false, false, true, false, true, true, true, true, true, false, false, false,
          true, false, false, false] 3 0)
        ⟨[8589934595], 5, 2, 4, 4⟩ = false) :=
  ⟨⟨iter.reachable_nav.nav_to 100 8 ⟨[8589934595], 2, 1, 0, 4⟩ _
      (iter.reachable_nav.ctor 100 _ (by decide)) (by decide),
    by decide, by decide, by decide, by decide⟩,
   ⟨iter.reachable_nav.ctor 100 _ (by decide), by decide, by decide, by decide⟩⟩

/-- C40 as amended: exhaustion is absorbing when the stack is empty.  For every
TEB and every iterator state with an empty stack, `next()` leaves the iterator
exhausted (`pos() = N`, `length() = 0`, `end()` holds) with an empty stack.
For every TEB built at optimization level 0 from a bitmap of length
`N = 2 ^ H` with `H <= 31` (any fpr) and every iterator state reached by the
constructor, `next()` and `nav_to(t)` calls with `t < N`: once `end()` is true
the stack is empty, `pos() = N` and `length() = 0`, and every further `next()`
call returns such a state again. -/
theorem C40_exhaustion_absorbing (B : List Bool) (H : Nat) (f : ℚ) (it : iter)
    (hB : B.length = 2 ^ H) (hH : H ≤ 31)
    (hr : iter.reachable_below (teb.ctor B 0 f) it)
    (hend : it.end (teb.ctor B 0 f) = true) :
    (∀ (tm : teb) (fuel : Nat) (it0 : iter), it0.stack_ = [] →
      ∃ it', iter.next tm fuel it0 = some it' ∧ it'.stack_ = [] ∧ it'.end tm = true ∧
        it'.pos = tm.n_ ∧ it'.length tm = 0) ∧
    it.stack_ = [] ∧ it.pos = B.length ∧ it.length (teb.ctor B 0 f) = 0 ∧
    ∀ fuel, ∃ it', iter.next (teb.ctor B 0 f) fuel it = some it' ∧
      iter.reachable_below (teb.ctor B 0 f) it' ∧ it'.stack_ = [] ∧
      it'.end (teb.ctor B 0 f) = true ∧ it'.pos = B.length ∧
      it'.length (teb.ctor B 0 f) = 0 := by
  have hgen : ∀ (tm : teb) (fuel : Nat) (it0 : iter), it0.stack_ = [] →
      ∃ it', iter.next tm fuel it0 = some it' ∧ it'.stack_ = [] ∧ it'.end tm = true ∧
        it'.pos = tm.n_ ∧ it'.length tm = 0 := by
    intro tm fuel it0 h0
    obtain ⟨stack_, path_, level_, pos_, length_⟩ := it0
    simp only at h0
    subst h0
    exact ⟨_, iter.next_nil tm fuel path_ level_ pos_ length_, rfl, by simp [iter.end], rfl,
      by simp [iter.length]⟩
  have henc := teb.ctor_encodes B 0 f
  have hn : (teb.ctor B 0 f).n_ = 2 ^ H := by rw [teb.ctor_n, hB]
  have hT := (bitmap_tree.ctor_spec B H f hB).1
  have hfull := teb.ctor_level_0_full B f
  obtain ⟨F, hat⟩ := iter.at_fills_reachable_below henc H hn hH hT hfull it hr
  have hpos : it.pos_ = 2 ^ H := by
    simpa [iter.end, hn] using hend
  rcases hat with ⟨_, hs, hp, hl⟩ | ⟨p, n, xs, _, _, hp, _, hn0, hle, _, _⟩
  · refine ⟨hgen, hs, by rw [hB]; exact hp, by simp [iter.length, hl], fun fuel => ?_⟩
    obtain ⟨it', h1, h2, h3, h4, h5⟩ := hgen (teb.ctor B 0 f) fuel it hs
    exact ⟨it', h1, iter.reachable_below.next fuel it it' hr h1, h2, h3,
      by rw [h4, teb.ctor_n], h5⟩
  · omega

/-- Witness of C40 as amended: the exhausted state that three `next()` calls
reach from the fresh iterator over the TEB of `11111110` built at level 0. -/
theorem C40_exhaustion_absorbing_witness :
    [true, true, true, true, true, true, true, false].length = 2 ^ 3 ∧ 3 ≤ 31 ∧
    iter.reachable_below (teb.ctor [true, true, true, true, true, true, true, false] 0 0)
      ⟨[], 14, 3, 8, 0⟩ ∧
    iter.end (teb.ctor [true, true, true, true, true, true, true, false] 0 0)
      ⟨[], 14, 3, 8, 0⟩ = true ∧
    ((∀ (tm : teb) (fuel : Nat) (it0 : iter), it0.stack_ = [] →
      ∃ it', iter.next tm fuel it0 = some it' ∧ it'.stack_ = [] ∧ it'.end tm = true ∧
        it'.pos = tm.n_ ∧ it'.length tm = 0) ∧
    (⟨[], 14, 3, 8, 0⟩ : iter).stack_ = [] ∧
    (⟨[], 14, 3, 8, 0⟩ : iter).pos = [true, true, true, true, true, true, true, false].length ∧
    (⟨[], 14, 3, 8, 0⟩ : iter).length
      (teb.ctor [true, true, true, true, true, true, true, false] 0 0) = 0 ∧
    ∀ fuel, ∃ it', iter.next (teb.ctor [true, true, true, true, true, true, true, false] 0 0) fuel
        ⟨[], 14, 3, 8, 0⟩ = some it' ∧
      iter.reachable_below (teb.ctor [true, true, true, true, true, true, true, false] 0 0) it' ∧
      it'.stack_ = [] ∧
      it'.end (teb.ctor [true, true, true, true, true, true, true, false] 0 0) = true ∧
      it'.pos = [true, true, true, true, true, true, true, false].length ∧
      it'.length (teb.ctor [true, true, true, true, true, true, true, false] 0 0) = 0) :=
  ⟨by decide, by decide,
    iter.reachable_below.next 100 ⟨[25769803791], 14, 3, 6, 1⟩ _
      (iter.reachable_below.next 100 ⟨[17179869191], 6, 2, 4, 2⟩ _
        (iter.reachable_below.next 100 ⟨[8589934595], 2, 1, 0, 4⟩ _
          (iter.reachable_below.ctor 100 _ (by decide)) (by decide)) (by decide)) (by decide),
    by decide,
    C40_exhaustion_absorbing [true, true, true, true, true, true, true, false] 3 0
      ⟨[], 14, 3, 8, 0⟩ (by decide) (by decide)
      (iter.reachable_below.next 100 ⟨[25769803791], 14, 3, 6, 1⟩ _
        (iter.reachable_below.next 100 ⟨[17179869191], 6, 2, 4, 2⟩ _
          (iter.reachable_below.next 100 ⟨[8589934595], 2, 1, 0, 4⟩ _
            (iter.reachable_below.ctor 100 _ (by decide)) (by decide)) (by decide)) (by decide))
      (by decide)⟩

end dtl
